import Mathlib

/-!
# y.util : the mixer external (mix~.c)

A shallow embedding of the gain-ramp state machine and of the block renderer
of `mix~.c`, together with the control handlers that set ramp targets, the
constructor and the attribute setter, and of the concatenation of a C string
to a dynamic string of `dstring.c`.

Modelling conventions

* `double` / `float` values are elements of a linearly ordered field `α`
  (exact arithmetic); every definition is polymorphic in `α` and runs on `ℚ`.
  A double stored in a `float` member is converted by `double_to_float`, the
  rounding to the single precision format.
* `t_uint8` / `t_uint32` / `long` values are natural numbers (integers where
  the source subtracts before comparing); a conversion to `t_uint32` is `u32`.
* A buffer `t_double*` is a function from the sample index to the sample, and
  a `t_double**` is a function from the buffer index to the buffer; the
  pointer `ins + i` is the function shifted by `i`.
* A C `for` loop is `for_loop begin stop body`, the state being what the loop
  body writes.
* A function returns `none` when its C execution indexes a table out of
  range, reads an argument that is not there, or returns leaving in the
  object a value that is indeterminate (read from an uninitialised local) or
  not finite (computed from a quotient by 0).
-/

/-- The conversion of an integer count to `t_uint32`. -/
def u32 (n : Nat) : Nat := n % 4294967296

/-- The iterations `i, i + 1, ..., i + k - 1` of a loop body. -/
def for_loop_aux {σ : Type} (body : Nat → σ → σ) : Nat → Nat → σ → σ
  | 0, _, st => st
  | k + 1, i, st => for_loop_aux body k (i + 1) (body i st)

/-- The loop `for (s = begin; s < stop; s++) body`. -/
def for_loop {σ : Type} (begin stop : Nat) (body : Nat → σ → σ) (st : σ) : σ :=
  for_loop_aux body (stop - begin) begin st

/-- A `t_double**`: buffer index, then sample index. -/
abbrev t_bufs (α : Type) := Nat → Nat → α

/-- The store `bufs[ch][s] = v`. -/
def buf_set {α : Type} (bufs : t_bufs α) (ch s : Nat) (v : α) : t_bufs α :=
  Function.update bufs ch (Function.update (bufs ch) s v)

/-- The pointer `bufs + i`. -/
def buf_shift {α : Type} (bufs : t_bufs α) (i : Nat) : t_bufs α :=
  fun ch => bufs (ch + i)

/-- The call `memset(bufs[ch], 0, sizeof(t_double) * n)`. -/
def buf_zero {α : Type} [Zero α] (bufs : t_bufs α) (ch n : Nat) : t_bufs α :=
  Function.update bufs ch (fun s => if s < n then 0 else bufs ch s)

/-- The entry `tbl[i]` of a function-pointer table, `i` a C `int`. -/
def tbl_get {β : Type} (tbl : List β) (i : Int) : Option β :=
  if 0 ≤ i then tbl.get? i.toNat else none

/-- The Max atom `t_atom`, with the three types a message argument has. -/
inductive t_atom (α : Type) where
  | A_LONG (v : Int)
  | A_FLOAT (v : α)
  | A_SYM (s : String)

/-- The type tags `atom_gettype` returns. -/
inductive e_max_atomtypes where
  | A_LONG
  | A_FLOAT
  | A_SYM
  deriving DecidableEq

/-- The C cast of a `double` to an integer type: truncation toward zero. -/
def double_to_int {α : Type} [LinearOrderedField α] [FloorRing α] (v : α) : Int :=
  if 0 ≤ v then ⌊v⌋ else ⌈v⌉

/-- The Max API function `atom_gettype`. -/
def atom_gettype {α : Type} : t_atom α → e_max_atomtypes
  | .A_LONG _ => .A_LONG
  | .A_FLOAT _ => .A_FLOAT
  | .A_SYM _ => .A_SYM

/-- The Max API function `atom_getfloat`: the number an atom holds, as a
`double`, and 0 for a symbol. -/
def atom_getfloat {α : Type} [LinearOrderedField α] : t_atom α → α
  | .A_LONG v => (v : α)
  | .A_FLOAT v => v
  | .A_SYM _ => 0

/-- The Max API function `atom_getlong`: the number an atom holds, as an
integer, and 0 for a symbol. -/
def atom_getlong {α : Type} [LinearOrderedField α] [FloorRing α] : t_atom α → Int
  | .A_LONG v => v
  | .A_FLOAT v => double_to_int v
  | .A_SYM _ => 0

/-- The Max API function `atom_getsym`: the symbol an atom holds, and the
empty symbol for a number. Symbols are interned, so that comparing two
`t_symbol*` compares their names. -/
def atom_getsym {α : Type} : t_atom α → String
  | .A_SYM s => s
  | _ => ""

/-- The atom `argv[i]` of an argument array; the sources read it for
`i < argc` only. -/
def argv_at {α : Type} (argv : List (t_atom α)) (i : Nat) : t_atom α :=
  argv.getD i (.A_LONG 0)

/-! ### args_util.c (the warnings posted to the Max console apart) -/

/-- The predicate `is_between_l`. -/
def is_between_l (val low high : Int) : Bool := decide (val ≥ low) && decide (val ≤ high)

/-- The predicate `is_above_f`. -/
def is_above_f {α : Type} [LinearOrderedField α] (val low _high : α) : Bool :=
  decide (val ≥ low)

/-- The function `args_count_is`. -/
def args_count_is (argc cnt : Int) : Bool := decide (argc = cnt)

/-- The function `args_count_is_between`. -/
def args_count_is_between (argc mini maxi : Int) : Bool :=
  decide (argc ≥ mini) && decide (argc ≤ maxi)

/-- The function `args_is_long`; a NULL filter is `none`. -/
def args_is_long {α : Type} [LinearOrderedField α] [FloorRing α]
    (argv : List (t_atom α)) (index : Nat)
    (filter : Option (Int → Int → Int → Bool)) (low high : Int) : Bool :=
  let a := argv_at argv index
  decide (atom_gettype a = .A_LONG) &&
    (match filter with
     | none => true
     | some f => f (atom_getlong a) low high)

/-- The function `args_is_number`; a NULL filter is `none`. -/
def args_is_number {α : Type} [LinearOrderedField α]
    (argv : List (t_atom α)) (index : Nat)
    (filter : Option (α → α → α → Bool)) (low high : α) : Bool :=
  let a := argv_at argv index
  (decide (atom_gettype a = .A_LONG) || decide (atom_gettype a = .A_FLOAT)) &&
    (match filter with
     | none => true
     | some f => f (atom_getfloat a) low high)

/-- The function `args_is_sym`: `symbols` is the array of `symbols_cnt`
symbols. -/
def args_is_sym {α : Type} (argv : List (t_atom α)) (index : Nat)
    (symbols_cnt : Nat) (symbols : List String) : Bool :=
  let a := argv_at argv index
  if atom_gettype a = .A_SYM then
    if symbols_cnt = 0 then true
    else (List.range symbols_cnt).any
      (fun i => decide (some (atom_getsym a) = symbols.get? i))
  else false

/-- The function `args_are_numbers`: the loop returns false at the first
argument that is not a number or fails the filter. -/
def args_are_numbers {α : Type} [LinearOrderedField α]
    (argv : List (t_atom α)) (index cnt : Nat)
    (filter : Option (α → α → α → Bool)) (low high : α) : Bool :=
  (List.range cnt).all (fun i =>
    let a := argv_at argv (index + i)
    !((decide (atom_gettype a ≠ .A_LONG) && decide (atom_gettype a ≠ .A_FLOAT)) ||
      (match filter with
       | none => false
       | some f => !f (atom_getfloat a) low high)))

/-- The functions of `math.h` the mixer calls, on the field that stands for
`double`. -/
structure t_libm (α : Type) where
  cos : α → α
  sqrt : α → α
  exp : α → α

namespace Mix

/-- The macro `M_PI_2` of mix~.c. -/
def M_PI_2 {α : Type} [DivisionRing α] : α := 1.57079632679489661923

/-- The macro `M_LN10_20` of mix~.c. -/
def M_LN10_20 {α : Type} [DivisionRing α] : α := 0.115129254649702284201

/-- The macro `RAMP_DEF` of mix~.c. -/
def RAMP_DEF : Nat := 30

/-- The macro `CNTD_CONST`, that is `(t_uint32)(-1)`. -/
def CNTD_CONST : Nat := 4294967295

/-- The object structure `t_mix` (the Max header and the outlet apart). -/
structure t_mix (α : Type) where
  chan_in_cnt : Nat
  chan_out_cnt : Nat
  master : α
  master_targ : α
  gains : Nat → α
  gains_targ : Nat → α
  gains_adjust : Nat → α
  cntd : Nat
  a_verbose : Int
  a_ramp : α
  ramp_samp : Nat

variable {α : Type} [LinearOrderedField α]

/-- The function `mix_mult_1ch`: multiply a mono audio channel, with or
without ramping the gain. The returned gain is `none` when the ramping loop
runs no iteration, `gain` being then read uninitialised. -/
def mix_mult_1ch (outs : t_bufs α) (gain0 dgain : α) (begin stop : Nat) :
    t_bufs α × Option α :=
  if dgain = 0 then
    (for_loop begin stop
      (fun s outs => buf_set outs 0 s (outs 0 s * gain0)) outs, some gain0)
  else
    let r := for_loop begin stop
      (fun s (st : t_bufs α × Option α) =>
        let gain := gain0 + (s : α) * dgain
        (buf_set st.1 0 s (st.1 0 s * gain), some gain))
      (outs, none)
    (r.1, r.2.map (fun gain => gain + dgain))

/-- The function `mix_mult_2ch`. -/
def mix_mult_2ch (outs : t_bufs α) (gain0 dgain : α) (begin stop : Nat) :
    t_bufs α × Option α :=
  if dgain = 0 then
    (for_loop begin stop
      (fun s outs =>
        let outs := buf_set outs 0 s (outs 0 s * gain0)
        buf_set outs 1 s (outs 1 s * gain0)) outs, some gain0)
  else
    let r := for_loop begin stop
      (fun s (st : t_bufs α × Option α) =>
        let gain := gain0 + (s : α) * dgain
        let outs := buf_set st.1 0 s (st.1 0 s * gain)
        (buf_set outs 1 s (outs 1 s * gain), some gain))
      (outs, none)
    (r.1, r.2.map (fun gain => gain + dgain))

/-- The function `mix_add_const_1ch`: add a mono audio channel, multiplied by
a constant gain. -/
def mix_add_const_1ch (outs ins : t_bufs α) (_di : Nat) (gain : α)
    (begin stop : Nat) : t_bufs α :=
  if gain ≠ 0 then
    for_loop begin stop
      (fun s outs => buf_set outs 0 s (outs 0 s + gain * ins 0 s)) outs
  else outs

/-- The function `mix_add_const_2ch`. -/
def mix_add_const_2ch (outs ins : t_bufs α) (di : Nat) (gain : α)
    (begin stop : Nat) : t_bufs α :=
  if gain ≠ 0 then
    for_loop begin stop
      (fun s outs =>
        let outs := buf_set outs 0 s (outs 0 s + gain * ins 0 s)
        buf_set outs 1 s (outs 1 s + gain * ins di s)) outs
  else outs

/-- The function `mix_add_ramp_1ch`: add a mono audio channel, with or
without ramping the gain. Its loops start at sample 0 whatever `begin` is. -/
def mix_add_ramp_1ch (outs ins : t_bufs α) (_di : Nat)
    (gain0 dgain adjust : α) (_begin stop : Nat) : t_bufs α × α :=
  let gain_end := gain0
  let gain0 := gain0 * adjust
  if dgain = 0 then
    (if gain0 ≠ 0 then
      for_loop 0 stop
        (fun s outs => buf_set outs 0 s (outs 0 s + gain0 * ins 0 s)) outs
     else outs, gain_end)
  else
    let gain_end := gain_end + (stop : α) * dgain
    let dgain := dgain * adjust
    (for_loop 0 stop
      (fun s outs =>
        let gain := gain0 + (s : α) * dgain
        buf_set outs 0 s (outs 0 s + gain * ins 0 s)) outs, gain_end)

/-- The function `mix_add_ramp_2ch`. -/
def mix_add_ramp_2ch (outs ins : t_bufs α) (di : Nat)
    (gain0 dgain adjust : α) (_begin stop : Nat) : t_bufs α × α :=
  let gain_end := gain0
  let gain0 := gain0 * adjust
  if dgain = 0 then
    (if gain0 ≠ 0 then
      for_loop 0 stop
        (fun s outs =>
          let outs := buf_set outs 0 s (outs 0 s + gain0 * ins 0 s)
          buf_set outs 1 s (outs 1 s + gain0 * ins di s)) outs
     else outs, gain_end)
  else
    let gain_end := gain_end + (stop : α) * dgain
    let dgain := dgain * adjust
    (for_loop 0 stop
      (fun s outs =>
        let gain := gain0 + (s : α) * dgain
        let outs := buf_set outs 0 s (outs 0 s + gain * ins 0 s)
        buf_set outs 1 s (outs 1 s + gain * ins di s)) outs, gain_end)

/-- The table `mix_mult`. -/
def mix_mult : List (t_bufs α → α → α → Nat → Nat → t_bufs α × Option α) :=
  [mix_mult_1ch, mix_mult_2ch]

/-- The table `mix_add_const`. -/
def mix_add_const : List (t_bufs α → t_bufs α → Nat → α → Nat → Nat → t_bufs α) :=
  [mix_add_const_1ch, mix_add_const_2ch]

/-- The table `mix_add_ramp`. -/
def mix_add_ramp :
    List (t_bufs α → t_bufs α → Nat → α → α → α → Nat → Nat → t_bufs α × α) :=
  [mix_add_ramp_1ch, mix_add_ramp_2ch]

/-- What a call of `mix_perform64` leaves: the object, the output buffers and
the number of bangs sent to the message outlet. -/
structure t_perform (α : Type) where
  x : t_mix α
  outs : t_bufs α
  bangs : Nat

/-- The steady-state part of `mix_perform64` (label `case CNTD_CONST`), also
reached by falling through from the ramped part. -/
def mix_perform64_const (x : t_mix α) (ins outs : t_bufs α)
    (ramp_len sampleframes bangs : Nat) : Option (t_perform α) :=
  match tbl_get mix_add_const ((x.chan_out_cnt : Int) - 1) with
  | none => none
  | some add_const =>
    some ⟨x,
      for_loop 0 x.chan_in_cnt
        (fun i outs =>
          let dgain := x.master * x.gains_adjust i * x.gains i
          add_const outs (buf_shift ins i) x.chan_in_cnt dgain
            ramp_len (u32 sampleframes)) outs,
      bangs⟩

/-- The end of the countdown in `mix_perform64`, from the comment "Process
the potential end of the countdown" on: the gains are set to their targets, a
bang is sent to the message outlet, and the rest of the block is rendered by
the steady-state part, into which the source falls through. -/
def mix_perform64_end (x : t_mix α) (ins outs : t_bufs α) (gains : Nat → α)
    (ramp_len sampleframes : Nat) : Option (t_perform α) :=
  let gains := for_loop 0 x.chan_in_cnt
    (fun i gains => Function.update gains i (x.gains_targ i)) gains
  mix_perform64_const
    { x with cntd := CNTD_CONST, master := x.master_targ, gains := gains }
    ins outs ramp_len sampleframes 1

/-- The audio function `mix_perform64`; its arguments `dsp64`, `numins`,
`numouts`, `flags` and `param` are not used by the source.

When `cntd` is 0 the quotients by `cntd` are not finite (an infinity or a
NaN, which compares unequal to 0): the kernels, called with `ramp_len = 0`,
run no iteration, write no sample, and return values that are not finite or,
for `mix_mult`, indeterminate. These values are stored in `gains` and
`master`: the call is `none` when it returns with them (`sampleframes = 0`),
and otherwise overwrites them at the end of the countdown. -/
def mix_perform64 (x : t_mix α) (ins outs : t_bufs α) (sampleframes : Nat) :
    Option (t_perform α) :=
  -- Initialize output to 0.0
  let outs := for_loop 0 x.chan_out_cnt
    (fun ch outs => buf_zero outs ch sampleframes) outs
  if x.master = 0 ∧ x.master_targ = 0 then some ⟨x, outs, 0⟩
  else if x.cntd = CNTD_CONST then
    -- If the gains are constant
    mix_perform64_const x ins outs 0 sampleframes 0
  else
    -- If the gains are being ramped
    let ramp_len := if x.cntd > sampleframes then sampleframes else x.cntd
    match tbl_get mix_add_ramp ((x.chan_out_cnt : Int) - 1),
        tbl_get mix_mult ((x.chan_out_cnt : Int) - 1) with
    | some add_ramp, some mult =>
      if x.cntd = 0 then
        -- Division by zero: no sample is written, `gains` and `master` are
        -- not finite until the end of the countdown is processed
        if ramp_len = sampleframes then none
        else mix_perform64_end x ins outs x.gains ramp_len sampleframes
      else
        -- Add the adjusted and ramped input channels
        let st := for_loop 0 x.chan_in_cnt
          (fun i (st : (Nat → α) × t_bufs α) =>
            let dgain := (x.gains_targ i - st.1 i) / (x.cntd : α)
            let r := add_ramp st.2 (buf_shift ins i) x.chan_in_cnt
              (st.1 i) dgain (x.gains_adjust i) 0 ramp_len
            (Function.update st.1 i r.2, r.1))
          (x.gains, outs)
        -- Multiply by the ramped master gain
        let dgain := (x.master_targ - x.master) / (x.cntd : α)
        let r := mult st.2 x.master dgain 0 ramp_len
        match r.2 with
        | none => none
        | some master =>
          -- Exit if the whole audio vector has been processed
          if ramp_len = sampleframes then
            some ⟨{ x with gains := st.1, master := master,
                           cntd := u32 (x.cntd + 4294967296 - u32 sampleframes) },
                  r.1, 0⟩
          else
            -- Process the potential end of the countdown
            mix_perform64_end x ins r.1 st.1 ramp_len sampleframes
    | _, _ => none

/-- The host calling `mix_perform64` once per block, on consecutive slices of
the input and output signals: after a block of `n` samples the buffers of the
next call start `n` samples further. The output of the whole run is indexed
from the start of the first block. -/
def mix_render (x : t_mix α) (ins outs : t_bufs α) : List Nat → Option (t_perform α)
  | [] => some ⟨x, outs, 0⟩
  | n :: blocks =>
    match mix_perform64 x ins outs n with
    | none => none
    | some r =>
      match mix_render r.x (fun ch s => ins ch (n + s)) (fun ch s => r.outs ch (n + s))
          blocks with
      | none => none
      | some r' =>
        some ⟨r'.x, fun ch s => if s < n then r.outs ch s else r'.outs ch (s - n),
          r.bangs + r'.bangs⟩

/-- The method `mix_list`: process lists as the master gain and a gain for
each input channel. With no argument, `argv[0]` is read and
`gains_targ[-1]` written out of bounds. -/
def mix_list (x : t_mix α) (argv : List (t_atom α)) : Option (t_mix α) :=
  let argc := argv.length
  if argc = 0 then none
  else
    let master_targ := atom_getfloat (argv_at argv 0)
    let gains_targ := for_loop 0 (min (argc - 1) x.chan_in_cnt)
      (fun i gains_targ => Function.update gains_targ i (atom_getfloat (argv_at argv (i + 1))))
      x.gains_targ
    let gains_targ := for_loop (argc - 1) x.chan_in_cnt
      (fun i gains_targ => Function.update gains_targ i 0) gains_targ
    some { x with master_targ := master_targ, gains_targ := gains_targ,
                  cntd := x.ramp_samp }

/-- The method `mix_master`: set the master gain. -/
def mix_master (x : t_mix α) (master : α) : t_mix α :=
  { x with master_targ := master, cntd := x.ramp_samp }

/-- The method `mix_pan`: pan between the input channels. -/
def mix_pan [FloorRing α] (m : t_libm α) (x : t_mix α) (master pan : α) : t_mix α :=
  -- Initialize to 0
  let gains_targ := for_loop 0 x.chan_in_cnt
    (fun i gains_targ => Function.update gains_targ i 0) x.gains_targ
  -- Calculate the pan values
  let gains_targ :=
    if pan ≤ 0 then Function.update gains_targ 0 1
    else if pan ≥ (((x.chan_in_cnt : Int) - 1 : Int) : α) then
      Function.update gains_targ ((x.chan_in_cnt : Int) - 1).toNat 1
    else
      let index : Int := double_to_int pan
      let r := m.cos ((pan - (index : α)) * M_PI_2)
      let gains_targ := Function.update gains_targ index.toNat r
      Function.update gains_targ (index + 1).toNat (m.sqrt (1 - r * r))
  { x with master_targ := master, gains_targ := gains_targ, cntd := x.ramp_samp }

/-- The method `mix_adjust`: set all the adjustment gains. -/
def mix_adjust (m : t_libm α) (x : t_mix α) (argv : List (t_atom α)) : t_mix α :=
  let symbols := ["ampl", "db"]
  if args_count_is argv.length ((x.chan_in_cnt : Int) + 1)
      && args_is_sym argv 0 2 symbols then
    if decide (atom_getsym (argv_at argv 0) = "ampl")
        && args_are_numbers argv 1 x.chan_in_cnt (some is_above_f) 0 0 then
      let gains_adjust := for_loop 0 x.chan_in_cnt
        (fun i gains_adjust =>
          Function.update gains_adjust i (atom_getfloat (argv_at argv (i + 1))))
        x.gains_adjust
      { x with gains_adjust := gains_adjust }
    else if decide (atom_getsym (argv_at argv 0) = "db")
        && args_are_numbers argv 1 x.chan_in_cnt none 0 0 then
      let gains_adjust := for_loop 0 x.chan_in_cnt
        (fun i gains_adjust =>
          Function.update gains_adjust i
            (m.exp (atom_getfloat (argv_at argv (i + 1)) * M_LN10_20)))
        x.gains_adjust
      { x with gains_adjust := gains_adjust }
    else x
  else x

/-- The method `mix_adjust_one`: set one of the adjustment gains. -/
def mix_adjust_one [FloorRing α] (m : t_libm α) (x : t_mix α)
    (argv : List (t_atom α)) : t_mix α :=
  let symbols := ["ampl", "db"]
  if args_count_is argv.length 3
      && args_is_sym argv 0 2 symbols
      && args_is_long argv 1 (some is_between_l) 0 ((x.chan_in_cnt : Int) - 1) then
    if decide (atom_getsym (argv_at argv 0) = "ampl")
        && args_is_number argv 2 (some is_above_f) 0 0 then
      let gains_adjust := Function.update x.gains_adjust
        (atom_getlong (argv_at argv 1)).toNat (atom_getfloat (argv_at argv 2))
      { x with gains_adjust := gains_adjust }
    else if decide (atom_getsym (argv_at argv 0) = "db")
        && args_is_number argv 2 none 0 0 then
      let gains_adjust := Function.update x.gains_adjust
        (atom_getlong (argv_at argv 1)).toNat
        (m.exp (atom_getfloat (argv_at argv 2) * M_LN10_20))
      { x with gains_adjust := gains_adjust }
    else x
  else x

/-- The C conversion `(t_uint32)v` of a `double`: the fractional part is
discarded, and the conversion is not defined when the integral part is not a
`t_uint32`. -/
def double_to_u32 [FloorRing α] (v : α) : Option Nat :=
  let i := double_to_int v
  if 0 ≤ i ∧ i < 4294967296 then some i.toNat else none

/-- The binary exponent of a double `v > 0`: the integer `e` such that
`2^e <= v < 2^(e+1)`. -/
def float_exponent [FloorRing α] (v : α) : Int :=
  if 1 ≤ v then (Nat.log 2 ⌊v⌋₊ : Int) else -(Nat.clog 2 ⌈1 / v⌉₊ : Int)

/-- The integer nearest to `q >= 0`, the even one of the two when `q` is
half-way between them. -/
def round_half_even [FloorRing α] (q : α) : Nat :=
  let f := ⌊q⌋₊
  if q - (f : α) < 1 / 2 then f
  else if 1 / 2 < q - (f : α) then f + 1
  else if f % 2 = 0 then f else f + 1

/-- The conversion `(float)v` of a double to the single precision format: 24
bits of significand, exponents from -126 to 127 and the subnormal values
below, rounding to nearest, ties to even. The result is `none` when the
rounded value is outside the range of `float`. -/
def double_to_float [FloorRing α] (v : α) : Option α :=
  if v = 0 then some 0
  else
    let e := max (float_exponent |v|) (-126)
    let ulp : α := (2 : α) ^ (e - 23)
    let r : α := (round_half_even (|v| / ulp) : α) * ulp
    if (2 : α) ^ 128 ≤ r then none
    else if v < 0 then some (-r) else some r

/-- The attribute setter `mix_set_ramp`; `sr` is what `sys_getsr()` returns.
The member `a_ramp` is a `float`: the argument, a double, and the default are
converted with `(float)`. -/
def mix_set_ramp [FloorRing α] (x : t_mix α) (argv : List (t_atom α)) (sr : α) :
    Option (t_mix α) :=
  let a_ramp : Option α :=
    if args_count_is argv.length 1
        && args_is_number argv 0 (some is_above_f) 1 0 then
      double_to_float (atom_getfloat (argv_at argv 0))
    else double_to_float (RAMP_DEF : α)
  match a_ramp with
  | none => none
  | some a_ramp =>
    match double_to_u32 (a_ramp * sr / 1000) with
    | none => none
    | some ramp_samp => some { x with a_ramp := a_ramp, ramp_samp := ramp_samp }

/-- The method `mix_dsp64`, called when the DAC is turned on: the ramp
duration in samples is computed from the sample rate. -/
def mix_dsp64 [FloorRing α] (x : t_mix α) (samplerate : α) : Option (t_mix α) :=
  match double_to_u32 (x.a_ramp * samplerate / 1000) with
  | none => none
  | some ramp_samp => some { x with ramp_samp := ramp_samp }

/-- The constructor `mix_new`, its allocations succeeding; `sr` is what
`sys_getsr()` returns when the attribute `ramp` is set. `object_alloc` clears
the structure, and the indices from `chan_in_cnt` on are outside the three
arrays. -/
def mix_new [FloorRing α] (argv : List (t_atom α)) (sr : α) : Option (t_mix α) :=
  let argc : Int := argv.length
  -- Process arguments
  let chan_in_cnt : Nat :=
    if decide (argc ≥ 1) && args_is_long argv 0 (some is_between_l) 2 255 then
      ((atom_getlong (argv_at argv 0)) % 256).toNat
    else 4
  let chan_out_cnt : Nat :=
    if decide (argc ≥ 2) && args_is_long (argv.drop 1) 0 (some is_between_l) 1 2 then
      ((atom_getlong (argv_at (argv.drop 1) 0)) % 256).toNat
    else 1
  -- Initialize
  let gains := for_loop 0 chan_in_cnt
    (fun i gains => Function.update gains i 0) (fun _ => (0 : α))
  let gains_targ := for_loop 0 chan_in_cnt
    (fun i gains_targ => Function.update gains_targ i 0) (fun _ => (0 : α))
  let gains_adjust := for_loop 0 chan_in_cnt
    (fun i gains_adjust => Function.update gains_adjust i 1) (fun _ => (0 : α))
  mix_set_ramp
    { chan_in_cnt := chan_in_cnt, chan_out_cnt := chan_out_cnt,
      master := 1, master_targ := 1,
      gains := gains, gains_targ := gains_targ, gains_adjust := gains_adjust,
      cntd := CNTD_CONST, a_verbose := 0, a_ramp := 0, ramp_samp := 0 }
    [t_atom.A_FLOAT (RAMP_DEF : α)] sr

/-- What the host can ask of the object after its creation: a message, an
attribute change, the start of the DSP chain, or the rendering of a block.
The methods `mix_bang`, `mix_int`, `mix_float`, `mix_anything` and
`mix_assist` do not touch the object, and `mix_report` only posts. -/
inductive t_call (α : Type) where
  | master (master : α)
  | pan (master pan : α)
  | list (argv : List (t_atom α))
  | adjust (argv : List (t_atom α))
  | adjust_one (argv : List (t_atom α))
  | set_ramp (argv : List (t_atom α)) (sr : α)
  | dsp64 (samplerate : α)
  | perform64 (ins outs : t_bufs α) (sampleframes : Nat)

/-- The object after one call of the host. -/
def mix_call [FloorRing α] (m : t_libm α) (x : t_mix α) : t_call α → Option (t_mix α)
  | .master master => some (mix_master x master)
  | .pan master pan => some (mix_pan m x master pan)
  | .list argv => mix_list x argv
  | .adjust argv => some (mix_adjust m x argv)
  | .adjust_one argv => some (mix_adjust_one m x argv)
  | .set_ramp argv sr => mix_set_ramp x argv sr
  | .dsp64 samplerate => mix_dsp64 x samplerate
  | .perform64 ins outs sampleframes =>
    (mix_perform64 x ins outs sampleframes).map (fun r => r.x)

/-- The object after a sequence of calls of the host. -/
def mix_calls [FloorRing α] (m : t_libm α) (x : t_mix α) : List (t_call α) → Option (t_mix α)
  | [] => some x
  | c :: cs =>
    match mix_call m x c with
    | none => none
    | some x' => mix_calls m x' cs

/-! ### States and signals on which the statements are instantiated -/

/-- Input signals for the instances: buffer `ch` holds `ch + s + 1` at
sample `s`. -/
def ex_ins : t_bufs ℚ := fun ch s => (ch : ℚ) + (s : ℚ) + 1

/-- Output buffers for the instances, holding 7 before the call. -/
def ex_outs : t_bufs ℚ := fun _ _ => 7

/-- A mixer with 2 inputs and 2 buses in the steady state: master 1/2,
channel gains 1 and 2, adjusts 1 and 3. -/
def ex_steady : t_mix ℚ :=
  { chan_in_cnt := 2, chan_out_cnt := 2, master := 1 / 2, master_targ := 1 / 2,
    gains := fun i => if i = 0 then 1 else if i = 1 then 2 else 0,
    gains_targ := fun i => if i = 0 then 1 else if i = 1 then 2 else 0,
    gains_adjust := fun i => if i = 0 then 1 else if i = 1 then 3 else 0,
    cntd := CNTD_CONST, a_verbose := 1, a_ramp := 30, ramp_samp := 1323 }

/-- A mixer with 2 inputs and 1 bus that passes its first input, master and
target 1, with a ramp duration of 10 samples. -/
def ex_unity : t_mix ℚ :=
  { chan_in_cnt := 2, chan_out_cnt := 1, master := 1, master_targ := 1,
    gains := fun i => if i = 0 then 1 else 0,
    gains_targ := fun i => if i = 0 then 1 else 0,
    gains_adjust := fun _ => 1,
    cntd := CNTD_CONST, a_verbose := 1, a_ramp := 30, ramp_samp := 10 }

/-- A silent mixer with 2 inputs and 1 bus, at rest: master and its target
are 0, as after `master 0` and the end of its ramp. The ramp duration is 4
samples. -/
def ex_silent : t_mix ℚ :=
  { chan_in_cnt := 2, chan_out_cnt := 1, master := 0, master_targ := 0,
    gains := fun _ => 0, gains_targ := fun _ => 0, gains_adjust := fun _ => 1,
    cntd := CNTD_CONST, a_verbose := 1, a_ramp := 30, ramp_samp := 4 }

/-- A mixer with 2 inputs and 1 bus whose ramp duration is 0 samples, as
`mix_dsp64` computes it at the sample rate 0, after `list 1 1 0` and a block:
master 1, channel gains 1 and 0. -/
def ex_instant : t_mix ℚ :=
  { chan_in_cnt := 2, chan_out_cnt := 1, master := 1, master_targ := 1,
    gains := fun i => if i = 0 then 1 else 0,
    gains_targ := fun i => if i = 0 then 1 else 0,
    gains_adjust := fun _ => 1,
    cntd := CNTD_CONST, a_verbose := 1, a_ramp := 30, ramp_samp := 0 }

/-- A mixer of 3 inputs and 1 bus as `mix_new` leaves it, with a ramp
duration of 1323 samples (30 ms at 44.1 kHz). -/
def ex_new3 {α : Type} [LinearOrderedField α] : t_mix α :=
  { chan_in_cnt := 3, chan_out_cnt := 1, master := 1, master_targ := 1,
    gains := fun _ => 0, gains_targ := fun _ => 0, gains_adjust := fun _ => 1,
    cntd := CNTD_CONST, a_verbose := 1, a_ramp := 30, ramp_samp := 1323 }

/-- The divisors of the divisions `mix_perform64` evaluates, in the order of
their evaluation. The ramped part (label `default`) evaluates
`(gains_targ[i] - gains[i]) / cntd` for each input channel, then
`(master_targ - master) / cntd`; the return for silence and the steady-state
part evaluate no division. -/
def mix_perform64_divisors {α : Type} [LinearOrderedField α] (x : t_mix α) : List Nat :=
  if x.master = 0 ∧ x.master_targ = 0 then []
  else if x.cntd = CNTD_CONST then []
  else List.replicate x.chan_in_cnt x.cntd ++ [x.cntd]

/-- A mixer with 2 inputs and 2 buses that passes its first input, with a
ramp duration of 4 samples, after `master 0.5`: the master gain is 1, its
target 1/2, the countdown 4. -/
def ex_ramp4 : t_mix ℚ :=
  { chan_in_cnt := 2, chan_out_cnt := 2, master := 1, master_targ := 1 / 2,
    gains := fun i => if i = 0 then 1 else 0,
    gains_targ := fun i => if i = 0 then 1 else 0,
    gains_adjust := fun _ => 1,
    cntd := 4, a_verbose := 1, a_ramp := 30, ramp_samp := 4 }

/-- The object `x'` differs from `x` at most in `master_targ`, `gains_targ`
and `cntd`. -/
def only_targets_written {α : Type} (x x' : t_mix α) : Prop :=
  x'.master = x.master ∧ x'.gains = x.gains ∧ x'.gains_adjust = x.gains_adjust ∧
  x'.chan_in_cnt = x.chan_in_cnt ∧ x'.chan_out_cnt = x.chan_out_cnt ∧
  x'.a_verbose = x.a_verbose ∧ x'.a_ramp = x.a_ramp ∧ x'.ramp_samp = x.ramp_samp

/-- The object `x'` differs from `x` at most in `gains_adjust`. -/
def only_adjust_written {α : Type} (x x' : t_mix α) : Prop :=
  x'.master = x.master ∧ x'.gains = x.gains ∧
  x'.master_targ = x.master_targ ∧ x'.gains_targ = x.gains_targ ∧ x'.cntd = x.cntd ∧
  x'.chan_in_cnt = x.chan_in_cnt ∧ x'.chan_out_cnt = x.chan_out_cnt ∧
  x'.a_verbose = x.a_verbose ∧ x'.a_ramp = x.a_ramp ∧ x'.ramp_samp = x.ramp_samp

end Mix

/-! ### mix~-if_else.c

The variant of the mixer whose audio functions loop over chunks of the
block: the part of the block inside the countdown, then the part after it.
Its structure `t_mix` is the one of mix~.c, and it sends no bang. -/

namespace MixIfElse

open Mix

variable {α : Type} [LinearOrderedField α]

/-- The macro `CNTD_END` of mix~-if_else.c, that is `(t_uint32)(-1)`. -/
def CNTD_END : Nat := 4294967295

/-- The variables of the loop over chunks: the object, the output buffers,
`samp_left` and `samp_proc`. -/
structure t_chunks (α : Type) where
  x : t_mix α
  outs : t_bufs α
  samp_left : Nat
  samp_proc : Nat

/-- The statements under "Process the potential end of the countdown", after
`x->cntd -= chunk_len`. -/
def mix_countdown_end (x : t_mix α) : t_mix α :=
  if x.cntd = 0 then
    { x with cntd := CNTD_END, master := x.master_targ,
             gains := for_loop 0 x.chan_in_cnt
               (fun i gains => Function.update gains i (x.gains_targ i)) x.gains }
  else x

/-- The body of the loop `while (samp_left)` of `mix_perform64_mono`. The
input is read from `ins[i] + samp_proc`, the output is indexed from the start
of the buffer.

When `cntd` is 0 the chunk is empty, no sample is written, and the quotients
by `cntd` are not finite; the values they leave in `gains` and `master` are
overwritten at the end of the countdown, which follows. -/
def mono_chunk (x : t_mix α) (ins outs : t_bufs α) (samp_left samp_proc : Nat) :
    t_chunks α :=
  -- ==== No ramping
  if x.cntd = CNTD_END then
    let chunk_len := samp_left
    let outs := for_loop 0 x.chan_in_cnt
      (fun i outs =>
        let gain0 := x.master * x.gains_adjust i * x.gains i
        if gain0 ≠ 0 then
          for_loop 0 chunk_len
            (fun s outs => buf_set outs 0 s (outs 0 s + gain0 * ins i (samp_proc + s))) outs
        else outs) outs
    ⟨x, outs, samp_left - chunk_len, u32 (samp_proc + chunk_len)⟩
  -- ==== Ramping
  else if x.cntd = 0 then
    ⟨mix_countdown_end x, outs, samp_left, samp_proc⟩
  else
    let chunk_len := if x.cntd > samp_left then samp_left else x.cntd
    -- == Loop over the input channels
    let st := for_loop 0 x.chan_in_cnt
      (fun i (st : (Nat → α) × t_bufs α) =>
        if st.1 i = x.gains_targ i then
          let gain0 := x.gains_adjust i * st.1 i
          if gain0 ≠ 0 then
            (st.1, for_loop 0 chunk_len
              (fun s outs => buf_set outs 0 s (outs 0 s + gain0 * ins i (samp_proc + s)))
              st.2)
          else st
        else
          let gain0 := x.gains_adjust i * st.1 i
          let dgain := x.gains_adjust i * (x.gains_targ i - st.1 i) / (x.cntd : α)
          (Function.update st.1 i
            (st.1 i + (chunk_len : α) * (x.gains_targ i - st.1 i) / (x.cntd : α)),
           for_loop 0 chunk_len
            (fun s outs =>
              buf_set outs 0 s (outs 0 s + (gain0 + (s : α) * dgain) * ins i (samp_proc + s)))
            st.2))
      (x.gains, outs)
    -- == Multiply by the master gain
    let r : t_bufs α × α :=
      if x.master = x.master_targ then
        (for_loop 0 chunk_len (fun s outs => buf_set outs 0 s (outs 0 s * x.master)) st.2,
         x.master)
      else
        let gain0 := x.master
        let dgain := (x.master_targ - x.master) / (x.cntd : α)
        (for_loop 0 chunk_len
          (fun s outs => buf_set outs 0 s (outs 0 s * (gain0 + (s : α) * dgain))) st.2,
         gain0 + dgain)
    -- Process the potential end of the countdown
    ⟨mix_countdown_end { x with gains := st.1, master := r.2, cntd := x.cntd - chunk_len },
     r.1, samp_left - chunk_len, u32 (samp_proc + chunk_len)⟩

/-- The body of the loop `while (samp_left)` of the stereo `mix_perform64`.
The inputs are read from `ins[i] + samp_proc` and
`ins[i + chan_in_cnt] + samp_proc`, the outputs are indexed from the start of
the buffers. The master gain stored after its ramp is `gain + dgain`, `gain`
being the value the last iteration of the loop over the samples assigned;
the chunk is `none` when that loop runs no iteration and the countdown does
not end. When `cntd` is 0 the chunk is empty and the end of the countdown
overwrites what the quotients by `cntd` leave, as in `mono_chunk`. -/
def stereo_chunk (x : t_mix α) (ins outs : t_bufs α) (samp_left samp_proc : Nat) :
    Option (t_chunks α) :=
  -- ==== No ramping
  if x.cntd = CNTD_END then
    let chunk_len := samp_left
    let outs := for_loop 0 x.chan_in_cnt
      (fun i outs =>
        let gain := x.master * x.gains_adjust i * x.gains i
        if gain ≠ 0 then
          for_loop 0 chunk_len
            (fun s outs =>
              let outs := buf_set outs 0 s (outs 0 s + gain * ins i (samp_proc + s))
              buf_set outs 1 s (outs 1 s + gain * ins (i + x.chan_in_cnt) (samp_proc + s)))
            outs
        else outs) outs
    some ⟨x, outs, samp_left - chunk_len, u32 (samp_proc + chunk_len)⟩
  -- ==== Ramping
  else if x.cntd = 0 then
    some ⟨mix_countdown_end x, outs, samp_left, samp_proc⟩
  else
    let chunk_len := if x.cntd > samp_left then samp_left else x.cntd
    -- == Loop over the input channels
    let st := for_loop 0 x.chan_in_cnt
      (fun i (st : (Nat → α) × t_bufs α) =>
        if st.1 i = x.gains_targ i then
          let gain := x.gains_adjust i * st.1 i
          if gain ≠ 0 then
            (st.1, for_loop 0 chunk_len
              (fun s outs =>
                let outs := buf_set outs 0 s (outs 0 s + gain * ins i (samp_proc + s))
                buf_set outs 1 s (outs 1 s + gain * ins (i + x.chan_in_cnt) (samp_proc + s)))
              st.2)
          else st
        else
          let gain0 := x.gains_adjust i * st.1 i
          let dgain := x.gains_adjust i * (x.gains_targ i - st.1 i) / (x.cntd : α)
          (Function.update st.1 i
            (st.1 i + (chunk_len : α) * (x.gains_targ i - st.1 i) / (x.cntd : α)),
           for_loop 0 chunk_len
            (fun s outs =>
              let gain := gain0 + (s : α) * dgain
              let outs := buf_set outs 0 s (outs 0 s + gain * ins i (samp_proc + s))
              buf_set outs 1 s (outs 1 s + gain * ins (i + x.chan_in_cnt) (samp_proc + s)))
            st.2))
      (x.gains, outs)
    -- == Multiply by the master gain
    let r : t_bufs α × Option α :=
      if x.master = x.master_targ then
        (for_loop 0 chunk_len
          (fun s outs =>
            let outs := buf_set outs 0 s (outs 0 s * x.master)
            buf_set outs 1 s (outs 1 s * x.master)) st.2,
         some x.master)
      else
        let gain0 := x.master
        let dgain := (x.master_targ - x.master) / (x.cntd : α)
        let r := for_loop 0 chunk_len
          (fun s (st : t_bufs α × Option α) =>
            let gain := gain0 + (s : α) * dgain
            let outs := buf_set st.1 0 s (st.1 0 s * gain)
            (buf_set outs 1 s (outs 1 s * gain), some gain))
          (st.2, none)
        (r.1, r.2.map (fun gain => gain + dgain))
    match r.2 with
    | none => none
    | some master =>
      -- Process the potential end of the countdown
      some ⟨mix_countdown_end
              { x with gains := st.1, master := master, cntd := x.cntd - chunk_len },
            r.1, samp_left - chunk_len, u32 (samp_proc + chunk_len)⟩

/-- The loop `while (samp_left)`, run for at most `fuel` iterations: `none`
when `samp_left` is not 0 after them. -/
def chunk_loop (chunk : t_mix α → t_bufs α → t_bufs α → Nat → Nat → Option (t_chunks α))
    (ins : t_bufs α) : Nat → t_chunks α → Option (t_chunks α)
  | 0, st => if st.samp_left ≠ 0 then none else some st
  | fuel + 1, st =>
    if st.samp_left ≠ 0 then
      match chunk st.x ins st.outs st.samp_left st.samp_proc with
      | none => none
      | some st => chunk_loop chunk ins fuel st
    else some st

/-- The audio function `mix_perform64_mono`: the object and the output
buffers it leaves. -/
def mix_perform64_mono (fuel : Nat) (x : t_mix α) (ins outs : t_bufs α)
    (sampleframes : Nat) : Option (t_mix α × t_bufs α) :=
  -- Initialize output to 0.0
  let outs := for_loop 0 sampleframes (fun s outs => buf_set outs 0 s 0) outs
  if x.master = 0 ∧ x.master_targ = 0 then some (x, outs)
  else
    -- Loop over chunks
    (chunk_loop (fun x ins outs samp_left samp_proc =>
        some (mono_chunk x ins outs samp_left samp_proc))
      ins fuel ⟨x, outs, u32 sampleframes, 0⟩).map (fun st => (st.x, st.outs))

/-- The audio function `mix_perform64` of mix~-if_else.c, for the stereo
mode; its arguments `dsp64`, `numins`, `numouts`, `flags` and `param` are not
used by the source. -/
def mix_perform64 (fuel : Nat) (x : t_mix α) (ins outs : t_bufs α)
    (sampleframes : Nat) : Option (t_mix α × t_bufs α) :=
  -- Initialize output to 0.0
  let outs := for_loop 0 sampleframes
    (fun s outs => buf_set (buf_set outs 0 s 0) 1 s 0) outs
  if x.master = 0 ∧ x.master_targ = 0 then some (x, outs)
  else
    -- Loop over chunks
    (chunk_loop stereo_chunk ins fuel ⟨x, outs, u32 sampleframes, 0⟩).map
      (fun st => (st.x, st.outs))

end MixIfElse

/-! ### dstring.c

A `char` is a `Char`, the block `cstr` points to is a function from the index
to the character, and a C string passed as an argument is the list of its
characters before the terminating NUL. The allocator is a sequence of
answers to the successive requests: `none` when the request fails, and the
characters the new bytes of the block hold when it succeeds. -/

namespace Dstr

/-- The type `t_dstr_int` is `unsigned __int32`; `DSTR_LEN_MAX` is
`(t_dstr_int)-2`. -/
def DSTR_LEN_MAX : Nat := 4294967294

/-- The macro `DSTR_LEN_ERR`, that is `(t_dstr_int)-1`. -/
def DSTR_LEN_ERR : Nat := 4294967295

/-- The structure `_dstring_struct`. -/
structure t_dstr_struct where
  cstr : Nat → Char
  len_cur : Nat
  len_max : Nat

/-- The answers of the allocator to the successive requests. -/
abbrev t_heap := Nat → Option (Nat → Char)

/-- The allocator after one request. -/
def heap_next (heap : t_heap) : t_heap := fun i => heap (i + 1)

/-- The terminating character. -/
def NUL : Char := Char.ofNat 0

/-- The memory a C string argument points to. -/
def cstr_mem (s : List Char) : Nat → Char := fun i => s.getD i NUL

/-- The library function `strnlen` on a C string argument. -/
def strnlen (s : List Char) (maxlen : Nat) : Nat := min s.length maxlen

/-- The static array `_null_cstr`. -/
def NULL_CSTR : Nat → Char := fun _ => NUL

/-- The static structure `_null_dstr_struct`. -/
def NULL_DSTR : t_dstr_struct := ⟨NULL_CSTR, 0, DSTR_LEN_ERR⟩

/-- The macro `DSTR_IS_NULL`. -/
def DSTR_IS_NULL (ds : t_dstr_struct) : Bool := decide (ds.len_max = DSTR_LEN_ERR)

/-- The macro `DSTR_NOT_NULL`. -/
def DSTR_NOT_NULL (ds : t_dstr_struct) : Bool := decide (ds.len_max ≠ DSTR_LEN_ERR)

/-- The characters of a dstring before its terminating character. -/
def dstr_content (ds : t_dstr_struct) : List Char :=
  (List.range ds.len_cur).map ds.cstr

/-- The function `_dstr_set_to_null`: the members take the values of
`NULL_DSTR`. -/
def _dstr_set_to_null (dstr : t_dstr_struct) : t_dstr_struct :=
  { dstr with cstr := NULL_DSTR.cstr, len_cur := NULL_DSTR.len_cur,
              len_max := NULL_DSTR.len_max }

/-- The function `_dstr_new`: the structure is allocated, then the C
string. -/
def _dstr_new (src : Nat → Char) (len_cur len_max : Nat) (heap : t_heap) :
    t_dstr_struct × t_heap :=
  match heap 0 with
  | none => (NULL_DSTR, heap_next heap)
  | some _ =>
    match heap 1 with
    | none => (NULL_DSTR, heap_next (heap_next heap))
    | some fresh =>
      -- memcpy(dstr->cstr, src, len_cur); dstr->cstr[len_cur] = '\0';
      (⟨fun i => if i < len_cur then src i else if i = len_cur then NUL else fresh i,
        len_cur, len_max⟩, heap_next (heap_next heap))

/-- The function `_dstr_realloc`: the block keeps its characters up to the
smaller of its old and new sizes. -/
def _dstr_realloc (dstr : t_dstr_struct) (len : Nat) (heap : t_heap) :
    t_dstr_struct × t_heap :=
  if DSTR_IS_NULL dstr then (dstr, heap)
  else
    match heap 0 with
    | some fresh =>
      let cstr : Nat → Char :=
        fun i => if i < min (dstr.len_max + 1) (len + 1) then dstr.cstr i else fresh i
      let len_cur := min dstr.len_cur len
      ({ cstr := Function.update cstr len_cur NUL, len_cur := len_cur, len_max := len },
        heap_next heap)
    | none => (_dstr_set_to_null dstr, heap_next heap)

/-- The function `_dstr_next_pow2`, on a `t_dstr_int`; the statement
`val = val ? --val : 0` leaves `val - 1` in `val` when `val` is not 0. -/
def _dstr_next_pow2 (val : Nat) : Nat :=
  let val := if val ≠ 0 then val - 1 else 0
  let val := val ||| (val >>> 1)
  let val := val ||| (val >>> 2)
  let val := val ||| (val >>> 4)
  let val := val ||| (val >>> 8)
  let val := val ||| (val >>> 16)
  let val := u32 (val + 1)
  if val ≠ 0 then val else DSTR_LEN_MAX

/-- The function `_dstr_grow`: resize the dstring if necessary; the actual
copy length is returned. -/
def _dstr_grow (dest : t_dstr_struct) (pos len : Nat) (heap : t_heap) :
    Nat × t_dstr_struct × t_heap :=
  if len > u32 (dest.len_max + 4294967296 - pos) then
    let len := min len (u32 (DSTR_LEN_MAX + 4294967296 - pos))
    let pos := _dstr_next_pow2 (u32 (pos + len))
    let r := _dstr_realloc dest pos heap
    (len, r.1, r.2)
  else (len, dest, heap)

/-- The function `_dstr_cpy`: copy `len` characters of `src` at the position
`pos` of the dstring. -/
def _dstr_cpy (dest : t_dstr_struct) (pos : Nat) (src : Nat → Char) (len : Nat)
    (heap : t_heap) : t_dstr_struct × t_heap :=
  let g := _dstr_grow dest pos len heap
  let len := g.1
  let dest := g.2.1
  if DSTR_NOT_NULL dest then
    -- memcpy(dest->cstr + pos, src, len); dest->cstr[pos + len] = '\0';
    let cstr : Nat → Char :=
      fun i => if pos ≤ i ∧ i < pos + len then src (i - pos) else dest.cstr i
    ({ dest with len_cur := u32 (pos + len),
                 cstr := Function.update cstr (pos + len) NUL }, g.2.2)
  else (dest, g.2.2)

/-- The function `dstr_new_cstr`. -/
def dstr_new_cstr (cstr : List Char) (heap : t_heap) : t_dstr_struct × t_heap :=
  let len := strnlen cstr DSTR_LEN_MAX
  _dstr_new (cstr_mem cstr) len (_dstr_next_pow2 len) heap

/-- The function `dstr_cat_cstr`. -/
def dstr_cat_cstr (dest : t_dstr_struct) (cstr : List Char) (heap : t_heap) :
    t_dstr_struct × t_heap :=
  _dstr_cpy dest dest.len_cur (cstr_mem cstr) (strnlen cstr DSTR_LEN_MAX) heap

/-- An allocator whose requests all succeed, the new bytes holding `#`. -/
def ex_heap : t_heap := fun _ => some (fun _ => '#')

/-- The dstring `dstr_test` creates from the C string "abcdef". -/
def ex_abcdef : t_dstr_struct := (dstr_new_cstr ['a', 'b', 'c', 'd', 'e', 'f'] ex_heap).1

/-- The dstring of `dstr_test` after the concatenations of "", "1" and "2". -/
def ex_abcdef12 : t_dstr_struct :=
  (dstr_cat_cstr (dstr_cat_cstr (dstr_cat_cstr ex_abcdef [] ex_heap).1 ['1'] ex_heap).1
    ['2'] ex_heap).1


/-- The loop `while (v = test(st)) st = body(st, v)`: `none` when the loop
has not ended after `fuel` iterations of its body. -/
def while_some {σ τ : Type} (test : σ → Option τ) (body : σ → τ → σ) : Nat → σ → Option σ
  | 0, st =>
    match test st with
    | none => some st
    | some _ => none
  | fuel + 1, st =>
    match test st with
    | none => some st
    | some v => while_some test body fuel (body st v)

/-- The size in bytes of the block `cstr` points to: `len_max + 1` characters,
and one for the static array `_null_cstr`. -/
def dstr_size (ds : t_dstr_struct) : Nat :=
  if DSTR_IS_NULL ds then 1 else ds.len_max + 1

/-- The library function `memcpy(dest + pos, src, len)`, `src` being another
block. -/
def memcpy (dest : Nat → Char) (pos : Nat) (src : Nat → Char) (len : Nat) : Nat → Char :=
  fun i => if pos ≤ i ∧ i < pos + len then src (i - pos) else dest i

/-- The library function `memmove(mem + pos, mem + src, len)`, inside one
block: the characters are copied as if through a temporary array. -/
def memmove (mem : Nat → Char) (pos src len : Nat) : Nat → Char :=
  fun i => if pos ≤ i ∧ i < pos + len then mem (src + (i - pos)) else mem i

/-- The C string that starts at `pos`: the characters before the first NUL
among the `room` characters the block has from `pos` on. -/
def c_string (mem : Nat → Char) : Nat → Nat → List Char
  | 0, _ => []
  | room + 1, pos => if mem pos = NUL then [] else mem pos :: c_string mem room (pos + 1)

/-- The index of the first occurrence of `needle` in `hay`; the empty string
occurs at the index 0. -/
def strstr_list (needle : List Char) : List Char → Option Nat
  | [] => if needle = [] then some 0 else none
  | c :: hay =>
    if needle.isPrefixOf (c :: hay) then some 0
    else (strstr_list needle hay).map (fun k => k + 1)

/-- The library function `strstr(mem + pos, needle)` in a block of `size`
characters; the pointer returned is an index in the block. -/
def strstr (mem : Nat → Char) (size pos : Nat) (needle : List Char) : Option Nat :=
  (strstr_list needle (c_string mem (size - pos) pos)).map (fun k => pos + k)

/-- The function `_dstr_alloc_new_cstr`. -/
def _dstr_alloc_new_cstr (dstr : t_dstr_struct) (len : Nat) (heap : t_heap) :
    t_dstr_struct × t_heap :=
  if DSTR_IS_NULL dstr then (dstr, heap)
  else
    match heap 0 with
    | some fresh =>
      ({ cstr := Function.update fresh 0 NUL, len_cur := 0, len_max := len }, heap_next heap)
    | none => (_dstr_set_to_null dstr, heap_next heap)

/-- The function `dstr_new`. -/
def dstr_new (heap : t_heap) : t_dstr_struct × t_heap := _dstr_new NULL_CSTR 0 8 heap

/-- The function `dstr_new_n`. -/
def dstr_new_n (len : Nat) (heap : t_heap) : t_dstr_struct × t_heap :=
  _dstr_new NULL_CSTR 0 (min len DSTR_LEN_MAX) heap

/-- The function `dstr_new_dstr`. -/
def dstr_new_dstr (src : t_dstr_struct) (heap : t_heap) : t_dstr_struct × t_heap :=
  -- Propagate errors from the source
  if DSTR_IS_NULL src then (NULL_DSTR, heap)
  else _dstr_new src.cstr src.len_cur (_dstr_next_pow2 src.len_cur) heap

/-- The function `dstr_cat_dstr`. -/
def dstr_cat_dstr (dest dstr : t_dstr_struct) (heap : t_heap) : t_dstr_struct × t_heap :=
  -- Propagate errors from the source
  if DSTR_IS_NULL dstr then (_dstr_set_to_null dest, heap)
  else _dstr_cpy dest dest.len_cur dstr.cstr dstr.len_cur heap

/-- The function `dstr_cat_bin`. -/
def dstr_cat_bin (dest : t_dstr_struct) (bin : Nat → Char) (len : Nat) (heap : t_heap) :
    t_dstr_struct × t_heap :=
  _dstr_cpy dest dest.len_cur bin len heap

/-- The function `dstr_clear`. -/
def dstr_clear (dstr : t_dstr_struct) : t_dstr_struct :=
  { dstr with cstr := Function.update dstr.cstr 0 NUL, len_cur := 0 }

/-- The function `dstr_clip`. -/
def dstr_clip (dstr : t_dstr_struct) (len : Nat) : t_dstr_struct :=
  if len ≥ dstr.len_cur then dstr
  else { dstr with cstr := Function.update dstr.cstr len NUL, len_cur := len }

/-- The loop of `dstr_update`, which ends after `len_max` iterations at
most. -/
def dstr_update_len (cstr : Nat → Char) (len_max : Nat) : Nat → Nat → Nat
  | 0, len => len
  | fuel + 1, len =>
    if cstr len ≠ NUL ∧ len ≠ len_max then dstr_update_len cstr len_max fuel (len + 1)
    else len

/-- The function `dstr_update`. -/
def dstr_update (dstr : t_dstr_struct) : t_dstr_struct :=
  { dstr with len_cur := dstr_update_len dstr.cstr dstr.len_max dstr.len_max 0 }

/-- The function `dstr_fit`. -/
def dstr_fit (dstr : t_dstr_struct) (heap : t_heap) : t_dstr_struct × t_heap :=
  _dstr_realloc dstr dstr.len_cur heap

/-- The function `dstr_shrink`. -/
def dstr_shrink (dstr : t_dstr_struct) (heap : t_heap) : t_dstr_struct × t_heap :=
  _dstr_realloc dstr (_dstr_next_pow2 dstr.len_cur) heap

/-- The function `dstr_resize`. -/
def dstr_resize (dstr : t_dstr_struct) (len : Nat) (heap : t_heap) : t_dstr_struct × t_heap :=
  _dstr_realloc dstr (min len DSTR_LEN_MAX) heap

/-! ### The conversion of an integer -/

/-- The macro `DSTR_I64_LEN_MAX`: the length of the arrays the callers of
`_dstr_int_to_cstr` declare. -/
def DSTR_I64_LEN_MAX : Nat := 21

/-- The value of an `__int64` expression: two's complement, the negation of
the least value wrapping onto itself as the compiled code does. -/
def i64 (v : Int) : Int :=
  (v + 9223372036854775808) % 18446744073709551616 - 9223372036854775808

/-- The conversion of an `__int64` to `unsigned __int64`. -/
def u64 (v : Int) : Nat := (v % 18446744073709551616).toNat

/-- The loop `do { *pc++ = '0' + (uint % 10); uint /= 10; } while (uint);`
of `_dstr_int_to_cstr`, in an array which has `room` characters from `pc` on:
`none` when the loop runs past the array. The result is the array and `pc`. -/
def int_digits (str : Nat → Char) : Nat → Nat → Nat → Option ((Nat → Char) × Nat)
  | 0, _, _ => none
  | room + 1, pc, uint =>
    let str := Function.update str pc (Char.ofNat ('0'.toNat + uint % 10))
    if uint / 10 ≠ 0 then int_digits str room (pc + 1) (uint / 10) else some (str, pc + 1)

/-- The loop `while (str < pc) { tmp = *str; *str++ = *pc; *pc-- = tmp; }`
of `_dstr_int_to_cstr`, on the indexes `i` and `j`; with `j - i` decreasing
by 2, `j` iterations end it. -/
def str_reverse (str : Nat → Char) : Nat → Nat → Nat → Nat → Char
  | 0, _, _ => str
  | fuel + 1, i, j =>
    if i < j then
      let tmp := str i
      let str := Function.update str i (str j)
      let str := Function.update str j tmp
      str_reverse str fuel (i + 1) (j - 1)
    else str

/-- The function `_dstr_int_to_cstr`, in an array of `DSTR_I64_LEN_MAX`
characters: the array and the length of the string, and `none` when a
character is written past the array. -/
def _dstr_int_to_cstr (str : Nat → Char) (val : Int) : Option ((Nat → Char) × Nat) :=
  let uint := u64 (if val > 0 then val else i64 (-val))
  -- Copy each digit from the lowest
  match int_digits str DSTR_I64_LEN_MAX 0 uint with
  | none => none
  | some (str, pc) =>
    -- Add a minus sign if necessary, and the terminal character
    let str := if val < 0 then Function.update str pc '-' else str
    let pc := if val < 0 then pc + 1 else pc
    if pc < DSTR_I64_LEN_MAX then
      let str := Function.update str pc NUL
      -- Calculate the length, reverse the string
      some (str_reverse str (pc - 1) 0 (pc - 1), pc)
    else none

/-- The function `dstr_new_int`; the local array holds NUL characters at
first (no character of it is read before it is written). -/
def dstr_new_int (i : Int) (heap : t_heap) : Option (t_dstr_struct × t_heap) :=
  match _dstr_int_to_cstr NULL_CSTR i with
  | none => none
  | some (str, len) => some (_dstr_new str len (_dstr_next_pow2 len) heap)

/-- The function `dstr_cat_int`. -/
def dstr_cat_int (dest : t_dstr_struct) (i : Int) (heap : t_heap) :
    Option (t_dstr_struct × t_heap) :=
  match _dstr_int_to_cstr NULL_CSTR i with
  | none => none
  | some (cstr, len) => some (_dstr_cpy dest dest.len_cur cstr len heap)

/-! ### The conversion of a float -/

/-- The macro `DSTR_F64_LEN_MAX`. -/
def DSTR_F64_LEN_MAX : Nat := 25

/-- The macro `DSTR_PRINTF_TRY_LEN`. -/
def DSTR_PRINTF_TRY_LEN : Nat := 512

/-- The library functions of stdio.h the sources call: `printf_f prec val` is
the text the format `%.*f` produces from the arguments `prec` and `val`.
`snprintf` writes the characters of it that fit in the array it is given, and
returns the length of the whole text. -/
structure t_stdio (α : Type) where
  printf_f : Nat → α → List Char

/-- The call `dstr_cat_printf(dest, "%.*f", prec, val)` of the function
`dstr_cat_printf`. The format is a valid one, so that the length is not
-1. -/
def dstr_cat_printf_f {α : Type} (io : t_stdio α) (dest : t_dstr_struct) (prec : Nat)
    (val : α) (heap : t_heap) : t_dstr_struct × t_heap :=
  let text := io.printf_f prec val
  let len := text.length
  -- If the buffer is long enough, concatenate it into the dstring
  if len < DSTR_PRINTF_TRY_LEN then _dstr_cpy dest dest.len_cur (cstr_mem text) len heap
  -- Otherwise grow the dstring, and run printf again directly into it
  else
    let g := _dstr_grow dest dest.len_cur (u32 len) heap
    let len := g.1
    let dest := g.2.1
    if DSTR_NOT_NULL dest then
      let size := dest.len_max - dest.len_cur + 1
      let cstr : Nat → Char :=
        fun i =>
          if dest.len_cur ≤ i ∧ i < dest.len_cur + min text.length (size - 1) then
            cstr_mem text (i - dest.len_cur)
          else if i = dest.len_cur + min text.length (size - 1) then NUL
          else dest.cstr i
      ({ dest with cstr := cstr, len_cur := u32 (dest.len_cur + len) }, g.2.2)
    else (dest, g.2.2)

/-- The function `dstr_cat_float`. -/
def dstr_cat_float {α : Type} (io : t_stdio α) (dest : t_dstr_struct) (val : α) (prec : Nat)
    (heap : t_heap) : t_dstr_struct × t_heap :=
  let text := io.printf_f prec val
  let len := text.length
  if len < DSTR_F64_LEN_MAX then _dstr_cpy dest dest.len_cur (cstr_mem text) len heap
  else dstr_cat_printf_f io dest prec val heap

/-- The function `dstr_cat_atom`; an atom of the embedding has one of the
three types. -/
def dstr_cat_atom {α : Type} [LinearOrderedField α] [FloorRing α] (io : t_stdio α)
    (dest : t_dstr_struct) (atom : t_atom α) (heap : t_heap) :
    Option (t_dstr_struct × t_heap) :=
  match atom_gettype atom with
  | .A_LONG => dstr_cat_int dest (atom_getlong atom) heap
  | .A_FLOAT => some (dstr_cat_float io dest (atom_getfloat atom) 6 heap)
  | .A_SYM => some (dstr_cat_cstr dest (atom_getsym atom).toList heap)

/-! ### Joining -/

/-- The body shared by the four join functions, `cat dest i heap` being the
concatenation of the element `i`:
`if (argc > 0) { cat(0); } for (i = 1; i < argc; i++) { dstr_cat_cstr(dest, sep); cat(i); }`.
The result is `none` when a conversion runs past its array. -/
def join_loop (cat : t_dstr_struct → Nat → t_heap → Option (t_dstr_struct × t_heap))
    (dest : t_dstr_struct) (argc : Int) (sep : List Char) (heap : t_heap) :
    Option (t_dstr_struct × t_heap) :=
  let st := if argc > 0 then cat dest 0 heap else some (dest, heap)
  for_loop 1 argc.toNat
    (fun i st =>
      match st with
      | none => none
      | some st =>
        let s := dstr_cat_cstr st.1 sep st.2
        cat s.1 i s.2)
    st

/-- The function `dstr_cat_join`. -/
def dstr_cat_join {α : Type} [LinearOrderedField α] [FloorRing α] (io : t_stdio α)
    (dest : t_dstr_struct) (argc : Int) (argv : List (t_atom α)) (sep : List Char)
    (heap : t_heap) : Option (t_dstr_struct × t_heap) :=
  join_loop (fun d i h => dstr_cat_atom io d (argv_at argv i) h) dest argc sep heap

/-- The function `dstr_cat_join_longs`. -/
def dstr_cat_join_longs (dest : t_dstr_struct) (argc : Int) (longs : List Int)
    (sep : List Char) (heap : t_heap) : Option (t_dstr_struct × t_heap) :=
  join_loop (fun d i h => dstr_cat_int d (longs.getD i 0) h) dest argc sep heap

/-- The function `dstr_cat_join_floats`. -/
def dstr_cat_join_floats {α : Type} [Zero α] (io : t_stdio α) (dest : t_dstr_struct)
    (argc : Int) (floats : List α) (prec : Nat) (sep : List Char) (heap : t_heap) :
    Option (t_dstr_struct × t_heap) :=
  join_loop (fun d i h => some (dstr_cat_float io d (floats.getD i 0) prec h)) dest argc sep heap

/-- The function `dstr_cat_join_symbols`. -/
def dstr_cat_join_symbols (dest : t_dstr_struct) (argc : Int) (symbols : List String)
    (sep : List Char) (heap : t_heap) : Option (t_dstr_struct × t_heap) :=
  join_loop (fun d i h => some (dstr_cat_cstr d (symbols.getD i "").toList h)) dest argc sep heap

/-! ### Search and replace -/

/-- The test `src_next = strstr(src_beg, search)` of the loops of
`dstr_replace` which replace in place, the block being `cstr`: the state is
the block, `src_beg` and, on the first path, `dest`. -/
def replace_shorter_test (size : Nat) (search : List Char)
    (st : (Nat → Char) × Nat × Nat) : Option Nat :=
  strstr st.1 size st.2.1 search

/-- The body of the loop of `dstr_replace` for a shorter replace string. -/
def replace_shorter_body (search_len replace_len : Nat) (replace : List Char)
    (st : (Nat → Char) × Nat × Nat) (src_next : Nat) : (Nat → Char) × Nat × Nat :=
  let segment_len := u32 (src_next - st.2.1)
  let cstr := memmove st.1 st.2.2 st.2.1 segment_len
  let dest := st.2.2 + segment_len
  let cstr := memcpy cstr dest (cstr_mem replace) replace_len
  (cstr, src_next + search_len, dest + replace_len)

/-- The test of the loop of `dstr_replace` for equal lengths. -/
def replace_equal_test (size : Nat) (search : List Char) (st : (Nat → Char) × Nat) :
    Option Nat :=
  strstr st.1 size st.2 search

/-- The body of the loop of `dstr_replace` for equal lengths. -/
def replace_equal_body (search_len replace_len : Nat) (replace : List Char)
    (st : (Nat → Char) × Nat) (src_next : Nat) : (Nat → Char) × Nat :=
  (memcpy st.1 src_next (cstr_mem replace) replace_len, src_next + search_len)

/-- The test of the loop of `dstr_replace` for a longer replace string: the
search is in the old block; the state is the dstring, the allocator and
`src_beg`. -/
def replace_longer_test (old_cstr : Nat → Char) (size : Nat) (search : List Char)
    (st : (t_dstr_struct × t_heap) × Nat) : Option Nat :=
  strstr old_cstr size st.2 search

/-- The body of the loop of `dstr_replace` for a longer replace string. -/
def replace_longer_body (old_cstr : Nat → Char) (search_len replace_len : Nat)
    (replace : List Char) (st : (t_dstr_struct × t_heap) × Nat) (src_next : Nat) :
    (t_dstr_struct × t_heap) × Nat :=
  let d := _dstr_cpy st.1.1 st.1.1.len_cur (fun i => old_cstr (st.2 + i))
    (u32 (src_next - st.2)) st.1.2
  let d := _dstr_cpy d.1 d.1.len_cur (cstr_mem replace) replace_len d.2
  (d, src_next + search_len)

/-- The function `dstr_replace`, each of its three loops running for `fuel`
iterations at most: `none` when a loop has not ended by then. The pointers
`src_beg`, `src_next` and `dest` are indexes in the block they point into. -/
def dstr_replace (fuel : Nat) (dstr : t_dstr_struct) (search replace : List Char)
    (heap : t_heap) : Option (t_dstr_struct × t_heap) :=
  let search_len := strnlen search DSTR_LEN_MAX
  let replace_len := strnlen replace DSTR_LEN_MAX
  let size := dstr_size dstr
  -- Replace shorter: replace in place and shift, use memmove for overlaps
  if replace_len < search_len then
    match while_some (replace_shorter_test size search)
        (replace_shorter_body search_len replace_len replace) fuel (dstr.cstr, 0, 0) with
    | none => none
    | some (cstr, src_beg, dest) =>
      let segment_len := u32 (dstr.len_cur + 4294967296 - u32 src_beg)
      let cstr := memmove cstr dest src_beg segment_len
      let len_cur := u32 (u32 dest + segment_len)
      some ({ dstr with cstr := Function.update cstr len_cur NUL, len_cur := len_cur }, heap)
  -- Equal lengths: substitute in place
  else if replace_len = search_len then
    match while_some (replace_equal_test size search)
        (replace_equal_body search_len replace_len replace) fuel (dstr.cstr, 0) with
    | none => none
    | some (cstr, _) => some ({ dstr with cstr := cstr }, heap)
  -- Replace longer: replace into new C string, use memcpy
  else
    let old_cstr := dstr.cstr
    let src_end := dstr.len_cur
    let a := _dstr_alloc_new_cstr dstr
      (min (u32 (dstr.len_cur + 10 * (replace_len - search_len))) DSTR_LEN_MAX) heap
    if DSTR_IS_NULL a.1 then some a
    else
      match while_some (replace_longer_test old_cstr size search)
          (replace_longer_body old_cstr search_len replace_len replace) fuel (a, 0) with
      | none => none
      | some (d, src_beg) =>
        let d := _dstr_cpy d.1 d.1.len_cur (fun i => old_cstr (src_beg + i))
          (u32 (src_end + 4294967296 - u32 src_beg)) d.2
        some (_dstr_realloc d.1 (_dstr_next_pow2 d.1.len_cur) d.2)

/-! ### Valid dstrings, successful allocations, renderings -/

/-- The validity dstring.h documents (`dstr != NULL_DSTR`,
`len_max <= DSTR_LEN_MAX`, `len_cur <= len_max`), with the terminating
character of the C string. -/
def dstr_valid (d : t_dstr_struct) : Prop :=
  DSTR_NOT_NULL d = true ∧ d.len_cur ≤ d.len_max ∧ d.len_max ≤ DSTR_LEN_MAX ∧
    d.cstr d.len_cur = NUL

instance (d : t_dstr_struct) : Decidable (dstr_valid d) := by
  unfold dstr_valid
  infer_instance

/-- The block `mem` holds the characters of the string `s` from the index
`pos` on. -/
def mem_holds (mem : Nat → Char) (pos : Nat) (s : List Char) : Prop :=
  ∀ i, i < s.length → mem (pos + i) = s.getD i NUL

/-- An allocator whose requests all succeed. -/
def heap_ok (heap : t_heap) : Prop := ∀ i, (heap i).isSome = true

/-- The string `_dstr_int_to_cstr` writes for an integer. -/
def int_text (v : Int) : List Char :=
  match _dstr_int_to_cstr NULL_CSTR v with
  | none => []
  | some (str, len) => (List.range len).map str

/-- The string the conversions of `dstr_cat_atom` produce for an atom. -/
def atom_text {α : Type} (io : t_stdio α) : t_atom α → List Char
  | .A_LONG v => int_text v
  | .A_FLOAT v => io.printf_f 6 v
  | .A_SYM s => s.toList

/-! ### The words of the specification, and the values of the examples -/

/-- Following the words of the specification, for a search string that is not
empty: the string `t` with every non-overlapping occurrence of `search`, found
scanning left to right, replaced by `replace`. The scan is at a character of
`t` with `skip` characters of the occurrence found last still to pass. -/
def replace_all_aux (search replace : List Char) : Nat → List Char → List Char
  | _, [] => []
  | skip + 1, _ :: t => replace_all_aux search replace skip t
  | 0, c :: t =>
    if search.isPrefixOf (c :: t) then
      replace ++ replace_all_aux search replace (search.length - 1) t
    else c :: replace_all_aux search replace 0 t

/-- Following the words of the specification: every non-overlapping
occurrence of `search` in `t`, found scanning left to right, replaced by
`replace`. -/
def replace_all (search replace t : List Char) : List Char :=
  replace_all_aux search replace 0 t

/-- A formatter that agrees with the format `%.*f` on the natural numbers:
the digits, a point, `prec` zeros. -/
def ex_stdio : t_stdio ℚ :=
  ⟨fun prec v => Nat.toDigits 10 ⌊v⌋.toNat ++ '.' :: List.replicate prec '0'⟩

end Dstr

/-! ## The object y.floor of floor.c

The embedding is the one of a 64-bit build: a `t_atom_long` is a 64-bit
integer. What the object sends out of its outlet is the result of a method:
the list of the messages sent, each the list of its atoms. -/

namespace Floor

variable {α : Type} [LinearOrderedField α] [FloorRing α]

/-- The limit `SHRT_MAX` of limits.h. -/
def SHRT_MAX : Int := 32767

/-- The conversion of a `long` to `short`. -/
def to_short (v : Int) : Int := (v + 32768) % 65536 - 32768

/-- The functions a member of the type `t_process_func` points to. -/
inductive t_process_func where
  | process_message_256
  | process_message_1024
  | process_message_4096
  | process_message_max
  | process_message_auto
  deriving DecidableEq

/-- The structure `t_floor`, the outlet apart; the function pointer is NULL
(`none`) in the object `object_alloc` returns. -/
structure t_floor where
  process_message : Option t_process_func
  a_verbose : Int
  a_maxlen_mode : String
  maxlen : Int

/-- The math.h function `floor`. -/
def floor (v : α) : α := (⌊v⌋ : α)

/-- The cast `(t_atom_long)` of a `double`: `none` when the truncated value
is not a `t_atom_long`, the conversion being undefined then. -/
def double_to_atom_long (v : α) : Option Int :=
  if -9223372036854775808 ≤ double_to_int v ∧ double_to_int v ≤ 9223372036854775807 then
    some (double_to_int v)
  else none

/-- The function `process_atom`: the atom written to `atom_out`. -/
def process_atom (atom_in : t_atom α) : Option (t_atom α) :=
  match atom_gettype atom_in with
  | .A_LONG => some (.A_LONG (atom_getlong atom_in))
  | .A_FLOAT => (double_to_atom_long (floor (atom_getfloat atom_in))).map .A_LONG
  | .A_SYM => some (.A_SYM (atom_getsym atom_in))

/-- The body the functions `process_message_256`, `process_message_1024`,
`process_message_4096` and `process_message_max` share, `size` being the
length of the local array `atoms_out`: the loop on the atoms, then the message
sent to the outlet, the first `argc` atoms of the array. The result is `none`
when an atom is written past the array or its conversion is undefined. -/
def process_message_n (size argc : Int) (argv : List (t_atom α)) :
    Option (List (List (t_atom α))) :=
  let atoms_out := for_loop 0 argc.toNat
    (fun i st =>
      match st with
      | none => none
      | some (atoms_out : Nat → t_atom α) =>
        if (i : Int) < size then
          (process_atom (argv_at argv i)).map (fun a => Function.update atoms_out i a)
        else none)
    (some (fun _ => .A_LONG 0))
  atoms_out.map (fun atoms_out => [(List.range argc.toNat).map atoms_out])

/-- The function `process_message_256`. -/
def process_message_256 (argc : Int) (argv : List (t_atom α)) :
    Option (List (List (t_atom α))) :=
  process_message_n 256 argc argv

/-- The function `process_message_1024`. -/
def process_message_1024 (argc : Int) (argv : List (t_atom α)) :
    Option (List (List (t_atom α))) :=
  process_message_n 1024 argc argv

/-- The function `process_message_4096`. -/
def process_message_4096 (argc : Int) (argv : List (t_atom α)) :
    Option (List (List (t_atom α))) :=
  process_message_n 4096 argc argv

/-- The function `process_message_max`. -/
def process_message_max (argc : Int) (argv : List (t_atom α)) :
    Option (List (List (t_atom α))) :=
  process_message_n SHRT_MAX argc argv

/-- The function `process_message_auto`. -/
def process_message_auto (argc : Int) (argv : List (t_atom α)) :
    Option (List (List (t_atom α))) :=
  if argc ≤ 256 then process_message_256 argc argv
  else if argc ≤ 1024 then process_message_1024 argc argv
  else if argc ≤ 4096 then process_message_4096 argc argv
  else if argc ≤ SHRT_MAX then process_message_max argc argv
  else some []

/-- The call `x->process_message(x, sym, argc, argv, outlet_list)`; calling a
NULL pointer is `none`. -/
def call_process_message (x : t_floor) (argc : Int) (argv : List (t_atom α)) :
    Option (List (List (t_atom α))) :=
  match x.process_message with
  | none => none
  | some .process_message_256 => process_message_256 argc argv
  | some .process_message_1024 => process_message_1024 argc argv
  | some .process_message_4096 => process_message_4096 argc argv
  | some .process_message_max => process_message_max argc argv
  | some .process_message_auto => process_message_auto argc argv

/-- The function `a_set_maxlen`; `symbol` is NULL (`none`) and `number` is 0
unless the atom `argv[0]` sets them. -/
def a_set_maxlen (x : t_floor) (argv : List (t_atom α)) : t_floor :=
  let symbol : Option String :=
    match atom_gettype (argv_at argv 0) with
    | .A_SYM => some (atom_getsym (argv_at argv 0))
    | _ => none
  let number : Int :=
    match atom_gettype (argv_at argv 0) with
    | .A_LONG => atom_getlong (argv_at argv 0)
    | _ => 0
  if symbol = some "256" ∨ number = 256 then
    { x with a_maxlen_mode := "256", maxlen := 256,
             process_message := some .process_message_256 }
  else if symbol = some "1024" ∨ number = 1024 then
    { x with a_maxlen_mode := "1024", maxlen := 1024,
             process_message := some .process_message_1024 }
  else if symbol = some "4096" ∨ number = 4096 then
    { x with a_maxlen_mode := "4096", maxlen := 4096,
             process_message := some .process_message_4096 }
  else if symbol = some "max" then
    { x with a_maxlen_mode := "max", maxlen := SHRT_MAX,
             process_message := some .process_message_max }
  else if symbol = some "auto" then
    { x with a_maxlen_mode := "auto", maxlen := SHRT_MAX,
             process_message := some .process_message_auto }
  else x

/-- The function `floor_new`, the allocation succeeding: the attribute
`maxlen` is set through `a_set_maxlen`. -/
def floor_new (α : Type) [LinearOrderedField α] [FloorRing α] : t_floor :=
  let x : t_floor := { process_message := none, a_verbose := 0, a_maxlen_mode := "", maxlen := 0 }
  let x := a_set_maxlen x [(.A_SYM "256" : t_atom α)]
  { x with a_verbose := 1 }

/-- The function `floor_list`. -/
def floor_list (x : t_floor) (argc : Int) (argv : List (t_atom α)) :
    Option (List (List (t_atom α))) :=
  let argc := if argc > x.maxlen then x.maxlen else argc
  call_process_message x (to_short argc) argv

end Floor

/-! ## Loops and buffers -/

section Loops

variable {σ : Type}

theorem for_loop_aux_succ (body : Nat → σ → σ) (k i : Nat) (st : σ) :
    for_loop_aux body (k + 1) i st = body (i + k) (for_loop_aux body k i st) := by
  induction k generalizing i st with
  | zero => simp [for_loop_aux]
  | succ k ih =>
    rw [for_loop_aux, ih (i + 1) (body i st)]
    have h : i + 1 + k = i + (k + 1) := by omega
    rw [h]
    rfl

theorem for_loop_of_le {b e : Nat} (h : e ≤ b) (body : Nat → σ → σ) (st : σ) :
    for_loop b e body st = st := by
  unfold for_loop
  rw [Nat.sub_eq_zero_of_le h]
  rfl

theorem for_loop_succ {b e : Nat} (h : b ≤ e) (body : Nat → σ → σ) (st : σ) :
    for_loop b (e + 1) body st = body e (for_loop b e body st) := by
  unfold for_loop
  have h1 : e + 1 - b = (e - b) + 1 := by omega
  rw [h1, for_loop_aux_succ]
  have h2 : b + (e - b) = e := by omega
  rw [h2]

/-- The invariant rule of a counted loop. -/
theorem for_loop_induct {b e : Nat} (hbe : b ≤ e) (body : Nat → σ → σ) (st : σ)
    (P : Nat → σ → Prop) (h0 : P b st)
    (hstep : ∀ k st, b ≤ k → k < e → P k st → P (k + 1) (body k st)) :
    P e (for_loop b e body st) := by
  induction e with
  | zero =>
    have hb : b = 0 := by omega
    subst hb
    rw [for_loop_of_le (le_refl 0)]
    exact h0
  | succ e ih =>
    rcases Nat.eq_or_lt_of_le hbe with h | h
    · subst h
      rw [for_loop_of_le (le_refl _)]
      exact h0
    · have hle : b ≤ e := by omega
      rw [for_loop_succ hle]
      exact hstep e _ hle (by omega)
        (ih hle (fun k st hk hke => hstep k st hk (by omega)))

end Loops

section Buffers

variable {α : Type}

theorem buf_set_apply (bufs : t_bufs α) (ch s : Nat) (v : α) (c t : Nat) :
    buf_set bufs ch s v c t = if c = ch ∧ t = s then v else bufs c t := by
  unfold buf_set
  by_cases hc : c = ch
  · subst hc
    by_cases ht : t = s
    · subst ht; simp
    · simp [ht]
  · simp [hc]

/-- A loop whose iteration `s` rewrites only the samples of index `s`, each
from its own old value, acts pointwise on the range of the loop. -/
theorem for_loop_pointwise (G : Nat → Nat → α → α) (body : Nat → t_bufs α → t_bufs α)
    (hbody : ∀ s bufs c t, body s bufs c t = if t = s then G s c (bufs c s) else bufs c t)
    (b e : Nat) (bufs : t_bufs α) (c t : Nat) :
    for_loop b e body bufs c t =
      if b ≤ t ∧ t < e then G t c (bufs c t) else bufs c t := by
  rcases Nat.lt_or_ge e b with h | h
  · rw [for_loop_of_le (Nat.le_of_lt h)]
    have : ¬ (b ≤ t ∧ t < e) := by omega
    simp [this]
  · refine for_loop_induct h body bufs
      (fun k st => ∀ c t, st c t = if b ≤ t ∧ t < k then G t c (bufs c t) else bufs c t)
      ?_ ?_ c t
    · intro c t
      have : ¬ (b ≤ t ∧ t < b) := by omega
      simp [this]
    · intro k st hk _ ih c t
      rw [hbody]
      by_cases hts : t = k
      · subst hts
        rw [ih c t]
        have h1 : ¬ (b ≤ t ∧ t < t) := by omega
        have h2 : b ≤ t ∧ t < t + 1 := by omega
        simp [h1, h2]
      · rw [ih c t]
        have h3 : (b ≤ t ∧ t < k + 1) ↔ (b ≤ t ∧ t < k) := by omega
        simp [hts, h3]

/-- A loop that rewrites the buffers and records the last value of a local. -/
theorem for_loop_pair {α β : Type} (F : Nat → t_bufs α → t_bufs α) (h : Nat → β)
    (b e : Nat) (hbe : b ≤ e) (outs : t_bufs α) (o : Option β) :
    for_loop b e (fun s (st : t_bufs α × Option β) => (F s st.1, some (h s))) (outs, o) =
      (for_loop b e F outs, if b < e then some (h (e - 1)) else o) := by
  refine for_loop_induct hbe _ (outs, o)
    (fun k st => st = (for_loop b k F outs, if b < k then some (h (k - 1)) else o)) ?_ ?_
  · simp [for_loop_of_le (le_refl b)]
  · intro k st hk _ ih
    subst ih
    have h1 : b < k + 1 := by omega
    simp [for_loop_succ hk, h1]

end Buffers

/-! ## The kernels of mix~.c -/

namespace Mix

section Kernels

variable {α : Type} [LinearOrderedField α]

theorem mix_add_const_1ch_apply (outs ins : t_bufs α) (di : Nat) (gain : α)
    (b e ch s : Nat) :
    mix_add_const_1ch outs ins di gain b e ch s =
      if ch < 1 ∧ b ≤ s ∧ s < e then outs ch s + gain * ins (ch * di) s
      else outs ch s := by
  unfold mix_add_const_1ch
  by_cases hg : gain = 0
  · simp [hg]
  · simp only [ne_eq, hg, not_false_eq_true, if_true]
    rw [for_loop_pointwise (fun s c v => if c = 0 then v + gain * ins 0 s else v)]
    · by_cases hc : ch = 0
      · subst hc; simp
      · have : ¬ ch < 1 := by omega
        simp [hc, this]
    · intro s bufs c t
      rw [buf_set_apply]
      by_cases hc : c = 0
      · subst hc; by_cases ht : t = s <;> simp [ht]
      · by_cases ht : t = s <;> simp [hc, ht]

theorem mix_add_const_2ch_apply (outs ins : t_bufs α) (di : Nat) (gain : α)
    (b e ch s : Nat) :
    mix_add_const_2ch outs ins di gain b e ch s =
      if ch < 2 ∧ b ≤ s ∧ s < e then outs ch s + gain * ins (ch * di) s
      else outs ch s := by
  unfold mix_add_const_2ch
  by_cases hg : gain = 0
  · simp [hg]
  · simp only [ne_eq, hg, not_false_eq_true, if_true]
    rw [for_loop_pointwise
      (fun s c v => if c = 0 then v + gain * ins 0 s
        else if c = 1 then v + gain * ins di s else v)]
    · by_cases hc : ch = 0
      · subst hc; simp
      · by_cases hc1 : ch = 1
        · subst hc1; simp
        · have : ¬ ch < 2 := by omega
          simp [hc, hc1, this]
    · intro s bufs c t
      simp only [buf_set_apply]
      by_cases hc : c = 0
      · subst hc; by_cases ht : t = s <;> simp [ht]
      · by_cases hc1 : c = 1
        · subst hc1; by_cases ht : t = s <;> simp [ht]
        · by_cases ht : t = s <;> simp [hc, hc1, ht]

/-- Both entries of the table `mix_add_const` add `gain * ins[ch * di][s]`
to the samples `begin <= s < stop` of the first `c` output buffers. -/
theorem mix_add_const_tbl {c : Nat} (hc : c = 1 ∨ c = 2) :
    ∃ f, tbl_get (mix_add_const : List (t_bufs α → t_bufs α → Nat → α → Nat → Nat → t_bufs α))
        ((c : Int) - 1) = some f ∧
      ∀ (outs ins : t_bufs α) (di : Nat) (gain : α) (b e ch s : Nat),
        f outs ins di gain b e ch s =
          if ch < c ∧ b ≤ s ∧ s < e then outs ch s + gain * ins (ch * di) s
          else outs ch s := by
  rcases hc with h | h
  · subst h
    exact ⟨mix_add_const_1ch, by simp [tbl_get, mix_add_const], mix_add_const_1ch_apply⟩
  · subst h
    exact ⟨mix_add_const_2ch, by simp [tbl_get, mix_add_const], mix_add_const_2ch_apply⟩

theorem mix_add_ramp_1ch_apply (outs ins : t_bufs α) (di : Nat) (gain0 dgain adjust : α)
    (b e ch s : Nat) :
    (mix_add_ramp_1ch outs ins di gain0 dgain adjust b e).1 ch s =
      if ch < 1 ∧ s < e then outs ch s + (gain0 + (s : α) * dgain) * adjust * ins (ch * di) s
      else outs ch s := by
  unfold mix_add_ramp_1ch
  by_cases hd : dgain = 0
  · by_cases hg : gain0 * adjust = 0
    · simp [hd, hg]
    · simp only [hd, if_true, ne_eq, hg, not_false_eq_true]
      rw [for_loop_pointwise (fun s c v => if c = 0 then v + gain0 * adjust * ins 0 s else v)]
      · by_cases hc : ch = 0
        · subst hc; simp
        · have : ¬ ch < 1 := by omega
          simp [hc, this]
      · intro s bufs c t
        rw [buf_set_apply]
        by_cases hc : c = 0
        · subst hc; by_cases ht : t = s <;> simp [ht]
        · by_cases ht : t = s <;> simp [hc, ht]
  · simp only [hd, if_false]
    rw [for_loop_pointwise
      (fun s c v => if c = 0 then v + (gain0 * adjust + (s : α) * (dgain * adjust)) * ins 0 s
        else v)]
    · by_cases hc : ch = 0
      · subst hc
        by_cases hs : s < e
        · simp only [hs, and_true, zero_le, Nat.lt_one_iff, zero_mul, if_true,
            Nat.ofNat_pos]
          ring
        · simp [hs]
      · have : ¬ ch < 1 := by omega
        simp [hc, this]
    · intro s bufs c t
      rw [buf_set_apply]
      by_cases hc : c = 0
      · subst hc; by_cases ht : t = s <;> simp [ht]
      · by_cases ht : t = s <;> simp [hc, ht]

theorem mix_add_ramp_1ch_gain (outs ins : t_bufs α) (di : Nat) (gain0 dgain adjust : α)
    (b e : Nat) :
    (mix_add_ramp_1ch outs ins di gain0 dgain adjust b e).2 = gain0 + (e : α) * dgain := by
  unfold mix_add_ramp_1ch
  by_cases hd : dgain = 0 <;> simp [hd]

theorem mix_add_ramp_2ch_apply (outs ins : t_bufs α) (di : Nat) (gain0 dgain adjust : α)
    (b e ch s : Nat) :
    (mix_add_ramp_2ch outs ins di gain0 dgain adjust b e).1 ch s =
      if ch < 2 ∧ s < e then outs ch s + (gain0 + (s : α) * dgain) * adjust * ins (ch * di) s
      else outs ch s := by
  unfold mix_add_ramp_2ch
  by_cases hd : dgain = 0
  · by_cases hg : gain0 * adjust = 0
    · simp [hd, hg]
    · simp only [hd, if_true, ne_eq, hg, not_false_eq_true]
      rw [for_loop_pointwise
        (fun s c v => if c = 0 then v + gain0 * adjust * ins 0 s
          else if c = 1 then v + gain0 * adjust * ins di s else v)]
      · by_cases hc : ch = 0
        · subst hc; simp
        · by_cases hc1 : ch = 1
          · subst hc1; simp
          · have : ¬ ch < 2 := by omega
            simp [hc, hc1, this]
      · intro s bufs c t
        simp only [buf_set_apply]
        by_cases hc : c = 0
        · subst hc; by_cases ht : t = s <;> simp [ht]
        · by_cases hc1 : c = 1
          · subst hc1; by_cases ht : t = s <;> simp [ht]
          · by_cases ht : t = s <;> simp [hc, hc1, ht]
  · simp only [hd, if_false]
    rw [for_loop_pointwise
      (fun s c v => if c = 0 then v + (gain0 * adjust + (s : α) * (dgain * adjust)) * ins 0 s
        else if c = 1 then v + (gain0 * adjust + (s : α) * (dgain * adjust)) * ins di s
        else v)]
    · by_cases hc : ch = 0
      · subst hc
        by_cases hs : s < e
        · simp only [hs, and_true, zero_le, Nat.lt_one_iff, zero_mul, if_true,
            Nat.ofNat_pos]
          ring
        · simp [hs]
      · by_cases hc1 : ch = 1
        · subst hc1
          by_cases hs : s < e
          · have h12 : (1 : Nat) < 2 := by omega
            simp only [hs, and_true, zero_le, one_mul, if_true, if_false,
              h12, one_ne_zero]
            ring
          · simp [hs]
        · have : ¬ ch < 2 := by omega
          simp [hc, hc1, this]
    · intro s bufs c t
      simp only [buf_set_apply]
      by_cases hc : c = 0
      · subst hc; by_cases ht : t = s <;> simp [ht]
      · by_cases hc1 : c = 1
        · subst hc1; by_cases ht : t = s <;> simp [ht]
        · by_cases ht : t = s <;> simp [hc, hc1, ht]

theorem mix_add_ramp_2ch_gain (outs ins : t_bufs α) (di : Nat) (gain0 dgain adjust : α)
    (b e : Nat) :
    (mix_add_ramp_2ch outs ins di gain0 dgain adjust b e).2 = gain0 + (e : α) * dgain := by
  unfold mix_add_ramp_2ch
  by_cases hd : dgain = 0 <;> simp [hd]

/-- Both entries of the table `mix_add_ramp` add the input scaled by the
ramped, adjusted gain to the samples `s < stop` of the first `c` output
buffers, and return the gain at the end of the ramp. -/
theorem mix_add_ramp_tbl {c : Nat} (hc : c = 1 ∨ c = 2) :
    ∃ f, tbl_get (mix_add_ramp :
          List (t_bufs α → t_bufs α → Nat → α → α → α → Nat → Nat → t_bufs α × α))
        ((c : Int) - 1) = some f ∧
      ∀ (outs ins : t_bufs α) (di : Nat) (gain0 dgain adjust : α) (b e : Nat),
        (f outs ins di gain0 dgain adjust b e).2 = gain0 + (e : α) * dgain ∧
        ∀ ch s, (f outs ins di gain0 dgain adjust b e).1 ch s =
          if ch < c ∧ s < e then
            outs ch s + (gain0 + (s : α) * dgain) * adjust * ins (ch * di) s
          else outs ch s := by
  rcases hc with h | h
  · subst h
    exact ⟨mix_add_ramp_1ch, by simp [tbl_get, mix_add_ramp], fun outs ins di g d a b e =>
      ⟨mix_add_ramp_1ch_gain outs ins di g d a b e,
       mix_add_ramp_1ch_apply outs ins di g d a b e⟩⟩
  · subst h
    exact ⟨mix_add_ramp_2ch, by simp [tbl_get, mix_add_ramp], fun outs ins di g d a b e =>
      ⟨mix_add_ramp_2ch_gain outs ins di g d a b e,
       mix_add_ramp_2ch_apply outs ins di g d a b e⟩⟩

theorem mix_mult_1ch_apply (outs : t_bufs α) (gain0 dgain : α) (b e : Nat) (hbe : b ≤ e)
    (ch s : Nat) :
    (mix_mult_1ch outs gain0 dgain b e).1 ch s =
      if ch < 1 ∧ b ≤ s ∧ s < e then outs ch s * (gain0 + (s : α) * dgain)
      else outs ch s := by
  unfold mix_mult_1ch
  by_cases hd : dgain = 0
  · simp only [hd, if_true]
    rw [for_loop_pointwise (fun _ c v => if c = 0 then v * gain0 else v)]
    · by_cases hc : ch = 0
      · subst hc; simp
      · have : ¬ ch < 1 := by omega
        simp [hc, this]
    · intro s bufs c t
      rw [buf_set_apply]
      by_cases hc : c = 0
      · subst hc; by_cases ht : t = s <;> simp [ht]
      · by_cases ht : t = s <;> simp [hc, ht]
  · simp only [hd, if_false]
    rw [for_loop_pair
      (fun s (bufs : t_bufs α) => buf_set bufs 0 s (bufs 0 s * (gain0 + (s : α) * dgain)))
      (fun s => gain0 + (s : α) * dgain) b e hbe]
    simp only []
    rw [for_loop_pointwise (fun s c v => if c = 0 then v * (gain0 + (s : α) * dgain) else v)]
    · by_cases hc : ch = 0
      · subst hc; simp
      · have : ¬ ch < 1 := by omega
        simp [hc, this]
    · intro s bufs c t
      rw [buf_set_apply]
      by_cases hc : c = 0
      · subst hc; by_cases ht : t = s <;> simp [ht]
      · by_cases ht : t = s <;> simp [hc, ht]

theorem mix_mult_1ch_gain (outs : t_bufs α) (gain0 dgain : α) (b e : Nat) (hbe : b ≤ e) :
    (mix_mult_1ch outs gain0 dgain b e).2 =
      if dgain = 0 ∨ b < e then some (gain0 + (e : α) * dgain) else none := by
  unfold mix_mult_1ch
  by_cases hd : dgain = 0
  · simp [hd]
  · simp only [hd, if_false, false_or]
    rw [for_loop_pair
      (fun s (bufs : t_bufs α) => buf_set bufs 0 s (bufs 0 s * (gain0 + (s : α) * dgain)))
      (fun s => gain0 + (s : α) * dgain) b e hbe]
    by_cases hlt : b < e
    · have h1 : ((e - 1 : Nat) : α) = (e : α) - 1 := by
        rw [Nat.cast_sub (by omega)]; simp
      simp only [hlt, if_true, Option.map_some', h1]
      congr 1
      ring
    · simp [hlt]

theorem mix_mult_2ch_apply (outs : t_bufs α) (gain0 dgain : α) (b e : Nat) (hbe : b ≤ e)
    (ch s : Nat) :
    (mix_mult_2ch outs gain0 dgain b e).1 ch s =
      if ch < 2 ∧ b ≤ s ∧ s < e then outs ch s * (gain0 + (s : α) * dgain)
      else outs ch s := by
  unfold mix_mult_2ch
  by_cases hd : dgain = 0
  · simp only [hd, if_true]
    rw [for_loop_pointwise
      (fun _ c v => if c = 0 then v * gain0 else if c = 1 then v * gain0 else v)]
    · by_cases hc : ch = 0
      · subst hc; simp
      · by_cases hc1 : ch = 1
        · subst hc1; simp
        · have : ¬ ch < 2 := by omega
          simp [hc, hc1, this]
    · intro s bufs c t
      simp only [buf_set_apply]
      by_cases hc : c = 0
      · subst hc; by_cases ht : t = s <;> simp [ht]
      · by_cases hc1 : c = 1
        · subst hc1; by_cases ht : t = s <;> simp [ht]
        · by_cases ht : t = s <;> simp [hc, hc1, ht]
  · simp only [hd, if_false]
    rw [for_loop_pair
      (fun s (bufs : t_bufs α) =>
        buf_set (buf_set bufs 0 s (bufs 0 s * (gain0 + (s : α) * dgain))) 1 s
          (buf_set bufs 0 s (bufs 0 s * (gain0 + (s : α) * dgain)) 1 s
            * (gain0 + (s : α) * dgain)))
      (fun s => gain0 + (s : α) * dgain) b e hbe]
    simp only []
    rw [for_loop_pointwise
      (fun s c v => if c = 0 then v * (gain0 + (s : α) * dgain)
        else if c = 1 then v * (gain0 + (s : α) * dgain) else v)]
    · by_cases hc : ch = 0
      · subst hc; simp
      · by_cases hc1 : ch = 1
        · subst hc1; simp
        · have : ¬ ch < 2 := by omega
          simp [hc, hc1, this]
    · intro s bufs c t
      simp only [buf_set_apply]
      by_cases hc : c = 0
      · subst hc; by_cases ht : t = s <;> simp [ht]
      · by_cases hc1 : c = 1
        · subst hc1; by_cases ht : t = s <;> simp [ht]
        · by_cases ht : t = s <;> simp [hc, hc1, ht]

theorem mix_mult_2ch_gain (outs : t_bufs α) (gain0 dgain : α) (b e : Nat) (hbe : b ≤ e) :
    (mix_mult_2ch outs gain0 dgain b e).2 =
      if dgain = 0 ∨ b < e then some (gain0 + (e : α) * dgain) else none := by
  unfold mix_mult_2ch
  by_cases hd : dgain = 0
  · simp [hd]
  · simp only [hd, if_false, false_or]
    rw [for_loop_pair
      (fun s (bufs : t_bufs α) =>
        buf_set (buf_set bufs 0 s (bufs 0 s * (gain0 + (s : α) * dgain))) 1 s
          (buf_set bufs 0 s (bufs 0 s * (gain0 + (s : α) * dgain)) 1 s
            * (gain0 + (s : α) * dgain)))
      (fun s => gain0 + (s : α) * dgain) b e hbe]
    by_cases hlt : b < e
    · have h1 : ((e - 1 : Nat) : α) = (e : α) - 1 := by
        rw [Nat.cast_sub (by omega)]; simp
      simp only [hlt, if_true, Option.map_some', h1]
      congr 1
      ring
    · simp [hlt]

/-- Both entries of the table `mix_mult` multiply the samples
`begin <= s < stop` of the first `c` output buffers by the ramped gain. The
gain at the end of the ramp is returned, unless the gain is ramped
(`dgain != 0`) over an empty range. -/
theorem mix_mult_tbl {c : Nat} (hc : c = 1 ∨ c = 2) :
    ∃ f, tbl_get (mix_mult : List (t_bufs α → α → α → Nat → Nat → t_bufs α × Option α))
        ((c : Int) - 1) = some f ∧
      ∀ (outs : t_bufs α) (gain0 dgain : α) (b e : Nat), b ≤ e →
        f outs gain0 dgain b e =
          (fun ch s => if ch < c ∧ b ≤ s ∧ s < e then outs ch s * (gain0 + (s : α) * dgain)
            else outs ch s,
           if dgain = 0 ∨ b < e then some (gain0 + (e : α) * dgain) else none) := by
  rcases hc with h | h
  · subst h
    exact ⟨mix_mult_1ch, by simp [tbl_get, mix_mult], fun outs g d b e hbe =>
      Prod.ext (funext fun ch => funext fun s => mix_mult_1ch_apply outs g d b e hbe ch s)
        (mix_mult_1ch_gain outs g d b e hbe)⟩
  · subst h
    exact ⟨mix_mult_2ch, by simp [tbl_get, mix_mult], fun outs g d b e hbe =>
      Prod.ext (funext fun ch => funext fun s => mix_mult_2ch_apply outs g d b e hbe ch s)
        (mix_mult_2ch_gain outs g d b e hbe)⟩

end Kernels

end Mix

/-! ## The audio function -/

namespace Mix

section Perform

variable {α : Type} [LinearOrderedField α]

theorem u32_of_lt {n : Nat} (h : n < 4294967296) : u32 n = n := by
  unfold u32; omega

theorem u32_sub {c n : Nat} (hc : c < 4294967296) (hn : n ≤ c) :
    u32 (c + 4294967296 - u32 n) = c - n := by
  unfold u32; omega

/-- The loop that clears the output buffers. -/
theorem zero_loop_apply (outs : t_bufs α) (c n ch s : Nat) :
    for_loop 0 c (fun ch outs => buf_zero outs ch n) outs ch s =
      if ch < c ∧ s < n then 0 else outs ch s := by
  refine for_loop_induct (Nat.zero_le c) _ outs
    (fun k st => ∀ ch s, st ch s = if ch < k ∧ s < n then 0 else outs ch s) ?_ ?_ ch s
  · intro ch s; simp
  · intro k st _ _ ih ch s
    unfold buf_zero
    by_cases hk : ch = k
    · subst hk
      by_cases hs : s < n
      · simp [hs]
      · simp [hs, ih]
    · have h1 : (ch < k + 1) ↔ ch < k := by omega
      simp [Function.update_noteq hk, ih, h1]

/-- A loop that stores `v i` at every index of its range. -/
theorem for_loop_update {β : Type} (b e : Nat) (v : Nat → β) (g : Nat → β) :
    for_loop b e (fun i g => Function.update g i (v i)) g =
      fun j => if b ≤ j ∧ j < e then v j else g j := by
  rcases Nat.lt_or_ge e b with h | h
  · rw [for_loop_of_le (Nat.le_of_lt h)]
    funext j
    have : ¬ (b ≤ j ∧ j < e) := by omega
    simp [this]
  · refine for_loop_induct h _ g
      (fun k st => st = fun j => if b ≤ j ∧ j < k then v j else g j) ?_ ?_
    · funext j
      have : ¬ (b ≤ j ∧ j < b) := by omega
      simp [this]
    · intro k st hk _ ih
      subst ih
      funext j
      by_cases hj : j = k
      · subst hj
        have : b ≤ j ∧ j < j + 1 := by omega
        simp [this]
      · have h1 : (b ≤ j ∧ j < k + 1) ↔ (b ≤ j ∧ j < k) := by omega
        simp [Function.update_noteq hj, h1]

/-- The steady-state part adds, to the samples `ramp_len <= s < sampleframes`
of every output bus, the inputs of the bus scaled by the effective gains. -/
theorem mix_perform64_const_spec (x : t_mix α)
    (hc : x.chan_out_cnt = 1 ∨ x.chan_out_cnt = 2) (ins outs : t_bufs α)
    (ramp_len n bangs : Nat) (hn : n < 4294967296) :
    ∃ r, mix_perform64_const x ins outs ramp_len n bangs = some r ∧
      r.x = x ∧ r.bangs = bangs ∧
      ∀ ch s, r.outs ch s =
        if ch < x.chan_out_cnt ∧ ramp_len ≤ s ∧ s < n then
          outs ch s + ∑ i in Finset.range x.chan_in_cnt,
            (x.master * x.gains_adjust i * x.gains i) * ins (ch * x.chan_in_cnt + i) s
        else outs ch s := by
  obtain ⟨f, hf, hspec⟩ := @mix_add_const_tbl α _ x.chan_out_cnt hc
  unfold mix_perform64_const
  rw [hf]
  refine ⟨_, rfl, rfl, rfl, ?_⟩
  simp only [u32_of_lt hn]
  intro ch s
  refine for_loop_induct (Nat.zero_le x.chan_in_cnt) _ outs
    (fun k st => ∀ ch s, st ch s =
      if ch < x.chan_out_cnt ∧ ramp_len ≤ s ∧ s < n then
        outs ch s + ∑ i in Finset.range k,
          (x.master * x.gains_adjust i * x.gains i) * ins (ch * x.chan_in_cnt + i) s
      else outs ch s) ?_ ?_ ch s
  · intro ch s; simp
  · intro k st _ _ ih ch s
    rw [hspec]
    by_cases hcond : ch < x.chan_out_cnt ∧ ramp_len ≤ s ∧ s < n
    · simp only [hcond, and_self, if_true, ih, Finset.sum_range_succ, buf_shift]
      ring
    · simp only [hcond, if_false, ih]

/-- The steady-state part, as an equation. -/
theorem mix_perform64_const_eq (x : t_mix α) (ins outs : t_bufs α)
    (ramp_len n bangs : Nat)
    (hc : x.chan_out_cnt = 1 ∨ x.chan_out_cnt = 2) (hn : n < 4294967296) :
    mix_perform64_const x ins outs ramp_len n bangs =
      some ⟨x, fun ch s =>
        if ch < x.chan_out_cnt ∧ ramp_len ≤ s ∧ s < n then
          outs ch s + ∑ i in Finset.range x.chan_in_cnt,
            (x.master * x.gains_adjust i * x.gains i) * ins (ch * x.chan_in_cnt + i) s
        else outs ch s, bangs⟩ := by
  obtain ⟨r, hr, hx, hb, ho⟩ := mix_perform64_const_spec x hc ins outs ramp_len n bangs hn
  rw [hr]
  cases r with
  | mk rx routs rbangs =>
    simp only at hx hb ho
    subst hx hb
    have : routs = fun ch s =>
        if ch < rx.chan_out_cnt ∧ ramp_len ≤ s ∧ s < n then
          outs ch s + ∑ i in Finset.range rx.chan_in_cnt,
            (rx.master * rx.gains_adjust i * rx.gains i) * ins (ch * rx.chan_in_cnt + i) s
        else outs ch s := by
      funext ch s; exact ho ch s
    rw [this]

/-- The silence short-circuit: the outputs are cleared and nothing else is
done. -/
theorem mix_perform64_silence (x : t_mix α) (ins outs : t_bufs α) (n : Nat)
    (hm : x.master = 0) (ht : x.master_targ = 0) :
    mix_perform64 x ins outs n =
      some ⟨x, for_loop 0 x.chan_out_cnt (fun ch outs => buf_zero outs ch n) outs, 0⟩ := by
  unfold mix_perform64
  simp [hm, ht]

/-- The steady-state block. -/
theorem mix_perform64_steady (x : t_mix α)
    (hc : x.chan_out_cnt = 1 ∨ x.chan_out_cnt = 2) (ins outs : t_bufs α) (n : Nat)
    (hn : n < 4294967296) (hns : ¬ (x.master = 0 ∧ x.master_targ = 0))
    (hcn : x.cntd = CNTD_CONST) :
    ∃ r, mix_perform64 x ins outs n = some r ∧ r.x = x ∧ r.bangs = 0 ∧
      ∀ ch s, r.outs ch s =
        if ch < x.chan_out_cnt ∧ s < n then
          ∑ i in Finset.range x.chan_in_cnt,
            (x.master * x.gains_adjust i * x.gains i) * ins (ch * x.chan_in_cnt + i) s
        else outs ch s := by
  obtain ⟨r, hr, hx, hb, ho⟩ := mix_perform64_const_spec x hc ins
    (for_loop 0 x.chan_out_cnt (fun ch outs => buf_zero outs ch n) outs) 0 n 0 hn
  refine ⟨r, ?_, hx, hb, ?_⟩
  · unfold mix_perform64
    simp only [hns, if_false, hcn, if_true]
    exact hr
  · intro ch s
    rw [ho, zero_loop_apply]
    by_cases h : ch < x.chan_out_cnt ∧ s < n
    · simp [h]
    · have h2 : ¬ (ch < x.chan_out_cnt ∧ 0 ≤ s ∧ s < n) := by
        intro h3; exact h ⟨h3.1, h3.2.2⟩
      simp [h, h2]

/-- The loop over the input channels of the ramped part: every channel gain
moves by `ramp_len` increments and the ramped inputs are summed. -/
theorem ramp_loop_spec (x : t_mix α) (ins outs : t_bufs α) (c ramp_len : Nat)
    (f : t_bufs α → t_bufs α → Nat → α → α → α → Nat → Nat → t_bufs α × α)
    (hf : ∀ (outs ins : t_bufs α) (di : Nat) (gain0 dgain adjust : α) (b e : Nat),
        (f outs ins di gain0 dgain adjust b e).2 = gain0 + (e : α) * dgain ∧
        ∀ ch s, (f outs ins di gain0 dgain adjust b e).1 ch s =
          if ch < c ∧ s < e then
            outs ch s + (gain0 + (s : α) * dgain) * adjust * ins (ch * di) s
          else outs ch s) :
    for_loop 0 x.chan_in_cnt
        (fun i (st : (Nat → α) × t_bufs α) =>
          let dgain := (x.gains_targ i - st.1 i) / (x.cntd : α)
          let r := f st.2 (buf_shift ins i) x.chan_in_cnt
            (st.1 i) dgain (x.gains_adjust i) 0 ramp_len
          (Function.update st.1 i r.2, r.1))
        (x.gains, outs) =
      (fun j => if j < x.chan_in_cnt then
          x.gains j + (ramp_len : α) * ((x.gains_targ j - x.gains j) / (x.cntd : α))
        else x.gains j,
       fun ch s => if ch < c ∧ s < ramp_len then
          outs ch s + ∑ i in Finset.range x.chan_in_cnt,
            (x.gains i + (s : α) * ((x.gains_targ i - x.gains i) / (x.cntd : α)))
              * x.gains_adjust i * ins (ch * x.chan_in_cnt + i) s
        else outs ch s) := by
  refine for_loop_induct (Nat.zero_le x.chan_in_cnt) _ (x.gains, outs)
    (fun k st => st =
      (fun j => if j < k then
          x.gains j + (ramp_len : α) * ((x.gains_targ j - x.gains j) / (x.cntd : α))
        else x.gains j,
       fun ch s => if ch < c ∧ s < ramp_len then
          outs ch s + ∑ i in Finset.range k,
            (x.gains i + (s : α) * ((x.gains_targ i - x.gains i) / (x.cntd : α)))
              * x.gains_adjust i * ins (ch * x.chan_in_cnt + i) s
        else outs ch s)) ?_ ?_
  · simp
  · intro k st _ _ ih
    subst ih
    simp only [lt_self_iff_false, if_false]
    refine Prod.ext ?_ ?_
    · funext j
      simp only [(hf _ _ _ _ _ _ _ _).1]
      by_cases hj : j = k
      · subst hj; simp
      · have h1 : (j < k + 1) ↔ j < k := by omega
        simp [Function.update_noteq hj, h1]
    · funext ch s
      simp only [(hf _ _ _ _ _ _ _ _).2]
      by_cases hcond : ch < c ∧ s < ramp_len
      · simp only [hcond, and_self, if_true, Finset.sum_range_succ, buf_shift]
        ring
      · simp only [hcond, if_false]

/-- A block that ends before the countdown does, or with it: the whole block
is ramped, the gains move by `n` increments, and no bang is sent. A block of
no sample is included when master is at its target. -/
theorem mix_perform64_ramp_block (x : t_mix α)
    (hc : x.chan_out_cnt = 1 ∨ x.chan_out_cnt = 2) (hcntd : x.cntd < 4294967296)
    (ins outs : t_bufs α) (n : Nat)
    (hns : ¬ (x.master = 0 ∧ x.master_targ = 0))
    (hne : x.cntd ≠ CNTD_CONST) (hne0 : x.cntd ≠ 0) (hle : n ≤ x.cntd)
    (h1 : 1 ≤ n ∨ x.master_targ = x.master) :
    mix_perform64 x ins outs n = some
      ⟨{ x with
          gains := fun j => if j < x.chan_in_cnt then
              x.gains j + (n : α) * ((x.gains_targ j - x.gains j) / (x.cntd : α))
            else x.gains j,
          master := x.master + (n : α) * ((x.master_targ - x.master) / (x.cntd : α)),
          cntd := x.cntd - n },
        fun ch s =>
          if ch < x.chan_out_cnt ∧ s < n then
            (∑ i in Finset.range x.chan_in_cnt,
              (x.gains i + (s : α) * ((x.gains_targ i - x.gains i) / (x.cntd : α)))
                * x.gains_adjust i * ins (ch * x.chan_in_cnt + i) s)
            * (x.master + (s : α) * ((x.master_targ - x.master) / (x.cntd : α)))
          else outs ch s,
        0⟩ := by
  obtain ⟨fa, hfa, hspeca⟩ := @mix_add_ramp_tbl α _ x.chan_out_cnt hc
  obtain ⟨fm, hfm, hspecm⟩ := @mix_mult_tbl α _ x.chan_out_cnt hc
  have hrl : (if x.cntd > n then n else x.cntd) = n := by
    split_ifs <;> omega
  unfold mix_perform64
  simp only [hns, hne, hne0, if_false, hrl, hfa, hfm]
  rw [ramp_loop_spec x ins _ x.chan_out_cnt n fa hspeca]
  have hpos : ((x.master_targ - x.master) / (x.cntd : α) = 0 ∨ 0 < n) := by
    rcases h1 with h | h
    · exact Or.inr (by omega)
    · left; rw [h, sub_self, zero_div]
  simp only [hspecm _ _ _ 0 n (Nat.zero_le n), hpos, if_true, u32_sub hcntd hle]
  congr 2
  funext ch s
  simp only [zero_loop_apply]
  by_cases hcond : ch < x.chan_out_cnt ∧ s < n
  · have h2 : ch < x.chan_out_cnt ∧ 0 ≤ s ∧ s < n := ⟨hcond.1, Nat.zero_le s, hcond.2⟩
    simp only [hcond, h2, and_self, if_true, zero_add]
  · have h2 : ¬ (ch < x.chan_out_cnt ∧ 0 ≤ s ∧ s < n) := fun h => hcond ⟨h.1, h.2.2⟩
    simp only [hcond, h2, if_false]

/-- A block of at least one sample that ends before the countdown does, or
with it. -/
theorem mix_perform64_ramp_part (x : t_mix α)
    (hc : x.chan_out_cnt = 1 ∨ x.chan_out_cnt = 2) (hcntd : x.cntd < 4294967296)
    (ins outs : t_bufs α) (n : Nat)
    (hns : ¬ (x.master = 0 ∧ x.master_targ = 0))
    (hne : x.cntd ≠ CNTD_CONST) (hle : n ≤ x.cntd) (h1 : 1 ≤ n) :
    mix_perform64 x ins outs n = some
      ⟨{ x with
          gains := fun j => if j < x.chan_in_cnt then
              x.gains j + (n : α) * ((x.gains_targ j - x.gains j) / (x.cntd : α))
            else x.gains j,
          master := x.master + (n : α) * ((x.master_targ - x.master) / (x.cntd : α)),
          cntd := x.cntd - n },
        fun ch s =>
          if ch < x.chan_out_cnt ∧ s < n then
            (∑ i in Finset.range x.chan_in_cnt,
              (x.gains i + (s : α) * ((x.gains_targ i - x.gains i) / (x.cntd : α)))
                * x.gains_adjust i * ins (ch * x.chan_in_cnt + i) s)
            * (x.master + (s : α) * ((x.master_targ - x.master) / (x.cntd : α)))
          else outs ch s,
        0⟩ :=
  mix_perform64_ramp_block x hc hcntd ins outs n hns hne (by omega) hle (Or.inl h1)

/-- A block that outlasts the countdown: the first `cntd` samples are ramped,
the gains are set to their targets, one bang is sent, and the rest of the
block is rendered with the targets. -/
theorem mix_perform64_ramp_end (x : t_mix α)
    (hc : x.chan_out_cnt = 1 ∨ x.chan_out_cnt = 2)
    (ins outs : t_bufs α) (n : Nat) (hn : n < 4294967296)
    (hns : ¬ (x.master = 0 ∧ x.master_targ = 0))
    (hne : x.cntd ≠ CNTD_CONST) (hlt : x.cntd < n) :
    mix_perform64 x ins outs n = some
      ⟨{ x with
          gains := fun j => if j < x.chan_in_cnt then x.gains_targ j else x.gains j,
          master := x.master_targ,
          cntd := CNTD_CONST },
        fun ch s =>
          if ch < x.chan_out_cnt ∧ s < n then
            if s < x.cntd then
              (∑ i in Finset.range x.chan_in_cnt,
                (x.gains i + (s : α) * ((x.gains_targ i - x.gains i) / (x.cntd : α)))
                  * x.gains_adjust i * ins (ch * x.chan_in_cnt + i) s)
              * (x.master + (s : α) * ((x.master_targ - x.master) / (x.cntd : α)))
            else
              ∑ i in Finset.range x.chan_in_cnt,
                (x.master_targ * x.gains_adjust i * x.gains_targ i)
                  * ins (ch * x.chan_in_cnt + i) s
          else outs ch s,
        1⟩ := by
  obtain ⟨fa, hfa, hspeca⟩ := @mix_add_ramp_tbl α _ x.chan_out_cnt hc
  obtain ⟨fm, hfm, hspecm⟩ := @mix_mult_tbl α _ x.chan_out_cnt hc
  have hrl : (if x.cntd > n then n else x.cntd) = x.cntd := by
    split_ifs <;> omega
  have hrn : ¬ (x.cntd = n) := by omega
  unfold mix_perform64 mix_perform64_end
  simp only [hns, hne, if_false, hrl, hfa, hfm, hrn]
  by_cases h0 : x.cntd = 0
  · simp only [h0, if_true]
    rw [for_loop_update, mix_perform64_const_eq]
    rotate_left
    · exact hc
    · exact hn
    congr 2
    · simp only [t_mix.mk.injEq, true_and, and_true]
      funext j
      by_cases hj : j < x.chan_in_cnt <;> simp [hj]
    · funext ch s
      simp only [zero_loop_apply]
      by_cases hch : ch < x.chan_out_cnt
      · by_cases hs : s < n
        · simp only [hch, hs, and_self, zero_le, if_true, zero_add, Nat.not_lt_zero, if_false]
          refine Finset.sum_congr rfl (fun i hi => ?_)
          rw [Finset.mem_range] at hi
          simp only [hi, and_true, zero_le, if_true]
        · simp only [hch, hs, and_false, if_false]
      · simp only [hch, false_and, if_false]
  simp only [h0, if_false]
  rw [ramp_loop_spec x ins _ x.chan_out_cnt x.cntd fa hspeca]
  have hpos : ((x.master_targ - x.master) / (x.cntd : α) = 0 ∨ 0 < x.cntd) := by
    rcases Nat.eq_zero_or_pos x.cntd with h | h
    · left; simp [h]
    · right; exact h
  simp only [hspecm _ _ _ 0 x.cntd (Nat.zero_le _), hpos, if_true, hrn, if_false]
  have hg : (for_loop 0 x.chan_in_cnt
      (fun i gains => Function.update gains i (x.gains_targ i)) fun j =>
        if j < x.chan_in_cnt then
          x.gains j + (x.cntd : α) * ((x.gains_targ j - x.gains j) / (x.cntd : α))
        else x.gains j) =
      fun j => if j < x.chan_in_cnt then x.gains_targ j else x.gains j := by
    rw [for_loop_update]
    funext j
    by_cases hj : j < x.chan_in_cnt <;> simp [hj]
  rw [hg, mix_perform64_const_eq]
  rotate_left
  · exact hc
  · exact hn
  congr 2
  funext ch s
  simp only [zero_loop_apply]
  by_cases hch : ch < x.chan_out_cnt
  · by_cases hs : s < n
    · by_cases hsc : s < x.cntd
      · have h3 : ¬ (x.cntd ≤ s) := by omega
        simp only [hch, hs, hsc, h3, and_self, and_true, true_and, and_false, if_true,
          if_false, zero_le, zero_add]
      · have h3 : x.cntd ≤ s := by omega
        simp only [hch, hs, hsc, h3, and_self, and_true, true_and, and_false, if_true,
          if_false, zero_le, zero_add]
        refine Finset.sum_congr rfl (fun i hi => ?_)
        rw [Finset.mem_range] at hi
        simp only [hi, if_true]
    · have h3 : ¬ (s < x.cntd) := by omega
      simp only [hch, hs, h3, and_self, and_true, true_and, and_false, if_true, if_false]
  · simp only [hch, false_and, if_false]

/-- The audio function writes no field of the object but `master`, `gains`
and `cntd`. -/
theorem mix_perform64_frame (x : t_mix α) (ins outs : t_bufs α) (n : Nat)
    (r : t_perform α) (h : mix_perform64 x ins outs n = some r) :
    r.x.chan_in_cnt = x.chan_in_cnt ∧ r.x.chan_out_cnt = x.chan_out_cnt ∧
    r.x.master_targ = x.master_targ ∧ r.x.gains_targ = x.gains_targ ∧
    r.x.gains_adjust = x.gains_adjust ∧ r.x.a_verbose = x.a_verbose ∧
    r.x.a_ramp = x.a_ramp ∧ r.x.ramp_samp = x.ramp_samp := by
  unfold mix_perform64 mix_perform64_end mix_perform64_const at h
  simp only at h
  split_ifs at h <;> (repeat' (split at h)) <;>
    first
    | (cases h; done)
    | (cases h; simp)

/-- A block of at least one sample is rendered, whatever the state, and the
countdown stays a `t_uint32`. -/
theorem mix_perform64_total (x : t_mix α)
    (hc : x.chan_out_cnt = 1 ∨ x.chan_out_cnt = 2) (hcntd : x.cntd < 4294967296)
    (ins outs : t_bufs α) (n : Nat) (h1 : 1 ≤ n) (hn : n < 4294967296) :
    ∃ r, mix_perform64 x ins outs n = some r ∧ r.x.cntd < 4294967296 := by
  by_cases hs : x.master = 0 ∧ x.master_targ = 0
  · exact ⟨_, mix_perform64_silence x ins outs n hs.1 hs.2, hcntd⟩
  · by_cases hcn : x.cntd = CNTD_CONST
    · obtain ⟨r, hr, hx, _, _⟩ := mix_perform64_steady x hc ins outs n hn hs hcn
      exact ⟨r, hr, by rw [hx]; exact hcntd⟩
    · rcases Nat.lt_or_ge x.cntd n with hlt | hle
      · refine ⟨_, mix_perform64_ramp_end x hc ins outs n hn hs hcn hlt, ?_⟩
        simp [CNTD_CONST]
      · refine ⟨_, mix_perform64_ramp_part x hc hcntd ins outs n hs hcn hle h1, ?_⟩
        simp only
        omega

/-- The run of the host unfolded at its first block. -/
theorem mix_render_cons (x : t_mix α) (ins outs : t_bufs α) (n : Nat) (ns : List Nat)
    (r r' : t_perform α) (hr : mix_perform64 x ins outs n = some r)
    (hr' : mix_render r.x (fun ch s => ins ch (n + s)) (fun ch s => r.outs ch (n + s)) ns
      = some r') :
    mix_render x ins outs (n :: ns) =
      some ⟨r'.x, fun ch s => if s < n then r.outs ch s else r'.outs ch (s - n),
        r.bangs + r'.bangs⟩ := by
  simp only [mix_render, hr, hr']

/-- The host's run renders every block when each has at least one sample. -/
theorem mix_render_total (blocks : List Nat) :
    ∀ (x : t_mix α) (ins outs : t_bufs α),
      (x.chan_out_cnt = 1 ∨ x.chan_out_cnt = 2) → x.cntd < 4294967296 →
      (∀ n ∈ blocks, 1 ≤ n ∧ n < 4294967296) →
      ∃ r, mix_render x ins outs blocks = some r := by
  induction blocks with
  | nil => intro x ins outs _ _ _; exact ⟨_, rfl⟩
  | cons n ns ih =>
    intro x ins outs hc hcntd hb
    have hn := hb n (List.mem_cons_self n ns)
    obtain ⟨r, hr, hrc⟩ := mix_perform64_total x hc hcntd ins outs n hn.1 hn.2
    have hf := mix_perform64_frame x ins outs n r hr
    obtain ⟨r', hr'⟩ := ih r.x (fun ch s => ins ch (n + s)) (fun ch s => r.outs ch (n + s))
      (by rw [hf.2.1]; exact hc) hrc (fun m hm => hb m (List.mem_cons_of_mem n hm))
    exact ⟨_, mix_render_cons x ins outs n ns r r' hr hr'⟩

end Perform

end Mix

/-! ## The block renderer: steady state, silence, ramps -/

namespace Mix

section Render

variable {α : Type} [LinearOrderedField α]

/-- A block rendered with no ramp active, the silent mixer included: the
object is unchanged and every bus is the sum of its scaled inputs. -/
theorem mix_perform64_idle (x : t_mix α)
    (hc : x.chan_out_cnt = 1 ∨ x.chan_out_cnt = 2) (ins outs : t_bufs α) (n : Nat)
    (hn : n < 4294967296) (hcn : x.cntd = CNTD_CONST) :
    mix_perform64 x ins outs n = some
      ⟨x, fun ch s =>
        if ch < x.chan_out_cnt ∧ s < n then
          ∑ i in Finset.range x.chan_in_cnt,
            (x.master * x.gains_adjust i * x.gains i) * ins (ch * x.chan_in_cnt + i) s
        else outs ch s, 0⟩ := by
  by_cases hs : x.master = 0 ∧ x.master_targ = 0
  · rw [mix_perform64_silence x ins outs n hs.1 hs.2]
    congr 2
    funext ch s
    rw [zero_loop_apply]
    by_cases h : ch < x.chan_out_cnt ∧ s < n
    · simp [h, hs.1]
    · simp [h]
  · obtain ⟨r, hr, hx, hb, ho⟩ := mix_perform64_steady x hc ins outs n hn hs hcn
    rw [hr]
    cases r with
    | mk rx routs rbangs =>
      simp only at hx hb ho
      subst hx hb
      have : routs = _ := funext fun ch => funext fun s => ho ch s
      rw [this]

/-- The increment of a ramp does not depend on the block at which it is
computed. -/
theorem ramp_advance (g t c n k : α) (hc : c ≠ 0) (hcn : c - n ≠ 0) :
    (g + n * ((t - g) / c)) + k * ((t - (g + n * ((t - g) / c))) / (c - n)) =
      g + (n + k) * ((t - g) / c) := by
  field_simp
  ring

/-- Across the blocks of a run, the samples rendered before the countdown
ends carry the gains of one linear ramp. -/
theorem mix_render_ramp (blocks : List Nat) :
    ∀ (x : t_mix α) (ins outs : t_bufs α),
      (x.chan_out_cnt = 1 ∨ x.chan_out_cnt = 2) → x.cntd < 4294967295 →
      (∀ n ∈ blocks, 1 ≤ n ∧ n < 4294967296) →
      ∃ r, mix_render x ins outs blocks = some r ∧
        ∀ b, b < x.chan_out_cnt → ∀ k, k < blocks.sum → k < x.cntd →
          r.outs b k =
            (∑ i in Finset.range x.chan_in_cnt,
              (x.gains i + (k : α) * ((x.gains_targ i - x.gains i) / (x.cntd : α)))
                * x.gains_adjust i * ins (b * x.chan_in_cnt + i) k)
            * (x.master + (k : α) * ((x.master_targ - x.master) / (x.cntd : α))) := by
  induction blocks with
  | nil =>
    intro x ins outs _ _ _
    exact ⟨_, rfl, fun b _ k hk _ => absurd hk (by simp)⟩
  | cons n ns ih =>
    intro x ins outs hc hcntd hb
    have hn := hb n (List.mem_cons_self n ns)
    have hns' : ∀ m ∈ ns, 1 ≤ m ∧ m < 4294967296 :=
      fun m hm => hb m (List.mem_cons_of_mem n hm)
    by_cases hs : x.master = 0 ∧ x.master_targ = 0
    · have hr := mix_perform64_silence x ins outs n hs.1 hs.2
      obtain ⟨r', hr', ho'⟩ := ih x (fun ch s => ins ch (n + s))
        (fun ch s => for_loop 0 x.chan_out_cnt (fun ch outs => buf_zero outs ch n) outs
          ch (n + s)) hc hcntd hns'
      refine ⟨_, mix_render_cons x ins outs n ns _ r' hr hr', ?_⟩
      intro b hb' k hk hkc
      simp only
      by_cases hkn : k < n
      · simp [hkn, zero_loop_apply, hb', hs.1, hs.2]
      · have h1 : k - n < ns.sum := by
          simp only [List.sum_cons] at hk; omega
        rw [if_neg hkn, ho' b hb' (k - n) h1 (by omega)]
        simp [hs.1, hs.2]
    · have hne : x.cntd ≠ CNTD_CONST := by unfold CNTD_CONST; omega
      rcases Nat.lt_or_ge x.cntd n with hlt | hle
      · have hr := mix_perform64_ramp_end x hc ins outs n hn.2 hs hne hlt
        obtain ⟨r', hr'⟩ := mix_render_total ns
          ({ x with
              gains := fun j => if j < x.chan_in_cnt then x.gains_targ j else x.gains j,
              master := x.master_targ, cntd := CNTD_CONST } : t_mix α)
          (fun ch s => ins ch (n + s)) _ hc (by simp [CNTD_CONST]) hns'
        refine ⟨_, mix_render_cons x ins outs n ns _ r' hr hr', ?_⟩
        intro b hb' k hk hkc
        have hkn : k < n := by omega
        simp only [hkn, hb', hkc, and_self, if_true]
      · have hr := mix_perform64_ramp_part x hc (by omega) ins outs n hs hne hle hn.1
        obtain ⟨r', hr', ho'⟩ := ih
          ({ x with
              gains := fun j => if j < x.chan_in_cnt then
                  x.gains j + (n : α) * ((x.gains_targ j - x.gains j) / (x.cntd : α))
                else x.gains j,
              master := x.master + (n : α) * ((x.master_targ - x.master) / (x.cntd : α)),
              cntd := x.cntd - n } : t_mix α)
          (fun ch s => ins ch (n + s)) _ hc (by simp only; omega) hns'
        refine ⟨_, mix_render_cons x ins outs n ns _ r' hr hr', ?_⟩
        intro b hb' k hk hkc
        by_cases hkn : k < n
        · simp only [hkn, hb', and_self, if_true]
        · have h1 : k - n < ns.sum := by
            simp only [List.sum_cons] at hk; omega
          have h2 : k - n < x.cntd - n := by omega
          have h3 : n + (k - n) = k := by omega
          have hcne : (x.cntd : α) ≠ 0 := by
            have : 0 < x.cntd := by omega
            exact_mod_cast this.ne'
          have hcast : ((x.cntd - n : Nat) : α) = (x.cntd : α) - (n : α) := Nat.cast_sub hle
          have hcne2 : (x.cntd : α) - (n : α) ≠ 0 := by
            rw [← hcast]
            have : 0 < x.cntd - n := by omega
            exact_mod_cast this.ne'
          have hk' : ((k - n : Nat) : α) = (k : α) - (n : α) := Nat.cast_sub (by omega)
          have hsum : (n : α) + ((k : α) - (n : α)) = (k : α) := by ring
          simp only [if_neg hkn]
          rw [ho' b hb' (k - n) h1 h2]
          simp only [h3, hcast, hk']
          rw [ramp_advance _ _ _ _ _ hcne hcne2, hsum]
          congr 1
          refine Finset.sum_congr rfl (fun i hi => ?_)
          rw [Finset.mem_range] at hi
          simp only [hi, if_true]
          rw [ramp_advance _ _ _ _ _ hcne hcne2, hsum]

/-- The run of the host writes no field of the object but `master`, `gains`
and `cntd`. -/
theorem mix_render_frame (blocks : List Nat) :
    ∀ (x : t_mix α) (ins outs : t_bufs α) (r : t_perform α),
      mix_render x ins outs blocks = some r →
      r.x.chan_in_cnt = x.chan_in_cnt ∧ r.x.chan_out_cnt = x.chan_out_cnt ∧
      r.x.master_targ = x.master_targ ∧ r.x.gains_targ = x.gains_targ ∧
      r.x.gains_adjust = x.gains_adjust ∧ r.x.ramp_samp = x.ramp_samp := by
  induction blocks with
  | nil =>
    intro x ins outs r h
    simp only [mix_render, Option.some.injEq] at h
    subst h
    simp
  | cons n ns ih =>
    intro x ins outs r h
    simp only [mix_render] at h
    split at h
    · cases h
    · rename_i r1 h1
      split at h
      · cases h
      · rename_i r2 h2
        cases h
        have f1 := mix_perform64_frame x ins outs n r1 h1
        have f2 := ih _ _ _ _ h2
        simp only
        refine ⟨f2.1.trans f1.1, f2.2.1.trans f1.2.1, f2.2.2.1.trans f1.2.2.1,
          f2.2.2.2.1.trans f1.2.2.2.1, f2.2.2.2.2.1.trans f1.2.2.2.2.1,
          f2.2.2.2.2.2.trans f1.2.2.2.2.2.2.2⟩

/-- A settled object stays settled through a block. -/
theorem mix_perform64_settled (x : t_mix α)
    (hc : x.chan_out_cnt = 1 ∨ x.chan_out_cnt = 2) (hcntd : x.cntd < 4294967296)
    (ins outs : t_bufs α) (n : Nat) (h1 : 1 ≤ n) (hn : n < 4294967296)
    (hm : x.master = x.master_targ)
    (hg : ∀ i, i < x.chan_in_cnt → x.gains i = x.gains_targ i) :
    ∃ r, mix_perform64 x ins outs n = some r ∧ r.x.cntd < 4294967296 ∧
      r.x.master = r.x.master_targ ∧
      ∀ i, i < r.x.chan_in_cnt → r.x.gains i = r.x.gains_targ i := by
  by_cases hs : x.master = 0 ∧ x.master_targ = 0
  · exact ⟨_, mix_perform64_silence x ins outs n hs.1 hs.2, hcntd, hm, hg⟩
  · by_cases hcn : x.cntd = CNTD_CONST
    · obtain ⟨r, hr, hx, _, _⟩ := mix_perform64_steady x hc ins outs n hn hs hcn
      subst hx
      exact ⟨r, hr, hcntd, hm, hg⟩
    · rcases Nat.lt_or_ge x.cntd n with hlt | hle
      · refine ⟨_, mix_perform64_ramp_end x hc ins outs n hn hs hcn hlt, ?_, rfl, ?_⟩
        · simp [CNTD_CONST]
        · intro i hi
          simp only at hi
          simp only [hi, if_true]
      · refine ⟨_, mix_perform64_ramp_part x hc hcntd ins outs n hs hcn hle h1, ?_, ?_, ?_⟩
        · simp only; omega
        · simp only [hm, sub_self, zero_div, mul_zero, add_zero]
        · intro i hi
          simp only at hi
          simp only [hi, if_true, hg i hi, sub_self, zero_div, mul_zero, add_zero]

/-- A settled object stays settled through a run. -/
theorem mix_render_settled (blocks : List Nat) :
    ∀ (x : t_mix α) (ins outs : t_bufs α),
      (x.chan_out_cnt = 1 ∨ x.chan_out_cnt = 2) → x.cntd < 4294967296 →
      (∀ n ∈ blocks, 1 ≤ n ∧ n < 4294967296) →
      x.master = x.master_targ →
      (∀ i, i < x.chan_in_cnt → x.gains i = x.gains_targ i) →
      ∃ r, mix_render x ins outs blocks = some r ∧
        r.x.master = r.x.master_targ ∧
        ∀ i, i < r.x.chan_in_cnt → r.x.gains i = r.x.gains_targ i := by
  induction blocks with
  | nil =>
    intro x ins outs _ _ _ hm hg
    exact ⟨_, rfl, hm, hg⟩
  | cons n ns ih =>
    intro x ins outs hc hcntd hb hm hg
    have hn := hb n (List.mem_cons_self n ns)
    obtain ⟨r, hr, hrc, hrm, hrg⟩ :=
      mix_perform64_settled x hc hcntd ins outs n hn.1 hn.2 hm hg
    have hf := mix_perform64_frame x ins outs n r hr
    obtain ⟨r', hr', hm', hg'⟩ := ih r.x (fun ch s => ins ch (n + s))
      (fun ch s => r.outs ch (n + s)) (by rw [hf.2.1]; exact hc) hrc
      (fun m hm => hb m (List.mem_cons_of_mem n hm)) hrm hrg
    exact ⟨_, mix_render_cons x ins outs n ns r r' hr hr', hm', hg'⟩

/-- A ramp that is not frozen by the silence short-circuit settles once the
blocks rendered cover the countdown. -/
theorem mix_render_settles (blocks : List Nat) :
    ∀ (x : t_mix α) (ins outs : t_bufs α),
      (x.chan_out_cnt = 1 ∨ x.chan_out_cnt = 2) → x.cntd < 4294967295 →
      (∀ n ∈ blocks, 1 ≤ n ∧ n < 4294967296) →
      ¬ (x.master = 0 ∧ x.master_targ = 0) →
      blocks ≠ [] → x.cntd ≤ blocks.sum →
      ∃ r, mix_render x ins outs blocks = some r ∧
        r.x.master = r.x.master_targ ∧
        ∀ i, i < r.x.chan_in_cnt → r.x.gains i = r.x.gains_targ i := by
  induction blocks with
  | nil => intro x ins outs _ _ _ _ hne _; exact absurd rfl hne
  | cons n ns ih =>
    intro x ins outs hc hcntd hb hs _ hsum
    have hn := hb n (List.mem_cons_self n ns)
    have hns' : ∀ m ∈ ns, 1 ≤ m ∧ m < 4294967296 :=
      fun m hm => hb m (List.mem_cons_of_mem n hm)
    have hne : x.cntd ≠ CNTD_CONST := by unfold CNTD_CONST; omega
    rcases Nat.lt_or_ge x.cntd n with hlt | hle
    · have hr := mix_perform64_ramp_end x hc ins outs n hn.2 hs hne hlt
      obtain ⟨r', hr', hm', hg'⟩ := mix_render_settled ns
        ({ x with
            gains := fun j => if j < x.chan_in_cnt then x.gains_targ j else x.gains j,
            master := x.master_targ, cntd := CNTD_CONST } : t_mix α)
        (fun ch s => ins ch (n + s)) _ hc (by simp [CNTD_CONST]) hns' rfl
        (fun i hi => by simp only at hi; simp only [hi, if_true])
      exact ⟨_, mix_render_cons x ins outs n ns _ r' hr hr', hm', hg'⟩
    · have hr := mix_perform64_ramp_part x hc (by omega) ins outs n hs hne hle hn.1
      have hcne : (x.cntd : α) ≠ 0 := by
        have : 0 < x.cntd := by omega
        exact_mod_cast this.ne'
      rcases Nat.eq_or_lt_of_le hle with heq | hlt
      · obtain ⟨r', hr', hm', hg'⟩ := mix_render_settled ns
          ({ x with
              gains := fun j => if j < x.chan_in_cnt then
                  x.gains j + (n : α) * ((x.gains_targ j - x.gains j) / (x.cntd : α))
                else x.gains j,
              master := x.master + (n : α) * ((x.master_targ - x.master) / (x.cntd : α)),
              cntd := x.cntd - n } : t_mix α)
          (fun ch s => ins ch (n + s)) _ hc (by simp only; omega) hns'
          (by simp only [heq]; field_simp)
          (fun i hi => by
            simp only at hi
            simp only [hi, if_true, heq]
            field_simp)
        exact ⟨_, mix_render_cons x ins outs n ns _ r' hr hr', hm', hg'⟩
      · have hsum' : x.cntd - n ≤ ns.sum := by
          simp only [List.sum_cons] at hsum; omega
        have hne' : ns ≠ [] := by
          intro h; subst h; simp at hsum'; omega
        have hnc : (n : α) ≠ (x.cntd : α) := by
          exact_mod_cast hlt.ne
        obtain ⟨r', hr', hm', hg'⟩ := ih
          ({ x with
              gains := fun j => if j < x.chan_in_cnt then
                  x.gains j + (n : α) * ((x.gains_targ j - x.gains j) / (x.cntd : α))
                else x.gains j,
              master := x.master + (n : α) * ((x.master_targ - x.master) / (x.cntd : α)),
              cntd := x.cntd - n } : t_mix α)
          (fun ch s => ins ch (n + s)) _ hc (by simp only; omega) hns'
          (by
            simp only
            rintro ⟨h1, h2⟩
            apply hs
            refine ⟨?_, h2⟩
            rw [h2] at h1
            have h3 : x.master * ((x.cntd : α) - (n : α)) = 0 := by
              field_simp at h1
              linear_combination h1
            rcases mul_eq_zero.mp h3 with h4 | h4
            · exact h4
            · exact absurd (sub_eq_zero.mp h4).symm hnc)
          hne' hsum'
        exact ⟨_, mix_render_cons x ins outs n ns _ r' hr hr', hm', hg'⟩

/-- While master and its target are both 0, a run leaves the object as it
is. -/
theorem mix_render_silence (blocks : List Nat) :
    ∀ (x : t_mix α) (ins outs : t_bufs α), x.master = 0 → x.master_targ = 0 →
      ∃ r, mix_render x ins outs blocks = some r ∧ r.x = x := by
  induction blocks with
  | nil => intro x ins outs _ _; exact ⟨_, rfl, rfl⟩
  | cons n ns ih =>
    intro x ins outs hm ht
    have hr := mix_perform64_silence x ins outs n hm ht
    obtain ⟨r', hr', hx'⟩ := ih x (fun ch s => ins ch (n + s))
      (fun ch s => for_loop 0 x.chan_out_cnt (fun ch outs => buf_zero outs ch n) outs
        ch (n + s)) hm ht
    exact ⟨_, mix_render_cons x ins outs n ns _ r' hr hr', hx'⟩

/-- With no ramp active, a run sends no bang and leaves the object as it
is. -/
theorem mix_render_idle (blocks : List Nat) :
    ∀ (x : t_mix α) (ins outs : t_bufs α),
      (x.chan_out_cnt = 1 ∨ x.chan_out_cnt = 2) → x.cntd = CNTD_CONST →
      (∀ n ∈ blocks, n < 4294967296) →
      ∃ r, mix_render x ins outs blocks = some r ∧ r.x = x ∧ r.bangs = 0 := by
  induction blocks with
  | nil => intro x ins outs _ _ _; exact ⟨_, rfl, rfl, rfl⟩
  | cons n ns ih =>
    intro x ins outs hc hcn hb
    have hr := mix_perform64_idle x hc ins outs n (hb n (List.mem_cons_self n ns)) hcn
    obtain ⟨r', hr', hx', hb'⟩ := ih x (fun ch s => ins ch (n + s)) _ hc hcn
      (fun m hm => hb m (List.mem_cons_of_mem n hm))
    exact ⟨_, mix_render_cons x ins outs n ns _ r' hr hr', hx', by simp only [hb']⟩

/-- A run in which the countdown ends strictly inside a call: the calls
before it end before the countdown does, the call sets master and the channel
gains to their targets and the countdown to the sentinel, and the calls after
it leave the object as it is. -/
theorem mix_render_snap (n : Nat) (post pre : List Nat) :
    ∀ (x : t_mix α) (ins outs : t_bufs α),
      (x.chan_out_cnt = 1 ∨ x.chan_out_cnt = 2) → x.cntd < 4294967295 →
      ¬ (x.master = 0 ∧ x.master_targ = 0) →
      (∀ k ∈ pre ++ n :: post, 1 ≤ k ∧ k < 4294967296) →
      (pre.sum < x.cntd ∨ pre = []) → x.cntd < pre.sum + n →
      ∃ r, mix_render x ins outs (pre ++ n :: post) = some r ∧
        r.x.cntd = CNTD_CONST ∧ r.x.master = x.master_targ ∧
        (∀ i, i < x.chan_in_cnt → r.x.gains i = x.gains_targ i) ∧
        r.x.master_targ = x.master_targ ∧ r.x.gains_targ = x.gains_targ := by
  induction pre with
  | nil =>
    intro x ins outs hc hcntd hns hb _ hcross
    simp only [List.nil_append, List.sum_nil, Nat.zero_add] at hb hcross ⊢
    have hn := hb n (List.mem_cons_self n post)
    have hne : x.cntd ≠ CNTD_CONST := by unfold CNTD_CONST; omega
    have hr := mix_perform64_ramp_end x hc ins outs n hn.2 hns hne hcross
    obtain ⟨r', hr', hx', _⟩ := mix_render_idle post
      ({ x with
          gains := fun j => if j < x.chan_in_cnt then x.gains_targ j else x.gains j,
          master := x.master_targ, cntd := CNTD_CONST } : t_mix α)
      (fun ch s => ins ch (n + s)) _ hc rfl
      (fun m hm => (hb m (List.mem_cons_of_mem n hm)).2)
    have hx2 : ∀ i, i < x.chan_in_cnt → r'.x.gains i = x.gains_targ i := by
      intro i hi
      rw [hx']
      simp only [hi, if_true]
    exact ⟨_, mix_render_cons x ins outs n post _ r' hr hr', by rw [hx'], by rw [hx'], hx2,
      by rw [hx'], by rw [hx']⟩
  | cons k ks ih =>
    intro x ins outs hc hcntd hns hb hpre hcross
    simp only [List.cons_append, List.sum_cons] at hb hcross ⊢
    have hk := hb k (List.mem_cons_self k _)
    have hsum : k + ks.sum < x.cntd := by
      rcases hpre with h | h
      · simpa using h
      · cases h
    have hne : x.cntd ≠ CNTD_CONST := by unfold CNTD_CONST; omega
    have hr := mix_perform64_ramp_part x hc (by omega) ins outs k hns hne (by omega) hk.1
    have hcne : (x.cntd : α) ≠ 0 := by
      have : 0 < x.cntd := by omega
      exact_mod_cast this.ne'
    have hkc : (k : α) ≠ (x.cntd : α) := by
      have : k ≠ x.cntd := by omega
      exact_mod_cast this
    obtain ⟨r, hr1, h1, h2, h3, h4, h5⟩ := ih
      ({ x with
          gains := fun j => if j < x.chan_in_cnt then
              x.gains j + (k : α) * ((x.gains_targ j - x.gains j) / (x.cntd : α))
            else x.gains j,
          master := x.master + (k : α) * ((x.master_targ - x.master) / (x.cntd : α)),
          cntd := x.cntd - k } : t_mix α)
      (fun ch s => ins ch (k + s)) _ hc (by simp only; omega)
      (by
        simp only
        rintro ⟨h1, h2⟩
        apply hns
        refine ⟨?_, h2⟩
        rw [h2] at h1
        have h3 : x.master * ((x.cntd : α) - (k : α)) = 0 := by
          field_simp at h1
          linear_combination h1
        rcases mul_eq_zero.mp h3 with h4 | h4
        · exact h4
        · exact absurd (sub_eq_zero.mp h4).symm hkc)
      (fun m hm => hb m (List.mem_cons_of_mem k hm))
      (by
        simp only
        rcases ks with _ | ⟨a, as⟩
        · exact Or.inr rfl
        · left
          simp only [List.sum_cons] at hsum ⊢
          omega)
      (by simp only; omega)
    exact ⟨_, mix_render_cons x ins outs k _ _ r hr hr1, h1, h2, h3, h4, h5⟩

/-- C1. Steady-state rendering: with no ramp active (`cntd == CNTD_CONST`) and
master and its target not both 0, `mix_perform64` renders the block, writes
to every sample `s < n` of every output bus `b` the sum over the input
channels `i` of `(master * gains_adjust[i] * gains[i]) * ins[b * N + i][s]`
(bus 0 reads `ins[i]`, bus 1 reads `ins[N + i]`), and leaves the object as it
was: master, gains, both targets, the adjusts and the countdown. -/
theorem steady_state_rendering (x : t_mix α) (ins outs : t_bufs α) (n : Nat)
    (hc : x.chan_out_cnt = 1 ∨ x.chan_out_cnt = 2) (hn : n < 4294967296)
    (hcn : x.cntd = CNTD_CONST) (hns : ¬ (x.master = 0 ∧ x.master_targ = 0)) :
    ∃ r, mix_perform64 x ins outs n = some r ∧
      (∀ b, b < x.chan_out_cnt → ∀ s, s < n →
        r.outs b s = ∑ i in Finset.range x.chan_in_cnt,
          (x.master * x.gains_adjust i * x.gains i) * ins (b * x.chan_in_cnt + i) s) ∧
      r.x = x := by
  obtain ⟨r, hr, hx, _, ho⟩ := mix_perform64_steady x hc ins outs n hn hns hcn
  refine ⟨r, hr, ?_, hx⟩
  intro b hb s hs
  rw [ho b s]
  simp [hb, hs]

/-- C1 on the steady mixer `ex_steady` and a block of 4 samples: sample 2 of
bus 0 is `(1/2 * 1 * 1) * 3 + (1/2 * 3 * 2) * 4` and sample 2 of bus 1 is
`(1/2 * 1 * 1) * 5 + (1/2 * 3 * 2) * 6`. -/
theorem steady_state_rendering_witness :
    ((ex_steady.chan_out_cnt = 1 ∨ ex_steady.chan_out_cnt = 2) ∧ 4 < 4294967296 ∧
      ex_steady.cntd = CNTD_CONST ∧ ¬ (ex_steady.master = 0 ∧ ex_steady.master_targ = 0)) ∧
    ∃ r, mix_perform64 ex_steady ex_ins ex_outs 4 = some r ∧
      r.outs 0 2 = 27 / 2 ∧ r.outs 1 2 = 41 / 2 ∧ r.x = ex_steady := by
  have hc : ex_steady.chan_out_cnt = 1 ∨ ex_steady.chan_out_cnt = 2 := Or.inr rfl
  have hns : ¬ (ex_steady.master = 0 ∧ ex_steady.master_targ = 0) := by
    simp [ex_steady]
  refine ⟨⟨hc, by norm_num, rfl, hns⟩, ?_⟩
  obtain ⟨r, hr, ho, hx⟩ :=
    steady_state_rendering ex_steady ex_ins ex_outs 4 hc (by norm_num) rfl hns
  refine ⟨r, hr, ?_, ?_, hx⟩
  · rw [ho 0 (by simp [ex_steady]) 2 (by norm_num)]
    simp [ex_steady, ex_ins, Finset.sum_range_succ]
    norm_num
  · rw [ho 1 (by simp [ex_steady]) 2 (by norm_num)]
    simp [ex_steady, ex_ins, Finset.sum_range_succ]
    norm_num

/-- C5. Silence short-circuit: when master and its target are both 0,
`mix_perform64` renders the block and leaves every sample `s < n` of every
output bus equal to 0, whatever the inputs, the block length, the countdown
and the channel gains. -/
theorem silence_short_circuit (x : t_mix α) (ins outs : t_bufs α) (n : Nat)
    (hm : x.master = 0) (ht : x.master_targ = 0) :
    ∃ r, mix_perform64 x ins outs n = some r ∧
      ∀ b, b < x.chan_out_cnt → ∀ s, s < n → r.outs b s = 0 := by
  refine ⟨_, mix_perform64_silence x ins outs n hm ht, ?_⟩
  intro b hb s hs
  simp only [zero_loop_apply, hb, hs, and_self, if_true]

/-- C5 on the silent mixer `ex_silent`, with a ramp pending: the 8 samples of
the block are 0. -/
theorem silence_short_circuit_witness :
    (({ ex_silent with cntd := 3, gains_targ := fun _ => 1 } : t_mix ℚ).master = 0 ∧
      ({ ex_silent with cntd := 3, gains_targ := fun _ => 1 } : t_mix ℚ).master_targ = 0) ∧
    ∃ r, mix_perform64 ({ ex_silent with cntd := 3, gains_targ := fun _ => 1 } : t_mix ℚ)
        ex_ins ex_outs 8 = some r ∧
      ∀ b, b < 1 → ∀ s, s < 8 → r.outs b s = 0 :=
  ⟨⟨rfl, rfl⟩, silence_short_circuit _ ex_ins ex_outs 8 rfl rfl⟩

/-- C6. Block-partition independence in steady state: with no ramp active,
rendering `n` samples in one call, or in two consecutive calls of `n1` and
`n - n1` samples on the corresponding slices of the buffers, gives the same
output samples, for every split `n1 <= n`; these samples are the inputs
scaled by the fixed effective gains `master * gains_adjust[i] * gains[i]`,
and the object is the same after both. -/
theorem block_partition_independence (x : t_mix α) (ins outs : t_bufs α) (n n1 : Nat)
    (hc : x.chan_out_cnt = 1 ∨ x.chan_out_cnt = 2) (hn : n < 4294967296)
    (h1 : n1 ≤ n) (hcn : x.cntd = CNTD_CONST) :
    ∃ r r1 r2, mix_perform64 x ins outs n = some r ∧
      mix_perform64 x ins outs n1 = some r1 ∧
      mix_perform64 r1.x (fun ch s => ins ch (n1 + s)) (fun ch s => outs ch (n1 + s))
        (n - n1) = some r2 ∧
      r2.x = r.x ∧
      (∀ b, b < x.chan_out_cnt → ∀ s, s < n1 → r1.outs b s = r.outs b s) ∧
      (∀ b, b < x.chan_out_cnt → ∀ s, n1 ≤ s → s < n → r2.outs b (s - n1) = r.outs b s) ∧
      (∀ b, b < x.chan_out_cnt → ∀ s, s < n →
        r.outs b s = ∑ i in Finset.range x.chan_in_cnt,
          (x.master * x.gains_adjust i * x.gains i) * ins (b * x.chan_in_cnt + i) s) := by
  refine ⟨_, _, _, mix_perform64_idle x hc ins outs n hn hcn,
    mix_perform64_idle x hc ins outs n1 (by omega) hcn,
    mix_perform64_idle x hc _ _ (n - n1) (by omega) hcn, rfl, ?_, ?_, ?_⟩
  · intro b hb s hs
    have hs' : s < n := by omega
    simp only [hb, hs, hs', and_self, if_true]
  · intro b hb s hs1 hs2
    have h2 : s - n1 < n - n1 := by omega
    have h3 : n1 + (s - n1) = s := by omega
    simp only [hb, hs2, h2, h3, and_self, if_true]
  · intro b hb s hs
    simp only [hb, hs, and_self, if_true]

/-- C6 on the steady mixer `ex_steady`: 100 samples rendered as 40 + 60. -/
theorem block_partition_independence_witness :
    ((ex_steady.chan_out_cnt = 1 ∨ ex_steady.chan_out_cnt = 2) ∧ 100 < 4294967296 ∧
      40 ≤ 100 ∧ ex_steady.cntd = CNTD_CONST) ∧
    ∃ r r1 r2, mix_perform64 ex_steady ex_ins ex_outs 100 = some r ∧
      mix_perform64 ex_steady ex_ins ex_outs 40 = some r1 ∧
      mix_perform64 r1.x (fun ch s => ex_ins ch (40 + s)) (fun ch s => ex_outs ch (40 + s))
        (100 - 40) = some r2 ∧
      r2.x = r.x ∧
      (∀ b, b < 2 → ∀ s, s < 40 → r1.outs b s = r.outs b s) ∧
      (∀ b, b < 2 → ∀ s, 40 ≤ s → s < 100 → r2.outs b (s - 40) = r.outs b s) ∧
      (∀ b, b < 2 → ∀ s, s < 100 →
        r.outs b s = ∑ i in Finset.range 2,
          (ex_steady.master * ex_steady.gains_adjust i * ex_steady.gains i)
            * ex_ins (b * 2 + i) s) :=
  ⟨⟨Or.inr rfl, by norm_num, by norm_num, rfl⟩,
   block_partition_independence ex_steady ex_ins ex_outs 100 40 (Or.inr rfl)
     (by norm_num) (by norm_num) rfl⟩

/-- C4. A ramp that finishes inside the block: with an active ramp of
countdown `c`, `1 <= c < n`, a single call of `n` samples renders the samples
`s < c` with the ramped gains, master `master + s * (master_targ - master) / c`
and channel gains `gains[i] + s * (gains_targ[i] - gains[i]) / c`, and the
samples `c <= s < n` in constant mode with the settled gains, that is as the
sum over `i` of `master_targ * gains_adjust[i] * gains_targ[i] * ins[b * N + i][s]`. -/
theorem ramp_finishing_mid_block (x : t_mix α) (ins outs : t_bufs α) (n : Nat)
    (hc : x.chan_out_cnt = 1 ∨ x.chan_out_cnt = 2) (hn : n < 4294967296)
    (_h1 : 1 ≤ x.cntd) (hlt : x.cntd < n) :
    ∃ r, mix_perform64 x ins outs n = some r ∧
      (∀ b, b < x.chan_out_cnt → ∀ s, s < x.cntd →
        r.outs b s =
          (x.master + (s : α) * (x.master_targ - x.master) / (x.cntd : α)) *
            ∑ i in Finset.range x.chan_in_cnt,
              (x.gains i + (s : α) * (x.gains_targ i - x.gains i) / (x.cntd : α))
                * x.gains_adjust i * ins (b * x.chan_in_cnt + i) s) ∧
      (∀ b, b < x.chan_out_cnt → ∀ s, x.cntd ≤ s → s < n →
        r.outs b s = ∑ i in Finset.range x.chan_in_cnt,
          x.master_targ * x.gains_adjust i * x.gains_targ i
            * ins (b * x.chan_in_cnt + i) s) := by
  by_cases hs : x.master = 0 ∧ x.master_targ = 0
  · refine ⟨_, mix_perform64_silence x ins outs n hs.1 hs.2, ?_, ?_⟩
    · intro b hb s hsc
      have hsn : s < n := by omega
      simp [zero_loop_apply, hb, hsn, hs.1, hs.2]
    · intro b hb s _ hsn
      simp [zero_loop_apply, hb, hsn, hs.2]
  · have hne : x.cntd ≠ CNTD_CONST := by
      unfold CNTD_CONST; omega
    refine ⟨_, mix_perform64_ramp_end x hc ins outs n hn hs hne hlt, ?_, ?_⟩
    · intro b hb s hsc
      have hsn : s < n := by omega
      simp only [hb, hsn, hsc, and_self, if_true, mul_div_assoc]
      rw [mul_comm]
    · intro b hb s hcs hsn
      have h3 : ¬ (s < x.cntd) := by omega
      simp only [hb, hsn, h3, and_self, if_true, if_false]

/-- C4 on the scenario of the specification: a ramp of 10 samples started by
`master 0` on the mixer `ex_unity` (master 1, channel gains settled), then a
block of 15 samples: sample `s < 10` is the input scaled by `1 - s / 10`, and
the samples 10 to 14 are 0. -/
theorem ramp_finishing_mid_block_witness :
    (((mix_master ex_unity 0).chan_out_cnt = 1 ∨ (mix_master ex_unity 0).chan_out_cnt = 2) ∧
      15 < 4294967296 ∧ 1 ≤ (mix_master ex_unity 0).cntd ∧ (mix_master ex_unity 0).cntd < 15) ∧
    ∃ r, mix_perform64 (mix_master ex_unity 0) ex_ins ex_outs 15 = some r ∧
      (∀ s, s < 10 → r.outs 0 s = (1 - (s : ℚ) / 10) * ex_ins 0 s) ∧
      (∀ s, 10 ≤ s → s < 15 → r.outs 0 s = 0) := by
  have hc : (mix_master ex_unity 0).chan_out_cnt = 1 ∨ (mix_master ex_unity 0).chan_out_cnt = 2 :=
    Or.inl rfl
  have h1 : 1 ≤ (mix_master ex_unity 0).cntd := by
    simp [mix_master, ex_unity]
  have h2 : (mix_master ex_unity 0).cntd < 15 := by
    simp [mix_master, ex_unity]
  refine ⟨⟨hc, by norm_num, h1, h2⟩, ?_⟩
  obtain ⟨r, hr, hramp, hconst⟩ :=
    ramp_finishing_mid_block (mix_master ex_unity 0) ex_ins ex_outs 15 hc (by norm_num) h1 h2
  refine ⟨r, hr, ?_, ?_⟩
  · intro s hs
    rw [hramp 0 (by simp [mix_master, ex_unity]) s (by simpa [mix_master, ex_unity] using hs)]
    simp [mix_master, ex_unity, Finset.sum_range_succ, -mul_eq_mul_right_iff]
    ring
  · intro s hs1 hs2
    rw [hconst 0 (by simp [mix_master, ex_unity]) s
      (by simpa [mix_master, ex_unity] using hs1) hs2]
    simp [mix_master, ex_unity, Finset.sum_range_succ]

/-- C2. Ramp linearity across blocks, in exact arithmetic: from a state whose
countdown is `D` (the state a command leaves, `D` being the ramp duration),
whatever the partition of the rendered samples into blocks, the `k`-th sample
rendered, `k < D` counted across the block boundaries, is the input scaled by
the master gain `master + k * (master_targ - master) / D` and by the channel
gains `gains[i] + k * (gains_targ[i] - gains[i]) / D`, the values at the
start of the ramp and its targets. Every block holds at least one sample and
`D` is not the sentinel. -/
theorem ramp_linearity_across_blocks (x : t_mix α) (ins outs : t_bufs α)
    (blocks : List Nat) (D : Nat)
    (hc : x.chan_out_cnt = 1 ∨ x.chan_out_cnt = 2)
    (hD : x.cntd = D) (hD1 : 1 ≤ D) (hD2 : D < 4294967295)
    (hb : ∀ n ∈ blocks, 1 ≤ n ∧ n < 4294967296) :
    ∃ r, mix_render x ins outs blocks = some r ∧
      ∀ b, b < x.chan_out_cnt → ∀ k, k < blocks.sum → k < D →
        r.outs b k =
          (x.master + (k : α) * (x.master_targ - x.master) / (D : α)) *
            ∑ i in Finset.range x.chan_in_cnt,
              (x.gains i + (k : α) * (x.gains_targ i - x.gains i) / (D : α))
                * x.gains_adjust i * ins (b * x.chan_in_cnt + i) k := by
  have _ := hD1
  subst hD
  obtain ⟨r, hr, ho⟩ := mix_render_ramp blocks x ins outs hc hD2 hb
  refine ⟨r, hr, ?_⟩
  intro b hb' k hk hkc
  rw [ho b hb' k hk hkc, mul_comm]
  simp only [mul_div_assoc]

/-- C2 on a ramp of 10 samples started by `master 0` on the mixer `ex_unity`
and rendered as blocks of 3, 4 and 5 samples: sample `k < 10` of the run is
the input scaled by `1 - k / 10`. -/
theorem ramp_linearity_across_blocks_witness :
    (((mix_master ex_unity 0).chan_out_cnt = 1 ∨ (mix_master ex_unity 0).chan_out_cnt = 2) ∧
      (mix_master ex_unity 0).cntd = 10 ∧ 1 ≤ 10 ∧ 10 < 4294967295 ∧
      ∀ n ∈ [3, 4, 5], 1 ≤ n ∧ n < 4294967296) ∧
    ∃ r, mix_render (mix_master ex_unity 0) ex_ins ex_outs [3, 4, 5] = some r ∧
      ∀ k, k < 10 → r.outs 0 k = (1 - (k : ℚ) / 10) * ex_ins 0 k := by
  have hc : (mix_master ex_unity 0).chan_out_cnt = 1 ∨ (mix_master ex_unity 0).chan_out_cnt = 2 :=
    Or.inl rfl
  have hb : ∀ n ∈ [3, 4, 5], 1 ≤ n ∧ n < 4294967296 := by
    intro n hn
    simp only [List.mem_cons, List.mem_singleton, List.not_mem_nil, or_false] at hn
    rcases hn with h | h | h <;> subst h <;> norm_num
  refine ⟨⟨hc, rfl, by norm_num, by norm_num, hb⟩, ?_⟩
  obtain ⟨r, hr, ho⟩ := ramp_linearity_across_blocks (mix_master ex_unity 0) ex_ins ex_outs
    [3, 4, 5] 10 hc rfl (by norm_num) (by norm_num) hb
  refine ⟨r, hr, ?_⟩
  intro k hk
  rw [ho 0 (by simp [mix_master, ex_unity]) k (by simp; omega) hk]
  simp [mix_master, ex_unity, Finset.sum_range_succ, -mul_eq_mul_right_iff]
  ring

/-- C3, the claim as stated fails: on the silent mixer `ex_silent` (master 0
at rest, ramp duration 4 samples) the command `list 0 1` sets the target of
channel 0 to 1 and the countdown to 4; two blocks of 4 samples later, 8
samples in all, the gain of channel 0 still is 0 and the countdown 4, the
silence short-circuit having returned before the ramp. -/
theorem settling_fails_when_silent :
    ∃ x r, mix_list ex_silent [t_atom.A_FLOAT 0, t_atom.A_FLOAT 1] = some x ∧
      x.cntd = x.ramp_samp ∧ x.ramp_samp = 4 ∧
      mix_render x ex_ins ex_outs [4, 4] = some r ∧
      r.x.gains_targ 0 = 1 ∧ r.x.gains 0 = 0 ∧ r.x.gains 0 ≠ r.x.gains_targ 0 ∧
      r.x.cntd = 4 := by
  have hl : mix_list ex_silent [t_atom.A_FLOAT 0, t_atom.A_FLOAT 1] =
      some { ex_silent with
        gains_targ := fun j => if j = 0 then 1 else 0, cntd := 4 } := by
    unfold mix_list
    simp only [List.length_cons, List.length_nil, for_loop_update]
    rw [if_neg (by norm_num)]
    have hg : (fun j => if 0 + 1 + 1 - 1 ≤ j ∧ j < ex_silent.chan_in_cnt then (0 : ℚ)
        else if 0 ≤ j ∧ j < min (0 + 1 + 1 - 1) ex_silent.chan_in_cnt then
          atom_getfloat (argv_at [t_atom.A_FLOAT 0, t_atom.A_FLOAT 1] (j + 1))
        else ex_silent.gains_targ j) = fun j => if j = 0 then 1 else 0 := by
      funext j
      by_cases hj : j = 0
      · subst hj; simp [argv_at, atom_getfloat, ex_silent]
      · have h1 : 1 ≤ j := by omega
        simp [hj, h1, ex_silent]
    rw [hg]
    simp [argv_at, atom_getfloat, ex_silent]
  obtain ⟨r, hr, hx⟩ := mix_render_silence [4, 4]
    ({ ex_silent with gains_targ := fun j => if j = 0 then 1 else 0, cntd := 4 } : t_mix ℚ)
    ex_ins ex_outs rfl rfl
  refine ⟨_, r, hl, rfl, rfl, hr, ?_⟩
  rw [hx]
  simp [ex_silent]

/-- C3, as the source has it. Settling: from a state whose countdown is `D`
(the state a command leaves), `D` not the sentinel, with master and its
target not both 0, rendering blocks of at least one sample each in which the
ramp ends strictly inside a call (the blocks before that call total less than
`D` samples, or there is none, and with it they total more than `D`) leaves
master equal to its target and every channel gain equal to its target, the
values the call in which the countdown ends has stored, and the countdown at
the sentinel; the targets are the ones the command has set. -/
theorem settling_after_ramp (x : t_mix α) (ins outs : t_bufs α)
    (pre post : List Nat) (n D : Nat)
    (hc : x.chan_out_cnt = 1 ∨ x.chan_out_cnt = 2)
    (hD : x.cntd = D) (hD2 : D < 4294967295)
    (hns : ¬ (x.master = 0 ∧ x.master_targ = 0))
    (hb : ∀ k ∈ pre ++ n :: post, 1 ≤ k ∧ k < 4294967296)
    (hpre : pre.sum < D ∨ pre = []) (hcross : D < pre.sum + n) :
    ∃ r, mix_render x ins outs (pre ++ n :: post) = some r ∧
      r.x.master = r.x.master_targ ∧
      (∀ i, i < x.chan_in_cnt → r.x.gains i = r.x.gains_targ i) ∧
      r.x.master_targ = x.master_targ ∧ r.x.gains_targ = x.gains_targ ∧
      r.x.cntd = CNTD_CONST := by
  subst hD
  obtain ⟨r, hr, h1, h2, h3, h4, h5⟩ :=
    mix_render_snap n post pre x ins outs hc hD2 hns hb hpre hcross
  refine ⟨r, hr, by rw [h2, h4], ?_, h4, h5, h1⟩
  intro i hi
  rw [h3 i hi, h5]

/-- C3 on a ramp of 10 samples started by `master 0` on the mixer `ex_unity`
and rendered as blocks of 3, 4, 5 and 6 samples: the ramp ends inside the
third block. -/
theorem settling_after_ramp_witness :
    (((mix_master ex_unity 0).chan_out_cnt = 1 ∨ (mix_master ex_unity 0).chan_out_cnt = 2) ∧
      (mix_master ex_unity 0).cntd = 10 ∧ 10 < 4294967295 ∧
      ¬ ((mix_master ex_unity 0).master = 0 ∧ (mix_master ex_unity 0).master_targ = 0) ∧
      (∀ k ∈ [3, 4] ++ 5 :: [6], 1 ≤ k ∧ k < 4294967296) ∧
      ([3, 4] : List Nat).sum < 10 ∧ 10 < ([3, 4] : List Nat).sum + 5) ∧
    ∃ r, mix_render (mix_master ex_unity 0) ex_ins ex_outs ([3, 4] ++ 5 :: [6]) = some r ∧
      r.x.master = r.x.master_targ ∧
      (∀ i, i < 2 → r.x.gains i = r.x.gains_targ i) ∧
      r.x.master_targ = 0 ∧ r.x.gains_targ = ex_unity.gains_targ ∧
      r.x.cntd = CNTD_CONST := by
  have hc : (mix_master ex_unity 0).chan_out_cnt = 1 ∨ (mix_master ex_unity 0).chan_out_cnt = 2 :=
    Or.inl rfl
  have hb : ∀ k ∈ [3, 4] ++ 5 :: [6], 1 ≤ k ∧ k < 4294967296 := by
    intro k hk
    simp only [List.cons_append, List.nil_append, List.mem_cons, List.mem_singleton,
      List.not_mem_nil, or_false] at hk
    rcases hk with h | h | h | h <;> subst h <;> norm_num
  have hns : ¬ ((mix_master ex_unity 0).master = 0 ∧ (mix_master ex_unity 0).master_targ = 0) := by
    simp [mix_master, ex_unity]
  exact ⟨⟨hc, rfl, by norm_num, hns, hb, by simp, by simp⟩,
    settling_after_ramp (mix_master ex_unity 0) ex_ins ex_outs [3, 4] [6] 5 10 hc rfl
      (by norm_num) hns hb (Or.inl (by simp)) (by simp)⟩

end Render

end Mix

/-! ## The control handlers -/

namespace Mix

section Control

variable {α : Type} [LinearOrderedField α]

/-- The targets `mix_pan` stores when the position is strictly inside the
range of the channels. -/
theorem mix_pan_inside [FloorRing α] (m : t_libm α) (x : t_mix α) (master p : α)
    (h0 : 0 < p) (h1 : p < (x.chan_in_cnt : α) - 1) (j : Nat) (hj : j < x.chan_in_cnt) :
    (mix_pan m x master p).gains_targ j =
      if j = ⌊p⌋₊ then m.cos ((p - (⌊p⌋₊ : α)) * M_PI_2)
      else if j = ⌊p⌋₊ + 1 then
        m.sqrt (1 - m.cos ((p - (⌊p⌋₊ : α)) * M_PI_2) ^ 2)
      else 0 := by
  have hn1 : ¬ p ≤ 0 := not_le.mpr h0
  have hn2 : ¬ p ≥ (((x.chan_in_cnt : Int) - 1 : Int) : α) := by
    push_cast
    exact not_le.mpr h1
  have hidx : double_to_int p = (⌊p⌋₊ : Int) := by
    unfold double_to_int
    rw [if_pos h0.le]
    exact (Int.natCast_floor_eq_floor h0.le).symm
  unfold mix_pan
  simp only [hn1, hn2, if_false, hidx, for_loop_update, Int.toNat_ofNat]
  have h2 : ((⌊p⌋₊ : Int) + 1).toNat = ⌊p⌋₊ + 1 := by omega
  have hc : (((⌊p⌋₊ : Int) : α)) = ((⌊p⌋₊ : Nat) : α) := by push_cast; rfl
  rw [h2, hc]
  by_cases hj1 : j = ⌊p⌋₊ + 1
  · have hj0 : j ≠ ⌊p⌋₊ := by omega
    rw [if_neg hj0, if_pos hj1, hj1, Function.update_same, sq]
  · rw [Function.update_noteq hj1]
    by_cases hj0 : j = ⌊p⌋₊
    · rw [if_pos hj0, hj0, Function.update_same]
    · rw [Function.update_noteq hj0, if_neg hj0, if_neg hj1]
      simp [hj]

/-- The targets `mix_pan` stores at or below the first channel. -/
theorem mix_pan_low [FloorRing α] (m : t_libm α) (x : t_mix α) (master p : α)
    (h0 : p ≤ 0) (j : Nat) (hj : j < x.chan_in_cnt) :
    (mix_pan m x master p).gains_targ j = if j = 0 then 1 else 0 := by
  unfold mix_pan
  simp only [h0, if_true, for_loop_update]
  by_cases hj0 : j = 0
  · rw [if_pos hj0, hj0, Function.update_same]
  · rw [Function.update_noteq hj0, if_neg hj0]
    simp [hj]

/-- The targets `mix_pan` stores at or above the last channel. -/
theorem mix_pan_high [FloorRing α] (m : t_libm α) (x : t_mix α) (master p : α)
    (h0 : 0 < p) (h1 : (x.chan_in_cnt : α) - 1 ≤ p) (j : Nat) (hj : j < x.chan_in_cnt) :
    (mix_pan m x master p).gains_targ j = if j = x.chan_in_cnt - 1 then 1 else 0 := by
  have hn1 : ¬ p ≤ 0 := not_le.mpr h0
  have hn2 : p ≥ (((x.chan_in_cnt : Int) - 1 : Int) : α) := by
    push_cast
    exact h1
  have h2 : ((x.chan_in_cnt : Int) - 1).toNat = x.chan_in_cnt - 1 := by omega
  unfold mix_pan
  simp only [hn1, hn2, if_false, if_true, for_loop_update, h2]
  by_cases hj0 : j = x.chan_in_cnt - 1
  · rw [if_pos hj0, hj0, Function.update_same]
  · rw [Function.update_noteq hj0, if_neg hj0]
    simp [hj]

/-- The object `mix_list` leaves, for a list of at least one atom. -/
theorem mix_list_cons (x : t_mix α) (a0 : t_atom α) (rest : List (t_atom α)) :
    mix_list x (a0 :: rest) = some
      { x with
        master_targ := atom_getfloat a0,
        gains_targ := fun j =>
          if rest.length ≤ j ∧ j < x.chan_in_cnt then 0
          else if j < min rest.length x.chan_in_cnt then atom_getfloat (rest.getD j (.A_LONG 0))
          else x.gains_targ j,
        cntd := x.ramp_samp } := by
  unfold mix_list
  simp only [List.length_cons, for_loop_update, Nat.add_sub_cancel]
  rw [if_neg (Nat.succ_ne_zero _)]
  simp [argv_at]

/-- C7. Pan law: `mix_pan(master, p)` sets `master_targ = master` and sets
every channel target to 0 except: `gains_targ[0] = 1` if `p <= 0`; else
`gains_targ[N - 1] = 1` if `p >= N - 1`; otherwise, with `i = floor(p)` and
`frac = p - i`, `gains_targ[i] = cos(frac * M_PI_2)` and
`gains_targ[i + 1] = sqrt(1 - cos(frac * M_PI_2)^2)`, where `M_PI_2` is the
constant of the source for pi/2 and `cos`, `sqrt` are the functions of
`math.h`. -/
theorem pan_law [FloorRing α] (m : t_libm α) (x : t_mix α) (master p : α)
    (_hN : 2 ≤ x.chan_in_cnt) :
    (mix_pan m x master p).master_targ = master ∧
    (p ≤ 0 → ∀ j, j < x.chan_in_cnt →
      (mix_pan m x master p).gains_targ j = if j = 0 then 1 else 0) ∧
    (0 < p → (x.chan_in_cnt : α) - 1 ≤ p → ∀ j, j < x.chan_in_cnt →
      (mix_pan m x master p).gains_targ j = if j = x.chan_in_cnt - 1 then 1 else 0) ∧
    (0 < p → p < (x.chan_in_cnt : α) - 1 → ∀ j, j < x.chan_in_cnt →
      (mix_pan m x master p).gains_targ j =
        if j = ⌊p⌋₊ then m.cos ((p - (⌊p⌋₊ : α)) * M_PI_2)
        else if j = ⌊p⌋₊ + 1 then m.sqrt (1 - m.cos ((p - (⌊p⌋₊ : α)) * M_PI_2) ^ 2)
        else 0) :=
  ⟨rfl, fun h0 j hj => mix_pan_low m x master p h0 j hj,
   fun h0 h1 j hj => mix_pan_high m x master p h0 h1 j hj,
   fun h0 h1 j hj => mix_pan_inside m x master p h0 h1 j hj⟩

/-- C7 on the 3-channel mixer `ex_new3` over the reals, with the cosine and
the square root of the reals: at position 3/2 the targets are 0,
`cos(1/2 * M_PI_2)` and `sqrt(1 - cos(1/2 * M_PI_2)^2)`; at position -1 the
first channel has target 1, at position 2 the last one. -/
theorem pan_law_witness :
    2 ≤ (ex_new3 : t_mix ℝ).chan_in_cnt ∧
    (mix_pan ⟨Real.cos, Real.sqrt, Real.exp⟩ (ex_new3 : t_mix ℝ) (1 / 2) (3 / 2)).master_targ
      = 1 / 2 ∧
    (mix_pan ⟨Real.cos, Real.sqrt, Real.exp⟩ (ex_new3 : t_mix ℝ) (1 / 2) (3 / 2)).gains_targ 0
      = 0 ∧
    (mix_pan ⟨Real.cos, Real.sqrt, Real.exp⟩ (ex_new3 : t_mix ℝ) (1 / 2) (3 / 2)).gains_targ 1
      = Real.cos (1 / 2 * M_PI_2) ∧
    (mix_pan ⟨Real.cos, Real.sqrt, Real.exp⟩ (ex_new3 : t_mix ℝ) (1 / 2) (3 / 2)).gains_targ 2
      = Real.sqrt (1 - Real.cos (1 / 2 * M_PI_2) ^ 2) ∧
    (mix_pan ⟨Real.cos, Real.sqrt, Real.exp⟩ (ex_new3 : t_mix ℝ) (1 / 2) (-1)).gains_targ 0
      = 1 ∧
    (mix_pan ⟨Real.cos, Real.sqrt, Real.exp⟩ (ex_new3 : t_mix ℝ) (1 / 2) 2).gains_targ 2
      = 1 := by
  have hN : 2 ≤ (ex_new3 : t_mix ℝ).chan_in_cnt := by simp [ex_new3]
  have hfl : ⌊(3 / 2 : ℝ)⌋₊ = 1 := by
    rw [Nat.floor_eq_iff (by norm_num)]
    constructor <;> norm_num
  have hin := (pan_law ⟨Real.cos, Real.sqrt, Real.exp⟩ (ex_new3 : t_mix ℝ) (1 / 2) (3 / 2)
    hN).2.2.2 (by norm_num) (by simp [ex_new3]; norm_num)
  have hlo := (pan_law ⟨Real.cos, Real.sqrt, Real.exp⟩ (ex_new3 : t_mix ℝ) (1 / 2) (-1)
    hN).2.1 (by norm_num)
  have hhi := (pan_law ⟨Real.cos, Real.sqrt, Real.exp⟩ (ex_new3 : t_mix ℝ) (1 / 2) 2
    hN).2.2.1 (by norm_num) (by simp [ex_new3]; norm_num)
  refine ⟨hN, rfl, ?_, ?_, ?_, ?_, ?_⟩
  · rw [hin 0 (by simp [ex_new3]), hfl]; simp
  · rw [hin 1 (by simp [ex_new3]), hfl]; norm_num
  · rw [hin 2 (by simp [ex_new3]), hfl]; norm_num
  · rw [hlo 0 (by simp [ex_new3])]; simp
  · rw [hhi 2 (by simp [ex_new3])]; simp [ex_new3]

/-- C8. Constant-power pan, over the reals: for a pan position `p` strictly
between two channel indices `i` and `i + 1`, the targets `mix_pan` sets
satisfy `gains_targ[i]^2 + gains_targ[i + 1]^2 = 1`, and every other channel
target is 0. -/
theorem constant_power_pan (x : t_mix ℝ) (master p : ℝ) (i : Nat)
    (_hN : 2 ≤ x.chan_in_cnt) (hi : i + 1 < x.chan_in_cnt)
    (h1 : (i : ℝ) < p) (h2 : p < (i : ℝ) + 1) :
    (mix_pan ⟨Real.cos, Real.sqrt, Real.exp⟩ x master p).gains_targ i ^ 2 +
      (mix_pan ⟨Real.cos, Real.sqrt, Real.exp⟩ x master p).gains_targ (i + 1) ^ 2 = 1 ∧
    ∀ j, j < x.chan_in_cnt → j ≠ i → j ≠ i + 1 →
      (mix_pan ⟨Real.cos, Real.sqrt, Real.exp⟩ x master p).gains_targ j = 0 := by
  have h0 : 0 < p := lt_of_le_of_lt (Nat.cast_nonneg i) h1
  have hfl : ⌊p⌋₊ = i := by
    rw [Nat.floor_eq_iff h0.le]
    exact ⟨h1.le, h2⟩
  have hlt : p < (x.chan_in_cnt : ℝ) - 1 := by
    have h3 : ((i + 1 + 1 : Nat) : ℝ) ≤ (x.chan_in_cnt : ℝ) := by
      exact_mod_cast hi
    push_cast at h3
    linarith
  have hin := mix_pan_inside ⟨Real.cos, Real.sqrt, Real.exp⟩ x master p h0 hlt
  constructor
  · rw [hin i (by omega), hin (i + 1) hi, hfl]
    have hne : i + 1 ≠ i := by omega
    simp only [if_true, if_neg hne]
    rw [Real.sq_sqrt]
    · ring
    · have := Real.cos_sq_le_one ((p - (i : ℝ)) * M_PI_2)
      linarith
  · intro j hj hji hji1
    rw [hin j hj, hfl, if_neg hji, if_neg hji1]

/-- C8 on the 3-channel mixer `ex_new3` at the pan position 3/2, between the
channels 1 and 2. -/
theorem constant_power_pan_witness :
    (2 ≤ (ex_new3 : t_mix ℝ).chan_in_cnt ∧ 1 + 1 < (ex_new3 : t_mix ℝ).chan_in_cnt ∧
      ((1 : Nat) : ℝ) < 3 / 2 ∧ (3 / 2 : ℝ) < ((1 : Nat) : ℝ) + 1) ∧
    ((mix_pan ⟨Real.cos, Real.sqrt, Real.exp⟩ (ex_new3 : t_mix ℝ) 1 (3 / 2)).gains_targ 1 ^ 2 +
      (mix_pan ⟨Real.cos, Real.sqrt, Real.exp⟩ (ex_new3 : t_mix ℝ) 1 (3 / 2)).gains_targ (1 + 1) ^ 2
        = 1 ∧
    ∀ j, j < (ex_new3 : t_mix ℝ).chan_in_cnt → j ≠ 1 → j ≠ 1 + 1 →
      (mix_pan ⟨Real.cos, Real.sqrt, Real.exp⟩ (ex_new3 : t_mix ℝ) 1 (3 / 2)).gains_targ j = 0) :=
  ⟨⟨by simp [ex_new3], by simp [ex_new3], by norm_num, by norm_num⟩,
   constant_power_pan (ex_new3 : t_mix ℝ) 1 (3 / 2) 1 (by simp [ex_new3]) (by simp [ex_new3])
     (by norm_num) (by norm_num)⟩

/-- C9. setLevels: for a list of `argc >= 1` atoms, the first being `a0` and
the others `rest`, `mix_list` sets `master_targ` to the number `a0` holds,
`gains_targ[i]` to the number the level of index `i` holds for every
`i < min(argc - 1, N)`, `gains_targ[i] = 0` for every `argc - 1 <= i < N`,
ignores the levels beyond the `N`-th (the list cut after `N` levels gives the
same object), and sets `cntd = ramp_samp`. -/
theorem set_levels (x : t_mix α) (a0 : t_atom α) (rest : List (t_atom α)) :
    ∃ x', mix_list x (a0 :: rest) = some x' ∧
      x'.master_targ = atom_getfloat a0 ∧
      (∀ i a, i < x.chan_in_cnt → rest.get? i = some a →
        x'.gains_targ i = atom_getfloat a) ∧
      (∀ i, rest.length ≤ i → i < x.chan_in_cnt → x'.gains_targ i = 0) ∧
      mix_list x (a0 :: rest.take x.chan_in_cnt) = some x' ∧
      x'.cntd = x.ramp_samp := by
  refine ⟨_, mix_list_cons x a0 rest, rfl, ?_, ?_, ?_, rfl⟩
  · intro i a hi ha
    have hlen : i < rest.length := by
      rcases Nat.lt_or_ge i rest.length with h | h
      · exact h
      · rw [List.get?_eq_none.mpr h] at ha; cases ha
    have h1 : ¬ (rest.length ≤ i ∧ i < x.chan_in_cnt) := by omega
    have h2 : i < min rest.length x.chan_in_cnt := by
      rw [lt_min_iff]; exact ⟨hlen, hi⟩
    have h3 : rest.getD i (.A_LONG 0) = a := by
      rw [List.getD_eq_getElem?_getD, ← List.get?_eq_getElem?, ha]
      rfl
    simp only [h1, h2, if_false, if_true, h3]
  · intro i h1 h2
    simp only [h1, h2, and_self, if_true]
  · rw [mix_list_cons]
    congr 2
    funext j
    by_cases hj : j < x.chan_in_cnt
    · have e1 : ((List.take x.chan_in_cnt rest).length ≤ j ∧ j < x.chan_in_cnt) ↔
          (rest.length ≤ j ∧ j < x.chan_in_cnt) := by
        rw [List.length_take]; omega
      have e2 : (j < min (List.take x.chan_in_cnt rest).length x.chan_in_cnt) ↔
          (j < min rest.length x.chan_in_cnt) := by
        rw [List.length_take]; omega
      have e3 : (List.take x.chan_in_cnt rest).getD j (.A_LONG 0) = rest.getD j (.A_LONG 0) := by
        rw [List.getD_eq_getElem?_getD, List.getD_eq_getElem?_getD,
          List.getElem?_take_of_lt hj]
      simp only [e1, e2, e3]
    · have e1 : ¬ ((List.take x.chan_in_cnt rest).length ≤ j ∧ j < x.chan_in_cnt) :=
        fun h => hj h.2
      have e2 : ¬ (j < min (List.take x.chan_in_cnt rest).length x.chan_in_cnt) := by
        rw [lt_min_iff]; exact fun h => hj h.2
      have e3 : ¬ (rest.length ≤ j ∧ j < x.chan_in_cnt) := fun h => hj h.2
      have e4 : ¬ (j < min rest.length x.chan_in_cnt) := by
        rw [lt_min_iff]; exact fun h => hj h.2
      simp only [e1, e2, e3, e4, if_false]

/-- C9 on the 3-channel mixer `ex_new3`: the list `1/2 3 4` sets the master
target 1/2 and the channel targets 3, 4 and 0; of the list `1/2 3 4 5 6` the
level 6 is ignored. -/
theorem set_levels_witness :
    (∃ x', mix_list (ex_new3 : t_mix ℚ)
        [t_atom.A_FLOAT (1 / 2), t_atom.A_LONG 3, t_atom.A_FLOAT 4] = some x' ∧
      x'.master_targ = 1 / 2 ∧ x'.gains_targ 0 = 3 ∧ x'.gains_targ 1 = 4 ∧
      x'.gains_targ 2 = 0 ∧ x'.cntd = 1323) ∧
    mix_list (ex_new3 : t_mix ℚ)
        [t_atom.A_FLOAT (1 / 2), t_atom.A_LONG 3, t_atom.A_FLOAT 4, t_atom.A_LONG 5,
          t_atom.A_LONG 6] =
      mix_list (ex_new3 : t_mix ℚ)
        [t_atom.A_FLOAT (1 / 2), t_atom.A_LONG 3, t_atom.A_FLOAT 4, t_atom.A_LONG 5] := by
  constructor
  · obtain ⟨x', hx', hm, hl, hz, _, hc⟩ := set_levels (ex_new3 : t_mix ℚ)
      (t_atom.A_FLOAT (1 / 2)) [t_atom.A_LONG 3, t_atom.A_FLOAT 4]
    refine ⟨x', hx', hm, ?_, ?_, ?_, hc⟩
    · rw [hl 0 (t_atom.A_LONG 3) (by simp [ex_new3]) rfl]; simp [atom_getfloat]
    · rw [hl 1 (t_atom.A_FLOAT 4) (by simp [ex_new3]) rfl]; simp [atom_getfloat]
    · exact hz 2 (by simp) (by simp [ex_new3])
  · obtain ⟨x', hx', _, _, _, ht, _⟩ := set_levels (ex_new3 : t_mix ℚ)
      (t_atom.A_FLOAT (1 / 2))
      [t_atom.A_LONG 3, t_atom.A_FLOAT 4, t_atom.A_LONG 5, t_atom.A_LONG 6]
    rw [hx']
    exact ht.symm

/-- C10. Control operations never write current gains: `mix_master`,
`mix_pan` and `mix_list` change at most `master_targ`, `gains_targ` and
`cntd`, and `mix_adjust` and `mix_adjust_one` change at most `gains_adjust`;
all of them leave `master`, `gains`, the channel counts and `ramp_samp` as
they were, for every state and arguments. -/
theorem control_never_writes_current [FloorRing α] (m : t_libm α) (x : t_mix α)
    (master pan : α) (argv : List (t_atom α)) :
    only_targets_written x (mix_master x master) ∧
    only_targets_written x (mix_pan m x master pan) ∧
    (∀ x', mix_list x argv = some x' → only_targets_written x x') ∧
    only_adjust_written x (mix_adjust m x argv) ∧
    only_adjust_written x (mix_adjust_one m x argv) := by
  refine ⟨?_, ?_, ?_, ?_, ?_⟩
  · simp [only_targets_written, mix_master]
  · simp [only_targets_written, mix_pan]
  · intro x' h
    unfold mix_list at h
    simp only at h
    split_ifs at h
    cases h
    simp [only_targets_written]
  · unfold mix_adjust
    simp only
    split_ifs <;> simp [only_adjust_written]
  · unfold mix_adjust_one
    simp only
    split_ifs <;> simp [only_adjust_written]

/-- C10 on the 3-channel mixer `ex_new3`: after `list 1/2 3 4`, and after
`adjust db 0 0 0`, master and the channel gains are the ones before. -/
theorem control_never_writes_current_witness :
    (∃ x', mix_list (ex_new3 : t_mix ℚ)
        [t_atom.A_FLOAT (1 / 2), t_atom.A_LONG 3, t_atom.A_FLOAT 4] = some x' ∧
      x'.master = 1 ∧ x'.gains = (ex_new3 : t_mix ℚ).gains) ∧
    (mix_adjust ⟨fun v => v, fun v => v, fun v => 1 + v⟩ (ex_new3 : t_mix ℚ)
        [t_atom.A_SYM "db", t_atom.A_LONG 0, t_atom.A_LONG 0, t_atom.A_LONG 0]).master = 1 := by
  constructor
  · have h := (control_never_writes_current ⟨fun v => v, fun v => v, fun v => 1 + v⟩
      (ex_new3 : t_mix ℚ) 0 0
      [t_atom.A_FLOAT (1 / 2), t_atom.A_LONG 3, t_atom.A_FLOAT 4]).2.2.1
    obtain ⟨x', hx'⟩ : ∃ x', mix_list (ex_new3 : t_mix ℚ)
        [t_atom.A_FLOAT (1 / 2), t_atom.A_LONG 3, t_atom.A_FLOAT 4] = some x' :=
      ⟨_, mix_list_cons _ _ _⟩
    exact ⟨x', hx', (h x' hx').1, (h x' hx').2.1⟩
  · exact (control_never_writes_current ⟨fun v => v, fun v => v, fun v => 1 + v⟩
      (ex_new3 : t_mix ℚ) 0 0
      [t_atom.A_SYM "db", t_atom.A_LONG 0, t_atom.A_LONG 0, t_atom.A_LONG 0]).2.2.2.1.1

end Control

end Mix

/-! ## Validation of the arguments -/

section Validation

variable {α : Type} [LinearOrderedField α]

/-- The loop of `args_are_numbers` accepts the arguments when each of them is
a number that passes the filter. -/
theorem args_are_numbers_iff (argv : List (t_atom α)) (index cnt : Nat)
    (filter : Option (α → α → α → Bool)) (low high : α) :
    args_are_numbers argv index cnt filter low high = true ↔
      ∀ i, i < cnt →
        (atom_gettype (argv_at argv (index + i)) = .A_LONG ∨
          atom_gettype (argv_at argv (index + i)) = .A_FLOAT) ∧
        ∀ f, filter = some f → f (atom_getfloat (argv_at argv (index + i))) low high = true := by
  unfold args_are_numbers
  simp only [List.all_eq_true, List.mem_range]
  refine forall_congr' (fun i => imp_congr_right (fun _ => ?_))
  cases filter with
  | none =>
    cases h : atom_gettype (argv_at argv (index + i)) <;> simp
  | some f =>
    cases h : atom_gettype (argv_at argv (index + i)) <;> simp

/-- The test `args_is_sym` against the two symbols `ampl` and `db`. -/
theorem args_is_sym_ampl_db {β : Type} (argv : List (t_atom β)) :
    args_is_sym argv 0 2 ["ampl", "db"] = true ↔
      argv_at argv 0 = .A_SYM "ampl" ∨ argv_at argv 0 = .A_SYM "db" := by
  unfold args_is_sym
  cases h : argv_at argv 0 with
  | A_LONG v => simp [atom_gettype]
  | A_FLOAT v => simp [atom_gettype]
  | A_SYM s =>
    simp [atom_gettype, atom_getsym, List.range_succ]

/-- The test of `mix_adjust` in the mode `ampl`. -/
theorem mix_adjust_ampl_iff (x : Mix.t_mix α) (argv : List (t_atom α)) :
    ((args_count_is argv.length ((x.chan_in_cnt : Int) + 1)
        && args_is_sym argv 0 2 ["ampl", "db"]) = true ∧
      (decide (atom_getsym (argv_at argv 0) = "ampl")
        && args_are_numbers argv 1 x.chan_in_cnt (some is_above_f) 0 0) = true) ↔
    (argv.length = x.chan_in_cnt + 1 ∧ argv_at argv 0 = .A_SYM "ampl" ∧
      ∀ i, i < x.chan_in_cnt →
        (atom_gettype (argv_at argv (i + 1)) = .A_LONG ∨
          atom_gettype (argv_at argv (i + 1)) = .A_FLOAT) ∧
        0 ≤ atom_getfloat (argv_at argv (i + 1))) := by
  simp only [Bool.and_eq_true, args_is_sym_ampl_db, args_are_numbers_iff, decide_eq_true_eq,
    args_count_is, Option.some.injEq, forall_eq', is_above_f, ge_iff_le, Nat.add_comm 1]
  constructor
  · rintro ⟨⟨h1, h2⟩, h3, h4⟩
    refine ⟨by exact_mod_cast h1, ?_, h4⟩
    rcases h2 with h | h
    · exact h
    · rw [h] at h3; simp [atom_getsym] at h3
  · rintro ⟨h1, h2, h4⟩
    refine ⟨⟨by exact_mod_cast h1, Or.inl h2⟩, by rw [h2]; rfl, h4⟩

/-- The test of `mix_adjust` in the mode `db`. -/
theorem mix_adjust_db_iff (x : Mix.t_mix α) (argv : List (t_atom α)) :
    ((args_count_is argv.length ((x.chan_in_cnt : Int) + 1)
        && args_is_sym argv 0 2 ["ampl", "db"]) = true ∧
      (decide (atom_getsym (argv_at argv 0) = "db")
        && args_are_numbers argv 1 x.chan_in_cnt none 0 0) = true) ↔
    (argv.length = x.chan_in_cnt + 1 ∧ argv_at argv 0 = .A_SYM "db" ∧
      ∀ i, i < x.chan_in_cnt →
        (atom_gettype (argv_at argv (i + 1)) = .A_LONG ∨
          atom_gettype (argv_at argv (i + 1)) = .A_FLOAT)) := by
  simp only [Bool.and_eq_true, args_is_sym_ampl_db, args_are_numbers_iff, decide_eq_true_eq,
    args_count_is, Nat.add_comm 1]
  constructor
  · rintro ⟨⟨h1, h2⟩, h3, h4⟩
    refine ⟨by exact_mod_cast h1, ?_, fun i hi => (h4 i hi).1⟩
    rcases h2 with h | h
    · rw [h] at h3; simp [atom_getsym] at h3
    · exact h
  · rintro ⟨h1, h2, h4⟩
    refine ⟨⟨by exact_mod_cast h1, Or.inr h2⟩, by rw [h2]; rfl,
      fun i hi => ⟨h4 i hi, fun f hf => by cases hf⟩⟩

end Validation

namespace Mix

section Adjust

variable {α : Type} [LinearOrderedField α]

/-- C11. Ramp restart: after `mix_master`, `mix_pan` or `mix_list` (a list of
at least one atom) executed in any state, whatever the countdown and the
current gains were, the countdown is the full ramp duration `ramp_samp`, which
the command leaves as it was. -/
theorem ramp_restart [FloorRing α] (m : t_libm α) (x : t_mix α) (master p : α)
    (a0 : t_atom α) (rest : List (t_atom α)) :
    ((mix_master x master).cntd = x.ramp_samp ∧
      (mix_master x master).ramp_samp = x.ramp_samp) ∧
    ((mix_pan m x master p).cntd = x.ramp_samp ∧
      (mix_pan m x master p).ramp_samp = x.ramp_samp) ∧
    ∃ x', mix_list x (a0 :: rest) = some x' ∧ x'.cntd = x.ramp_samp ∧
      x'.ramp_samp = x.ramp_samp :=
  ⟨⟨rfl, rfl⟩, ⟨rfl, rfl⟩, _, mix_list_cons x a0 rest, rfl, rfl⟩

/-- C12. Adjust-all is atomic validate-then-apply. When the list has exactly
`N + 1` atoms, the first is the symbol `ampl` and the `N` others are numbers
that are all `>= 0`, `mix_adjust` sets the `N` entries of `gains_adjust` to
these numbers; when the first is the symbol `db` and the `N` others are
numbers, it sets entry `i` to `exp(v_i * M_LN10_20)`, `M_LN10_20` being the
constant of the source for ln10/20; for every other list the object is
unchanged. -/
theorem adjust_all_atomic (m : t_libm α) (x : t_mix α) (argv : List (t_atom α)) :
    ((argv.length = x.chan_in_cnt + 1 ∧ argv_at argv 0 = .A_SYM "ampl" ∧
        ∀ i, i < x.chan_in_cnt →
          (atom_gettype (argv_at argv (i + 1)) = .A_LONG ∨
            atom_gettype (argv_at argv (i + 1)) = .A_FLOAT) ∧
          0 ≤ atom_getfloat (argv_at argv (i + 1))) →
      mix_adjust m x argv =
        { x with
          gains_adjust := fun j =>
            if j < x.chan_in_cnt then atom_getfloat (argv_at argv (j + 1))
            else x.gains_adjust j }) ∧
    ((argv.length = x.chan_in_cnt + 1 ∧ argv_at argv 0 = .A_SYM "db" ∧
        ∀ i, i < x.chan_in_cnt →
          (atom_gettype (argv_at argv (i + 1)) = .A_LONG ∨
            atom_gettype (argv_at argv (i + 1)) = .A_FLOAT)) →
      mix_adjust m x argv =
        { x with
          gains_adjust := fun j =>
            if j < x.chan_in_cnt then m.exp (atom_getfloat (argv_at argv (j + 1)) * M_LN10_20)
            else x.gains_adjust j }) ∧
    (¬ (argv.length = x.chan_in_cnt + 1 ∧ argv_at argv 0 = .A_SYM "ampl" ∧
        ∀ i, i < x.chan_in_cnt →
          (atom_gettype (argv_at argv (i + 1)) = .A_LONG ∨
            atom_gettype (argv_at argv (i + 1)) = .A_FLOAT) ∧
          0 ≤ atom_getfloat (argv_at argv (i + 1))) →
     ¬ (argv.length = x.chan_in_cnt + 1 ∧ argv_at argv 0 = .A_SYM "db" ∧
        ∀ i, i < x.chan_in_cnt →
          (atom_gettype (argv_at argv (i + 1)) = .A_LONG ∨
            atom_gettype (argv_at argv (i + 1)) = .A_FLOAT)) →
      mix_adjust m x argv = x) := by
  refine ⟨fun h => ?_, fun h => ?_, fun ha hd => ?_⟩
  · have h' := (mix_adjust_ampl_iff x argv).mpr h
    unfold mix_adjust
    simp only [h'.1, h'.2, if_true, for_loop_update]
    congr 1
    funext j
    simp
  · have h' := (mix_adjust_db_iff x argv).mpr h
    have hna : ¬ ((decide (atom_getsym (argv_at argv 0) = "ampl")
        && args_are_numbers argv 1 x.chan_in_cnt (some is_above_f) 0 0) = true) := by
      rw [h.2.1]; simp [atom_getsym]
    unfold mix_adjust
    simp only [h'.1, h'.2, hna, if_true, if_false, for_loop_update, Bool.false_eq_true]
    congr 1
    funext j
    simp
  · unfold mix_adjust
    simp only
    split_ifs with h1 h2 h3
    · exact absurd ((mix_adjust_ampl_iff x argv).mp ⟨h1, h2⟩) ha
    · exact absurd ((mix_adjust_db_iff x argv).mp ⟨h1, h3⟩) hd
    · rfl
    · rfl

/-- C12 on the 3-channel mixer `ex_new3` over the reals, with the exponential
of the reals: `adjust db 0 -6 6` sets the adjust of channel 1 to
`exp(-6 * M_LN10_20)`, `adjust ampl 2 1/2 0` sets the adjust of channel 0 to 2,
and `adjust ampl 2 -1/2 0`, whose second value is negative, leaves the object
as it was, the adjust of channel 0 included. -/
theorem adjust_all_atomic_witness :
    (mix_adjust ⟨Real.cos, Real.sqrt, Real.exp⟩ (ex_new3 : t_mix ℝ)
      [.A_SYM "db", .A_LONG 0, .A_FLOAT (-6), .A_LONG 6]).gains_adjust 1
        = Real.exp (-6 * M_LN10_20) ∧
    (mix_adjust ⟨Real.cos, Real.sqrt, Real.exp⟩ (ex_new3 : t_mix ℝ)
      [.A_SYM "ampl", .A_LONG 2, .A_FLOAT (1 / 2), .A_LONG 0]).gains_adjust 0 = 2 ∧
    mix_adjust ⟨Real.cos, Real.sqrt, Real.exp⟩ (ex_new3 : t_mix ℝ)
      [.A_SYM "ampl", .A_LONG 2, .A_FLOAT (-1 / 2), .A_LONG 0] = ex_new3 := by
  refine ⟨?_, ?_, ?_⟩
  · rw [(adjust_all_atomic ⟨Real.cos, Real.sqrt, Real.exp⟩ (ex_new3 : t_mix ℝ)
      [.A_SYM "db", .A_LONG 0, .A_FLOAT (-6), .A_LONG 6]).2.1
      ⟨rfl, rfl, fun i hi => by
        have hi' : i < 3 := hi
        interval_cases i <;> simp [argv_at, atom_gettype]⟩]
    simp [ex_new3, argv_at, atom_getfloat]
  · rw [(adjust_all_atomic ⟨Real.cos, Real.sqrt, Real.exp⟩ (ex_new3 : t_mix ℝ)
      [.A_SYM "ampl", .A_LONG 2, .A_FLOAT (1 / 2), .A_LONG 0]).1
      ⟨rfl, rfl, fun i hi => by
        have hi' : i < 3 := hi
        interval_cases i <;> simp [argv_at, atom_gettype, atom_getfloat]⟩]
    simp [ex_new3, argv_at, atom_getfloat]
  · refine (adjust_all_atomic ⟨Real.cos, Real.sqrt, Real.exp⟩ (ex_new3 : t_mix ℝ)
      [.A_SYM "ampl", .A_LONG 2, .A_FLOAT (-1 / 2), .A_LONG 0]).2.2 ?_ ?_
    · intro h
      have h1 := (h.2.2 1 (by simp [ex_new3])).2
      simp [argv_at, atom_getfloat] at h1
      norm_num at h1
    · intro h
      have h1 := h.2.1
      simp [argv_at] at h1

end Adjust

end Mix

/-! ## The adjust of one channel -/

namespace Mix

section AdjustOne

variable {α : Type} [LinearOrderedField α]

/-- The test of `mix_adjust_one` on the count, the mode and the index. -/
theorem mix_adjust_one_test [FloorRing α] (x : t_mix α) (argv : List (t_atom α)) :
    (args_count_is argv.length 3 && args_is_sym argv 0 2 ["ampl", "db"]
      && args_is_long argv 1 (some is_between_l) 0 ((x.chan_in_cnt : Int) - 1)) = true ↔
    ∃ mode k v, argv = [.A_SYM mode, .A_LONG k, v] ∧ (mode = "ampl" ∨ mode = "db") ∧
      0 ≤ k ∧ k ≤ (x.chan_in_cnt : Int) - 1 := by
  constructor
  · intro h
    simp only [Bool.and_eq_true, args_count_is, decide_eq_true_eq] at h
    obtain ⟨⟨h1, h2⟩, h3⟩ := h
    have hlen : argv.length = 3 := by exact_mod_cast h1
    rcases argv with _ | ⟨a, _ | ⟨b, _ | ⟨c, _ | ⟨d, rest⟩⟩⟩⟩ <;> simp at hlen
    cases a <;> simp [args_is_sym, argv_at, atom_gettype, atom_getsym, List.range_succ] at h2
    cases b <;> simp [args_is_long, argv_at, atom_gettype, atom_getlong, is_between_l] at h3
    rename_i s k
    exact ⟨s, k, c, rfl, by tauto, h3.1, h3.2⟩
  · rintro ⟨mode, k, v, rfl, hm, hk0, hk1⟩
    rcases hm with rfl | rfl <;>
      simp [args_count_is, args_is_sym, args_is_long, argv_at, atom_gettype, atom_getsym,
        atom_getlong, is_between_l, hk0, hk1, List.range_succ]

/-- C13. Adjust-one: when the list is `mode k v` with `mode` the symbol
`ampl`, `k` an integer atom with `0 <= k <= N - 1` and `v` a number `>= 0`,
`mix_adjust_one` sets `gains_adjust[k]` to `v`; when `mode` is the symbol `db`
and `v` a number, it sets `gains_adjust[k]` to `exp(v * M_LN10_20)`,
`M_LN10_20` being the constant of the source for ln10/20; in both cases every
other entry of `gains_adjust` and every other field are unchanged. For every
other list (wrong count, unknown mode, index that is not an integer atom or is
out of range, negative value in the mode `ampl`, value that is not a number)
the object is unchanged. -/
theorem adjust_one_validated [FloorRing α] (m : t_libm α) (x : t_mix α)
    (argv : List (t_atom α)) :
    (∀ k v, argv = [.A_SYM "ampl", .A_LONG k, v] → 0 ≤ k → k ≤ (x.chan_in_cnt : Int) - 1 →
      (atom_gettype v = .A_LONG ∨ atom_gettype v = .A_FLOAT) → 0 ≤ atom_getfloat v →
      mix_adjust_one m x argv =
        { x with gains_adjust := Function.update x.gains_adjust k.toNat (atom_getfloat v) }) ∧
    (∀ k v, argv = [.A_SYM "db", .A_LONG k, v] → 0 ≤ k → k ≤ (x.chan_in_cnt : Int) - 1 →
      (atom_gettype v = .A_LONG ∨ atom_gettype v = .A_FLOAT) →
      mix_adjust_one m x argv =
        { x with
          gains_adjust :=
            Function.update x.gains_adjust k.toNat (m.exp (atom_getfloat v * M_LN10_20)) }) ∧
    ((¬ ∃ k v, argv = [.A_SYM "ampl", .A_LONG k, v] ∧ 0 ≤ k ∧ k ≤ (x.chan_in_cnt : Int) - 1 ∧
        (atom_gettype v = .A_LONG ∨ atom_gettype v = .A_FLOAT) ∧ 0 ≤ atom_getfloat v) →
     (¬ ∃ k v, argv = [.A_SYM "db", .A_LONG k, v] ∧ 0 ≤ k ∧ k ≤ (x.chan_in_cnt : Int) - 1 ∧
        (atom_gettype v = .A_LONG ∨ atom_gettype v = .A_FLOAT)) →
      mix_adjust_one m x argv = x) := by
  refine ⟨?_, ?_, ?_⟩
  · intro k v ha hk0 hk1 hnum hv
    have ht := (mix_adjust_one_test x argv).mpr ⟨_, k, v, ha, Or.inl rfl, hk0, hk1⟩
    unfold mix_adjust_one
    simp only [ht, if_true]
    subst ha
    cases v <;> simp [atom_gettype] at hnum <;>
      simp [args_is_number, argv_at, atom_gettype, atom_getsym, atom_getlong, is_above_f, hv]
  · intro k v ha hk0 hk1 hnum
    have ht := (mix_adjust_one_test x argv).mpr ⟨_, k, v, ha, Or.inr rfl, hk0, hk1⟩
    unfold mix_adjust_one
    simp only [ht, if_true]
    subst ha
    cases v <;> simp [atom_gettype] at hnum <;>
      simp [args_is_number, argv_at, atom_gettype, atom_getsym, atom_getlong, is_above_f]
  · intro ha hd
    unfold mix_adjust_one
    simp only
    split_ifs with h1 h2 h3
    · exfalso
      obtain ⟨mode, k, v, rfl, _, hk0, hk1⟩ := (mix_adjust_one_test x argv).mp h1
      apply ha
      simp only [Bool.and_eq_true, decide_eq_true_eq] at h2
      have hmode : mode = "ampl" := by simpa [argv_at, atom_getsym] using h2.1
      subst hmode
      refine ⟨k, v, rfl, hk0, hk1, ?_⟩
      have h4 := h2.2
      simp only [args_is_number, argv_at, List.getD_cons_succ, List.getD_cons_zero,
        Bool.and_eq_true, Bool.or_eq_true, decide_eq_true_eq, is_above_f] at h4
      exact ⟨h4.1, h4.2⟩
    · exfalso
      obtain ⟨mode, k, v, rfl, _, hk0, hk1⟩ := (mix_adjust_one_test x argv).mp h1
      apply hd
      simp only [Bool.and_eq_true, decide_eq_true_eq] at h3
      have hmode : mode = "db" := by simpa [argv_at, atom_getsym] using h3.1
      subst hmode
      refine ⟨k, v, rfl, hk0, hk1, ?_⟩
      have h4 := h3.2
      simp only [args_is_number, argv_at, List.getD_cons_succ, List.getD_cons_zero,
        Bool.and_eq_true, Bool.or_eq_true, decide_eq_true_eq] at h4
      exact h4.1
    · rfl
    · rfl

/-- C13 on the 3-channel mixer `ex_new3` over the reals: `adjust_one db 1 -6`
sets the adjust of channel 1 to `exp(-6 * M_LN10_20)` and leaves the adjust of
channel 0 at 1; `adjust_one ampl 2 1/2` sets the adjust of channel 2 to 1/2;
`adjust_one ampl 3 1/2`, whose index is out of range, and `adjust_one ampl 1 -1`,
whose value is negative, leave the object as it was. -/
theorem adjust_one_validated_witness :
    (mix_adjust_one ⟨Real.cos, Real.sqrt, Real.exp⟩ (ex_new3 : t_mix ℝ)
      [.A_SYM "db", .A_LONG 1, .A_FLOAT (-6)]).gains_adjust 1 = Real.exp (-6 * M_LN10_20) ∧
    (mix_adjust_one ⟨Real.cos, Real.sqrt, Real.exp⟩ (ex_new3 : t_mix ℝ)
      [.A_SYM "db", .A_LONG 1, .A_FLOAT (-6)]).gains_adjust 0 = 1 ∧
    (mix_adjust_one ⟨Real.cos, Real.sqrt, Real.exp⟩ (ex_new3 : t_mix ℝ)
      [.A_SYM "ampl", .A_LONG 2, .A_FLOAT (1 / 2)]).gains_adjust 2 = 1 / 2 ∧
    mix_adjust_one ⟨Real.cos, Real.sqrt, Real.exp⟩ (ex_new3 : t_mix ℝ)
      [.A_SYM "ampl", .A_LONG 3, .A_FLOAT (1 / 2)] = ex_new3 ∧
    mix_adjust_one ⟨Real.cos, Real.sqrt, Real.exp⟩ (ex_new3 : t_mix ℝ)
      [.A_SYM "ampl", .A_LONG 1, .A_LONG (-1)] = ex_new3 := by
  have hdb := (adjust_one_validated ⟨Real.cos, Real.sqrt, Real.exp⟩ (ex_new3 : t_mix ℝ)
    [.A_SYM "db", .A_LONG 1, .A_FLOAT (-6)]).2.1 1 (.A_FLOAT (-6)) rfl (by norm_num)
    (by simp [ex_new3]) (Or.inr rfl)
  have hampl := (adjust_one_validated ⟨Real.cos, Real.sqrt, Real.exp⟩ (ex_new3 : t_mix ℝ)
    [.A_SYM "ampl", .A_LONG 2, .A_FLOAT (1 / 2)]).1 2 (.A_FLOAT (1 / 2)) rfl (by norm_num)
    (by simp [ex_new3]) (Or.inr rfl) (by simp [atom_getfloat])
  refine ⟨?_, ?_, ?_, ?_, ?_⟩
  · rw [hdb]; simp [atom_getfloat]
  · rw [hdb]; simp [ex_new3]
  · rw [hampl]; simp [atom_getfloat]
  · refine (adjust_one_validated ⟨Real.cos, Real.sqrt, Real.exp⟩ (ex_new3 : t_mix ℝ)
      [.A_SYM "ampl", .A_LONG 3, .A_FLOAT (1 / 2)]).2.2 ?_ ?_
    · rintro ⟨k, v, h, _, hk, _⟩
      simp only [List.cons.injEq, t_atom.A_LONG.injEq, and_true, true_and] at h
      rw [← h.1] at hk
      simp [ex_new3] at hk
    · rintro ⟨k, v, h, _⟩
      simp at h
  · refine (adjust_one_validated ⟨Real.cos, Real.sqrt, Real.exp⟩ (ex_new3 : t_mix ℝ)
      [.A_SYM "ampl", .A_LONG 1, .A_LONG (-1)]).2.2 ?_ ?_
    · rintro ⟨k, v, h, _, _, _, hv⟩
      simp only [List.cons.injEq, t_atom.A_LONG.injEq, and_true, true_and] at h
      rw [← h.2] at hv
      simp [atom_getfloat] at hv
      norm_num at hv
    · rintro ⟨k, v, h, _⟩
      simp at h

end AdjustOne

end Mix

/-! ## Construction and ramp time -/

namespace Mix

section Construction

variable {α : Type} [LinearOrderedField α] [FloorRing α]

/-- The conversion to `t_uint32` of a `double` in the range of the type. -/
theorem double_to_u32_of_nonneg (v : α) (h0 : 0 ≤ v) (h1 : v < 4294967296) :
    double_to_u32 v = some ⌊v⌋₊ := by
  unfold double_to_u32 double_to_int
  simp only [h0, if_true]
  have hf0 : 0 ≤ ⌊v⌋ := Int.floor_nonneg.mpr h0
  have hf1 : ⌊v⌋ < 4294967296 := by
    rw [Int.floor_lt]
    exact_mod_cast h1
  rw [if_pos ⟨hf0, hf1⟩]
  rfl

/-- The exponent of a double between two consecutive powers of 2, from 1 on. -/
theorem float_exponent_eq (v : α) (e : Nat) (h1 : (2 : α) ^ e ≤ v) (h2 : v < (2 : α) ^ (e + 1)) :
    float_exponent v = (e : Int) := by
  have hone : (1 : α) ≤ v := le_trans (one_le_pow₀ (by norm_num)) h1
  unfold float_exponent
  rw [if_pos hone]
  congr 1
  apply Nat.log_eq_of_pow_le_of_lt_pow
  · apply Nat.le_floor
    push_cast
    exact h1
  · rw [Nat.floor_lt (le_trans zero_le_one hone)]
    push_cast
    exact h2

/-- The conversion to `float` of a double between two consecutive powers of
2, from 1 on. -/
theorem double_to_float_eq (v : α) (e : Nat) (h1 : (2 : α) ^ e ≤ v)
    (h2 : v < (2 : α) ^ (e + 1)) :
    double_to_float v =
      if (2 : α) ^ 128 ≤ (round_half_even (v * 2 ^ 23 / 2 ^ e) : α) * 2 ^ e / 2 ^ 23 then none
      else some ((round_half_even (v * 2 ^ 23 / 2 ^ e) : α) * 2 ^ e / 2 ^ 23) := by
  have hpos : (0 : α) < v := lt_of_lt_of_le (by positivity) h1
  have hmax : max ((e : Int)) (-126) = (e : Int) := by
    apply max_eq_left
    omega
  have hulp : (2 : α) ^ ((e : Int) - 23) = 2 ^ e / 2 ^ 23 := by
    rw [zpow_sub₀ (by norm_num : (2 : α) ≠ 0), zpow_natCast]
    norm_num
  have hq : v / ((2 : α) ^ e / 2 ^ 23) = v * 2 ^ 23 / 2 ^ e := by
    field_simp
  unfold double_to_float
  simp only [hpos.ne', if_false, abs_of_pos hpos, float_exponent_eq v e h1 h2, hmax, hulp, hq,
    not_lt.mpr hpos.le, mul_div_assoc]

/-- Rounding to the nearest integer, below the half. -/
theorem round_half_even_eq (q : α) (k : Nat) (h1 : (k : α) ≤ q) (h2 : q - (k : α) < 1 / 2) :
    round_half_even q = k := by
  have hf : ⌊q⌋₊ = k := by
    rw [Nat.floor_eq_iff (le_trans (Nat.cast_nonneg k) h1)]
    constructor
    · exact h1
    · linarith
  unfold round_half_even
  simp only [hf, h2, if_true]

/-- A double that is a `float` value, from 1 on, is converted to itself: `m`
is the significand and `e` the exponent. -/
theorem double_to_float_exact (m e : Nat) (hm1 : 2 ^ 23 ≤ m) (hm2 : m < 2 ^ 24)
    (he : e ≤ 127) :
    double_to_float ((m : α) * 2 ^ e / 2 ^ 23) = some ((m : α) * 2 ^ e / 2 ^ 23) := by
  have h1 : (2 : α) ^ e ≤ (m : α) * 2 ^ e / 2 ^ 23 := by
    rw [le_div_iff₀ (by positivity)]
    have : ((2 ^ 23 : Nat) : α) ≤ (m : α) := by exact_mod_cast hm1
    push_cast at this
    nlinarith [pow_pos (by norm_num : (0 : α) < 2) e]
  have h2 : (m : α) * 2 ^ e / 2 ^ 23 < (2 : α) ^ (e + 1) := by
    rw [div_lt_iff₀ (by positivity)]
    have : (m : α) < ((2 ^ 24 : Nat) : α) := by exact_mod_cast hm2
    push_cast at this
    rw [pow_succ]
    nlinarith [pow_pos (by norm_num : (0 : α) < 2) e]
  have hq : (m : α) * 2 ^ e / 2 ^ 23 * 2 ^ 23 / 2 ^ e = (m : α) := by
    field_simp
  rw [double_to_float_eq _ e h1 h2, hq, round_half_even_eq (m : α) m le_rfl (by norm_num)]
  rw [if_neg]
  rw [not_le]
  calc (m : α) * 2 ^ e / 2 ^ 23 < (2 : α) ^ (e + 1) := h2
    _ ≤ 2 ^ 128 := pow_le_pow_right₀ (by norm_num) (by omega)

/-- The default ramp time, 30, is a `float` value. -/
theorem double_to_float_ramp_def :
    double_to_float ((RAMP_DEF : Nat) : α) = some ((RAMP_DEF : Nat) : α) := by
  have h := @double_to_float_exact α _ _ 15728640 4 (by norm_num) (by norm_num) (by norm_num)
  have e : ((15728640 : Nat) : α) * 2 ^ 4 / 2 ^ 23 = ((RAMP_DEF : Nat) : α) := by
    simp only [RAMP_DEF]
    norm_num
  rw [e] at h
  exact h

/-- The object `mix_set_ramp` leaves, for a ramp time `t` whose conversion to
`float` is `f` and a sample rate in the range where the conversion of the
duration is defined. -/
theorem mix_set_ramp_eq (x : t_mix α) (argv : List (t_atom α)) (sr : α)
    (t f : α) (ht : t = if args_count_is argv.length 1
        && args_is_number argv 0 (some is_above_f) 1 0 then
      atom_getfloat (argv_at argv 0) else (RAMP_DEF : α))
    (hf : double_to_float t = some f)
    (h0 : 0 ≤ f * sr / 1000) (h1 : f * sr / 1000 < 4294967296) :
    mix_set_ramp x argv sr = some { x with a_ramp := f, ramp_samp := ⌊f * sr / 1000⌋₊ } := by
  have ha : (if args_count_is argv.length 1
        && args_is_number argv 0 (some is_above_f) 1 0 then
      double_to_float (atom_getfloat (argv_at argv 0))
      else double_to_float (RAMP_DEF : α)) = some f := by
    rw [← hf, ht]
    split_ifs <;> rfl
  unfold mix_set_ramp
  simp only [ha, double_to_u32_of_nonneg _ h0 h1]

/-- A double that is a `float` value, from 1 on, given by its significand `m`
and its exponent `e`. -/
theorem double_to_float_of_eq (v : α) (m e : Nat) (hm1 : 2 ^ 23 ≤ m) (hm2 : m < 2 ^ 24)
    (he : e ≤ 127) (hv : v = (m : α) * 2 ^ e / 2 ^ 23) : double_to_float v = some v := by
  rw [hv]
  exact double_to_float_exact m e hm1 hm2 he

/-- What `mix_set_ramp` leaves when it returns: a ramp time and the ramp
duration converted from it, the other members as they were. -/
theorem mix_set_ramp_some (x x' : t_mix α) (argv : List (t_atom α)) (sr : α)
    (h : mix_set_ramp x argv sr = some x') :
    ∃ f k, double_to_u32 (f * sr / 1000) = some k ∧
      x' = { x with a_ramp := f, ramp_samp := k } := by
  unfold mix_set_ramp at h
  simp only at h
  split at h
  · cases h
  · rename_i f _
    split at h
    · cases h
    · rename_i k hk
      cases h
      exact ⟨f, k, hk, rfl⟩

/-- The object `mix_new` returns, for a sample rate in the range where the
conversion of the default ramp duration is defined. -/
theorem mix_new_spec (argv : List (t_atom α)) (sr : α)
    (hsr0 : 0 ≤ sr) (hsr1 : (RAMP_DEF : α) * sr / 1000 < 4294967296) :
    ∃ x, mix_new argv sr = some x ∧
      x.chan_in_cnt =
        (if decide ((argv.length : Int) ≥ 1)
            && args_is_long argv 0 (some is_between_l) 2 255 then
          ((atom_getlong (argv_at argv 0)) % 256).toNat
        else 4) ∧
      x.chan_out_cnt =
        (if decide ((argv.length : Int) ≥ 2)
            && args_is_long (argv.drop 1) 0 (some is_between_l) 1 2 then
          ((atom_getlong (argv_at (argv.drop 1) 0)) % 256).toNat
        else 1) ∧
      x.master = 1 ∧ x.master_targ = 1 ∧ x.gains = (fun _ => 0) ∧
      x.gains_targ = (fun _ => 0) ∧
      x.gains_adjust = (fun j => if j < x.chan_in_cnt then 1 else 0) ∧
      x.cntd = CNTD_CONST ∧ x.a_ramp = (RAMP_DEF : α) ∧
      x.ramp_samp = ⌊(RAMP_DEF : α) * sr / 1000⌋₊ := by
  have h0 : 0 ≤ (RAMP_DEF : α) * sr / 1000 := by
    apply div_nonneg (mul_nonneg (Nat.cast_nonneg _) hsr0)
    norm_num
  unfold mix_new
  simp only []
  rw [mix_set_ramp_eq _ _ sr (RAMP_DEF : α) (RAMP_DEF : α) _ double_to_float_ramp_def h0 hsr1]
  · refine ⟨_, rfl, rfl, rfl, rfl, rfl, ?_, ?_, ?_, rfl, rfl, rfl⟩
    · simp only [for_loop_update]; funext j; simp
    · simp only [for_loop_update]; funext j; simp
    · simp only [for_loop_update]; funext j; simp
  · simp [args_count_is, args_is_number, argv_at, atom_gettype, atom_getfloat, is_above_f, RAMP_DEF]

/-- C17. Construction: for every argument list, and a sample rate `sr >= 0`
at which the default ramp duration `30 * sr / 1000` is a `t_uint32`, `mix_new`
returns an object whose input count is in 2..255 and whose bus count is in
1..2; the input count is the first argument when it is an integer atom in
[2, 255] and otherwise (omitted, not an integer atom, out of range) 4; the bus
count is the second argument when it is an integer atom in [1, 2] and
otherwise 1; `master` and `master_targ` are 1, every channel gain and target
is 0, every adjust is 1 and the countdown is the sentinel `CNTD_CONST`. -/
theorem construction (argv : List (t_atom α)) (sr : α)
    (hsr0 : 0 ≤ sr) (hsr1 : (RAMP_DEF : α) * sr / 1000 < 4294967296) :
    ∃ x, mix_new argv sr = some x ∧
      (2 ≤ x.chan_in_cnt ∧ x.chan_in_cnt ≤ 255) ∧
      (1 ≤ x.chan_out_cnt ∧ x.chan_out_cnt ≤ 2) ∧
      (∀ k, argv.get? 0 = some (.A_LONG k) → 2 ≤ k → k ≤ 255 → (x.chan_in_cnt : Int) = k) ∧
      ((¬ ∃ k, argv.get? 0 = some (.A_LONG k) ∧ 2 ≤ k ∧ k ≤ 255) → x.chan_in_cnt = 4) ∧
      (∀ k, argv.get? 1 = some (.A_LONG k) → 1 ≤ k → k ≤ 2 → (x.chan_out_cnt : Int) = k) ∧
      ((¬ ∃ k, argv.get? 1 = some (.A_LONG k) ∧ 1 ≤ k ∧ k ≤ 2) → x.chan_out_cnt = 1) ∧
      x.master = 1 ∧ x.master_targ = 1 ∧
      (∀ i, i < x.chan_in_cnt → x.gains i = 0 ∧ x.gains_targ i = 0 ∧ x.gains_adjust i = 1) ∧
      x.cntd = CNTD_CONST := by
  obtain ⟨x, hx, hin, hout, hm, hmt, hg, hgt, hga, hcn, _, _⟩ := mix_new_spec argv sr hsr0 hsr1
  have hI : (∀ k, argv.get? 0 = some (.A_LONG k) → 2 ≤ k → k ≤ 255 → (x.chan_in_cnt : Int) = k) ∧
      ((¬ ∃ k, argv.get? 0 = some (.A_LONG k) ∧ 2 ≤ k ∧ k ≤ 255) → x.chan_in_cnt = 4) ∧
      (2 ≤ x.chan_in_cnt ∧ x.chan_in_cnt ≤ 255) := by
    rw [hin]
    rcases argv with _ | ⟨a, rest⟩
    · simp
    · cases a with
      | A_LONG v =>
        simp only [args_is_long, argv_at, atom_gettype, atom_getlong, is_between_l,
          List.getD_cons_zero, List.get?_cons_zero, Option.some.injEq, t_atom.A_LONG.injEq,
          List.length_cons]
        by_cases hv : 2 ≤ v ∧ v ≤ 255
        · have h1 : (decide ((((rest.length + 1 : Nat) : Int)) ≥ 1) &&
              (decide True && (decide (v ≥ 2) && decide (v ≤ 255)))) = true := by
            simp [hv.1, hv.2]
          simp only [h1, if_true]
          refine ⟨fun k hk _ _ => by subst hk; omega, fun h => absurd ⟨v, rfl, hv.1, hv.2⟩ h,
            by omega, by omega⟩
        · have h1 : ¬ ((decide ((((rest.length + 1 : Nat) : Int)) ≥ 1) &&
              (decide True && (decide (v ≥ 2) && decide (v ≤ 255)))) = true) := by
            simp; intro _; omega
          simp only [h1, if_false, Bool.false_eq_true]
          refine ⟨fun k hk h2 h3 => by subst hk; exact absurd ⟨h2, h3⟩ hv, fun _ => trivial,
            by omega, by omega⟩
      | A_FLOAT v => simp [args_is_long, argv_at, atom_gettype]
      | A_SYM s => simp [args_is_long, argv_at, atom_gettype]
  have hO : (∀ k, argv.get? 1 = some (.A_LONG k) → 1 ≤ k → k ≤ 2 → (x.chan_out_cnt : Int) = k) ∧
      ((¬ ∃ k, argv.get? 1 = some (.A_LONG k) ∧ 1 ≤ k ∧ k ≤ 2) → x.chan_out_cnt = 1) ∧
      (1 ≤ x.chan_out_cnt ∧ x.chan_out_cnt ≤ 2) := by
    rw [hout]
    rcases argv with _ | ⟨a, _ | ⟨b, rest⟩⟩
    · simp
    · simp
    · cases b with
      | A_LONG v =>
        simp only [args_is_long, argv_at, atom_gettype, atom_getlong, is_between_l,
          List.getD_cons_zero, List.get?_cons_zero, List.get?_cons_succ, Option.some.injEq,
          t_atom.A_LONG.injEq, List.length_cons, List.drop_succ_cons, List.drop_zero]
        by_cases hv : 1 ≤ v ∧ v ≤ 2
        · have h1 : (decide ((((rest.length + 1 + 1 : Nat) : Int)) ≥ 2) &&
              (decide True && (decide (v ≥ 1) && decide (v ≤ 2)))) = true := by
            simp [hv.1, hv.2]; omega
          simp only [h1, if_true]
          refine ⟨fun k hk _ _ => by subst hk; omega, fun h => absurd ⟨v, rfl, hv.1, hv.2⟩ h,
            by omega, by omega⟩
        · have h1 : ¬ ((decide ((((rest.length + 1 + 1 : Nat) : Int)) ≥ 2) &&
              (decide True && (decide (v ≥ 1) && decide (v ≤ 2)))) = true) := by
            simp; intro _; omega
          simp only [h1, if_false, Bool.false_eq_true]
          refine ⟨fun k hk h2 h3 => by subst hk; exact absurd ⟨h2, h3⟩ hv, fun _ => trivial,
            by omega, by omega⟩
      | A_FLOAT v => simp [args_is_long, argv_at, atom_gettype]
      | A_SYM s => simp [args_is_long, argv_at, atom_gettype]
  refine ⟨x, hx, hI.2.2, hO.2.2, hI.1, hI.2.1, hO.1, hO.2.1, hm, hmt, ?_, hcn⟩
  intro i hi
  rw [hg, hgt, hga]
  simp [hi]

/-- C17 at 44.1 kHz: the arguments `3 2` give 3 inputs and 2 buses, and the
arguments `3. 7`, a float and an integer out of range, give the defaults 4 and
1; master is 1, the adjust of the last channel is 1 and the countdown is the
sentinel. -/
theorem construction_witness :
    ((0 : ℚ) ≤ 44100 ∧ ((RAMP_DEF : Nat) : ℚ) * 44100 / 1000 < 4294967296) ∧
    (∃ x, mix_new ([.A_LONG 3, .A_LONG 2] : List (t_atom ℚ)) 44100 = some x ∧
      x.chan_in_cnt = 3 ∧ x.chan_out_cnt = 2 ∧ x.master = 1 ∧ x.gains 2 = 0 ∧
      x.gains_adjust 2 = 1 ∧ x.cntd = CNTD_CONST) ∧
    (∃ x, mix_new ([.A_FLOAT 3, .A_LONG 7] : List (t_atom ℚ)) 44100 = some x ∧
      x.chan_in_cnt = 4 ∧ x.chan_out_cnt = 1) := by
  have h0 : (0 : ℚ) ≤ 44100 := by norm_num
  have h1 : ((RAMP_DEF : Nat) : ℚ) * 44100 / 1000 < 4294967296 := by norm_num [RAMP_DEF]
  refine ⟨⟨h0, h1⟩, ?_, ?_⟩
  · obtain ⟨x, hx, _, _, hi, _, ho, _, hm, _, hg, hc⟩ :=
      construction ([.A_LONG 3, .A_LONG 2] : List (t_atom ℚ)) 44100 h0 h1
    have hi3 : x.chan_in_cnt = 3 := by
      have := hi 3 rfl (by norm_num) (by norm_num)
      exact_mod_cast this
    have ho2 : x.chan_out_cnt = 2 := by
      have := ho 2 rfl (by norm_num) (by norm_num)
      exact_mod_cast this
    exact ⟨x, hx, hi3, ho2, hm, (hg 2 (by omega)).1, (hg 2 (by omega)).2.2, hc⟩
  · obtain ⟨x, hx, _, _, _, hi, _, ho, _⟩ :=
      construction ([.A_FLOAT 3, .A_LONG 7] : List (t_atom ℚ)) 44100 h0 h1
    refine ⟨x, hx, hi ?_, ho ?_⟩
    · rintro ⟨k, hk, _⟩
      simp at hk
    · rintro ⟨k, hk, _, hk2⟩
      simp at hk
      omega

end Construction

end Mix

/-! ## The states the host reaches -/

namespace Mix

section Reachable

variable {α : Type} [LinearOrderedField α]

/-- The method `mix_adjust` keeps the adjusts non-negative. -/
theorem mix_adjust_nonneg (m : t_libm α) (hexp : ∀ v, 0 ≤ m.exp v) (x : t_mix α)
    (argv : List (t_atom α)) (h : ∀ i, 0 ≤ x.gains_adjust i) :
    ∀ i, 0 ≤ (mix_adjust m x argv).gains_adjust i := by
  intro i
  unfold mix_adjust
  simp only
  split_ifs with h1 h2 h3
  · simp only [Bool.and_eq_true, args_are_numbers_iff, Option.some.injEq, forall_eq',
      is_above_f, ge_iff_le, decide_eq_true_eq] at h2
    simp only [for_loop_update]
    split_ifs with hi
    · have := (h2.2 i hi.2).2
      rwa [Nat.add_comm] at this
    · exact h i
  · simp only [for_loop_update]
    split_ifs with hi
    · exact hexp _
    · exact h i
  · exact h i
  · exact h i

/-- The method `mix_adjust_one` keeps the adjusts non-negative. -/
theorem mix_adjust_one_nonneg [FloorRing α] (m : t_libm α) (hexp : ∀ v, 0 ≤ m.exp v)
    (x : t_mix α) (argv : List (t_atom α)) (h : ∀ i, 0 ≤ x.gains_adjust i) :
    ∀ i, 0 ≤ (mix_adjust_one m x argv).gains_adjust i := by
  intro i
  unfold mix_adjust_one
  simp only
  split_ifs with h1 h2 h3
  · simp only [Bool.and_eq_true, args_is_number, is_above_f, ge_iff_le,
      decide_eq_true_eq] at h2
    by_cases hi : i = (atom_getlong (argv_at argv 1)).toNat
    · rw [hi]; simp only [Function.update_same]; exact h2.2.2
    · simp only [Function.update_noteq hi]; exact h i
  · by_cases hi : i = (atom_getlong (argv_at argv 1)).toNat
    · rw [hi]; simp only [Function.update_same]; exact hexp _
    · simp only [Function.update_noteq hi]; exact h i
  · exact h i
  · exact h i

/-- The setter `mix_set_ramp` writes `a_ramp` and `ramp_samp` only. -/
theorem mix_set_ramp_frame [FloorRing α] (x x' : t_mix α) (argv : List (t_atom α)) (sr : α)
    (h : mix_set_ramp x argv sr = some x') :
    x'.chan_in_cnt = x.chan_in_cnt ∧ x'.chan_out_cnt = x.chan_out_cnt ∧
    x'.master = x.master ∧ x'.master_targ = x.master_targ ∧ x'.gains = x.gains ∧
    x'.gains_targ = x.gains_targ ∧ x'.gains_adjust = x.gains_adjust ∧ x'.cntd = x.cntd := by
  obtain ⟨f, k, _, rfl⟩ := mix_set_ramp_some x x' argv sr h
  exact ⟨rfl, rfl, rfl, rfl, rfl, rfl, rfl, rfl⟩

/-- Every call of the host keeps the adjusts non-negative. -/
theorem mix_call_nonneg [FloorRing α] (m : t_libm α) (hexp : ∀ v, 0 ≤ m.exp v)
    (x x' : t_mix α) (c : t_call α) (hc : mix_call m x c = some x')
    (h : ∀ i, 0 ≤ x.gains_adjust i) : ∀ i, 0 ≤ x'.gains_adjust i := by
  cases c with
  | master master =>
    simp only [mix_call, Option.some.injEq] at hc
    subst hc; exact h
  | pan master pan =>
    simp only [mix_call, Option.some.injEq] at hc
    subst hc; exact h
  | list argv =>
    simp only [mix_call, mix_list] at hc
    split_ifs at hc
    cases hc; exact h
  | adjust argv =>
    simp only [mix_call, Option.some.injEq] at hc
    subst hc; exact mix_adjust_nonneg m hexp x argv h
  | adjust_one argv =>
    simp only [mix_call, Option.some.injEq] at hc
    subst hc; exact mix_adjust_one_nonneg m hexp x argv h
  | set_ramp argv sr =>
    simp only [mix_call] at hc
    rw [(mix_set_ramp_frame x x' argv sr hc).2.2.2.2.2.2.1]; exact h
  | dsp64 samplerate =>
    simp only [mix_call, mix_dsp64] at hc
    split at hc
    · cases hc
    · cases hc; exact h
  | perform64 ins outs n =>
    simp only [mix_call, Option.map_eq_some'] at hc
    obtain ⟨r, hr, hx⟩ := hc
    subst hx
    rw [(mix_perform64_frame x ins outs n r hr).2.2.2.2.1]; exact h

/-- C14. Adjust values are never negative: in every state reached from
`mix_new` by a sequence of calls of the host (`mix_master`, `mix_pan`,
`mix_list`, `mix_adjust` and `mix_adjust_one` in either mode with arbitrary
arguments, `mix_set_ramp`, `mix_dsp64`, `mix_perform64`), `gains_adjust[i] >= 0`
for every channel `i`, the function `exp` of `math.h` returning no negative
value. -/
theorem adjust_never_negative [FloorRing α] (m : t_libm α) (hexp : ∀ v, 0 ≤ m.exp v)
    (argv : List (t_atom α)) (sr : α) (x0 x : t_mix α) (cs : List (t_call α))
    (h0 : mix_new argv sr = some x0) (h : mix_calls m x0 cs = some x) :
    ∀ i, i < x.chan_in_cnt → 0 ≤ x.gains_adjust i := by
  have hinv : ∀ (cs : List (t_call α)) (x0 x : t_mix α), mix_calls m x0 cs = some x →
      (∀ i, 0 ≤ x0.gains_adjust i) → ∀ i, 0 ≤ x.gains_adjust i := by
    intro cs
    induction cs with
    | nil =>
      intro x0 x h hx0
      simp only [mix_calls, Option.some.injEq] at h
      subst h; exact hx0
    | cons c cs ih =>
      intro x0 x h hx0
      simp only [mix_calls] at h
      split at h
      · cases h
      · rename_i x1 h1
        exact ih x1 x h (mix_call_nonneg m hexp x0 x1 c h1 hx0)
  have hnew : ∀ i, 0 ≤ x0.gains_adjust i := by
    unfold mix_new at h0
    simp only at h0
    intro i
    rw [(mix_set_ramp_frame _ x0 _ sr h0).2.2.2.2.2.2.1]
    simp only [for_loop_update]
    split_ifs <;> norm_num
  exact fun i _ => hinv cs x0 x h hnew i

/-- C14 over the reals, with the exponential of the reals: after `mix_new` at
44.1 kHz, `adjust db -6 -6 -6 -6`, `adjust_one ampl 0 -1` and `master 0`, no
adjust is negative. -/
theorem adjust_never_negative_witness :
    ∃ x0 x, mix_new ([] : List (t_atom ℝ)) 44100 = some x0 ∧
      mix_calls ⟨Real.cos, Real.sqrt, Real.exp⟩ x0
        [.adjust [.A_SYM "db", .A_LONG (-6), .A_LONG (-6), .A_LONG (-6), .A_LONG (-6)],
         .adjust_one [.A_SYM "ampl", .A_LONG 0, .A_LONG (-1)], .master 0] = some x ∧
      ∀ i, i < x.chan_in_cnt → 0 ≤ x.gains_adjust i := by
  obtain ⟨x0, hx0, _⟩ := mix_new_spec ([] : List (t_atom ℝ)) 44100 (by norm_num)
    (by norm_num [RAMP_DEF])
  have hcs : mix_calls ⟨Real.cos, Real.sqrt, Real.exp⟩ x0
      [.adjust [.A_SYM "db", .A_LONG (-6), .A_LONG (-6), .A_LONG (-6), .A_LONG (-6)],
       .adjust_one [.A_SYM "ampl", .A_LONG 0, .A_LONG (-1)], .master 0] = some _ := rfl
  exact ⟨x0, _, hx0, hcs,
    adjust_never_negative ⟨Real.cos, Real.sqrt, Real.exp⟩ (fun v => (Real.exp_pos v).le)
      [] 44100 x0 _ _ hx0 hcs⟩

end Reachable

end Mix

/-! ## A ramp of no sample -/

namespace Mix

section Instant

variable {α : Type} [LinearOrderedField α]

/-- C15. Instantaneous ramp: with a ramp duration of 0 samples, for every
prior state and every list `m l_0 l_1 ...` given to `mix_list` (a level the
list does not hold being 0), the next block of `n >= 1` samples is rendered
and satisfies `out[s] = sum_i m * gains_adjust[i] * l_i * in_i[s]` for every
sample `s < n` of every bus, from `s = 0` on: nothing of the gains before the
command is left. -/
theorem instantaneous_ramp (x : t_mix α) (a0 : t_atom α) (rest : List (t_atom α))
    (ins outs : t_bufs α) (n : Nat)
    (hc : x.chan_out_cnt = 1 ∨ x.chan_out_cnt = 2) (hD : x.ramp_samp = 0)
    (h1 : 1 ≤ n) (hn : n < 4294967296) :
    ∃ x' r, mix_list x (a0 :: rest) = some x' ∧ mix_perform64 x' ins outs n = some r ∧
      ∀ b, b < x.chan_out_cnt → ∀ s, s < n →
        r.outs b s = ∑ i in Finset.range x.chan_in_cnt,
          (atom_getfloat a0 * x.gains_adjust i * atom_getfloat (argv_at rest i))
            * ins (b * x.chan_in_cnt + i) s := by
  have hlev : ∀ i, i < x.chan_in_cnt →
      (if rest.length ≤ i ∧ i < x.chan_in_cnt then 0
        else if i < min rest.length x.chan_in_cnt then atom_getfloat (rest.getD i (.A_LONG 0))
        else x.gains_targ i) = atom_getfloat (argv_at rest i) := by
    intro i hi
    by_cases hl : rest.length ≤ i
    · rw [if_pos ⟨hl, hi⟩, argv_at, List.getD_eq_default _ _ hl]
      simp [atom_getfloat]
    · have h2 : i < min rest.length x.chan_in_cnt := by
        rw [lt_min_iff]; exact ⟨by omega, hi⟩
      rw [if_neg (fun h => hl h.1), if_pos h2, argv_at]
  obtain ⟨x', hx'⟩ : ∃ x' : t_mix α, x' =
      { x with
        master_targ := atom_getfloat a0,
        gains_targ := fun j =>
          if rest.length ≤ j ∧ j < x.chan_in_cnt then 0
          else if j < min rest.length x.chan_in_cnt then atom_getfloat (rest.getD j (.A_LONG 0))
          else x.gains_targ j,
        cntd := x.ramp_samp } := ⟨_, rfl⟩
  have hl : mix_list x (a0 :: rest) = some x' := by rw [hx']; exact mix_list_cons x a0 rest
  have hc' : x'.chan_out_cnt = 1 ∨ x'.chan_out_cnt = 2 := by rw [hx']; exact hc
  have hcn : x'.cntd = 0 := by rw [hx']; exact hD
  by_cases hs : x'.master = 0 ∧ x'.master_targ = 0
  · refine ⟨x', _, hl, mix_perform64_silence x' ins outs n hs.1 hs.2, ?_⟩
    intro b hb s hs'
    have hm : atom_getfloat a0 = 0 := by have := hs.2; rw [hx'] at this; exact this
    have hb' : b < x'.chan_out_cnt := by rw [hx']; exact hb
    simp only [zero_loop_apply, hb', hs', and_self, if_true, hm, zero_mul,
      Finset.sum_const_zero]
  · refine ⟨x', _, hl, mix_perform64_ramp_end x' hc' ins outs n hn hs
      (by rw [hcn]; simp [CNTD_CONST]) (by rw [hcn]; omega), ?_⟩
    intro b hb s hs'
    have hb' : b < x'.chan_out_cnt := by rw [hx']; exact hb
    simp only [hb', hs', and_self, if_true, hcn, Nat.not_lt_zero, if_false]
    rw [hx']
    refine Finset.sum_congr rfl (fun i hi => ?_)
    rw [Finset.mem_range] at hi
    simp only [hlev i hi]

/-- C15 on the mixer `ex_instant` (2 inputs, 1 bus, ramp duration 0), left by
`list 1 1 0`: after `list 1 0 1`, the block of 4 samples carries the second
input alone, from its first sample on. -/
theorem instantaneous_ramp_witness :
    ((ex_instant.chan_out_cnt = 1 ∨ ex_instant.chan_out_cnt = 2) ∧
      ex_instant.ramp_samp = 0 ∧ 1 ≤ 4 ∧ 4 < 4294967296) ∧
    ∃ x' r, mix_list ex_instant [.A_FLOAT 1, .A_FLOAT 0, .A_FLOAT 1] = some x' ∧
      mix_perform64 x' ex_ins ex_outs 4 = some r ∧
      ∀ s, s < 4 → r.outs 0 s = ex_ins 1 s := by
  refine ⟨⟨Or.inl rfl, rfl, by norm_num, by norm_num⟩, ?_⟩
  obtain ⟨x', r, hx', hr, ho⟩ := instantaneous_ramp ex_instant (.A_FLOAT 1)
    [.A_FLOAT 0, .A_FLOAT 1] ex_ins ex_outs 4 (Or.inl rfl) rfl (by norm_num) (by norm_num)
  refine ⟨x', r, hx', hr, fun s hs => ?_⟩
  rw [ho 0 (by simp [ex_instant]) s hs]
  simp [ex_instant, Finset.sum_range_succ, atom_getfloat, argv_at]

end Instant

end Mix

/-! ## One bus and two buses -/

namespace Mix

section Buses

variable {α : Type} [LinearOrderedField α]

/-- A block of no sample, rendered while a ramp is active, returns with a
value that is not finite or is indeterminate, unless the countdown is not 0
and master is at its target. -/
theorem mix_perform64_empty (x : t_mix α)
    (hc : x.chan_out_cnt = 1 ∨ x.chan_out_cnt = 2) (ins outs : t_bufs α)
    (hns : ¬ (x.master = 0 ∧ x.master_targ = 0)) (hne : x.cntd ≠ CNTD_CONST)
    (h : x.cntd = 0 ∨ x.master_targ ≠ x.master) :
    mix_perform64 x ins outs 0 = none := by
  obtain ⟨fa, hfa, _⟩ := @mix_add_ramp_tbl α _ x.chan_out_cnt hc
  obtain ⟨fm, hfm, hspecm⟩ := @mix_mult_tbl α _ x.chan_out_cnt hc
  have hrl : (if x.cntd > 0 then 0 else x.cntd) = 0 := by
    split_ifs <;> omega
  unfold mix_perform64
  simp only [hns, hne, if_false, hrl, hfa, hfm, if_true]
  by_cases h0 : x.cntd = 0
  · simp only [h0, if_true]
  · simp only [h0, if_false]
    have hd : (x.master_targ - x.master) / (x.cntd : α) ≠ 0 := by
      rcases h with h | h
      · exact absurd h h0
      · exact div_ne_zero (sub_ne_zero.mpr h) (by exact_mod_cast h0)
    simp only [hspecm _ _ _ 0 0 (Nat.le_refl 0), hd, lt_self_iff_false, or_self, if_false]

/-- C16. Bus-count independence: for every state, inputs and block length (a
`t_uint32`, as the countdown is), when the render with 2 output buses
returns, the render with 1 bus returns too, bus 0 is exactly the output of
the 1-bus render of the input buffers `ins[0..N-1]`, bus 1 is exactly the
output of the 1-bus render of the input buffers `ins[N..2N-1]`, and the object
(master, gains, countdown) and the number of bangs after the call are the ones
of the 1-bus render; the 2-bus render returns whenever the 1-bus render does,
and always for a block of at least one sample. -/
theorem bus_count_independence (x : t_mix α) (ins outs : t_bufs α) (n : Nat)
    (hn : n < 4294967296) (hcntd : x.cntd < 4294967296) :
    (∀ r2, mix_perform64 { x with chan_out_cnt := 2 } ins outs n = some r2 →
      ∃ ra rb, mix_perform64 { x with chan_out_cnt := 1 } ins outs n = some ra ∧
        mix_perform64 { x with chan_out_cnt := 1 } (buf_shift ins x.chan_in_cnt)
          (buf_shift outs 1) n = some rb ∧
        r2.outs 0 = ra.outs 0 ∧ r2.outs 1 = rb.outs 0 ∧
        r2.x = { ra.x with chan_out_cnt := 2 } ∧ rb.x = ra.x ∧ r2.bangs = ra.bangs) ∧
    (∀ ra, mix_perform64 { x with chan_out_cnt := 1 } ins outs n = some ra →
      ∃ r2, mix_perform64 { x with chan_out_cnt := 2 } ins outs n = some r2) ∧
    (1 ≤ n → ∃ r2, mix_perform64 { x with chan_out_cnt := 2 } ins outs n = some r2) := by
  obtain ⟨x1, hx1⟩ : ∃ x1 : t_mix α, x1 = { x with chan_out_cnt := 1 } := ⟨_, rfl⟩
  obtain ⟨x2, hx2⟩ : ∃ x2 : t_mix α, x2 = { x with chan_out_cnt := 2 } := ⟨_, rfl⟩
  have hc1 : x1.chan_out_cnt = 1 ∨ x1.chan_out_cnt = 2 := by rw [hx1]; exact Or.inl rfl
  have hc2 : x2.chan_out_cnt = 1 ∨ x2.chan_out_cnt = 2 := by rw [hx2]; exact Or.inr rfl
  have h21 : x2 = { x1 with chan_out_cnt := 2 } := by rw [hx1, hx2]
  have e1 : x1.chan_out_cnt = 1 := by rw [hx1]
  have e2 : x2.chan_out_cnt = 2 := by rw [hx2]
  have eN1 : x1.chan_in_cnt = x.chan_in_cnt := by rw [hx1]
  simp only [← hx1, ← hx2]
  -- the three renders, in each of the cases of the audio function
  have key : (∃ ra rb r2, mix_perform64 x1 ins outs n = some ra ∧
        mix_perform64 x1 (buf_shift ins x.chan_in_cnt) (buf_shift outs 1) n = some rb ∧
        mix_perform64 x2 ins outs n = some r2 ∧
        r2.outs 0 = ra.outs 0 ∧ r2.outs 1 = rb.outs 0 ∧
        r2.x = { ra.x with chan_out_cnt := 2 } ∧ rb.x = ra.x ∧ r2.bangs = ra.bangs) ∨
      (n = 0 ∧ mix_perform64 x1 ins outs n = none ∧ mix_perform64 x2 ins outs n = none) := by
    by_cases hs : x.master = 0 ∧ x.master_targ = 0
    · left
      refine ⟨_, _, _, mix_perform64_silence x1 ins outs n (by rw [hx1]; exact hs.1)
          (by rw [hx1]; exact hs.2),
        mix_perform64_silence x1 _ _ n (by rw [hx1]; exact hs.1) (by rw [hx1]; exact hs.2),
        mix_perform64_silence x2 ins outs n (by rw [hx2]; exact hs.1)
          (by rw [hx2]; exact hs.2), ?_, ?_, h21, rfl, rfl⟩
      · funext s; simp [zero_loop_apply, e1, e2]
      · funext s; simp [zero_loop_apply, e1, e2, buf_shift]
    · have hs1 : ¬ (x1.master = 0 ∧ x1.master_targ = 0) := by rw [hx1]; exact hs
      have hs2 : ¬ (x2.master = 0 ∧ x2.master_targ = 0) := by rw [hx2]; exact hs
      have ec1 : x1.cntd = x.cntd := by rw [hx1]
      have ec2 : x2.cntd = x.cntd := by rw [hx2]
      by_cases hcn : x.cntd = CNTD_CONST
      · left
        refine ⟨_, _, _, mix_perform64_idle x1 hc1 ins outs n hn (ec1.trans hcn),
          mix_perform64_idle x1 hc1 _ _ n hn (ec1.trans hcn),
          mix_perform64_idle x2 hc2 ins outs n hn (ec2.trans hcn), ?_, ?_, h21, rfl, rfl⟩
        · funext s; simp [hx1, hx2]
        · funext s; simp [hx1, hx2, buf_shift, Nat.add_comm]
      · have hne1 : x1.cntd ≠ CNTD_CONST := by rw [ec1]; exact hcn
        have hne2 : x2.cntd ≠ CNTD_CONST := by rw [ec2]; exact hcn
        rcases Nat.lt_or_ge x.cntd n with hlt | hle
        · left
          refine ⟨_, _, _, mix_perform64_ramp_end x1 hc1 ins outs n hn hs1 hne1 (by rw [ec1]; exact hlt),
            mix_perform64_ramp_end x1 hc1 _ _ n hn hs1 hne1 (by rw [ec1]; exact hlt),
            mix_perform64_ramp_end x2 hc2 ins outs n hn hs2 hne2 (by rw [ec2]; exact hlt),
            ?_, ?_, ?_, rfl, rfl⟩
          · funext s; simp [hx1, hx2]
          · funext s; simp [hx1, hx2, buf_shift, Nat.add_comm]
          · simp [hx1, hx2]
        · by_cases hok : x.cntd ≠ 0 ∧ (1 ≤ n ∨ x.master_targ = x.master)
          · left
            refine ⟨_, _, _,
              mix_perform64_ramp_block x1 hc1 (by rw [ec1]; exact hcntd) ins outs n hs1 hne1
                (by rw [ec1]; exact hok.1) (by rw [ec1]; exact hle) (by rw [hx1]; exact hok.2),
              mix_perform64_ramp_block x1 hc1 (by rw [ec1]; exact hcntd) _ _ n hs1 hne1
                (by rw [ec1]; exact hok.1) (by rw [ec1]; exact hle) (by rw [hx1]; exact hok.2),
              mix_perform64_ramp_block x2 hc2 (by rw [ec2]; exact hcntd) ins outs n hs2 hne2
                (by rw [ec2]; exact hok.1) (by rw [ec2]; exact hle) (by rw [hx2]; exact hok.2),
              ?_, ?_, ?_, rfl, rfl⟩
            · funext s; simp [hx1, hx2]
            · funext s; simp [hx1, hx2, buf_shift, Nat.add_comm]
            · simp [hx1, hx2]
          · right
            have hn0 : n = 0 := by
              by_contra hne
              apply hok
              exact ⟨by omega, Or.inl (by omega)⟩
            have hbad : x.cntd = 0 ∨ x.master_targ ≠ x.master := by
              by_cases h0 : x.cntd = 0
              · exact Or.inl h0
              · right
                intro heq
                exact hok ⟨h0, Or.inr heq⟩
            subst hn0
            exact ⟨rfl, mix_perform64_empty x1 hc1 ins outs hs1 hne1 (by rw [hx1]; exact hbad),
              mix_perform64_empty x2 hc2 ins outs hs2 hne2 (by rw [hx2]; exact hbad)⟩
  refine ⟨?_, ?_, ?_⟩
  · intro r2 h2
    rcases key with ⟨ra, rb, r2', ha, hb, h2', k1, k2, k3, k4, k5⟩ | ⟨_, _, hnone⟩
    · rw [h2] at h2'
      cases h2'
      exact ⟨ra, rb, ha, hb, k1, k2, k3, k4, k5⟩
    · rw [h2] at hnone; cases hnone
  · intro ra ha
    rcases key with ⟨_, _, r2', _, _, h2', _⟩ | ⟨_, hnone, _⟩
    · exact ⟨r2', h2'⟩
    · rw [ha] at hnone; cases hnone
  · intro h1
    rcases key with ⟨_, _, r2', _, _, h2', _⟩ | ⟨hn0, _, _⟩
    · exact ⟨r2', h2'⟩
    · omega

/-- C16 on the mixer `ex_steady` after `master 1`, that is in a ramp of 1323
samples, and a block of 4 samples: the three renders return and the 2-bus
render agrees with the two 1-bus renders. -/
theorem bus_count_independence_witness :
    ((4 : Nat) < 4294967296 ∧ (mix_master ex_steady 1).cntd < 4294967296) ∧
    ∃ r2 ra rb,
      mix_perform64 { mix_master ex_steady 1 with chan_out_cnt := 2 } ex_ins ex_outs 4
        = some r2 ∧
      mix_perform64 { mix_master ex_steady 1 with chan_out_cnt := 1 } ex_ins ex_outs 4
        = some ra ∧
      mix_perform64 { mix_master ex_steady 1 with chan_out_cnt := 1 }
        (buf_shift ex_ins (mix_master ex_steady 1).chan_in_cnt) (buf_shift ex_outs 1) 4
        = some rb ∧
      r2.outs 0 3 = ra.outs 0 3 ∧ r2.outs 1 3 = rb.outs 0 3 ∧
      r2.x.master = ra.x.master ∧ r2.x.gains = ra.x.gains ∧ r2.x.cntd = ra.x.cntd := by
  have hn : (4 : Nat) < 4294967296 := by norm_num
  have hcntd : (mix_master ex_steady 1).cntd < 4294967296 := by
    simp [mix_master, ex_steady]
  refine ⟨⟨hn, hcntd⟩, ?_⟩
  have h := bus_count_independence (mix_master ex_steady 1) ex_ins ex_outs 4 hn hcntd
  obtain ⟨r2, hr2⟩ := h.2.2 (by norm_num)
  obtain ⟨ra, rb, hra, hrb, k1, k2, k3, _, _⟩ := h.1 r2 hr2
  exact ⟨r2, ra, rb, hr2, hra, hrb, by rw [k1], by rw [k2], by rw [k3], by rw [k3],
    by rw [k3]⟩

end Buses

end Mix

/-! ## The bang at the end of a ramp -/

namespace Mix

section Bang

variable {α : Type} [LinearOrderedField α]

/-- While master and its target are both 0, a run sends no bang and leaves
the object as it is. -/
theorem mix_render_silent (blocks : List Nat) :
    ∀ (x : t_mix α) (ins outs : t_bufs α), x.master = 0 → x.master_targ = 0 →
      ∃ r, mix_render x ins outs blocks = some r ∧ r.x = x ∧ r.bangs = 0 := by
  induction blocks with
  | nil => intro x ins outs _ _; exact ⟨_, rfl, rfl, rfl⟩
  | cons n ns ih =>
    intro x ins outs hm ht
    have hr := mix_perform64_silence x ins outs n hm ht
    obtain ⟨r', hr', hx', hb'⟩ := ih x (fun ch s => ins ch (n + s))
      (fun ch s => for_loop 0 x.chan_out_cnt (fun ch outs => buf_zero outs ch n) outs
        ch (n + s)) hm ht
    exact ⟨_, mix_render_cons x ins outs n ns _ r' hr hr', hx', by simp only [hb']⟩

/-- The call in which the countdown ends is the steady-state part, entered
with the bang sent, on the samples from the end of the countdown on. -/
theorem mix_perform64_crossing (x : t_mix α)
    (hc : x.chan_out_cnt = 1 ∨ x.chan_out_cnt = 2) (ins outs : t_bufs α) (n : Nat)
    (hns : ¬ (x.master = 0 ∧ x.master_targ = 0))
    (hne : x.cntd ≠ CNTD_CONST) (hlt : x.cntd < n) :
    ∃ (x' : t_mix α) (o : t_bufs α),
      mix_perform64 x ins outs n = mix_perform64_const x' ins o x.cntd n 1 := by
  obtain ⟨fa, hfa, _⟩ := @mix_add_ramp_tbl α _ x.chan_out_cnt hc
  obtain ⟨fm, hfm, hspecm⟩ := @mix_mult_tbl α _ x.chan_out_cnt hc
  have hrl : (if x.cntd > n then n else x.cntd) = x.cntd := by
    split_ifs <;> omega
  have hrn : ¬ (x.cntd = n) := by omega
  unfold mix_perform64 mix_perform64_end
  simp only [hns, hne, if_false, hrl, hfa, hfm, hrn]
  by_cases h0 : x.cntd = 0
  · simp only [h0, if_true]
    exact ⟨_, _, rfl⟩
  · have hpos : ((x.master_targ - x.master) / (x.cntd : α) = 0 ∨ 0 < x.cntd) :=
      Or.inr (by omega)
    simp only [h0, if_false, hspecm _ _ _ 0 x.cntd (Nat.zero_le _), hpos, if_true]
    exact ⟨_, _, rfl⟩

/-- A run whose blocks end before the countdown does sends no bang; the run
continued by a block that outlasts the countdown, and by any blocks after it,
sends one bang. -/
theorem mix_render_bang (n : Nat) (post pre : List Nat) :
    ∀ (x : t_mix α) (ins outs : t_bufs α),
      (x.chan_out_cnt = 1 ∨ x.chan_out_cnt = 2) → x.cntd < 4294967295 →
      ¬ (x.master = 0 ∧ x.master_targ = 0) →
      (∀ k ∈ pre ++ n :: post, 1 ≤ k ∧ k < 4294967296) →
      (pre.sum < x.cntd ∨ pre = []) → x.cntd < pre.sum + n →
      (∃ r, mix_render x ins outs (pre ++ n :: post) = some r ∧ r.bangs = 1) ∧
      ∃ r1, mix_render x ins outs pre = some r1 ∧ r1.bangs = 0 ∧
        r1.x.cntd = x.cntd - pre.sum ∧ r1.x.chan_out_cnt = x.chan_out_cnt ∧
        ¬ (r1.x.master = 0 ∧ r1.x.master_targ = 0) := by
  induction pre with
  | nil =>
    intro x ins outs hc hcntd hns hb _ hcross
    simp only [List.nil_append, List.sum_nil, Nat.zero_add] at hb hcross ⊢
    have hn := hb n (List.mem_cons_self n post)
    have hne : x.cntd ≠ CNTD_CONST := by unfold CNTD_CONST; omega
    refine ⟨?_, ⟨_, rfl, rfl, rfl, rfl, hns⟩⟩
    have hr := mix_perform64_ramp_end x hc ins outs n hn.2 hns hne hcross
    obtain ⟨r', hr', _, hb'⟩ := mix_render_idle post
      ({ x with
          gains := fun j => if j < x.chan_in_cnt then x.gains_targ j else x.gains j,
          master := x.master_targ, cntd := CNTD_CONST } : t_mix α)
      (fun ch s => ins ch (n + s)) _ hc rfl
      (fun m hm => (hb m (List.mem_cons_of_mem n hm)).2)
    exact ⟨_, mix_render_cons x ins outs n post _ r' hr hr', by simp only [hb']⟩
  | cons k ks ih =>
    intro x ins outs hc hcntd hns hb hpre hcross
    simp only [List.cons_append, List.sum_cons] at hb hcross ⊢
    have hk := hb k (List.mem_cons_self k _)
    have hsum : k + ks.sum < x.cntd := by
      rcases hpre with h | h
      · simpa using h
      · cases h
    have hne : x.cntd ≠ CNTD_CONST := by unfold CNTD_CONST; omega
    have hr := mix_perform64_ramp_part x hc (by omega) ins outs k hns hne (by omega) hk.1
    have hcne : (x.cntd : α) ≠ 0 := by
      have : 0 < x.cntd := by omega
      exact_mod_cast this.ne'
    have hkc : (k : α) ≠ (x.cntd : α) := by
      have : k ≠ x.cntd := by omega
      exact_mod_cast this
    obtain ⟨⟨r, hr1, hb1⟩, r1, hr2, hb2, hc2, ho2, hs2⟩ := ih
      ({ x with
          gains := fun j => if j < x.chan_in_cnt then
              x.gains j + (k : α) * ((x.gains_targ j - x.gains j) / (x.cntd : α))
            else x.gains j,
          master := x.master + (k : α) * ((x.master_targ - x.master) / (x.cntd : α)),
          cntd := x.cntd - k } : t_mix α)
      (fun ch s => ins ch (k + s)) _ hc (by simp only; omega)
      (by
        simp only
        rintro ⟨h1, h2⟩
        apply hns
        refine ⟨?_, h2⟩
        rw [h2] at h1
        have h3 : x.master * ((x.cntd : α) - (k : α)) = 0 := by
          field_simp at h1
          linear_combination h1
        rcases mul_eq_zero.mp h3 with h4 | h4
        · exact h4
        · exact absurd (sub_eq_zero.mp h4).symm hkc)
      (fun m hm => hb m (List.mem_cons_of_mem k hm))
      (by
        simp only
        rcases ks with _ | ⟨a, as⟩
        · exact Or.inr rfl
        · left; omega)
      (by simp only; omega)
    refine ⟨⟨_, mix_render_cons x ins outs k _ _ r hr hr1, by simp only [hb1]⟩,
      _, mix_render_cons x ins outs k _ _ r1 hr hr2, by simp only [hb2], ?_, ho2, hs2⟩
    simp only [hc2]
    omega

/-- C19, as the source has it. After a command that starts a ramp of
`D = ramp_samp` samples (`mix_master`, `mix_pan` or `mix_list`), `D` below the
sentinel, with master and its target not both 0, and a sequence of
`mix_perform64` calls, each of at least one sample, in which the ramp ends
strictly inside a call (the calls before it total less than `D` samples, or
there is none, and with it they total more than `D`), the bang is sent exactly
once in total: no bang is sent by the calls before, the call in which the
countdown ends sends one and is the steady-state part run from the end of the
countdown on, entered with the bang sent, and the calls after it send none. -/
theorem bang_once_per_ramp [FloorRing α] (lib : t_libm α) (x0 x : t_mix α) (c : t_call α)
    (ins outs : t_bufs α) (pre post : List Nat) (n : Nat)
    (hcmd : (∃ m, c = .master m) ∨ (∃ m p, c = .pan m p) ∨ ∃ argv, c = .list argv)
    (hx : mix_call lib x0 c = some x)
    (hc : x.chan_out_cnt = 1 ∨ x.chan_out_cnt = 2)
    (hD : x0.ramp_samp < 4294967295)
    (hns : ¬ (x.master = 0 ∧ x.master_targ = 0))
    (hb : ∀ k ∈ pre ++ n :: post, 1 ≤ k ∧ k < 4294967296)
    (hpre : pre.sum < x0.ramp_samp ∨ pre = [])
    (hcross : x0.ramp_samp < pre.sum + n) :
    (∃ r, mix_render x ins outs (pre ++ n :: post) = some r ∧ r.bangs = 1) ∧
    ∃ r1, mix_render x ins outs pre = some r1 ∧ r1.bangs = 0 ∧
      r1.x.cntd = x0.ramp_samp - pre.sum ∧
      ∀ ins1 outs1, ∃ r2 o, mix_perform64 r1.x ins1 outs1 n = some r2 ∧ r2.bangs = 1 ∧
        r2.x.cntd = CNTD_CONST ∧
        mix_perform64 r1.x ins1 outs1 n = mix_perform64_const r2.x ins1 o r1.x.cntd n 1 ∧
        ∀ ins2 outs2, ∃ r3, mix_render r2.x ins2 outs2 post = some r3 ∧ r3.bangs = 0 := by
  have hcn : x.cntd = x0.ramp_samp := by
    rcases hcmd with ⟨m, rfl⟩ | ⟨m, p, rfl⟩ | ⟨argv, rfl⟩
    · simp only [mix_call, Option.some.injEq] at hx
      subst hx; rfl
    · simp only [mix_call, Option.some.injEq] at hx
      subst hx; rfl
    · simp only [mix_call, mix_list] at hx
      split_ifs at hx
      cases hx; rfl
  have hn := hb n (List.mem_append_right pre (List.mem_cons_self n post))
  obtain ⟨htot, r1, hr1, hb1, hc1, ho1, hs1⟩ := mix_render_bang n post pre x ins outs hc
    (by rw [hcn]; exact hD) hns hb (by rw [hcn]; exact hpre) (by rw [hcn]; exact hcross)
  refine ⟨htot, r1, hr1, hb1, by rw [hc1, hcn], ?_⟩
  intro ins1 outs1
  have hc' : r1.x.chan_out_cnt = 1 ∨ r1.x.chan_out_cnt = 2 := by rw [ho1]; exact hc
  have hne : r1.x.cntd ≠ CNTD_CONST := by rw [hc1, hcn]; unfold CNTD_CONST; omega
  have hlt : r1.x.cntd < n := by
    rw [hc1, hcn]
    rcases hpre with h | h
    · omega
    · subst h; simp only [List.sum_nil, Nat.zero_add, Nat.sub_zero] at hcross ⊢; exact hcross
  have hr2 := mix_perform64_ramp_end r1.x hc' ins1 outs1 n hn.2 hs1 hne hlt
  obtain ⟨x', o, hx'⟩ := mix_perform64_crossing r1.x hc' ins1 outs1 n hs1 hne hlt
  have hx2 : x' = ({ r1.x with
      gains := fun j => if j < r1.x.chan_in_cnt then r1.x.gains_targ j else r1.x.gains j,
      master := r1.x.master_targ, cntd := CNTD_CONST } : t_mix α) := by
    have h := hx'
    rw [hr2] at h
    unfold mix_perform64_const at h
    split at h
    · cases h
    · simp only [Option.some.injEq, t_perform.mk.injEq] at h
      exact h.1.symm
  refine ⟨_, o, hr2, rfl, rfl, ?_, ?_⟩
  · rw [hx', hx2]
  · intro ins2 outs2
    obtain ⟨r3, hr3, _, hb3⟩ := mix_render_idle post
      ({ r1.x with
          gains := fun j => if j < r1.x.chan_in_cnt then r1.x.gains_targ j else r1.x.gains j,
          master := r1.x.master_targ, cntd := CNTD_CONST } : t_mix α)
      ins2 outs2 hc' rfl
      (fun m hm => (hb m (List.mem_append_right pre (List.mem_cons_of_mem n hm))).2)
    exact ⟨r3, hr3, hb3⟩

/-- C19 on the mixer `ex_unity`, whose ramp lasts 10 samples, after `master 0`
and four blocks of 4 samples: the first two blocks send no bang and leave a
countdown of 2, and the run sends one bang. -/
theorem bang_once_per_ramp_witness :
    (mix_call ⟨fun v => v, fun v => v, fun v => v⟩ ex_unity (.master 0)
        = some (mix_master ex_unity 0) ∧
      ex_unity.ramp_samp < 4294967295 ∧
      ¬ ((mix_master ex_unity 0).master = 0 ∧ (mix_master ex_unity 0).master_targ = 0) ∧
      ([4, 4] : List Nat).sum < ex_unity.ramp_samp ∧
      ex_unity.ramp_samp < ([4, 4] : List Nat).sum + 4) ∧
    (∃ r, mix_render (mix_master ex_unity 0) ex_ins ex_outs ([4, 4] ++ 4 :: [4]) = some r ∧
      r.bangs = 1) ∧
    ∃ r1, mix_render (mix_master ex_unity 0) ex_ins ex_outs [4, 4] = some r1 ∧
      r1.bangs = 0 ∧ r1.x.cntd = 2 := by
  have h1 : mix_call ⟨fun v => v, fun v => v, fun v => v⟩ ex_unity (.master 0)
      = some (mix_master ex_unity 0) := rfl
  have h2 : ex_unity.ramp_samp < 4294967295 := by simp [ex_unity]
  have h3 : ¬ ((mix_master ex_unity 0).master = 0 ∧ (mix_master ex_unity 0).master_targ = 0) := by
    simp [mix_master, ex_unity]
  have h4 : ([4, 4] : List Nat).sum < ex_unity.ramp_samp := by simp [ex_unity]
  have h5 : ex_unity.ramp_samp < ([4, 4] : List Nat).sum + 4 := by simp [ex_unity]
  obtain ⟨htot, r1, hr1, hb1, hc1, _⟩ := bang_once_per_ramp
    ⟨fun v => v, fun v => v, fun v => v⟩ ex_unity (mix_master ex_unity 0) (.master 0)
    ex_ins ex_outs [4, 4] [4] 4 (Or.inl ⟨0, rfl⟩) h1 (Or.inl rfl) h2 h3
    (by intro k hk; simp at hk; subst hk; norm_num) (Or.inl h4) h5
  exact ⟨⟨h1, h2, h3, h4, h5⟩, htot, r1, hr1, hb1, by rw [hc1]; simp [ex_unity]⟩

/-- C19 does not hold when master and its target are both 0: on the silent
mixer `ex_silent`, whose ramp lasts 4 samples, `list 0 1` starts a ramp, and
two blocks of 4 samples, 8 samples in all, send no bang. -/
theorem bang_never_when_silent :
    ∃ x' r, mix_list ex_silent [.A_LONG 0, .A_LONG 1] = some x' ∧ x'.cntd = 4 ∧
      mix_render x' ex_ins ex_outs [4, 4] = some r ∧ r.bangs = 0 := by
  obtain ⟨r, hr, _, hb⟩ := mix_render_silent [4, 4]
    ({ ex_silent with
        master_targ := atom_getfloat (t_atom.A_LONG 0 : t_atom ℚ),
        gains_targ := fun j =>
          if [(t_atom.A_LONG 1 : t_atom ℚ)].length ≤ j ∧ j < ex_silent.chan_in_cnt then 0
          else if j < min [(t_atom.A_LONG 1 : t_atom ℚ)].length ex_silent.chan_in_cnt then
            atom_getfloat ([(t_atom.A_LONG 1 : t_atom ℚ)].getD j (.A_LONG 0))
          else ex_silent.gains_targ j,
        cntd := ex_silent.ramp_samp } : t_mix ℚ) ex_ins ex_outs rfl
    (by simp [atom_getfloat])
  exact ⟨_, r, mix_list_cons ex_silent _ _, rfl, hr, hb⟩

end Bang

end Mix

/-! ## The dynamic strings of dstring.c -/

namespace Dstr

section Pow2

/-- One step of the bit smear of `_dstr_next_pow2`. -/
theorem smear_step (x y m : Nat)
    (h : ∀ k, y.testBit k = true ↔ ∃ d, d < m ∧ x.testBit (k + d) = true) :
    ∀ k, (y ||| (y >>> m)).testBit k = true ↔ ∃ d, d < 2 * m ∧ x.testBit (k + d) = true := by
  intro k
  rw [Nat.testBit_or, Nat.testBit_shiftRight, Bool.or_eq_true, h, h]
  constructor
  · rintro (⟨d, hd, hb⟩ | ⟨d, hd, hb⟩)
    · exact ⟨d, by omega, hb⟩
    · exact ⟨m + d, by omega, by rw [← hb]; congr 1; omega⟩
  · rintro ⟨d, hd, hb⟩
    by_cases hdm : d < m
    · exact Or.inl ⟨d, hdm, hb⟩
    · exact Or.inr ⟨d - m, by omega, by rw [← hb]; congr 1; omega⟩

/-- The bit smear of `_dstr_next_pow2` sets every bit below the highest bit
set. -/
theorem smear_eq (x i : Nat) (hi : x.testBit i = true) (hx : x < 2 ^ (i + 1)) (h32 : i < 32) :
    (let val := x
     let val := val ||| (val >>> 1)
     let val := val ||| (val >>> 2)
     let val := val ||| (val >>> 4)
     let val := val ||| (val >>> 8)
     let val := val ||| (val >>> 16)
     val) = 2 ^ (i + 1) - 1 := by
  simp only
  have h0 : ∀ k, x.testBit k = true ↔ ∃ d, d < 1 ∧ x.testBit (k + d) = true := by
    intro k
    constructor
    · intro h; exact ⟨0, by omega, h⟩
    · rintro ⟨d, hd, hb⟩
      have : d = 0 := by omega
      subst this; exact hb
  have h1 := smear_step x _ 1 h0
  have h2 := smear_step x _ 2 h1
  have h3 := smear_step x _ 4 h2
  have h4 := smear_step x _ 8 h3
  have h5 := smear_step x _ 16 h4
  apply Nat.eq_of_testBit_eq
  intro k
  rw [Nat.testBit_two_pow_sub_one]
  by_cases hk : k < i + 1
  · rw [decide_eq_true hk]
    exact (h5 k).mpr ⟨i - k, by omega, by rw [← hi]; congr 1; omega⟩
  · rw [decide_eq_false hk]
    rw [Bool.eq_false_iff]
    intro hb
    obtain ⟨d, _, hd⟩ := (h5 k).mp hb
    have hlt : x < 2 ^ (k + d) :=
      lt_of_lt_of_le hx (Nat.pow_le_pow_right (by norm_num) (by omega))
    rw [Nat.testBit_eq_false_of_lt hlt] at hd
    cases hd

/-- For a value between 1 and 2^31, `_dstr_next_pow2` returns the smallest
power of two that is not below the value. -/
theorem dstr_next_pow2_spec (v : Nat) (h1 : 1 ≤ v) (h2 : v ≤ 2 ^ 31) :
    ∃ e, _dstr_next_pow2 v = 2 ^ e ∧ e ≤ 31 ∧ v ≤ 2 ^ e ∧ ∀ e', v ≤ 2 ^ e' → 2 ^ e ≤ 2 ^ e' := by
  by_cases hx : v - 1 = 0
  · have hv : v = 1 := by omega
    subst hv
    exact ⟨0, by decide, by omega, by norm_num, fun e' _ => Nat.one_le_two_pow⟩
  · obtain ⟨i, hi, hmsb⟩ := Nat.exists_most_significant_bit hx
    have hlt : v - 1 < 2 ^ (i + 1) :=
      Nat.lt_pow_two_of_testBit _ (fun j hj => hmsb j (by omega))
    have hge : 2 ^ i ≤ v - 1 := Nat.testBit_implies_ge hi
    have hi31 : i < 31 := by
      have : 2 ^ i < 2 ^ 31 := by omega
      exact (Nat.pow_lt_pow_iff_right (by norm_num)).mp this
    have hsm := smear_eq (v - 1) i hi hlt (by omega)
    simp only at hsm
    have hpos : 0 < 2 ^ (i + 1) := Nat.two_pow_pos _
    have hle : 2 ^ (i + 1) ≤ 2 ^ 31 := Nat.pow_le_pow_right (by norm_num) (by omega)
    have hv0 : v ≠ 0 := by omega
    refine ⟨i + 1, ?_, by omega, by omega, ?_⟩
    · unfold _dstr_next_pow2
      simp only [hv0, ne_eq, not_false_eq_true, if_true, hsm]
      have h3 : 2 ^ (i + 1) - 1 + 1 = 2 ^ (i + 1) := by omega
      have h4 : u32 (2 ^ (i + 1)) = 2 ^ (i + 1) := by
        unfold u32
        exact Nat.mod_eq_of_lt (by norm_num at hle ⊢; omega)
      rw [h3, h4, if_pos (by omega)]
    · intro e' he'
      have : 2 ^ i < 2 ^ e' := by omega
      have hie : i < e' := (Nat.pow_lt_pow_iff_right (by norm_num)).mp this
      exact Nat.pow_le_pow_right (by norm_num) (by omega)

end Pow2

section Cat

/-- The characters of a block in which a C string has been copied at the
position `L` and terminated. -/
theorem content_write (c c' : Nat → Char) (L : Nat) (s : List Char)
    (hc : ∀ i, i < L → c' i = c i) :
    (List.range (L + s.length)).map
        (Function.update
          (fun i => if L ≤ i ∧ i < L + s.length then cstr_mem s (i - L) else c' i)
          (L + s.length) NUL) =
      (List.range L).map c ++ s := by
  apply List.ext_getElem?
  intro n
  by_cases h1 : n < L + s.length
  · have hne : n ≠ L + s.length := by omega
    have hr : (List.range (L + s.length))[n]? = some n := by
      rw [List.getElem?_range h1]
    rw [List.getElem?_map, hr, Option.map_some', Function.update_noteq hne]
    by_cases hn : n < L
    · have hr2 : (List.range L)[n]? = some n := by rw [List.getElem?_range hn]
      rw [List.getElem?_append_left (by simpa using hn), List.getElem?_map, hr2,
        Option.map_some', if_neg (by omega), hc n hn]
    · rw [List.getElem?_append_right (by simpa using hn), if_pos ⟨by omega, h1⟩]
      simp only [cstr_mem, List.length_map, List.length_range]
      rw [List.getD_eq_getElem?_getD, List.getElem?_eq_getElem (by omega)]
      rfl
  · rw [List.getElem?_eq_none (by simpa using h1), List.getElem?_eq_none (by simp; omega)]

/-- C20. Concatenation: for every non-NULL dstring `d` (with
`len_cur <= len_max <= DSTR_LEN_MAX`) of content `c`, `len_cur = L` and
`len_max = M`, and every C string `s` of length `k` with `L + k <= 2^31`, the
reallocation succeeding when there is one, `dstr_cat_cstr` leaves a dstring of
content `c ++ s`, terminated by NUL, with `len_cur = L + k`; when `L + k <= M`
no allocation is requested and `len_max` stays `M`, and otherwise `len_max`
becomes the smallest power of two `>= L + k`. -/
theorem concatenation (d : t_dstr_struct) (s : List Char) (heap : t_heap)
    (hnn : DSTR_NOT_NULL d = true) (hinv : d.len_cur ≤ d.len_max)
    (hmax : d.len_max ≤ DSTR_LEN_MAX) (hlen : d.len_cur + s.length ≤ 2 ^ 31)
    (halloc : d.len_max < d.len_cur + s.length → (heap 0).isSome = true) :
    dstr_content (dstr_cat_cstr d s heap).1 = dstr_content d ++ s ∧
    (dstr_cat_cstr d s heap).1.cstr (d.len_cur + s.length) = NUL ∧
    (dstr_cat_cstr d s heap).1.len_cur = d.len_cur + s.length ∧
    (d.len_cur + s.length ≤ d.len_max →
      (dstr_cat_cstr d s heap).1.len_max = d.len_max ∧ (dstr_cat_cstr d s heap).2 = heap) ∧
    (d.len_max < d.len_cur + s.length →
      ∃ e, (dstr_cat_cstr d s heap).1.len_max = 2 ^ e ∧ d.len_cur + s.length ≤ 2 ^ e ∧
        ∀ e', d.len_cur + s.length ≤ 2 ^ e' → 2 ^ e ≤ 2 ^ e') := by
  have hM : d.len_max < 4294967295 := by unfold DSTR_LEN_MAX at hmax; omega
  have hk : strnlen s DSTR_LEN_MAX = s.length := by
    unfold strnlen DSTR_LEN_MAX
    norm_num at hlen
    omega
  have hsub : u32 (d.len_max + 4294967296 - d.len_cur) = d.len_max - d.len_cur := by
    unfold u32; omega
  have hsum : u32 (d.len_cur + s.length) = d.len_cur + s.length := by
    unfold u32
    norm_num at hlen
    omega
  by_cases hfit : d.len_cur + s.length ≤ d.len_max
  · have hng : ¬ (s.length > d.len_max - d.len_cur) := by omega
    have hr : dstr_cat_cstr d s heap =
        ({ d with
            len_cur := d.len_cur + s.length,
            cstr := Function.update
              (fun i => if d.len_cur ≤ i ∧ i < d.len_cur + s.length then
                cstr_mem s (i - d.len_cur) else d.cstr i)
              (d.len_cur + s.length) NUL }, heap) := by
      unfold dstr_cat_cstr _dstr_cpy _dstr_grow
      simp only [hk, hsub, hng, if_false, hnn, if_true, hsum]
    rw [hr]
    refine ⟨?_, ?_, rfl, fun _ => ⟨rfl, rfl⟩, fun h => absurd hfit (by omega)⟩
    · exact content_write d.cstr d.cstr d.len_cur s (fun _ _ => rfl)
    · simp only [Function.update_same]
  · have hg : s.length > d.len_max - d.len_cur := by omega
    have hmin : min s.length (u32 (DSTR_LEN_MAX + 4294967296 - d.len_cur)) = s.length := by
      unfold u32 DSTR_LEN_MAX
      norm_num at hlen
      omega
    obtain ⟨e, he, he31, hle, hsmall⟩ := dstr_next_pow2_spec (d.len_cur + s.length)
      (by omega) hlen
    obtain ⟨fresh, hfresh⟩ := Option.isSome_iff_exists.mp (halloc (by omega))
    have hnull : DSTR_IS_NULL d = false := by
      unfold DSTR_NOT_NULL at hnn
      unfold DSTR_IS_NULL
      simpa using hnn
    have h2e : 2 ^ e ≤ 2 ^ 31 := Nat.pow_le_pow_right (by norm_num) he31
    have hP : (2 : Nat) ^ e ≠ DSTR_LEN_ERR := by
      unfold DSTR_LEN_ERR
      norm_num at h2e
      omega
    have hr : dstr_cat_cstr d s heap =
        ({ len_max := 2 ^ e,
           len_cur := d.len_cur + s.length,
           cstr := Function.update
              (fun i => if d.len_cur ≤ i ∧ i < d.len_cur + s.length then
                cstr_mem s (i - d.len_cur)
                else Function.update
                  (fun i => if i < min (d.len_max + 1) (2 ^ e + 1) then d.cstr i else fresh i)
                  (min d.len_cur (2 ^ e)) NUL i)
              (d.len_cur + s.length) NUL }, heap_next heap) := by
      unfold dstr_cat_cstr _dstr_cpy _dstr_grow _dstr_realloc
      simp only [hk, hsub, hg, if_true, hmin, hsum, he, hnull, hfresh, DSTR_NOT_NULL, hP,
        ne_eq, not_false_eq_true, decide_True, Bool.false_eq_true, if_false]
    rw [hr]
    refine ⟨?_, ?_, rfl, fun h => absurd h hfit, fun _ => ⟨e, rfl, hle, hsmall⟩⟩
    · refine content_write d.cstr _ d.len_cur s (fun i hi => ?_)
      have h1 : i ≠ min d.len_cur (2 ^ e) := by
        rw [Nat.min_def]; split_ifs <;> omega
      rw [Function.update_noteq h1, if_pos]
      rw [Nat.lt_min]
      omega
    · simp only [Function.update_same]

/-- C20 on the dstrings of `dstr_test`: "abcdef" is created with the lengths
6/8; the concatenation of "" leaves 6/8, then "1" gives 7/8 and "2" gives 8/8,
with no allocation; the concatenation of "3" gives "abcdef123" with the
lengths 9/16. -/
theorem concatenation_witness :
    (DSTR_NOT_NULL ex_abcdef12 = true ∧ ex_abcdef12.len_cur ≤ ex_abcdef12.len_max ∧
      ex_abcdef12.len_max ≤ DSTR_LEN_MAX ∧ ex_abcdef12.len_cur + ['3'].length ≤ 2 ^ 31) ∧
    (dstr_content ex_abcdef = ['a', 'b', 'c', 'd', 'e', 'f'] ∧
      ex_abcdef.len_cur = 6 ∧ ex_abcdef.len_max = 8) ∧
    (dstr_content (dstr_cat_cstr ex_abcdef [] ex_heap).1 = ['a', 'b', 'c', 'd', 'e', 'f'] ∧
      (dstr_cat_cstr ex_abcdef [] ex_heap).1.len_cur = 6 ∧
      (dstr_cat_cstr ex_abcdef [] ex_heap).1.len_max = 8 ∧
      (dstr_cat_cstr ex_abcdef [] ex_heap).2 = ex_heap) ∧
    (dstr_content ex_abcdef12 = ['a', 'b', 'c', 'd', 'e', 'f', '1', '2'] ∧
      ex_abcdef12.len_cur = 8 ∧ ex_abcdef12.len_max = 8) ∧
    (dstr_content (dstr_cat_cstr ex_abcdef12 ['3'] ex_heap).1 =
        ['a', 'b', 'c', 'd', 'e', 'f', '1', '2', '3'] ∧
      (dstr_cat_cstr ex_abcdef12 ['3'] ex_heap).1.cstr 9 = NUL ∧
      (dstr_cat_cstr ex_abcdef12 ['3'] ex_heap).1.len_cur = 9 ∧
      (dstr_cat_cstr ex_abcdef12 ['3'] ex_heap).1.len_max = 16) := by
  have h1 : DSTR_NOT_NULL ex_abcdef12 = true := by decide
  have h2 : ex_abcdef12.len_cur ≤ ex_abcdef12.len_max := by decide
  have h3 : ex_abcdef12.len_max ≤ DSTR_LEN_MAX := by decide
  have h4 : ex_abcdef12.len_cur + ['3'].length ≤ 2 ^ 31 := by decide
  have hc8 : dstr_content ex_abcdef12 = ['a', 'b', 'c', 'd', 'e', 'f', '1', '2'] := by decide
  have hl8 : ex_abcdef12.len_cur = 8 := by decide
  have hm8 : ex_abcdef12.len_max = 8 := by decide
  obtain ⟨k1, k2, k3, _, k5⟩ := concatenation ex_abcdef12 ['3'] ex_heap h1 h2 h3 h4
    (fun _ => rfl)
  have h0 := concatenation ex_abcdef [] ex_heap (by decide) (by decide) (by decide)
    (by decide) (fun _ => rfl)
  have hc6 : dstr_content ex_abcdef = ['a', 'b', 'c', 'd', 'e', 'f'] := by decide
  have hl6 : ex_abcdef.len_cur = 6 := by decide
  have hm6 : ex_abcdef.len_max = 8 := by decide
  obtain ⟨j1, _, j3, j4, _⟩ := h0
  have j4' := j4 (by decide)
  refine ⟨⟨h1, h2, h3, h4⟩, ⟨hc6, hl6, hm6⟩, ⟨?_, ?_, ?_, j4'.2⟩, ⟨hc8, hl8, hm8⟩,
    ?_, ?_, ?_, ?_⟩
  · rw [j1, hc6]; rfl
  · rw [j3, hl6]; rfl
  · rw [j4'.1, hm6]
  · rw [k1, hc8]; rfl
  · have := k2; rw [hl8] at this; exact this
  · rw [k3, hl8]; rfl
  · obtain ⟨e, he, hle, hsmall⟩ := k5 (by decide)
    rw [he]
    rw [hl8] at hle hsmall
    have h16 := hsmall 4 (by decide)
    have h9 : (9 : Nat) ≤ 2 ^ e := hle
    have he4 : 4 ≤ e := by
      by_contra hlt
      have : e ≤ 3 := by omega
      have : 2 ^ e ≤ 2 ^ 3 := Nat.pow_le_pow_right (by norm_num) this
      omega
    have : 2 ^ 4 ≤ 2 ^ e := Nat.pow_le_pow_right (by norm_num) he4
    omega

end Cat

end Dstr

/-! ## The countdown: the end of a ramp, the idle state, the range -/

namespace Mix

section Idle

variable {α : Type} [LinearOrderedField α]

/-- What a block leaves of the countdown: a countdown that was a `t_uint32`
is one after the call; when it is the sentinel after the call, either the
object is the one before the call or master and the channel gains have been
set to their targets; otherwise it is not above the one before the call. -/
theorem mix_perform64_cntd (x : t_mix α) (ins outs : t_bufs α) (n : Nat)
    (r : t_perform α) (h : mix_perform64 x ins outs n = some r)
    (hcntd : x.cntd < 4294967296) :
    r.x.cntd < 4294967296 ∧
    (r.x.cntd = CNTD_CONST →
      r.x = x ∨ (r.x.master = x.master_targ ∧
        ∀ i, i < x.chan_in_cnt → r.x.gains i = x.gains_targ i)) ∧
    (r.x.cntd ≠ CNTD_CONST → r.x.cntd ≤ x.cntd ∧ x.cntd ≠ CNTD_CONST) := by
  have hend : ∀ (o : t_bufs α) (g : Nat → α) (rl : Nat),
      mix_perform64_end x ins o g rl n = some r →
      r.x.cntd = CNTD_CONST ∧ r.x.master = x.master_targ ∧
        ∀ i, i < x.chan_in_cnt → r.x.gains i = x.gains_targ i := by
    intro o g rl he
    unfold mix_perform64_end mix_perform64_const at he
    simp only [for_loop_update] at he
    split at he
    · cases he
    · cases he
      refine ⟨rfl, rfl, fun i hi => ?_⟩
      simp [hi]
  unfold mix_perform64 at h
  simp only at h
  by_cases hs : x.master = 0 ∧ x.master_targ = 0
  · rw [if_pos hs] at h
    cases h
    exact ⟨hcntd, fun _ => Or.inl rfl, fun hne => ⟨le_refl _, hne⟩⟩
  rw [if_neg hs] at h
  by_cases hc : x.cntd = CNTD_CONST
  · rw [if_pos hc] at h
    unfold mix_perform64_const at h
    split at h
    · cases h
    · cases h
      exact ⟨hcntd, fun _ => Or.inl rfl, fun hne => ⟨le_refl _, hne⟩⟩
  rw [if_neg hc] at h
  split at h
  · by_cases hz : x.cntd = 0
    · rw [if_pos hz] at h
      by_cases hrl : (if x.cntd > n then n else x.cntd) = n
      · rw [if_pos hrl] at h
        cases h
      · rw [if_neg hrl] at h
        obtain ⟨h1, h2, h3⟩ := hend _ _ _ h
        exact ⟨by rw [h1]; unfold CNTD_CONST; omega, fun _ => Or.inr ⟨h2, h3⟩,
          fun hne => absurd h1 hne⟩
    · rw [if_neg hz] at h
      split at h
      · cases h
      · by_cases hrl : (if x.cntd > n then n else x.cntd) = n
        · rw [if_pos hrl] at h
          cases h
          have hle : n ≤ x.cntd := by
            split_ifs at hrl <;> omega
          have hu : u32 (x.cntd + 4294967296 - u32 n) = x.cntd - n := u32_sub hcntd hle
          simp only [hu]
          unfold CNTD_CONST at hc ⊢
          refine ⟨by omega, fun h1 => by omega, fun _ => ⟨by omega, hc⟩⟩
        · rw [if_neg hrl] at h
          obtain ⟨h1, h2, h3⟩ := hend _ _ _ h
          exact ⟨by rw [h1]; unfold CNTD_CONST; omega, fun _ => Or.inr ⟨h2, h3⟩,
            fun hne => absurd h1 hne⟩
  · cases h

/-- The conversion to `t_uint32` returns a `t_uint32`. -/
theorem double_to_u32_lt [FloorRing α] (v : α) (k : Nat) (h : double_to_u32 v = some k) :
    k < 4294967296 := by
  unfold double_to_u32 at h
  simp only at h
  split_ifs at h with h1
  cases h
  omega

/-- One call of the host, on an object whose countdown and ramp duration are
`t_uint32`: they still are after the call; the countdown after the call is
the one before it, or the ramp duration (after a command), or what a block
leaves of it. -/
theorem mix_call_cntd [FloorRing α] (m : t_libm α) (x x' : t_mix α) (c : t_call α)
    (hc : mix_call m x c = some x')
    (hcntd : x.cntd < 4294967296) (hramp : x.ramp_samp < 4294967296) :
    x'.cntd < 4294967296 ∧ x'.ramp_samp < 4294967296 ∧
    x'.chan_in_cnt = x.chan_in_cnt ∧
    ((x' = x ∨ (x'.cntd = x.cntd ∧ x'.master = x.master ∧ x'.master_targ = x.master_targ ∧
          x'.gains = x.gains ∧ x'.gains_targ = x.gains_targ)) ∨
      (x'.cntd = x.ramp_samp ∧ x'.ramp_samp = x.ramp_samp) ∨
      (x'.ramp_samp = x.ramp_samp ∧ x'.master_targ = x.master_targ ∧
        x'.gains_targ = x.gains_targ ∧
        ((x'.cntd = CNTD_CONST ∧ x'.master = x.master_targ ∧
            ∀ i, i < x.chan_in_cnt → x'.gains i = x.gains_targ i) ∨
          (x'.cntd ≠ CNTD_CONST ∧ x'.cntd ≤ x.cntd ∧ x.cntd ≠ CNTD_CONST)))) := by
  cases c with
  | master master =>
    simp only [mix_call, Option.some.injEq] at hc
    subst hc
    exact ⟨hramp, hramp, rfl, Or.inr (Or.inl ⟨rfl, rfl⟩)⟩
  | pan master pan =>
    simp only [mix_call, Option.some.injEq] at hc
    subst hc
    exact ⟨hramp, hramp, rfl, Or.inr (Or.inl ⟨rfl, rfl⟩)⟩
  | list argv =>
    simp only [mix_call, mix_list] at hc
    split_ifs at hc
    cases hc
    exact ⟨hramp, hramp, rfl, Or.inr (Or.inl ⟨rfl, rfl⟩)⟩
  | adjust argv =>
    simp only [mix_call, Option.some.injEq] at hc
    subst hc
    unfold mix_adjust
    simp only
    split_ifs <;> exact ⟨hcntd, hramp, rfl, Or.inl (Or.inr ⟨rfl, rfl, rfl, rfl, rfl⟩)⟩
  | adjust_one argv =>
    simp only [mix_call, Option.some.injEq] at hc
    subst hc
    unfold mix_adjust_one
    simp only
    split_ifs <;> exact ⟨hcntd, hramp, rfl, Or.inl (Or.inr ⟨rfl, rfl, rfl, rfl, rfl⟩)⟩
  | set_ramp argv sr =>
    simp only [mix_call] at hc
    obtain ⟨f, k, hk, rfl⟩ := mix_set_ramp_some x x' argv sr hc
    exact ⟨hcntd, double_to_u32_lt _ k hk, rfl, Or.inl (Or.inr ⟨rfl, rfl, rfl, rfl, rfl⟩)⟩
  | dsp64 samplerate =>
    simp only [mix_call, mix_dsp64] at hc
    split at hc
    · cases hc
    · rename_i k hk
      cases hc
      exact ⟨hcntd, double_to_u32_lt _ k hk, rfl, Or.inl (Or.inr ⟨rfl, rfl, rfl, rfl, rfl⟩)⟩
  | perform64 ins outs n =>
    simp only [mix_call, Option.map_eq_some'] at hc
    obtain ⟨r, hr, hx⟩ := hc
    subst hx
    obtain ⟨h1, h2, h3⟩ := mix_perform64_cntd x ins outs n r hr hcntd
    have hf := mix_perform64_frame x ins outs n r hr
    refine ⟨h1, by rw [hf.2.2.2.2.2.2.2]; exact hramp, hf.1, ?_⟩
    by_cases hcn : r.x.cntd = CNTD_CONST
    · rcases h2 hcn with h | h
      · exact Or.inl (Or.inl h)
      · exact Or.inr (Or.inr ⟨hf.2.2.2.2.2.2.2, hf.2.2.1, hf.2.2.2.1, Or.inl ⟨hcn, h⟩⟩)
    · exact Or.inr (Or.inr ⟨hf.2.2.2.2.2.2.2, hf.2.2.1, hf.2.2.2.1,
        Or.inr ⟨hcn, (h3 hcn).1, (h3 hcn).2⟩⟩)

/-- The object `mix_new` returns has a countdown and a ramp duration that are
`t_uint32`, and is idle and settled. -/
theorem mix_new_idle [FloorRing α] (argv : List (t_atom α)) (sr : α) (x0 : t_mix α)
    (h0 : mix_new argv sr = some x0) :
    x0.cntd = CNTD_CONST ∧ x0.ramp_samp < 4294967296 ∧ x0.master = x0.master_targ ∧
    ∀ i, x0.gains i = x0.gains_targ i := by
  unfold mix_new at h0
  obtain ⟨f, k, hk, rfl⟩ := mix_set_ramp_some _ x0 _ sr h0
  exact ⟨rfl, double_to_u32_lt _ k hk, rfl, fun _ => rfl⟩

/-- C28 at a block that ends with the countdown: on the mixer `ex_unity`
after `master 1/2`, in a ramp of 10 samples, a block of 10 samples returns
with the countdown at 0, not at the sentinel `CNTD_CONST`, and sends no bang:
the end of the countdown is not processed in the call in which the countdown
reaches zero. -/
theorem snap_missed_at_block_end :
    ∃ r, mix_perform64 (mix_master ex_unity (1 / 2)) ex_ins ex_outs 10 = some r ∧
      (mix_master ex_unity (1 / 2)).cntd = 10 ∧
      r.x.cntd = 0 ∧ r.x.cntd ≠ CNTD_CONST ∧ r.bangs = 0 := by
  refine ⟨_, mix_perform64_ramp_block (mix_master ex_unity (1 / 2)) (Or.inl rfl)
    (by simp [mix_master, ex_unity]) ex_ins ex_outs 10
    (by simp [mix_master, ex_unity]) (by simp [mix_master, ex_unity, CNTD_CONST])
    (by simp [mix_master, ex_unity]) (by simp [mix_master, ex_unity]) (Or.inl (by norm_num)),
    rfl, ?_, ?_, rfl⟩
  · simp [mix_master, ex_unity]
  · simp [mix_master, ex_unity, CNTD_CONST]

/-- C29 does not hold from right to left: after `mix_new` at 44.1 kHz and
`master 1`, master and every channel gain equal their targets, and the
countdown is 1323, not the sentinel. -/
theorem settled_but_not_idle :
    ∃ x0 x, mix_new ([] : List (t_atom ℚ)) 44100 = some x0 ∧
      mix_calls ⟨fun v => v, fun v => v, fun v => v⟩ x0 [.master 1] = some x ∧
      x.master = x.master_targ ∧ (∀ i, x.gains i = x.gains_targ i) ∧
      x.cntd = 1323 ∧ x.cntd ≠ CNTD_CONST := by
  obtain ⟨x0, hx0, _, _, hm, _, hg, hgt, _, _, _, hr⟩ :=
    mix_new_spec ([] : List (t_atom ℚ)) 44100 (by norm_num) (by norm_num [RAMP_DEF])
  have hf : ⌊((RAMP_DEF : Nat) : ℚ) * 44100 / 1000⌋₊ = 1323 := by
    rw [Nat.floor_eq_iff (by norm_num [RAMP_DEF])]
    constructor <;> norm_num [RAMP_DEF]
  have hc : (mix_master x0 1).cntd = 1323 := by
    simp only [mix_master, hr, hf]
  refine ⟨x0, mix_master x0 1, hx0, rfl, ?_, ?_, hc, ?_⟩
  · simp [mix_master, hm]
  · intro i; simp [mix_master, hg, hgt]
  · rw [hc]; simp [CNTD_CONST]

/-- C29, as the source has it. In every state reached from `mix_new` by a
sequence of calls of the host (control commands, attribute and sample-rate
changes, block renders) along which the ramp duration is never the value
`2^32 - 1` of the sentinel, `cntd == CNTD_CONST` only if
`master == master_targ` and `gains[i] == gains_targ[i]` for every channel
`i`. -/
theorem idle_only_if_settled [FloorRing α] (m : t_libm α) (argv : List (t_atom α)) (sr : α)
    (x0 x : t_mix α) (cs : List (t_call α))
    (h0 : mix_new argv sr = some x0) (h : mix_calls m x0 cs = some x)
    (hD : ∀ k xk, mix_calls m x0 (cs.take k) = some xk → xk.ramp_samp ≠ CNTD_CONST) :
    x.cntd = CNTD_CONST →
      x.master = x.master_targ ∧ ∀ i, i < x.chan_in_cnt → x.gains i = x.gains_targ i := by
  have hinv : ∀ (cs : List (t_call α)) (x0 x : t_mix α), mix_calls m x0 cs = some x →
      (∀ k xk, mix_calls m x0 (cs.take k) = some xk → xk.ramp_samp ≠ CNTD_CONST) →
      x0.cntd < 4294967296 → x0.ramp_samp < 4294967296 →
      (x0.cntd = CNTD_CONST →
        x0.master = x0.master_targ ∧
          ∀ i, i < x0.chan_in_cnt → x0.gains i = x0.gains_targ i) →
      (x.cntd = CNTD_CONST →
        x.master = x.master_targ ∧ ∀ i, i < x.chan_in_cnt → x.gains i = x.gains_targ i) := by
    intro cs
    induction cs with
    | nil =>
      intro x0 x h _ _ _ hI
      simp only [mix_calls, Option.some.injEq] at h
      subst h; exact hI
    | cons c cs ih =>
      intro x0 x h hD hc hr hI
      simp only [mix_calls] at h
      split at h
      · cases h
      · rename_i x1 h1
        have hr0 : x0.ramp_samp ≠ CNTD_CONST := hD 0 x0 rfl
        obtain ⟨k1, k2, k3, k4⟩ := mix_call_cntd m x0 x1 c h1 hc hr
        refine ih x1 x h ?_ k1 k2 ?_
        · intro k xk hk
          refine hD (k + 1) xk ?_
          simp only [List.take_succ_cons, mix_calls, h1]
          exact hk
        · intro hcn
          rcases k4 with (h5 | h5) | h5 | h5
          · subst h5; exact hI hcn
          · obtain ⟨e1, e2, e3, e4, e5⟩ := h5
            rw [e1] at hcn
            rw [e2, e3, e4, e5, k3]
            exact hI hcn
          · exact absurd (h5.1 ▸ hcn) hr0
          · obtain ⟨_, e3, e5, h6 | h6⟩ := h5
            · rw [e3, e5, k3]
              exact ⟨h6.2.1, h6.2.2⟩
            · exact absurd hcn h6.1
  obtain ⟨i1, i2, i3, i4⟩ := mix_new_idle argv sr x0 h0
  exact hinv cs x0 x h hD (by rw [i1]; simp [CNTD_CONST]) i2 (fun _ => ⟨i3, fun i _ => i4 i⟩)

/-- C29 on the mixer `mix_new` returns at 44.1 kHz, after
`adjust_one ampl 0 2`: the countdown is the sentinel, and master and every
channel gain equal their targets. -/
theorem idle_only_if_settled_witness :
    ∃ x0 x, mix_new ([] : List (t_atom ℚ)) 44100 = some x0 ∧
      mix_calls ⟨fun v => v, fun v => v, fun v => v⟩ x0
        [.adjust_one [.A_SYM "ampl", .A_LONG 0, .A_LONG 2]] = some x ∧
      x.cntd = CNTD_CONST ∧ x.master = x.master_targ ∧
      ∀ i, i < x.chan_in_cnt → x.gains i = x.gains_targ i := by
  obtain ⟨x0, hx0, _, _, _, _, _, _, _, hc0, _, hr⟩ :=
    mix_new_spec ([] : List (t_atom ℚ)) 44100 (by norm_num) (by norm_num [RAMP_DEF])
  have hf : ⌊((RAMP_DEF : Nat) : ℚ) * 44100 / 1000⌋₊ = 1323 := by
    rw [Nat.floor_eq_iff (by norm_num [RAMP_DEF])]
    constructor <;> norm_num [RAMP_DEF]
  have hr1 : ∀ argv, (mix_adjust_one ⟨fun v => v, fun v => v, fun v => v⟩ x0 argv).ramp_samp
      = 1323 := by
    intro argv
    unfold mix_adjust_one
    simp only
    split_ifs <;> simp only [hr, hf]
  have hc1 : ∀ argv, (mix_adjust_one ⟨fun v => v, fun v => v, fun v => v⟩ x0 argv).cntd
      = CNTD_CONST := by
    intro argv
    unfold mix_adjust_one
    simp only
    split_ifs <;> exact hc0
  have hcs : mix_calls ⟨fun v => v, fun v => v, fun v => v⟩ x0
      [.adjust_one [.A_SYM "ampl", .A_LONG 0, .A_LONG 2]] = some _ := rfl
  have h := idle_only_if_settled ⟨fun v => v, fun v => v, fun v => v⟩ [] 44100 x0 _
    [.adjust_one [.A_SYM "ampl", .A_LONG 0, .A_LONG 2]] hx0 hcs
    (by
      intro k xk hk
      cases k with
      | zero =>
        simp only [List.take_zero, mix_calls, Option.some.injEq] at hk
        subst hk
        rw [hr, hf]; simp [CNTD_CONST]
      | succ k =>
        simp only [List.take_succ_cons, List.take_nil, mix_calls, mix_call,
          Option.some.injEq] at hk
        subst hk
        rw [hr1]; simp [CNTD_CONST])
    (hc1 _)
  exact ⟨x0, _, hx0, hcs, hc1 _, h.1, h.2⟩

/-- C30 does not hold when the ramp time is shortened during a ramp: after
`mix_new` at 44.1 kHz, `master 0` starts a ramp of 1323 samples, and the
attribute change `ramp 1` sets the ramp duration to 44 samples: the countdown
1323 is neither the sentinel nor at most the ramp duration. -/
theorem countdown_above_ramp_duration :
    ∃ x0 x, mix_new ([] : List (t_atom ℚ)) 44100 = some x0 ∧
      mix_calls ⟨fun v => v, fun v => v, fun v => v⟩ x0
        [.master 0, .set_ramp [.A_FLOAT 1] 44100] = some x ∧
      x.cntd = 1323 ∧ x.ramp_samp = 44 ∧
      ¬ (x.cntd = CNTD_CONST ∨ x.cntd ≤ x.ramp_samp) := by
  obtain ⟨x0, hx0, _, _, _, _, _, _, _, _, _, hr⟩ :=
    mix_new_spec ([] : List (t_atom ℚ)) 44100 (by norm_num) (by norm_num [RAMP_DEF])
  have hf : ⌊((RAMP_DEF : Nat) : ℚ) * 44100 / 1000⌋₊ = 1323 := by
    rw [Nat.floor_eq_iff (by norm_num [RAMP_DEF])]
    constructor <;> norm_num [RAMP_DEF]
  have hf1 : ⌊(1 : ℚ) * 44100 / 1000⌋₊ = 44 := by
    rw [Nat.floor_eq_iff (by norm_num)]
    constructor <;> norm_num
  have hs := mix_set_ramp_eq (mix_master x0 0) [.A_FLOAT 1] 44100 (1 : ℚ) 1
    (by simp [args_count_is, args_is_number, argv_at, atom_gettype, atom_getfloat, is_above_f])
    (double_to_float_of_eq 1 8388608 0 (by norm_num) (by norm_num) (by norm_num)
      (by norm_num))
    (by norm_num) (by norm_num)
  have hcs : mix_calls ⟨fun v => v, fun v => v, fun v => v⟩ x0
      [.master 0, .set_ramp [.A_FLOAT 1] 44100] =
      some { mix_master x0 0 with a_ramp := 1, ramp_samp := ⌊(1 : ℚ) * 44100 / 1000⌋₊ } := by
    simp only [mix_calls, mix_call, hs]
  refine ⟨x0, _, hx0, hcs, ?_, ?_, ?_⟩
  · simp only [mix_master, hr, hf]
  · simp only [hf1]
  · simp only [mix_master, hr, hf, hf1, CNTD_CONST]
    norm_num

/-- C30, as the source has it. In every state reached from `mix_new` by a
sequence of calls of the host (control commands, adjusts, block renders, and
the changes of the ramp time or of the sample rate that do not leave the ramp
duration below the countdown of a ramp in progress), either
`cntd == CNTD_CONST` or `0 <= cntd <= ramp_samp`. -/
theorem countdown_range [FloorRing α] (m : t_libm α) (argv : List (t_atom α)) (sr : α)
    (x0 x : t_mix α) (cs : List (t_call α))
    (h0 : mix_new argv sr = some x0) (h : mix_calls m x0 cs = some x)
    (hR : ∀ k c xk xk', cs.get? k = some c →
      ((∃ av s, c = .set_ramp av s) ∨ ∃ s, c = .dsp64 s) →
      mix_calls m x0 (cs.take k) = some xk → mix_call m xk c = some xk' →
      xk'.cntd = CNTD_CONST ∨ xk'.cntd ≤ xk'.ramp_samp) :
    x.cntd = CNTD_CONST ∨ (0 ≤ x.cntd ∧ x.cntd ≤ x.ramp_samp) := by
  have hinv : ∀ (cs : List (t_call α)) (x0 x : t_mix α), mix_calls m x0 cs = some x →
      (∀ k c xk xk', cs.get? k = some c →
        ((∃ av s, c = .set_ramp av s) ∨ ∃ s, c = .dsp64 s) →
        mix_calls m x0 (cs.take k) = some xk → mix_call m xk c = some xk' →
        xk'.cntd = CNTD_CONST ∨ xk'.cntd ≤ xk'.ramp_samp) →
      x0.cntd < 4294967296 → x0.ramp_samp < 4294967296 →
      (x0.cntd = CNTD_CONST ∨ x0.cntd ≤ x0.ramp_samp) →
      (x.cntd = CNTD_CONST ∨ x.cntd ≤ x.ramp_samp) := by
    intro cs
    induction cs with
    | nil =>
      intro x0 x h _ _ _ hI
      simp only [mix_calls, Option.some.injEq] at h
      subst h; exact hI
    | cons c cs ih =>
      intro x0 x h hR hc hr hI
      simp only [mix_calls] at h
      split at h
      · cases h
      · rename_i x1 h1
        obtain ⟨k1, k2, _, k4⟩ := mix_call_cntd m x0 x1 c h1 hc hr
        refine ih x1 x h ?_ k1 k2 ?_
        · intro k c' xk xk' hg hk hxk hxk'
          refine hR (k + 1) c' xk xk' (by simpa using hg) hk ?_ hxk'
          simp only [List.take_succ_cons, mix_calls, h1]
          exact hxk
        · by_cases hk : (∃ av s, c = .set_ramp av s) ∨ ∃ s, c = .dsp64 s
          · exact hR 0 c x0 x1 rfl hk rfl h1
          · rcases k4 with (h5 | h5) | h5 | h5
            · subst h5; exact hI
            · cases c with
              | set_ramp av s => exact absurd (Or.inl ⟨av, s, rfl⟩) hk
              | dsp64 s => exact absurd (Or.inr ⟨s, rfl⟩) hk
              | adjust av =>
                simp only [mix_call, Option.some.injEq] at h1
                subst h1
                unfold mix_adjust
                simp only
                split_ifs <;> exact hI
              | adjust_one av =>
                simp only [mix_call, Option.some.injEq] at h1
                subst h1
                unfold mix_adjust_one
                simp only
                split_ifs <;> exact hI
              | master v => right; simp only [mix_call, Option.some.injEq] at h1; subst h1; exact le_refl _
              | pan v p => right; simp only [mix_call, Option.some.injEq] at h1; subst h1; exact le_refl _
              | list av =>
                right
                simp only [mix_call, mix_list] at h1
                split_ifs at h1
                cases h1
                exact le_refl _
              | perform64 ins outs n =>
                simp only [mix_call, Option.map_eq_some'] at h1
                obtain ⟨r, hr1, hx⟩ := h1
                subst hx
                have hf := mix_perform64_frame x0 ins outs n r hr1
                rw [hf.2.2.2.2.2.2.2, h5.1]
                exact hI
            · right; rw [h5.1, h5.2]
            · obtain ⟨e1, _, _, h6 | h6⟩ := h5
              · exact Or.inl h6.1
              · right
                rw [e1]
                rcases hI with hI | hI
                · exact absurd hI h6.2.2
                · exact le_trans h6.2.1 hI
  obtain ⟨i1, i2, _, _⟩ := mix_new_idle argv sr x0 h0
  rcases hinv cs x0 x h hR (by rw [i1]; simp [CNTD_CONST]) i2 (Or.inl i1) with h1 | h1
  · exact Or.inl h1
  · exact Or.inr ⟨Nat.zero_le _, h1⟩

/-- C30 after `mix_new` at 44.1 kHz, `master 0`, which starts a ramp of 1323
samples, and the attribute change `ramp 60`, which sets the ramp duration to
2646 samples: the countdown 1323 is at most the ramp duration. -/
theorem countdown_range_witness :
    ∃ x0 x, mix_new ([] : List (t_atom ℚ)) 44100 = some x0 ∧
      mix_calls ⟨fun v => v, fun v => v, fun v => v⟩ x0
        [.master 0, .set_ramp [.A_FLOAT 60] 44100] = some x ∧
      x.cntd = 1323 ∧ x.ramp_samp = 2646 ∧
      (x.cntd = CNTD_CONST ∨ (0 ≤ x.cntd ∧ x.cntd ≤ x.ramp_samp)) := by
  obtain ⟨x0, hx0, _, _, _, _, _, _, _, _, _, hr⟩ :=
    mix_new_spec ([] : List (t_atom ℚ)) 44100 (by norm_num) (by norm_num [RAMP_DEF])
  have hf : ⌊((RAMP_DEF : Nat) : ℚ) * 44100 / 1000⌋₊ = 1323 := by
    rw [Nat.floor_eq_iff (by norm_num [RAMP_DEF])]
    constructor <;> norm_num [RAMP_DEF]
  have hf1 : ⌊(60 : ℚ) * 44100 / 1000⌋₊ = 2646 := by
    rw [Nat.floor_eq_iff (by norm_num)]
    constructor <;> norm_num
  have hs := mix_set_ramp_eq (mix_master x0 0) [.A_FLOAT 60] 44100 (60 : ℚ) 60
    (by simp [args_count_is, args_is_number, argv_at, atom_gettype, atom_getfloat, is_above_f])
    (double_to_float_of_eq 60 15728640 5 (by norm_num) (by norm_num) (by norm_num)
      (by norm_num))
    (by norm_num) (by norm_num)
  have hcs : mix_calls ⟨fun v => v, fun v => v, fun v => v⟩ x0
      [.master 0, .set_ramp [.A_FLOAT 60] 44100] =
      some { mix_master x0 0 with a_ramp := 60, ramp_samp := ⌊(60 : ℚ) * 44100 / 1000⌋₊ } := by
    simp only [mix_calls, mix_call, hs]
  have h := countdown_range ⟨fun v => v, fun v => v, fun v => v⟩ [] 44100 x0 _
    [.master 0, .set_ramp [.A_FLOAT 60] 44100] hx0 hcs
    (by
      intro k c xk xk' hg hk hxk hxk'
      cases k with
      | zero =>
        simp only [List.get?_cons_zero, Option.some.injEq] at hg
        subst hg
        rcases hk with ⟨av, s, hk⟩ | ⟨s, hk⟩ <;> cases hk
      | succ k =>
        cases k with
        | zero =>
          simp only [List.get?_cons_succ, List.get?_cons_zero, Option.some.injEq] at hg
          subst hg
          simp only [List.take_succ_cons, List.take_zero, mix_calls, mix_call,
            Option.some.injEq] at hxk
          subst hxk
          simp only [mix_call, hs, Option.some.injEq] at hxk'
          subst hxk'
          right
          simp only [mix_master, hr, hf, hf1]
          norm_num
        | succ k => simp at hg)
  refine ⟨x0, _, hx0, hcs, ?_, ?_, h⟩
  · simp only [mix_master, hr, hf]
  · simp only [hf1]

end Idle

end Mix

/-! ## The NULL dstring, resizing -/

namespace Dstr

section Null

/-- The search for the empty string succeeds where it starts. -/
theorem strstr_nil (mem : Nat → Char) (size pos : Nat) : strstr mem size pos [] = some pos := by
  unfold strstr
  cases h : c_string mem (size - pos) pos with
  | nil => simp [strstr_list]
  | cons c hay => simp [strstr_list, List.isPrefixOf]

/-- A loop whose test succeeds in every state does not end. -/
theorem while_some_never {σ τ : Type} (test : σ → Option τ) (body : σ → τ → σ)
    (h : ∀ st, ∃ v, test st = some v) (fuel : Nat) (st : σ) :
    while_some test body fuel st = none := by
  induction fuel generalizing st with
  | zero =>
    obtain ⟨v, hv⟩ := h st
    rw [while_some, hv]
  | succ k ih =>
    obtain ⟨v, hv⟩ := h st
    rw [while_some, hv]
    exact ih _

/-- C21. The NULL dstring is absorbing, `dstr_replace` apart: for every
dstring, the NULL dstring included, `dstr_replace` with an empty search string
and an empty replace string does not return, the loop of the equal lengths
finding the empty string where the search starts and starting again from
there; whatever the number of iterations allowed, the loop has not ended. -/
theorem null_replace_never_returns (fuel : Nat) (dstr : t_dstr_struct) (heap : t_heap) :
    dstr_replace fuel NULL_DSTR [] [] heap = none ∧ dstr_replace fuel dstr [] [] heap = none := by
  have h : ∀ d : t_dstr_struct, dstr_replace fuel d [] [] heap = none := by
    intro d
    unfold dstr_replace
    simp only [strnlen, List.length_nil, Nat.zero_min, lt_irrefl, if_false, if_true]
    rw [while_some_never (replace_equal_test (dstr_size d) [])
      (replace_equal_body 0 0 []) (fun st => ⟨st.2, strstr_nil _ _ _⟩)]
  exact ⟨h NULL_DSTR, h dstr⟩

/-- C22. Errors propagate from the source: for every destination dstring,
`dstr_cat_dstr` with a source in the NULL state leaves the destination in the
NULL state (the static C string, `len_cur = 0`, `len_max = DSTR_LEN_ERR`, an
empty content) and requests no allocation, and `dstr_new_dstr` of a dstring in
the NULL state returns `NULL_DSTR`. -/
theorem errors_propagate (dest src : t_dstr_struct) (heap : t_heap)
    (h : DSTR_IS_NULL src = true) :
    (dstr_cat_dstr dest src heap).1.cstr = NULL_CSTR ∧
    (dstr_cat_dstr dest src heap).1.len_cur = 0 ∧
    (dstr_cat_dstr dest src heap).1.len_max = DSTR_LEN_ERR ∧
    dstr_content (dstr_cat_dstr dest src heap).1 = [] ∧
    DSTR_IS_NULL (dstr_cat_dstr dest src heap).1 = true ∧
    (dstr_cat_dstr dest src heap).2 = heap ∧
    dstr_new_dstr src heap = (NULL_DSTR, heap) := by
  have h1 : dstr_cat_dstr dest src heap = (_dstr_set_to_null dest, heap) := by
    unfold dstr_cat_dstr
    rw [if_pos h]
  have h2 : dstr_new_dstr src heap = (NULL_DSTR, heap) := by
    unfold dstr_new_dstr
    rw [if_pos h]
  rw [h1, h2]
  refine ⟨rfl, rfl, rfl, rfl, ?_, rfl, rfl⟩
  unfold DSTR_IS_NULL
  exact decide_eq_true rfl

/-- C22 on the dstrings of `dstr_test`: "abcdef" concatenated with
`NULL_DSTR`, and the NULL dstring concatenated with it. -/
theorem errors_propagate_witness :
    DSTR_IS_NULL NULL_DSTR = true ∧
    (dstr_cat_dstr ex_abcdef NULL_DSTR ex_heap).1.len_cur = 0 ∧
    (dstr_cat_dstr ex_abcdef NULL_DSTR ex_heap).1.len_max = DSTR_LEN_ERR ∧
    dstr_content (dstr_cat_dstr ex_abcdef NULL_DSTR ex_heap).1 = [] ∧
    (dstr_cat_dstr NULL_DSTR NULL_DSTR ex_heap).1.len_max = DSTR_LEN_ERR ∧
    dstr_new_dstr NULL_DSTR ex_heap = (NULL_DSTR, ex_heap) :=
  ⟨by decide, (errors_propagate ex_abcdef NULL_DSTR ex_heap (by decide)).2.1,
    (errors_propagate ex_abcdef NULL_DSTR ex_heap (by decide)).2.2.1,
    (errors_propagate ex_abcdef NULL_DSTR ex_heap (by decide)).2.2.2.1,
    (errors_propagate NULL_DSTR NULL_DSTR ex_heap (by decide)).2.2.1,
    (errors_propagate NULL_DSTR NULL_DSTR ex_heap (by decide)).2.2.2.2.2.2⟩

end Null

section Resize

/-- The macros `DSTR_IS_NULL` and `DSTR_NOT_NULL` are complementary. -/
theorem is_null_of_not_null (d : t_dstr_struct) (h : DSTR_NOT_NULL d = true) :
    DSTR_IS_NULL d = false := by
  unfold DSTR_NOT_NULL at h
  unfold DSTR_IS_NULL
  simpa using h

/-- A successful reallocation of a dstring that is not NULL. -/
theorem dstr_realloc_eq (d : t_dstr_struct) (len : Nat) (heap : t_heap) (fresh : Nat → Char)
    (hnn : DSTR_NOT_NULL d = true) (hfresh : heap 0 = some fresh) :
    _dstr_realloc d len heap =
      ({ cstr := Function.update
            (fun i => if i < min (d.len_max + 1) (len + 1) then d.cstr i else fresh i)
            (min d.len_cur len) NUL,
         len_cur := min d.len_cur len, len_max := len }, heap_next heap) := by
  unfold _dstr_realloc
  simp only [is_null_of_not_null d hnn, hfresh, Bool.false_eq_true, if_false]

/-- What a successful reallocation leaves: the lengths, the characters kept,
the terminating character. -/
theorem dstr_realloc_spec (d : t_dstr_struct) (len : Nat) (heap : t_heap)
    (hnn : DSTR_NOT_NULL d = true) (hinv : d.len_cur ≤ d.len_max)
    (halloc : (heap 0).isSome = true) :
    (_dstr_realloc d len heap).1.len_max = len ∧
    (_dstr_realloc d len heap).1.len_cur = min d.len_cur len ∧
    (∀ i, i < min d.len_cur len → (_dstr_realloc d len heap).1.cstr i = d.cstr i) ∧
    (_dstr_realloc d len heap).1.cstr (min d.len_cur len) = NUL ∧
    (_dstr_realloc d len heap).2 = heap_next heap := by
  obtain ⟨fresh, hfresh⟩ := Option.isSome_iff_exists.mp halloc
  rw [dstr_realloc_eq d len heap fresh hnn hfresh]
  refine ⟨rfl, rfl, fun i hi => ?_, ?_, rfl⟩
  · have h1 : i ≠ min d.len_cur len := by omega
    simp only [Function.update_noteq h1]
    rw [if_pos]
    rw [Nat.lt_min] at hi ⊢
    omega
  · simp only [Function.update_same]

/-- The content of a dstring whose first characters are those of another
one. -/
theorem content_take (d r : t_dstr_struct) (k : Nat) (hk : k ≤ d.len_cur) (hr : r.len_cur = k)
    (h : ∀ i, i < k → r.cstr i = d.cstr i) : dstr_content r = (dstr_content d).take k := by
  unfold dstr_content
  rw [hr, ← List.map_take, List.take_range, Nat.min_eq_left hk]
  apply List.map_congr_left
  intro i hi
  exact h i (List.mem_range.mp hi)

/-- C25. Resize: for every non-NULL dstring `d` (with
`len_cur <= len_max <= DSTR_LEN_MAX`) of content `c` and `len_cur = L`, and
every `len <= DSTR_LEN_MAX`, the reallocations succeeding, `dstr_resize(d, len)`
sets `len_max = len` and `len_cur = min(L, len)` and leaves the first
`min(L, len)` characters of `c` as the content, terminated by NUL; `dstr_fit`
is `dstr_resize` to `len_cur`, and a second `dstr_fit` leaves the lengths, the
content and the terminating character of the first one. -/
theorem resize_and_fit (d : t_dstr_struct) (len : Nat) (heap : t_heap)
    (hnn : DSTR_NOT_NULL d = true) (hinv : d.len_cur ≤ d.len_max)
    (hmax : d.len_max ≤ DSTR_LEN_MAX) (hlen : len ≤ DSTR_LEN_MAX)
    (halloc : (heap 0).isSome = true) (halloc1 : (heap 1).isSome = true) :
    (dstr_resize d len heap).1.len_max = len ∧
    (dstr_resize d len heap).1.len_cur = min d.len_cur len ∧
    dstr_content (dstr_resize d len heap).1 = (dstr_content d).take (min d.len_cur len) ∧
    (dstr_resize d len heap).1.cstr (min d.len_cur len) = NUL ∧
    dstr_fit d heap = dstr_resize d d.len_cur heap ∧
    (dstr_fit d heap).1.len_cur = d.len_cur ∧
    (dstr_fit d heap).1.len_max = d.len_cur ∧
    dstr_content (dstr_fit d heap).1 = dstr_content d ∧
    (dstr_fit (dstr_fit d heap).1 (dstr_fit d heap).2).1.len_cur = (dstr_fit d heap).1.len_cur ∧
    (dstr_fit (dstr_fit d heap).1 (dstr_fit d heap).2).1.len_max = (dstr_fit d heap).1.len_max ∧
    dstr_content (dstr_fit (dstr_fit d heap).1 (dstr_fit d heap).2).1 =
      dstr_content (dstr_fit d heap).1 ∧
    (dstr_fit (dstr_fit d heap).1 (dstr_fit d heap).2).1.cstr d.len_cur = NUL := by
  have hmin : min len DSTR_LEN_MAX = len := Nat.min_eq_left hlen
  obtain ⟨h1, h2, h3, h4, _⟩ := dstr_realloc_spec d len heap hnn hinv halloc
  obtain ⟨f1, f2, f3, f4, f5⟩ := dstr_realloc_spec d d.len_cur heap hnn hinv halloc
  rw [Nat.min_self] at f2 f3 f4
  have hfit : dstr_fit d heap = _dstr_realloc d d.len_cur heap := rfl
  have hres : dstr_resize d len heap = _dstr_realloc d len heap := by
    unfold dstr_resize
    rw [hmin]
  have hres2 : dstr_resize d d.len_cur heap = _dstr_realloc d d.len_cur heap := by
    unfold dstr_resize
    rw [Nat.min_eq_left (le_trans hinv hmax)]
  have hc1 : dstr_content (_dstr_realloc d d.len_cur heap).1 = dstr_content d := by
    rw [content_take d _ d.len_cur le_rfl f2 f3]
    unfold dstr_content
    rw [List.take_of_length_le (by simp)]
  -- the second fit
  have hnn2 : DSTR_NOT_NULL (_dstr_realloc d d.len_cur heap).1 = true := by
    unfold DSTR_NOT_NULL
    rw [f1]
    unfold DSTR_LEN_ERR
    unfold DSTR_LEN_MAX at hmax
    simp only [ne_eq, decide_eq_true_eq]
    omega
  have hinv2 : (_dstr_realloc d d.len_cur heap).1.len_cur ≤
      (_dstr_realloc d d.len_cur heap).1.len_max := by rw [f1, f2]
  have halloc2 : ((_dstr_realloc d d.len_cur heap).2 0).isSome = true := by
    rw [f5]
    exact halloc1
  obtain ⟨g1, g2, g3, g4, _⟩ := dstr_realloc_spec (_dstr_realloc d d.len_cur heap).1
    (_dstr_realloc d d.len_cur heap).1.len_cur (_dstr_realloc d d.len_cur heap).2
    hnn2 hinv2 halloc2
  rw [Nat.min_self] at g2 g3 g4
  rw [hres, hfit, hres2]
  refine ⟨h1, h2, content_take d _ _ (Nat.min_le_left _ _) h2 h3, h4, rfl, f2, f1, hc1,
    g2, ?_, ?_, ?_⟩
  · show (_dstr_realloc _ _ _).1.len_max = _
    rw [g1, f1, f2]
  · show dstr_content (_dstr_realloc _ _ _).1 = _
    rw [content_take (_dstr_realloc d d.len_cur heap).1 _ _ le_rfl g2 g3]
    unfold dstr_content
    rw [List.take_of_length_le (by simp)]
  · show (_dstr_realloc _ _ _).1.cstr d.len_cur = NUL
    have e : ∀ k, k = (_dstr_realloc d d.len_cur heap).1.len_cur →
        (_dstr_realloc (_dstr_realloc d d.len_cur heap).1
          (_dstr_realloc d d.len_cur heap).1.len_cur
          (_dstr_realloc d d.len_cur heap).2).1.cstr k = NUL := by
      intro k hk
      rw [hk]
      exact g4
    exact e _ f2.symm

/-- C25 on the dstrings of `dstr_test`: "abcdef123" with the lengths 9/16 is
fitted to 9/9, and again to 9/9; resized to 6 it is "abcdef" with 6/6, and
resized to 12 it is "abcdef" with 6/12. -/
theorem resize_and_fit_witness :
    (dstr_cat_cstr ex_abcdef12 ['3'] ex_heap).1.len_cur = 9 ∧
    (dstr_cat_cstr ex_abcdef12 ['3'] ex_heap).1.len_max = 16 ∧
    (dstr_fit (dstr_cat_cstr ex_abcdef12 ['3'] ex_heap).1 ex_heap).1.len_cur = 9 ∧
    (dstr_fit (dstr_cat_cstr ex_abcdef12 ['3'] ex_heap).1 ex_heap).1.len_max = 9 ∧
    dstr_content (dstr_fit (dstr_cat_cstr ex_abcdef12 ['3'] ex_heap).1 ex_heap).1 =
      ['a', 'b', 'c', 'd', 'e', 'f', '1', '2', '3'] ∧
    (dstr_resize (dstr_cat_cstr ex_abcdef12 ['3'] ex_heap).1 6 ex_heap).1.len_cur = 6 ∧
    (dstr_resize (dstr_cat_cstr ex_abcdef12 ['3'] ex_heap).1 6 ex_heap).1.len_max = 6 ∧
    dstr_content (dstr_resize (dstr_cat_cstr ex_abcdef12 ['3'] ex_heap).1 6 ex_heap).1 =
      ['a', 'b', 'c', 'd', 'e', 'f'] ∧
    (dstr_resize (dstr_resize (dstr_cat_cstr ex_abcdef12 ['3'] ex_heap).1 6 ex_heap).1 12
      ex_heap).1.len_cur = 6 ∧
    (dstr_resize (dstr_resize (dstr_cat_cstr ex_abcdef12 ['3'] ex_heap).1 6 ex_heap).1 12
      ex_heap).1.len_max = 12 := by
  have h := resize_and_fit (dstr_cat_cstr ex_abcdef12 ['3'] ex_heap).1 6 ex_heap
    (by decide) (by decide) (by decide) (by decide) rfl rfl
  have h2 := resize_and_fit (dstr_resize (dstr_cat_cstr ex_abcdef12 ['3'] ex_heap).1 6 ex_heap).1
    12 ex_heap (by decide) (by decide) (by decide) (by decide) rfl rfl
  refine ⟨by decide, by decide, ?_, ?_, ?_, ?_, h.1, ?_, ?_, h2.1⟩
  · rw [h.2.2.2.2.2.1]
    decide
  · rw [h.2.2.2.2.2.2.1]
    decide
  · rw [h.2.2.2.2.2.2.2.1]
    decide
  · rw [h.2.1]
    decide
  · rw [h.2.2.1]
    decide
  · rw [h2.2.1]
    decide

end Resize

end Dstr

/-! ## The conversion of an integer to its decimal string -/

namespace Dstr

section IntToCstr

/-- The digits the loop of `_dstr_int_to_cstr` writes, from the lowest: those
of `Nat.digits`, and one 0 for the value 0. -/
theorem int_digits_spec (room : Nat) :
    ∀ (str : Nat → Char) (pc uint : Nat) (ds : List Nat),
      ds = (if uint = 0 then [0] else Nat.digits 10 uint) → ds.length ≤ room →
      ∃ str', int_digits str room pc uint = some (str', pc + ds.length) ∧
        (∀ i, i < ds.length → str' (pc + i) = Char.ofNat (48 + ds.getD i 0)) ∧
        (∀ j, j < pc → str' j = str j) := by
  induction room with
  | zero =>
    intro str pc uint ds hds hlen
    exfalso
    have : ds ≠ [] := by
      rw [hds]
      split_ifs with h
      · simp
      · exact Nat.digits_ne_nil_iff_ne_zero.mpr h
    cases ds with
    | nil => exact this rfl
    | cons a l => simp at hlen
  | succ room ih =>
    intro str pc uint ds hds hlen
    by_cases hq : uint / 10 = 0
    · -- one digit
      have hlt : uint < 10 := by omega
      have hds1 : ds = [uint] := by
        rw [hds]
        split_ifs with h
        · rw [h]
        · exact Nat.digits_of_lt 10 uint h hlt
      refine ⟨Function.update str pc (Char.ofNat ('0'.toNat + uint % 10)), ?_, ?_, ?_⟩
      · simp only [int_digits, hq, ne_eq, not_true_eq_false, if_false, hds1, List.length_singleton]
      · intro i hi
        rw [hds1] at hi ⊢
        simp only [List.length_singleton] at hi
        have hi0 : i = 0 := by omega
        subst hi0
        simp only [Nat.add_zero, Function.update_same, List.getD_cons_zero]
        rw [Nat.mod_eq_of_lt hlt]
        rfl
      · intro j hj
        rw [Function.update_noteq (by omega)]
    · -- a digit, then the digits of the quotient
      have h0 : uint ≠ 0 := by
        intro h
        rw [h] at hq
        exact hq rfl
      have hds1 : ds = uint % 10 :: Nat.digits 10 (uint / 10) := by
        rw [hds, if_neg h0]
        exact Nat.digits_def' (by norm_num) (Nat.pos_of_ne_zero h0)
      have hlen1 : (Nat.digits 10 (uint / 10)).length ≤ room := by
        rw [hds1] at hlen
        simpa using hlen
      obtain ⟨str', h1, h2, h3⟩ := ih
        (Function.update str pc (Char.ofNat ('0'.toNat + uint % 10))) (pc + 1) (uint / 10)
        (Nat.digits 10 (uint / 10)) (by rw [if_neg hq]) hlen1
      refine ⟨str', ?_, ?_, ?_⟩
      · simp only [int_digits, hq, ne_eq, not_false_eq_true, if_true, h1, hds1,
          List.length_cons]
        congr 2
        omega
      · intro i hi
        rw [hds1] at hi ⊢
        cases i with
        | zero =>
          rw [Nat.add_zero, h3 pc (by omega), Function.update_same]
          rfl
        | succ i =>
          simp only [List.length_cons] at hi
          have := h2 i (by omega)
          rw [show pc + (i + 1) = pc + 1 + i by omega, this]
          rfl
      · intro j hj
        rw [h3 j (by omega), Function.update_noteq (by omega)]

/-- The loop of `_dstr_int_to_cstr` which reverses the string. -/
theorem str_reverse_spec (fuel : Nat) :
    ∀ (str : Nat → Char) (i j : Nat), j - i ≤ 2 * fuel →
      ∀ k, str_reverse str fuel i j k =
        if i ≤ k ∧ k ≤ j then str (i + j - k) else str k := by
  induction fuel with
  | zero =>
    intro str i j h k
    simp only [str_reverse]
    split_ifs with hk
    · congr 1
      omega
    · rfl
  | succ fuel ih =>
    intro str i j h k
    simp only [str_reverse]
    by_cases hij : i < j
    · rw [if_pos hij, ih _ (i + 1) (j - 1) (by omega) k]
      by_cases hk : i + 1 ≤ k ∧ k ≤ j - 1
      · rw [if_pos hk, if_pos (by omega)]
        rw [Function.update_noteq (by omega), Function.update_noteq (by omega)]
        congr 1
        omega
      · rw [if_neg hk]
        by_cases hki : k = i
        · subst hki
          rw [if_pos (by omega), Function.update_noteq (by omega), Function.update_same]
          congr 1
          omega
        · by_cases hkj : k = j
          · subst hkj
            rw [if_pos (by omega), Function.update_same]
            congr 1
            omega
          · rw [if_neg (by omega), Function.update_noteq hkj, Function.update_noteq hki]
    · rw [if_neg hij]
      split_ifs with hk
      · congr 1
        omega
      · rfl

/-- The absolute value `_dstr_int_to_cstr` converts. -/
theorem int_abs_u64 (v : Int) (hlo : -9223372036854775808 ≤ v) (hhi : v ≤ 9223372036854775807) :
    u64 (if v > 0 then v else i64 (-v)) = v.natAbs := by
  unfold u64 i64
  split_ifs with h <;> omega

/-- What `_dstr_int_to_cstr` writes and returns for an `__int64`: the digits of
the absolute value from the highest, after a minus sign for a negative
value. -/
theorem dstr_int_to_cstr_spec (str : Nat → Char) (v : Int)
    (hlo : -9223372036854775808 ≤ v) (hhi : v ≤ 9223372036854775807) :
    ∃ str' len digits, _dstr_int_to_cstr str v = some (str', len) ∧
      digits = (if v.natAbs = 0 then [0] else (Nat.digits 10 v.natAbs).reverse) ∧
      len = (if v < 0 then 1 else 0) + digits.length ∧
      digits.length ≤ 19 ∧
      str' len = NUL ∧
      (List.range len).map str' =
        (if v < 0 then ['-'] else []) ++ digits.map (fun d => Char.ofNat (48 + d)) := by
  obtain ⟨ds, hds⟩ : ∃ ds, ds = (if v.natAbs = 0 then [0] else Nat.digits 10 v.natAbs) := ⟨_, rfl⟩
  have hn19 : ds.length ≤ 19 := by
    rw [hds]
    split_ifs with h0
    · simp
    · have h1 := Nat.base_pow_length_digits_le 10 v.natAbs (by norm_num) h0
      have h2 : 10 ^ (Nat.digits 10 v.natAbs).length < 10 ^ 20 := by
        have : v.natAbs ≤ 9223372036854775808 := by omega
        have : 10 * v.natAbs < 10 ^ 20 := by norm_num; omega
        omega
      have := (Nat.pow_lt_pow_iff_right (by norm_num : 1 < 10)).mp h2
      omega
  have hn1 : 1 ≤ ds.length := by
    rw [hds]
    split_ifs with h0
    · simp
    · have : Nat.digits 10 v.natAbs ≠ [] := Nat.digits_ne_nil_iff_ne_zero.mpr h0
      exact List.length_pos.mpr this
  obtain ⟨str1, hd1, hd2, _⟩ := int_digits_spec DSTR_I64_LEN_MAX str 0 v.natAbs ds hds
    (by unfold DSTR_I64_LEN_MAX; omega)
  rw [Nat.zero_add] at hd1
  have hrev : (if v.natAbs = 0 then [0] else (Nat.digits 10 v.natAbs).reverse) = ds.reverse := by
    rw [hds]
    split_ifs <;> simp
  obtain ⟨pc, hpc⟩ : ∃ pc, pc = if v < 0 then ds.length + 1 else ds.length := ⟨_, rfl⟩
  obtain ⟨str2, hstr2⟩ : ∃ str2, str2 =
      Function.update (if v < 0 then Function.update str1 ds.length '-' else str1) pc NUL :=
    ⟨_, rfl⟩
  have hpc21 : pc < DSTR_I64_LEN_MAX := by
    unfold DSTR_I64_LEN_MAX
    rw [hpc]
    split_ifs <;> omega
  have hpc1 : 1 ≤ pc := by
    rw [hpc]
    split_ifs <;> omega
  have heq : _dstr_int_to_cstr str v = some (str_reverse str2 (pc - 1) 0 (pc - 1), pc) := by
    unfold _dstr_int_to_cstr
    simp only [int_abs_u64 v hlo hhi, hd1]
    rw [← hpc, if_pos hpc21, hstr2]
  have hd2' : ∀ i (hi : i < ds.length), str1 i = Char.ofNat (48 + ds[i]) := by
    intro i hi
    have := hd2 i hi
    rw [Nat.zero_add, List.getD_eq_getElem _ _ hi] at this
    exact this
  have hlen : pc = (if v < 0 then 1 else 0) + ds.reverse.length := by
    rw [hpc, List.length_reverse]
    split_ifs <;> omega
  refine ⟨_, pc, ds.reverse, heq, hrev.symm, hlen, by simpa using hn19, ?_, ?_⟩
  · rw [str_reverse_spec _ _ _ _ (by omega), if_neg (by omega), hstr2, Function.update_same]
  · apply List.ext_getElem
    · simp only [List.length_map, List.length_range, List.length_append]
      rw [hlen]
      split_ifs <;> simp
    · intro k hk1 hk2
      simp only [List.length_map, List.length_range] at hk1
      rw [List.getElem_map, List.getElem_range, str_reverse_spec _ _ _ _ (by omega)]
      rw [if_pos (by omega), hstr2, Function.update_noteq (by omega)]
      by_cases hv : v < 0
      · simp only [hv, if_true] at hpc ⊢
        cases k with
        | zero =>
          rw [show 0 + (pc - 1) - 0 = ds.length by omega, Function.update_same]
          rfl
        | succ k =>
          rw [Function.update_noteq (by omega)]
          rw [hd2' _ (by omega)]
          simp only [List.singleton_append, List.getElem_cons_succ, List.getElem_map,
            List.getElem_reverse]
          congr 3
          omega
      · simp only [hv, if_false] at hpc ⊢
        rw [hd2' _ (by omega)]
        simp only [List.nil_append, List.getElem_map, List.getElem_reverse]
        congr 3
        omega

/-- C24. Integer formatting: for every 64-bit signed integer `v`, the least
and the greatest included, and every array of `DSTR_I64_LEN_MAX` characters,
`_dstr_int_to_cstr` returns, having written a NUL-terminated string of the
length `len <= 20` it returns: a minus sign exactly when `v < 0`, then decimal
digits, the single digit 0 for `v = 0` and no leading 0 otherwise, which read as
a decimal number give back `v`; with the allocations succeeding,
`dstr_new_int(v)` returns a dstring which holds this string, with
`len_cur = len`. -/
theorem integer_formatting (v : Int) (str : Nat → Char) (heap : t_heap)
    (hlo : -9223372036854775808 ≤ v) (hhi : v ≤ 9223372036854775807)
    (halloc : (heap 0).isSome = true ∧ (heap 1).isSome = true) :
    ∃ str' len digits d,
      _dstr_int_to_cstr str v = some (str', len) ∧
      (List.range len).map str' =
        (if v < 0 then ['-'] else []) ++ digits.map (fun x => Char.ofNat (48 + x)) ∧
      str' len = NUL ∧ len ≤ 20 ∧
      digits ≠ [] ∧ (∀ x ∈ digits, x < 10) ∧ (v = 0 → digits = [0]) ∧
      (v ≠ 0 → digits.head? ≠ some 0) ∧
      (if v < 0 then -((Nat.ofDigits 10 digits.reverse : Nat) : Int)
        else ((Nat.ofDigits 10 digits.reverse : Nat) : Int)) = v ∧
      dstr_new_int v heap = some (d, heap_next (heap_next heap)) ∧
      dstr_content d = (List.range len).map str' ∧ d.len_cur = len ∧ d.cstr len = NUL := by
  obtain ⟨str', len, digits, h1, h2, h3, h4, h5, h6⟩ := dstr_int_to_cstr_spec str v hlo hhi
  obtain ⟨str0, len0, digits0, g1, g2, g3, _, _, g6⟩ :=
    dstr_int_to_cstr_spec NULL_CSTR v hlo hhi
  have hdig : digits0 = digits := by rw [g2, h2]
  have hlen0 : len0 = len := by rw [g3, h3, hdig]
  subst hdig
  subst hlen0
  obtain ⟨f0, hf0⟩ := Option.isSome_iff_exists.mp halloc.1
  obtain ⟨f1, hf1⟩ := Option.isSome_iff_exists.mp halloc.2
  have hnew : dstr_new_int v heap =
      some (⟨fun i => if i < len0 then str0 i else if i = len0 then NUL else f1 i, len0,
        _dstr_next_pow2 len0⟩, heap_next (heap_next heap)) := by
    unfold dstr_new_int _dstr_new
    simp only [g1, hf0, hf1]
  refine ⟨str', len0, digits0, _, h1, h6, h5, ?_, ?_, ?_, ?_, ?_, ?_, hnew, ?_, rfl, ?_⟩
  · rw [h3]
    split_ifs <;> omega
  · rw [h2]
    split_ifs with h0
    · simp
    · exact fun h => Nat.digits_ne_nil_iff_ne_zero.mpr h0 (List.reverse_eq_nil_iff.mp h)
  · intro x hx
    rw [h2] at hx
    split_ifs at hx with h0
    · simp at hx
      omega
    · exact Nat.digits_lt_base (by norm_num) (List.mem_reverse.mp hx)
  · intro hv
    rw [h2, if_pos (by omega)]
  · intro hv
    have h0 : v.natAbs ≠ 0 := by omega
    rw [h2, if_neg h0, List.head?_reverse,
      List.getLast?_eq_getLast _ (Nat.digits_ne_nil_iff_ne_zero.mpr h0)]
    intro h
    exact Nat.getLast_digit_ne_zero 10 h0 (Option.some.inj h)
  · have hof : Nat.ofDigits 10 digits0.reverse = v.natAbs := by
      rw [h2]
      split_ifs with h0
      · simp [h0]
      · rw [List.reverse_reverse, Nat.ofDigits_digits]
    rw [hof]
    split_ifs <;> omega
  · rw [h6, ← g6]
    unfold dstr_content
    apply List.map_congr_left
    intro i hi
    simp only [if_pos (List.mem_range.mp hi)]
  · simp only [lt_irrefl, if_false, if_true]

/-- C24 on integers of `dstr_test`: -123 is written as "-123" and 0 as "0";
the least 64-bit integer is written on 20 characters. -/
theorem integer_formatting_witness :
    (∃ str' len digits d,
      _dstr_int_to_cstr NULL_CSTR (-123) = some (str', len) ∧
      (List.range len).map str' =
        (if (-123 : Int) < 0 then ['-'] else []) ++ digits.map (fun x => Char.ofNat (48 + x)) ∧
      str' len = NUL ∧ len ≤ 20 ∧
      digits ≠ [] ∧ (∀ x ∈ digits, x < 10) ∧ ((-123 : Int) = 0 → digits = [0]) ∧
      ((-123 : Int) ≠ 0 → digits.head? ≠ some 0) ∧
      (if (-123 : Int) < 0 then -((Nat.ofDigits 10 digits.reverse : Nat) : Int)
        else ((Nat.ofDigits 10 digits.reverse : Nat) : Int)) = -123 ∧
      dstr_new_int (-123) ex_heap = some (d, heap_next (heap_next ex_heap)) ∧
      dstr_content d = (List.range len).map str' ∧ d.len_cur = len ∧ d.cstr len = NUL) ∧
    (dstr_new_int (-123) ex_heap).map (fun r => (dstr_content r.1, r.1.len_cur, r.1.len_max)) =
      some (['-', '1', '2', '3'], 4, 4) ∧
    (dstr_new_int 0 ex_heap).map (fun r => (dstr_content r.1, r.1.len_cur, r.1.len_max)) =
      some (['0'], 1, 1) ∧
    (dstr_new_int (-9223372036854775808) ex_heap).map (fun r => r.1.len_cur) = some 20 :=
  ⟨integer_formatting (-123) NULL_CSTR ex_heap (by norm_num) (by norm_num) ⟨rfl, rfl⟩,
    by decide, by decide, by decide⟩

end IntToCstr

end Dstr

/-! ## The lists y.floor rounds down -/

namespace Floor

section Atoms

variable {α : Type}

/-- The atom of index `k` of a list built from a function on the indexes. -/
theorem argv_at_map_range (f : Nat → t_atom α) (n k : Nat) (hk : k < n) :
    argv_at ((List.range n).map f) k = f k := by
  unfold argv_at
  rw [List.getD_eq_getElem _ _ (by simpa using hk)]
  simp

/-- A list is the list of its atoms. -/
theorem map_argv_at (out : List (t_atom α)) :
    (List.range out.length).map (argv_at out) = out := by
  apply List.ext_getElem
  · simp
  · intro k h1 h2
    simp only [List.getElem_map, List.getElem_range, argv_at]
    exact List.getD_eq_getElem _ _ h2

end Atoms

section FloorList

variable {α : Type} [LinearOrderedField α] [FloorRing α]

/-- The object of a new instance. -/
theorem floor_new_eq :
    floor_new α = { process_message := some .process_message_256, a_verbose := 1,
                    a_maxlen_mode := "256", maxlen := 256 } := by
  unfold floor_new a_set_maxlen
  simp [argv_at, atom_gettype, atom_getsym]

/-- The function pointer and the length limit after one setting of the
attribute `maxlen`: one of the five pairs, or those the object had. -/
theorem a_set_maxlen_cases (x : t_floor) (argv : List (t_atom α)) :
    a_set_maxlen x argv = x ∨
    ((a_set_maxlen x argv).maxlen = 256 ∧
      (a_set_maxlen x argv).process_message = some .process_message_256) ∨
    ((a_set_maxlen x argv).maxlen = 1024 ∧
      (a_set_maxlen x argv).process_message = some .process_message_1024) ∨
    ((a_set_maxlen x argv).maxlen = 4096 ∧
      (a_set_maxlen x argv).process_message = some .process_message_4096) ∨
    ((a_set_maxlen x argv).maxlen = SHRT_MAX ∧
      (a_set_maxlen x argv).process_message = some .process_message_max) ∨
    ((a_set_maxlen x argv).maxlen = SHRT_MAX ∧
      (a_set_maxlen x argv).process_message = some .process_message_auto) := by
  unfold a_set_maxlen
  simp only
  split_ifs
  · exact Or.inr (Or.inl ⟨rfl, rfl⟩)
  · exact Or.inr (Or.inr (Or.inl ⟨rfl, rfl⟩))
  · exact Or.inr (Or.inr (Or.inr (Or.inl ⟨rfl, rfl⟩)))
  · exact Or.inr (Or.inr (Or.inr (Or.inr (Or.inl ⟨rfl, rfl⟩))))
  · exact Or.inr (Or.inr (Or.inr (Or.inr (Or.inr ⟨rfl, rfl⟩))))
  · exact Or.inl rfl

/-- The function pointer and the length limit an object holds, after any
sequence of settings of the attribute `maxlen`. -/
theorem maxlen_modes (settings : List (List (t_atom α))) :
    ((settings.foldl a_set_maxlen (floor_new α)).maxlen = 256 ∧
      (settings.foldl a_set_maxlen (floor_new α)).process_message =
        some .process_message_256) ∨
    ((settings.foldl a_set_maxlen (floor_new α)).maxlen = 1024 ∧
      (settings.foldl a_set_maxlen (floor_new α)).process_message =
        some .process_message_1024) ∨
    ((settings.foldl a_set_maxlen (floor_new α)).maxlen = 4096 ∧
      (settings.foldl a_set_maxlen (floor_new α)).process_message =
        some .process_message_4096) ∨
    ((settings.foldl a_set_maxlen (floor_new α)).maxlen = SHRT_MAX ∧
      (settings.foldl a_set_maxlen (floor_new α)).process_message =
        some .process_message_max) ∨
    ((settings.foldl a_set_maxlen (floor_new α)).maxlen = SHRT_MAX ∧
      (settings.foldl a_set_maxlen (floor_new α)).process_message =
        some .process_message_auto) := by
  induction settings using List.reverseRecOn with
  | nil =>
    rw [List.foldl_nil, floor_new_eq]
    exact Or.inl ⟨rfl, rfl⟩
  | append_singleton l a ih =>
    rw [List.foldl_append, List.foldl_cons, List.foldl_nil]
    rcases a_set_maxlen_cases (List.foldl a_set_maxlen (floor_new α) l) a with h | h
    · rw [h]
      exact ih
    · exact h

/-- The atom `process_atom` writes for a float whose floor is a
`t_atom_long`. -/
theorem process_atom_float (v : α) (hlo : -9223372036854775808 ≤ ⌊v⌋)
    (hhi : ⌊v⌋ ≤ 9223372036854775807) :
    process_atom (.A_FLOAT v : t_atom α) = some (.A_LONG ⌊v⌋) := by
  have h : double_to_int ((⌊v⌋ : Int) : α) = ⌊v⌋ := by
    unfold double_to_int
    split_ifs
    · exact Int.floor_intCast _
    · exact Int.ceil_intCast _
  simp only [process_atom, atom_gettype, atom_getfloat, floor, double_to_atom_long, h, hlo, hhi,
    and_self, if_true, Option.map_some']

/-- The loop of the functions `process_message_256` to `process_message_max`
on `n` atoms which fit in the array and which `process_atom` converts. -/
theorem process_message_n_eq (size : Int) (n : Nat) (argv : List (t_atom α))
    (f : Nat → t_atom α) (hsize : (n : Int) ≤ size)
    (hf : ∀ i, i < n → process_atom (argv_at argv i) = some (f i)) :
    process_message_n size (n : Int) argv = some [(List.range n).map f] := by
  have key : ∀ k, k ≤ n →
      ∃ out : Nat → t_atom α,
        for_loop 0 k
          (fun i (st : Option (Nat → t_atom α)) =>
            match st with
            | none => none
            | some (atoms_out : Nat → t_atom α) =>
              if (i : Int) < size then
                (process_atom (argv_at argv i)).map (fun a => Function.update atoms_out i a)
              else none)
          (some (fun _ => .A_LONG 0)) = some out ∧ ∀ i, i < k → out i = f i := by
    intro k
    induction k with
    | zero =>
      intro _
      exact ⟨fun _ => .A_LONG 0, for_loop_of_le (le_refl 0) _ _,
        fun i hi => absurd hi (Nat.not_lt_zero i)⟩
    | succ k ih =>
      intro hk
      obtain ⟨out, h1, h2⟩ := ih (by omega)
      refine ⟨Function.update out k (f k), ?_, ?_⟩
      · rw [for_loop_succ (Nat.zero_le k), h1]
        have hks : (k : Int) < size := by omega
        simp only [hks, if_true, hf k (by omega), Option.map_some']
      · intro i hi
        by_cases hik : i = k
        · subst hik
          rw [Function.update_same]
        · rw [Function.update_noteq hik]
          exact h2 i (by omega)
  obtain ⟨out, h1, h2⟩ := key n (le_refl n)
  unfold process_message_n
  simp only [Int.toNat_ofNat]
  refine (congrArg (Option.map fun atoms_out => [(List.range n).map atoms_out]) h1).trans ?_
  simp only [Option.map_some', Option.some.injEq, List.cons.injEq, and_true]
  apply List.map_congr_left
  intro i hi
  exact h2 i (List.mem_range.mp hi)

/-- The conversion to `short` of a count that is one. -/
theorem to_short_of_le (n : Nat) (h : (n : Int) ≤ SHRT_MAX) : to_short (n : Int) = (n : Int) := by
  unfold to_short
  unfold SHRT_MAX at h
  omega

/-- The message `floor_list` sends for a list of `argc` atoms, the object
being in one of its five modes: the conversions of the first
`min(argc, maxlen)` atoms. -/
theorem floor_list_eq (x : t_floor) (argv : List (t_atom α)) (f : Nat → t_atom α)
    (hx : (x.maxlen = 256 ∧ x.process_message = some .process_message_256) ∨
      (x.maxlen = 1024 ∧ x.process_message = some .process_message_1024) ∨
      (x.maxlen = 4096 ∧ x.process_message = some .process_message_4096) ∨
      (x.maxlen = SHRT_MAX ∧ x.process_message = some .process_message_max) ∨
      (x.maxlen = SHRT_MAX ∧ x.process_message = some .process_message_auto))
    (hf : ∀ i, i < min argv.length x.maxlen.toNat →
      process_atom (argv_at argv i) = some (f i)) :
    floor_list x (argv.length : Int) argv =
      some [(List.range (min argv.length x.maxlen.toNat)).map f] := by
  obtain ⟨n, hn⟩ : ∃ n, n = min argv.length x.maxlen.toNat := ⟨_, rfl⟩
  rw [← hn] at hf ⊢
  have hmax : x.maxlen ≤ SHRT_MAX ∧ 0 ≤ x.maxlen := by
    rcases hx with h | h | h | h | h <;> rw [h.1] <;> simp [SHRT_MAX]
  have hargc : (if (argv.length : Int) > x.maxlen then x.maxlen else (argv.length : Int)) =
      (n : Int) := by
    rw [hn]
    split_ifs <;> omega
  have hnmax : (n : Int) ≤ x.maxlen := by omega
  have hshort : to_short (n : Int) = (n : Int) := to_short_of_le n (by omega)
  unfold floor_list call_process_message
  simp only [hargc, hshort]
  rcases hx with h | h | h | h | h
  · rw [h.2]
    exact process_message_n_eq 256 n argv f (by omega) hf
  · rw [h.2]
    exact process_message_n_eq 1024 n argv f (by omega) hf
  · rw [h.2]
    exact process_message_n_eq 4096 n argv f (by omega) hf
  · rw [h.2]
    exact process_message_n_eq SHRT_MAX n argv f (by omega) hf
  · rw [h.2]
    simp only [process_message_auto]
    split_ifs with h1 h2 h3 h4
    · exact process_message_n_eq 256 n argv f h1 hf
    · exact process_message_n_eq 1024 n argv f h2 hf
    · exact process_message_n_eq 4096 n argv f h3 hf
    · exact process_message_n_eq SHRT_MAX n argv f h4 hf
    · exact absurd (by omega : (n : Int) ≤ SHRT_MAX) h4

/-- C27, the claim as stated fails on a float whose floor is not a
`t_atom_long`: for the list of the one float 2^63, no 64-bit integer is the
floor of the float, and the conversion `floor_list` makes of it is
undefined. -/
theorem floor_out_of_range :
    floor_list (floor_new ℚ) 1 [(.A_FLOAT 9223372036854775808 : t_atom ℚ)] = none ∧
    ∀ v : Int, -9223372036854775808 ≤ v → v ≤ 9223372036854775807 →
      v ≠ ⌊(9223372036854775808 : ℚ)⌋ := by
  have hfl : ⌊(9223372036854775808 : ℚ)⌋ = 9223372036854775808 := Int.floor_ofNat _
  constructor
  · have hp : process_atom (.A_FLOAT 9223372036854775808 : t_atom ℚ) = none := by
      have h : double_to_int ((⌊(9223372036854775808 : ℚ)⌋ : Int) : ℚ) = 9223372036854775808 := by
        rw [hfl]
        unfold double_to_int
        rw [if_pos (by norm_num)]
        exact Int.floor_intCast _
      simp only [process_atom, atom_gettype, atom_getfloat, floor, double_to_atom_long, h]
      rfl
    rw [floor_new_eq]
    simp only [floor_list, call_process_message, process_message_256, process_message_n,
      to_short]
    norm_num [for_loop, for_loop_aux, argv_at, hp]
  · intro v _ h2 h
    rw [hfl] at h
    omega

/-- C27. Rounding a list down: for every object (a new instance after any
sequence of settings of `maxlen`) and every list of atoms in which the floats
among the first `min(argc, maxlen)` atoms have a floor in the range of
`t_atom_long`, `floor_list` sends one list, of length `min(argc, maxlen)`, whose
atom `k` is the same integer when the atom `k` of the input is an integer,
the floor of `x` as an integer when it is a float `x`, and the same symbol when
it is a symbol; `floor_list` on this output sends the same list. -/
theorem rounding_a_list_down (settings : List (List (t_atom α))) (x : t_floor)
    (argv : List (t_atom α))
    (hx : x = settings.foldl a_set_maxlen (floor_new α))
    (hrange : ∀ k v, k < min argv.length x.maxlen.toNat → argv_at argv k = .A_FLOAT v →
      -9223372036854775808 ≤ ⌊v⌋ ∧ ⌊v⌋ ≤ 9223372036854775807) :
    ∃ out, floor_list x (argv.length : Int) argv = some [out] ∧
      out.length = min argv.length x.maxlen.toNat ∧
      (∀ k, k < out.length →
        (∀ v, argv_at argv k = .A_LONG v → argv_at out k = .A_LONG v) ∧
        (∀ v, argv_at argv k = .A_FLOAT v → argv_at out k = .A_LONG ⌊v⌋) ∧
        (∀ s, argv_at argv k = .A_SYM s → argv_at out k = .A_SYM s)) ∧
      floor_list x (out.length : Int) out = some [out] := by
  have hmodes := maxlen_modes settings
  rw [← hx] at hmodes
  obtain ⟨n, hn⟩ : ∃ n, n = min argv.length x.maxlen.toNat := ⟨_, rfl⟩
  obtain ⟨f, hf⟩ : ∃ f : Nat → t_atom α, f = fun i =>
      match argv_at argv i with
      | .A_LONG v => .A_LONG v
      | .A_FLOAT v => .A_LONG ⌊v⌋
      | .A_SYM s => .A_SYM s := ⟨_, rfl⟩
  have hproc : ∀ i, i < min argv.length x.maxlen.toNat →
      process_atom (argv_at argv i) = some (f i) := by
    intro i hi
    simp only [hf]
    cases h : argv_at argv i with
    | A_LONG v => simp [process_atom, atom_gettype, atom_getlong]
    | A_FLOAT v =>
      obtain ⟨h1, h2⟩ := hrange i v hi h
      exact process_atom_float v h1 h2
    | A_SYM s => simp [process_atom, atom_gettype, atom_getsym]
  have h1 := floor_list_eq x argv f hmodes hproc
  rw [← hn] at h1 ⊢
  have hlen : ((List.range n).map f).length = n := by simp
  have hout : ∀ k, k < n → argv_at ((List.range n).map f) k = f k :=
    fun k hk => argv_at_map_range f n k hk
  have hfix : ∀ i, i < n → process_atom (f i) = some (f i) := by
    intro i _
    simp only [hf]
    cases argv_at argv i with
    | A_LONG v => simp [process_atom, atom_gettype, atom_getlong]
    | A_FLOAT v => simp [process_atom, atom_gettype, atom_getlong]
    | A_SYM s => simp [process_atom, atom_gettype, atom_getsym]
  refine ⟨(List.range n).map f, h1, hlen, ?_, ?_⟩
  · intro k hk
    rw [hlen] at hk
    rw [hout k hk]
    simp only [hf]
    exact ⟨fun v hv => by simp only [hv], fun v hv => by simp only [hv],
      fun s hs => by simp only [hs]⟩
  · have hmin : min ((List.range n).map f).length x.maxlen.toNat = n := by
      rw [hlen, hn]
      omega
    have h2 := floor_list_eq x ((List.range n).map f) (argv_at ((List.range n).map f)) hmodes
      (by
        intro i hi
        rw [hmin] at hi
        rw [hout i hi]
        exact hfix i hi)
    rw [hmin] at h2
    rw [h2]
    have := map_argv_at ((List.range n).map f)
    rw [hlen] at this
    rw [this]

/-- C27 on a new instance and the list `11 -2.5 abc`: the list sent is
`11 -3 abc`, and it is sent unchanged when it is the input. -/
theorem rounding_a_list_down_witness :
    floor_list (floor_new ℚ) 3 [(.A_LONG 11 : t_atom ℚ), .A_FLOAT (-5 / 2), .A_SYM "abc"] =
      some [[.A_LONG 11, .A_LONG (-3), .A_SYM "abc"]] ∧
    floor_list (floor_new ℚ) 3 [(.A_LONG 11 : t_atom ℚ), .A_LONG (-3), .A_SYM "abc"] =
      some [[.A_LONG 11, .A_LONG (-3), .A_SYM "abc"]] := by
  have hfl : ⌊(-5 / 2 : ℚ)⌋ = -3 := by
    rw [Int.floor_eq_iff]
    norm_num
  have hmax : (floor_new ℚ).maxlen.toNat = 256 := by
    rw [floor_new_eq]
    rfl
  obtain ⟨out, h1, h2, h3, h4⟩ := rounding_a_list_down ([] : List (List (t_atom ℚ)))
    (floor_new ℚ) [.A_LONG 11, .A_FLOAT (-5 / 2), .A_SYM "abc"] rfl
    (by
      intro k v hk hv
      rw [hmax] at hk
      have hk3 : k < 3 := by simpa using hk
      interval_cases k
      · simp [argv_at] at hv
      · simp only [argv_at, List.getD_cons_succ, List.getD_cons_zero, t_atom.A_FLOAT.injEq] at hv
        rw [← hv, hfl]
        norm_num
      · simp [argv_at] at hv)
  have hlen : out.length = 3 := by
    rw [h2, hmax]
    rfl
  have e0 := (h3 0 (by omega)).1 11 rfl
  have e1 := (h3 1 (by omega)).2.1 (-5 / 2) rfl
  have e2 := (h3 2 (by omega)).2.2 "abc" rfl
  rw [hfl] at e1
  have hout : out = [.A_LONG 11, .A_LONG (-3), .A_SYM "abc"] := by
    match out, hlen, e0, e1, e2 with
    | [a, b, c], _, e0, e1, e2 =>
      simp only [argv_at, List.getD_cons_succ, List.getD_cons_zero] at e0 e1 e2
      rw [e0, e1, e2]
  rw [hout] at h1 h4
  exact ⟨h1, h4⟩

end FloorList

end Floor

/-! ## Joining with a separator -/

namespace Dstr

section Append

/-- The length `_dstr_next_pow2` returns for a length that is not 0 holds the
length and is a valid maximum length. -/
theorem dstr_next_pow2_bounds (v : Nat) (h1 : 1 ≤ v) (h2 : v ≤ DSTR_LEN_MAX) :
    v ≤ _dstr_next_pow2 v ∧ _dstr_next_pow2 v ≤ DSTR_LEN_MAX := by
  by_cases h31 : v ≤ 2 ^ 31
  · obtain ⟨e, he, he31, hle, _⟩ := dstr_next_pow2_spec v h1 h31
    have h2e : 2 ^ e ≤ 2 ^ 31 := Nat.pow_le_pow_right (by norm_num) he31
    rw [he]
    unfold DSTR_LEN_MAX
    norm_num at h2e
    omega
  · unfold DSTR_LEN_MAX at h2
    have hbit : (v - 1).testBit 31 = true := by
      rw [Nat.testBit_to_div_mod]
      norm_num at h31 ⊢
      omega
    have hsm := smear_eq (v - 1) 31 hbit (by norm_num at h31 ⊢; omega) (by norm_num)
    simp only at hsm
    have hv0 : v ≠ 0 := by omega
    have hnp : _dstr_next_pow2 v = DSTR_LEN_MAX := by
      unfold _dstr_next_pow2
      simp only [hv0, ne_eq, not_false_eq_true, if_true, hsm]
      norm_num [u32]
    rw [hnp]
    unfold DSTR_LEN_MAX
    omega

/-- The growth `_dstr_cpy` asks for before it appends `len` characters to a
valid dstring, the allocations succeeding and the new length being a valid
one: the dstring stays valid, with its characters, and has room for the new
ones. -/
theorem dstr_grow_spec (d : t_dstr_struct) (len : Nat) (heap : t_heap)
    (hv : dstr_valid d) (hh : heap_ok heap) (hlen : d.len_cur + len ≤ DSTR_LEN_MAX) :
    (_dstr_grow d d.len_cur len heap).1 = len ∧
    dstr_valid (_dstr_grow d d.len_cur len heap).2.1 ∧
    (_dstr_grow d d.len_cur len heap).2.1.len_cur = d.len_cur ∧
    d.len_cur + len ≤ (_dstr_grow d d.len_cur len heap).2.1.len_max ∧
    (∀ i, i < d.len_cur → (_dstr_grow d d.len_cur len heap).2.1.cstr i = d.cstr i) ∧
    heap_ok (_dstr_grow d d.len_cur len heap).2.2 := by
  obtain ⟨hnn, hinv, hmax, hnul⟩ := hv
  have hM : d.len_max ≤ 4294967294 := hmax
  have hL : d.len_cur + len ≤ 4294967294 := hlen
  have hsub : u32 (d.len_max + 4294967296 - d.len_cur) = d.len_max - d.len_cur := by
    unfold u32; omega
  unfold _dstr_grow
  rw [hsub]
  by_cases hfit : len > d.len_max - d.len_cur
  · rw [if_pos hfit]
    have hmin : min len (u32 (DSTR_LEN_MAX + 4294967296 - d.len_cur)) = len := by
      unfold u32 DSTR_LEN_MAX
      omega
    have hsum : u32 (d.len_cur + len) = d.len_cur + len := by
      unfold u32
      omega
    simp only [hmin, hsum]
    obtain ⟨hp1, hp2⟩ := dstr_next_pow2_bounds (d.len_cur + len) (by omega) hlen
    obtain ⟨r1, r2, r3, r4, r5⟩ := dstr_realloc_spec d (_dstr_next_pow2 (d.len_cur + len)) heap
      hnn hinv (hh 0)
    have hmin2 : min d.len_cur (_dstr_next_pow2 (d.len_cur + len)) = d.len_cur := by omega
    rw [hmin2] at r2 r3 r4
    refine ⟨trivial, ⟨?_, ?_, ?_, ?_⟩, r2, ?_, r3, ?_⟩
    · unfold DSTR_NOT_NULL
      rw [r1]
      unfold DSTR_LEN_ERR
      unfold DSTR_LEN_MAX at hp2
      simp only [ne_eq, decide_eq_true_eq]
      omega
    · rw [r1, r2]
      omega
    · rw [r1]
      exact hp2
    · rw [r2]
      exact r4
    · rw [r1]
      exact hp1
    · rw [r5]
      intro i
      exact hh (i + 1)
  · rw [if_neg hfit]
    refine ⟨rfl, ⟨hnn, hinv, hmax, hnul⟩, rfl, ?_, fun _ _ => rfl, hh⟩
    show d.len_cur + len ≤ d.len_max
    omega

/-- What `_dstr_cpy` leaves when it appends `len` characters to a valid
dstring, the allocations succeeding and the new length being a valid one. -/
theorem dstr_cpy_append (d : t_dstr_struct) (src : Nat → Char) (len : Nat) (heap : t_heap)
    (hv : dstr_valid d) (hh : heap_ok heap) (hlen : d.len_cur + len ≤ DSTR_LEN_MAX) :
    dstr_valid (_dstr_cpy d d.len_cur src len heap).1 ∧
    heap_ok (_dstr_cpy d d.len_cur src len heap).2 ∧
    (_dstr_cpy d d.len_cur src len heap).1.len_cur = d.len_cur + len ∧
    (∀ i, i < d.len_cur → (_dstr_cpy d d.len_cur src len heap).1.cstr i = d.cstr i) ∧
    (∀ i, i < len → (_dstr_cpy d d.len_cur src len heap).1.cstr (d.len_cur + i) = src i) := by
  obtain ⟨g1, ⟨gnn, ginv, gmax, gnul⟩, g3, g4, g5, g6⟩ := dstr_grow_spec d len heap hv hh hlen
  have hL : d.len_cur + len ≤ 4294967294 := hlen
  have hsum : u32 (d.len_cur + len) = d.len_cur + len := by
    unfold u32
    omega
  have heq : _dstr_cpy d d.len_cur src len heap =
      ({ len_max := (_dstr_grow d d.len_cur len heap).2.1.len_max,
         len_cur := d.len_cur + len,
         cstr := Function.update
            (fun i => if d.len_cur ≤ i ∧ i < d.len_cur + len then src (i - d.len_cur)
              else (_dstr_grow d d.len_cur len heap).2.1.cstr i)
            (d.len_cur + len) NUL }, (_dstr_grow d d.len_cur len heap).2.2) := by
    unfold _dstr_cpy
    simp only [g1, gnn, if_true, hsum]
  rw [heq]
  refine ⟨⟨gnn, g4, gmax, ?_⟩, g6, rfl, ?_, ?_⟩
  · dsimp only
    rw [Function.update_same]
  · intro i hi
    dsimp only
    rw [Function.update_noteq (by omega), if_neg (by omega)]
    exact g5 i hi
  · intro i hi
    dsimp only
    rw [Function.update_noteq (by omega), if_pos (by omega)]
    congr 1
    omega

/-- The content of a dstring which holds the characters of another one, then
those of a string. -/
theorem content_append (d r : t_dstr_struct) (src : Nat → Char) (s : List Char)
    (hlen : r.len_cur = d.len_cur + s.length)
    (h1 : ∀ i, i < d.len_cur → r.cstr i = d.cstr i)
    (h2 : ∀ i, i < s.length → r.cstr (d.len_cur + i) = src i)
    (hs : ∀ i, i < s.length → src i = s.getD i NUL) :
    dstr_content r = dstr_content d ++ s := by
  unfold dstr_content
  rw [hlen]
  apply List.ext_getElem
  · simp
  · intro n hn1 hn2
    simp only [List.length_map, List.length_range] at hn1
    rw [List.getElem_map, List.getElem_range]
    by_cases hn : n < d.len_cur
    · rw [List.getElem_append_left (by simpa using hn), List.getElem_map, List.getElem_range]
      exact h1 n hn
    · rw [List.getElem_append_right (by simpa using hn)]
      simp only [List.length_map, List.length_range]
      have := h2 (n - d.len_cur) (by omega)
      rw [show d.len_cur + (n - d.len_cur) = n by omega] at this
      rw [this, hs _ (by omega), List.getD_eq_getElem _ _ (by omega)]

/-- The length of the content of a dstring. -/
theorem content_length (d : t_dstr_struct) : (dstr_content d).length = d.len_cur := by
  unfold dstr_content
  simp

/-- The concatenation of `len` characters which are those of a string `s`:
the dstring stays valid and its content is followed by `s`. -/
theorem dstr_cpy_text (d : t_dstr_struct) (src : Nat → Char) (s : List Char) (heap : t_heap)
    (hv : dstr_valid d) (hh : heap_ok heap) (hlen : d.len_cur + s.length ≤ DSTR_LEN_MAX)
    (hs : ∀ i, i < s.length → src i = s.getD i NUL) :
    dstr_valid (_dstr_cpy d d.len_cur src s.length heap).1 ∧
    heap_ok (_dstr_cpy d d.len_cur src s.length heap).2 ∧
    dstr_content (_dstr_cpy d d.len_cur src s.length heap).1 = dstr_content d ++ s := by
  obtain ⟨h1, h2, h3, h4, h5⟩ := dstr_cpy_append d src s.length heap hv hh hlen
  exact ⟨h1, h2, content_append d _ src s h3 h4 h5 hs⟩

/-- The function `dstr_cat_cstr` on a valid dstring. -/
theorem dstr_cat_cstr_spec (d : t_dstr_struct) (s : List Char) (heap : t_heap)
    (hv : dstr_valid d) (hh : heap_ok heap) (hlen : d.len_cur + s.length ≤ DSTR_LEN_MAX) :
    dstr_valid (dstr_cat_cstr d s heap).1 ∧ heap_ok (dstr_cat_cstr d s heap).2 ∧
    dstr_content (dstr_cat_cstr d s heap).1 = dstr_content d ++ s := by
  have hk : strnlen s DSTR_LEN_MAX = s.length := by
    unfold strnlen
    omega
  unfold dstr_cat_cstr
  rw [hk]
  exact dstr_cpy_text d (cstr_mem s) s heap hv hh hlen (fun _ _ => rfl)

/-- The string `_dstr_int_to_cstr` writes for an `__int64`, in any array. -/
theorem int_text_eq (str : Nat → Char) (v : Int)
    (hlo : -9223372036854775808 ≤ v) (hhi : v ≤ 9223372036854775807) :
    ∃ str' len, _dstr_int_to_cstr str v = some (str', len) ∧
      (List.range len).map str' = int_text v := by
  obtain ⟨str', len, digits, h1, h2, _, _, _, h6⟩ := dstr_int_to_cstr_spec str v hlo hhi
  obtain ⟨str0, len0, digits0, g1, g2, _, _, _, g6⟩ :=
    dstr_int_to_cstr_spec NULL_CSTR v hlo hhi
  refine ⟨str', len, h1, ?_⟩
  unfold int_text
  rw [g1]
  simp only
  rw [h6, g6, h2, g2]

/-- The function `dstr_cat_int` on a valid dstring. -/
theorem dstr_cat_int_spec (d : t_dstr_struct) (v : Int) (heap : t_heap)
    (hv : dstr_valid d) (hh : heap_ok heap)
    (hlo : -9223372036854775808 ≤ v) (hhi : v ≤ 9223372036854775807)
    (hlen : d.len_cur + (int_text v).length ≤ DSTR_LEN_MAX) :
    ∃ r, dstr_cat_int d v heap = some r ∧ dstr_valid r.1 ∧ heap_ok r.2 ∧
      dstr_content r.1 = dstr_content d ++ int_text v := by
  obtain ⟨str', len, h1, h2⟩ := int_text_eq NULL_CSTR v hlo hhi
  have hl : (int_text v).length = len := by
    rw [← h2]
    simp
  refine ⟨_dstr_cpy d d.len_cur str' len heap, ?_, ?_⟩
  · unfold dstr_cat_int
    rw [h1]
  · rw [← hl]
    refine dstr_cpy_text d str' (int_text v) heap hv hh hlen (fun i hi => ?_)
    rw [List.getD_eq_getElem _ _ hi]
    simp only [← h2, List.getElem_map, List.getElem_range]

/-- The function `dstr_cat_float` on a valid dstring, on its three paths:
the text fits the array of `DSTR_F64_LEN_MAX` characters, or the array of
`DSTR_PRINTF_TRY_LEN` characters of `dstr_cat_printf`, or it is printed into
the dstring. -/
theorem dstr_cat_float_spec {α : Type} (io : t_stdio α) (d : t_dstr_struct) (v : α) (prec : Nat)
    (heap : t_heap) (hv : dstr_valid d) (hh : heap_ok heap)
    (hlen : d.len_cur + (io.printf_f prec v).length ≤ DSTR_LEN_MAX) :
    dstr_valid (dstr_cat_float io d v prec heap).1 ∧
    heap_ok (dstr_cat_float io d v prec heap).2 ∧
    dstr_content (dstr_cat_float io d v prec heap).1 = dstr_content d ++ io.printf_f prec v := by
  unfold dstr_cat_float
  simp only
  split_ifs with h25
  · exact dstr_cpy_text d _ _ heap hv hh hlen (fun _ _ => rfl)
  · unfold dstr_cat_printf_f
    simp only
    split_ifs with h512 hnn
    · exact dstr_cpy_text d _ _ heap hv hh hlen (fun _ _ => rfl)
    · have hL : d.len_cur + (io.printf_f prec v).length ≤ 4294967294 := hlen
      have hu : u32 (io.printf_f prec v).length = (io.printf_f prec v).length := by
        unfold u32
        omega
      rw [hu] at hnn ⊢
      obtain ⟨g1, ⟨gnn, ginv, gmax, gnul⟩, g3, g4, g5, g6⟩ :=
        dstr_grow_spec d (io.printf_f prec v).length heap hv hh hlen
      have hroom : min (io.printf_f prec v).length
          ((_dstr_grow d d.len_cur (io.printf_f prec v).length heap).2.1.len_max -
            d.len_cur + 1 - 1) =
          (io.printf_f prec v).length := by
        omega
      have hsum : u32 (d.len_cur + (io.printf_f prec v).length) =
          d.len_cur + (io.printf_f prec v).length := by
        unfold u32
        omega
      simp only [g1, g3, hsum, hroom]
      refine ⟨⟨gnn, g4, gmax, ?_⟩, g6, ?_⟩
      · dsimp only
        rw [if_neg (by omega), if_pos rfl]
      · refine content_append d _ (cstr_mem (io.printf_f prec v)) _ rfl ?_ ?_ (fun _ _ => rfl)
        · intro i hi
          dsimp only
          rw [if_neg (by omega), if_neg (by omega)]
          exact g5 i hi
        · intro i hi
          dsimp only
          rw [if_pos (by omega)]
          congr 1
          omega
    · exfalso
      have hL : d.len_cur + (io.printf_f prec v).length ≤ 4294967294 := hlen
      have hu : u32 (io.printf_f prec v).length = (io.printf_f prec v).length := by
        unfold u32
        omega
      rw [hu] at hnn
      exact hnn (dstr_grow_spec d (io.printf_f prec v).length heap hv hh hlen).2.1.1

/-- The function `dstr_cat_atom` on a valid dstring. -/
theorem dstr_cat_atom_spec {α : Type} [LinearOrderedField α] [FloorRing α] (io : t_stdio α)
    (d : t_dstr_struct) (a : t_atom α) (heap : t_heap) (hv : dstr_valid d) (hh : heap_ok heap)
    (ha : ∀ v, a = .A_LONG v → -9223372036854775808 ≤ v ∧ v ≤ 9223372036854775807)
    (hlen : d.len_cur + (atom_text io a).length ≤ DSTR_LEN_MAX) :
    ∃ r, dstr_cat_atom io d a heap = some r ∧ dstr_valid r.1 ∧ heap_ok r.2 ∧
      dstr_content r.1 = dstr_content d ++ atom_text io a := by
  cases a with
  | A_LONG v =>
    obtain ⟨hlo, hhi⟩ := ha v rfl
    exact dstr_cat_int_spec d v heap hv hh hlo hhi hlen
  | A_FLOAT v => exact ⟨_, rfl, dstr_cat_float_spec io d v 6 heap hv hh hlen⟩
  | A_SYM s => exact ⟨_, rfl, dstr_cat_cstr_spec d s.toList heap hv hh hlen⟩

/-- The strings joined with a separator, one more string added. -/
theorem intercalate_concat (sep : List Char) (l : List (List Char)) (x : List Char)
    (hl : l ≠ []) :
    List.intercalate sep (l ++ [x]) = List.intercalate sep l ++ sep ++ x := by
  induction l with
  | nil => exact absurd rfl hl
  | cons a l ih =>
    cases l with
    | nil => simp [List.intercalate, List.intersperse]
    | cons b l =>
      have := ih (by simp)
      simp only [List.intercalate, List.cons_append, List.intersperse, List.flatten_cons,
        List.append_assoc] at this ⊢
      exact congrArg (fun t => a ++ (sep ++ t)) this

/-- The first `m` strings joined are not longer than the first `n`. -/
theorem intercalate_range_length (sep : List Char) (text : Nat → List Char) (m n : Nat)
    (h : m ≤ n) :
    (List.intercalate sep ((List.range m).map text)).length ≤
      (List.intercalate sep ((List.range n).map text)).length := by
  induction n with
  | zero =>
    have : m = 0 := by omega
    rw [this]
  | succ n ih =>
    rcases Nat.eq_or_lt_of_le h with h1 | h1
    · rw [h1]
    · refine le_trans (ih (by omega)) ?_
      rw [List.range_succ, List.map_append, List.map_singleton]
      cases n with
      | zero => simp [List.intercalate]
      | succ n =>
        rw [intercalate_concat _ _ _ (by simp [List.range_succ])]
        simp only [List.length_append]
        omega

/-- The loop the join functions share, on a valid dstring: the texts of the
`n` elements are appended in order, with the separator between them. -/
theorem join_loop_spec (cat : t_dstr_struct → Nat → t_heap → Option (t_dstr_struct × t_heap))
    (text : Nat → List Char) (n : Nat) (sep : List Char)
    (hcat : ∀ d h i, i < n → dstr_valid d → heap_ok h →
      d.len_cur + (text i).length ≤ DSTR_LEN_MAX →
      ∃ r, cat d i h = some r ∧ dstr_valid r.1 ∧ heap_ok r.2 ∧
        dstr_content r.1 = dstr_content d ++ text i)
    (d : t_dstr_struct) (heap : t_heap) (hv : dstr_valid d) (hh : heap_ok heap)
    (hlen : d.len_cur + (List.intercalate sep ((List.range n).map text)).length ≤
      DSTR_LEN_MAX) :
    ∃ r, join_loop cat d (n : Int) sep heap = some r ∧ dstr_valid r.1 ∧ heap_ok r.2 ∧
      dstr_content r.1 =
        dstr_content d ++ List.intercalate sep ((List.range n).map text) := by
  unfold join_loop
  simp only [Int.toNat_ofNat]
  cases n with
  | zero =>
    rw [for_loop_of_le (by omega)]
    simp only [Nat.cast_zero, lt_irrefl, if_false]
    exact ⟨(d, heap), rfl, hv, hh, by simp [List.intercalate]⟩
  | succ n =>
    have hpos : ((n + 1 : Nat) : Int) > 0 := by omega
    rw [if_pos hpos]
    have key : ∀ m, m ≤ n →
        ∃ r, for_loop 1 (m + 1)
          (fun i (st : Option (t_dstr_struct × t_heap)) =>
            match st with
            | none => none
            | some st =>
              let s := dstr_cat_cstr st.1 sep st.2
              cat s.1 i s.2)
          (cat d 0 heap) = some r ∧ dstr_valid r.1 ∧ heap_ok r.2 ∧
          dstr_content r.1 =
            dstr_content d ++ List.intercalate sep ((List.range (m + 1)).map text) := by
      intro m
      induction m with
      | zero =>
        intro _
        rw [for_loop_of_le (le_refl 1)]
        have hl0 := intercalate_range_length sep text 1 (n + 1) (by omega)
        have h1 : List.intercalate sep ((List.range 1).map text) = text 0 := by
          simp [List.intercalate, List.range_succ]
        rw [h1] at hl0 ⊢
        exact hcat d heap 0 (by omega) hv hh (by omega)
      | succ m ih =>
        intro hm
        obtain ⟨r, h1, h2, h3, h4⟩ := ih (by omega)
        have hl := intercalate_range_length sep text (m + 1 + 1) (n + 1) (by omega)
        have hT : List.intercalate sep ((List.range (m + 1 + 1)).map text) =
            List.intercalate sep ((List.range (m + 1)).map text) ++ sep ++ text (m + 1) := by
          rw [List.range_succ, List.map_append, List.map_singleton,
            intercalate_concat _ _ _ (by simp [List.range_succ])]
        rw [hT] at hl ⊢
        simp only [List.length_append] at hl
        have hrl : r.1.len_cur =
            d.len_cur + (List.intercalate sep ((List.range (m + 1)).map text)).length := by
          rw [← content_length r.1, h4, List.length_append, content_length]
        obtain ⟨s1, s2, s3⟩ := dstr_cat_cstr_spec r.1 sep r.2 h2 h3 (by omega)
        have hsl : (dstr_cat_cstr r.1 sep r.2).1.len_cur = r.1.len_cur + sep.length := by
          rw [← content_length, s3, List.length_append, content_length]
        obtain ⟨r', c1, c2, c3, c4⟩ := hcat (dstr_cat_cstr r.1 sep r.2).1
          (dstr_cat_cstr r.1 sep r.2).2 (m + 1) (by omega) s1 s2 (by omega)
        refine ⟨r', ?_, c2, c3, ?_⟩
        · rw [for_loop_succ (by omega), h1]
          exact c1
        · rw [c4, s3, h4]
          simp only [List.append_assoc]
    obtain ⟨r, h1, h2⟩ := key n (le_refl n)
    exact ⟨r, h1, h2⟩

/-- The texts of the elements of an array, read by index. -/
theorem map_range_getD {β : Type} (l : List β) (f : β → List Char) (dflt : β) :
    (List.range l.length).map (fun i => f (l.getD i dflt)) = l.map f := by
  apply List.ext_getElem
  · simp
  · intro n h1 h2
    simp only [List.getElem_map, List.getElem_range]
    rw [List.getD_eq_getElem _ _ (by simpa using h1)]

/-- The loop the join functions share appends nothing for a count `argc <= 0`. -/
theorem join_loop_nonpos (cat : t_dstr_struct → Nat → t_heap → Option (t_dstr_struct × t_heap))
    (d : t_dstr_struct) (argc : Int) (sep : List Char) (heap : t_heap) (h : argc ≤ 0) :
    join_loop cat d argc sep heap = some (d, heap) := by
  unfold join_loop
  have h0 : argc.toNat = 0 := by omega
  rw [h0, for_loop_of_le (by omega), if_neg (by omega)]

/-- C26. Joining with a separator: for every valid (non-NULL) destination of
content `c`, every list of `argc` atoms, of integers, of floats or of symbols
and every separator `sep`, the allocations succeeding, the integers being
`t_atom_long` values and the new length being a valid one, `dstr_cat_join`,
`dstr_cat_join_longs`, `dstr_cat_join_floats` and `dstr_cat_join_symbols`
return, leaving a valid dstring whose content is `c` followed by the texts of
the elements in order, with `sep` between consecutive elements only; for
`argc <= 0` the dstring and the allocator are left as they were. The text of an
integer is the string `_dstr_int_to_cstr` writes, the text of a float is the
one the format `%.*f` produces (with 6 digits for an atom), the text of a symbol
is its name. -/
theorem joining_with_separator {α : Type} [LinearOrderedField α] [FloorRing α]
    (io : t_stdio α) (dest : t_dstr_struct) (argv : List (t_atom α)) (longs : List Int)
    (floats : List α) (prec : Nat) (symbols : List String) (sep : List Char) (heap : t_heap)
    (hv : dstr_valid dest) (hh : heap_ok heap)
    (hargv : ∀ v, t_atom.A_LONG v ∈ argv →
      -9223372036854775808 ≤ v ∧ v ≤ 9223372036854775807)
    (hlongs : ∀ v, v ∈ longs → -9223372036854775808 ≤ v ∧ v ≤ 9223372036854775807)
    (h1 : dest.len_cur + (List.intercalate sep (argv.map (atom_text io))).length ≤
      DSTR_LEN_MAX)
    (h2 : dest.len_cur + (List.intercalate sep (longs.map int_text)).length ≤ DSTR_LEN_MAX)
    (h3 : dest.len_cur + (List.intercalate sep (floats.map (io.printf_f prec))).length ≤
      DSTR_LEN_MAX)
    (h4 : dest.len_cur + (List.intercalate sep (symbols.map String.toList)).length ≤
      DSTR_LEN_MAX) :
    (∃ r, dstr_cat_join io dest (argv.length : Int) argv sep heap = some r ∧
      dstr_valid r.1 ∧
      dstr_content r.1 =
        dstr_content dest ++ List.intercalate sep (argv.map (atom_text io))) ∧
    (∃ r, dstr_cat_join_longs dest (longs.length : Int) longs sep heap = some r ∧
      dstr_valid r.1 ∧
      dstr_content r.1 = dstr_content dest ++ List.intercalate sep (longs.map int_text)) ∧
    (∃ r, dstr_cat_join_floats io dest (floats.length : Int) floats prec sep heap = some r ∧
      dstr_valid r.1 ∧
      dstr_content r.1 =
        dstr_content dest ++ List.intercalate sep (floats.map (io.printf_f prec))) ∧
    (∃ r, dstr_cat_join_symbols dest (symbols.length : Int) symbols sep heap = some r ∧
      dstr_valid r.1 ∧
      dstr_content r.1 =
        dstr_content dest ++ List.intercalate sep (symbols.map String.toList)) ∧
    (∀ argc : Int, argc ≤ 0 →
      dstr_cat_join io dest argc argv sep heap = some (dest, heap) ∧
      dstr_cat_join_longs dest argc longs sep heap = some (dest, heap) ∧
      dstr_cat_join_floats io dest argc floats prec sep heap = some (dest, heap) ∧
      dstr_cat_join_symbols dest argc symbols sep heap = some (dest, heap)) := by
  refine ⟨?_, ?_, ?_, ?_, fun argc h => ⟨join_loop_nonpos _ _ _ _ _ h,
    join_loop_nonpos _ _ _ _ _ h, join_loop_nonpos _ _ _ _ _ h, join_loop_nonpos _ _ _ _ _ h⟩⟩
  · have e := map_range_getD argv (atom_text io) (.A_LONG 0)
    rw [← e] at h1 ⊢
    obtain ⟨r, r1, r2, _, r4⟩ := join_loop_spec
      (fun d i h => dstr_cat_atom io d (argv_at argv i) h)
      (fun i => atom_text io (argv.getD i (.A_LONG 0))) argv.length sep
      (fun d h i hi hd hh' hl => dstr_cat_atom_spec io d (argv_at argv i) h hd hh'
        (fun v hv' => hargv v (by
          rw [← hv']
          unfold argv_at
          rw [List.getD_eq_getElem _ _ hi]
          exact List.getElem_mem _)) hl)
      dest heap hv hh h1
    exact ⟨r, r1, r2, r4⟩
  · have e := map_range_getD longs int_text 0
    rw [← e] at h2 ⊢
    obtain ⟨r, r1, r2, _, r4⟩ := join_loop_spec
      (fun d i h => dstr_cat_int d (longs.getD i 0) h)
      (fun i => int_text (longs.getD i 0)) longs.length sep
      (fun d h i hi hd hh' hl => dstr_cat_int_spec d (longs.getD i 0) h hd hh'
        (hlongs _ (by rw [List.getD_eq_getElem _ _ hi]; exact List.getElem_mem _)).1
        (hlongs _ (by rw [List.getD_eq_getElem _ _ hi]; exact List.getElem_mem _)).2 hl)
      dest heap hv hh h2
    exact ⟨r, r1, r2, r4⟩
  · have e := map_range_getD floats (io.printf_f prec) 0
    rw [← e] at h3 ⊢
    obtain ⟨r, r1, r2, _, r4⟩ := join_loop_spec
      (fun d i h => some (dstr_cat_float io d (floats.getD i 0) prec h))
      (fun i => io.printf_f prec (floats.getD i 0)) floats.length sep
      (fun d h i _ hd hh' hl => ⟨_, rfl, dstr_cat_float_spec io d _ prec h hd hh' hl⟩)
      dest heap hv hh h3
    exact ⟨r, r1, r2, r4⟩
  · have e := map_range_getD symbols String.toList ""
    rw [← e] at h4 ⊢
    obtain ⟨r, r1, r2, _, r4⟩ := join_loop_spec
      (fun d i h => some (dstr_cat_cstr d (symbols.getD i "").toList h))
      (fun i => (symbols.getD i "").toList) symbols.length sep
      (fun d h i _ hd hh' hl => ⟨_, rfl, dstr_cat_cstr_spec d _ h hd hh' hl⟩)
      dest heap hv hh h4
    exact ⟨r, r1, r2, r4⟩

/-- C26 on the dstring "1" of `dstr_test` (lengths 1/1): joining the atoms
`1`, `2.` and `abc` with " // " leaves "11 // 2.000000 // abc" with
`len_cur = 21`, and joining 0 atom leaves the dstring as it was. -/
theorem joining_with_separator_witness :
    dstr_valid (dstr_new_cstr ['1'] ex_heap).1 ∧
    (∃ r, dstr_cat_join ex_stdio (dstr_new_cstr ['1'] ex_heap).1 3
        [.A_LONG 1, .A_FLOAT 2, .A_SYM "abc"] [' ', '/', '/', ' '] ex_heap = some r ∧
      dstr_content r.1 = "11 // 2.000000 // abc".toList ∧ r.1.len_cur = 21) ∧
    dstr_cat_join ex_stdio (dstr_new_cstr ['1'] ex_heap).1 0
        [.A_LONG 1, .A_FLOAT 2, .A_SYM "abc"] [' ', '/', '/', ' '] ex_heap =
      some ((dstr_new_cstr ['1'] ex_heap).1, ex_heap) := by
  have hfl : ex_stdio.printf_f 6 (2 : ℚ) = ['2', '.', '0', '0', '0', '0', '0', '0'] := by
    simp only [ex_stdio, Int.floor_ofNat]
    decide
  have hint : int_text 1 = ['1'] := by decide
  have hT : List.intercalate [' ', '/', '/', ' ']
      ([(.A_LONG 1 : t_atom ℚ), .A_FLOAT 2, .A_SYM "abc"].map (atom_text ex_stdio)) =
      "1 // 2.000000 // abc".toList := by
    simp only [List.map, atom_text, hfl, hint]
    decide
  have hv : dstr_valid (dstr_new_cstr ['1'] ex_heap).1 := by decide
  have hc : dstr_content (dstr_new_cstr ['1'] ex_heap).1 = ['1'] := by decide
  have hl : (dstr_new_cstr ['1'] ex_heap).1.len_cur = 1 := by decide
  obtain ⟨⟨r, hr, _, hrc⟩, _, _, _, h0⟩ := joining_with_separator ex_stdio
    (dstr_new_cstr ['1'] ex_heap).1 [.A_LONG 1, .A_FLOAT 2, .A_SYM "abc"] [] [] 6 []
    [' ', '/', '/', ' '] ex_heap hv (fun _ => rfl)
    (by
      intro v hv'
      simp only [List.mem_cons, t_atom.A_LONG.injEq, List.mem_singleton, reduceCtorEq,
        or_false, List.mem_nil_iff] at hv'
      rw [hv']
      norm_num)
    (by simp)
    (by rw [hT, hl]; decide) (by rw [hl]; decide) (by rw [hl]; decide) (by rw [hl]; decide)
  refine ⟨hv, ⟨r, hr, ?_, ?_⟩, (h0 0 (le_refl 0)).1⟩
  · rw [hrc, hc, hT]
    decide
  · rw [← content_length, hrc, hc, hT]
    decide

end Append

end Dstr

/-! ## Search and replace -/

namespace Dstr

section ReplaceAll

/-- The scan of the specification with `k` characters to pass is the scan of
the string without them. -/
theorem replace_all_aux_skip (s r : List Char) (k : Nat) (t : List Char) :
    replace_all_aux s r k t = replace_all_aux s r 0 (t.drop k) := by
  induction k generalizing t with
  | zero => rfl
  | succ k ih =>
    cases t with
    | nil => rfl
    | cons c t =>
      rw [replace_all_aux, ih]
      rfl

/-- A string in which the search string does not occur is left as it is. -/
theorem replace_all_of_strstr_none (s r t : List Char) (h : strstr_list s t = none) :
    replace_all s r t = t := by
  unfold replace_all
  induction t with
  | nil => rfl
  | cons c t ih =>
    simp only [strstr_list] at h
    split_ifs at h with hp
    rw [Option.map_eq_none'] at h
    simp only [replace_all_aux, hp, Bool.false_eq_true, if_false]
    rw [ih h]

/-- A string in which the search string occurs first at the index `k`: the
characters before `k` are kept, the occurrence is replaced, and the rest of
the string is scanned from the end of the occurrence. -/
theorem replace_all_of_strstr_some (s r : List Char) (hs : s ≠ []) (t : List Char) (k : Nat)
    (h : strstr_list s t = some k) :
    k + s.length ≤ t.length ∧
    replace_all s r t = t.take k ++ r ++ replace_all s r (t.drop (k + s.length)) := by
  unfold replace_all
  induction t generalizing k with
  | nil => simp [strstr_list, hs] at h
  | cons c t ih =>
    simp only [strstr_list] at h
    split_ifs at h with hp
    · have hk : k = 0 := by simpa using h.symm
      subst hk
      obtain ⟨rest, hrest⟩ := List.isPrefixOf_iff_prefix.mp hp
      have hlen : s.length ≤ (c :: t).length := by
        rw [← hrest, List.length_append]
        omega
      have hpos : 0 < s.length := List.length_pos.mpr hs
      refine ⟨by omega, ?_⟩
      simp only [replace_all_aux, hp, if_true, List.take_zero, List.nil_append, Nat.zero_add]
      rw [replace_all_aux_skip]
      congr 2
      obtain ⟨n, hn⟩ : ∃ n, s.length = n + 1 := ⟨s.length - 1, by omega⟩
      rw [hn]
      rfl
    · obtain ⟨k', hk', hkk⟩ : ∃ k', strstr_list s t = some k' ∧ k = k' + 1 := by
        cases hq : strstr_list s t with
        | none => simp [hq] at h
        | some k' =>
          refine ⟨k', rfl, ?_⟩
          simpa [hq] using h.symm
      subst hkk
      obtain ⟨i1, i2⟩ := ih k' hk'
      refine ⟨by simp only [List.length_cons]; omega, ?_⟩
      simp only [replace_all_aux, hp, Bool.false_eq_true, if_false]
      rw [i2]
      have : k' + 1 + s.length = (k' + s.length) + 1 := by omega
      rw [this]
      rfl

/-- The specification leaves the empty string empty. -/
theorem replace_all_nil (s r : List Char) : replace_all s r [] = [] := rfl

/-- The specification replaces an occurrence at the start of the string and
goes on after it. -/
theorem replace_all_prefix (s r t : List Char) (hs : s ≠ []) :
    replace_all s r (s ++ t) = r ++ replace_all s r t := by
  have h : strstr_list s (s ++ t) = some 0 := by
    cases hst : s ++ t with
    | nil => simp [hs] at hst
    | cons c t' =>
      rw [← hst]
      have hp : s.isPrefixOf (s ++ t) = true :=
        List.isPrefixOf_iff_prefix.mpr (List.prefix_append s t)
      rw [hst] at hp ⊢
      simp only [strstr_list, hp, if_true]
  have := (replace_all_of_strstr_some s r hs (s ++ t) 0 h).2
  rw [this, Nat.zero_add, List.drop_left]
  rfl

/-- The specification keeps a character at which no occurrence starts. -/
theorem replace_all_cons (s r : List Char) (c : Char) (t : List Char)
    (h : s.isPrefixOf (c :: t) = false) :
    replace_all s r (c :: t) = c :: replace_all s r t := by
  unfold replace_all
  simp only [replace_all_aux, h, Bool.false_eq_true, if_false]

end ReplaceAll

section Memory

/-- The invariant rule of a loop whose test fails after a bounded number of
iterations: with at least as many iterations allowed, the loop ends, in a state
which satisfies the invariant and in which the test fails. -/
theorem while_some_induct {σ τ : Type} (test : σ → Option τ) (body : σ → τ → σ)
    (Inv : σ → Prop) (measure : σ → Nat)
    (hstep : ∀ st v, Inv st → test st = some v →
      Inv (body st v) ∧ measure (body st v) < measure st)
    (fuel : Nat) (st : σ) (h0 : Inv st) (hm : measure st ≤ fuel) :
    ∃ st', while_some test body fuel st = some st' ∧ Inv st' ∧ test st' = none := by
  induction fuel generalizing st with
  | zero =>
    cases ht : test st with
    | none => exact ⟨st, by rw [while_some, ht], h0, ht⟩
    | some v =>
      have := (hstep st v h0 ht).2
      omega
  | succ fuel ih =>
    cases ht : test st with
    | none => exact ⟨st, by rw [while_some, ht], h0, ht⟩
    | some v =>
      obtain ⟨h1, h2⟩ := hstep st v h0 ht
      obtain ⟨st', e1, e2, e3⟩ := ih (body st v) h1 (by omega)
      refine ⟨st', ?_, e2, e3⟩
      rw [while_some, ht]
      exact e1

/-- A block holds two strings in a row when it holds the first one and the
second one after it. -/
theorem mem_holds_append (mem : Nat → Char) (a : Nat) (X Y : List Char) :
    mem_holds mem a (X ++ Y) ↔ mem_holds mem a X ∧ mem_holds mem (a + X.length) Y := by
  unfold mem_holds
  constructor
  · intro h
    constructor
    · intro i hi
      rw [h i (by rw [List.length_append]; omega), List.getD_append _ _ _ _ hi]
    · intro i hi
      have := h (X.length + i) (by rw [List.length_append]; omega)
      rw [List.getD_append_right _ _ _ _ (by omega)] at this
      rw [show a + X.length + i = a + (X.length + i) by omega, this]
      congr 1
      omega
  · rintro ⟨h1, h2⟩ i hi
    rw [List.length_append] at hi
    by_cases hx : i < X.length
    · rw [h1 i hx, List.getD_append _ _ _ _ hx]
    · rw [List.getD_append_right _ _ _ _ (by omega)]
      have := h2 (i - X.length) (by omega)
      rw [← this]
      congr 1
      omega

/-- A block which agrees with another one where it holds a string holds
it. -/
theorem mem_holds_congr (mem mem' : Nat → Char) (a : Nat) (X : List Char)
    (h : ∀ i, a ≤ i → i < a + X.length → mem' i = mem i) (hX : mem_holds mem a X) :
    mem_holds mem' a X := by
  intro i hi
  rw [h (a + i) (by omega) (by omega)]
  exact hX i hi

/-- A block which holds a string holds its last characters. -/
theorem mem_holds_drop (mem : Nat → Char) (a k : Nat) (t : List Char)
    (h : mem_holds mem a t) : mem_holds mem (a + k) (t.drop k) := by
  by_cases hk : k ≤ t.length
  · have := (mem_holds_append mem a (t.take k) (t.drop k)).mp (by rw [List.take_append_drop]; exact h)
    rw [List.length_take, Nat.min_eq_left hk] at this
    exact this.2
  · intro i hi
    rw [List.length_drop] at hi
    omega

/-- A block which holds a string holds its first characters. -/
theorem mem_holds_take (mem : Nat → Char) (a k : Nat) (t : List Char)
    (h : mem_holds mem a t) : mem_holds mem a (t.take k) :=
  ((mem_holds_append mem a (t.take k) (t.drop k)).mp
    (by rw [List.take_append_drop]; exact h)).1

/-- The content of a dstring is held by its block. -/
theorem holds_content (d : t_dstr_struct) : mem_holds d.cstr 0 (dstr_content d) := by
  intro i hi
  rw [content_length] at hi
  unfold dstr_content
  rw [List.getD_eq_getElem _ _ (by simpa using hi)]
  simp

/-- The content of a dstring whose block holds a string of its length. -/
theorem content_of_holds (d : t_dstr_struct) (X : List Char) (h : mem_holds d.cstr 0 X)
    (hl : d.len_cur = X.length) : dstr_content d = X := by
  apply List.ext_getElem
  · rw [content_length, hl]
  · intro n h1 h2
    unfold dstr_content
    rw [List.getElem_map, List.getElem_range]
    have := h n h2
    rw [Nat.zero_add, List.getD_eq_getElem _ _ h2] at this
    exact this

/-- The C string read in a block which holds a string without NUL, followed
by a NUL. -/
theorem c_string_eq (mem : Nat → Char) (X : List Char) :
    ∀ (pos room : Nat), mem_holds mem pos X → mem (pos + X.length) = NUL →
      (∀ c, c ∈ X → c ≠ NUL) → X.length < room → c_string mem room pos = X := by
  induction X with
  | nil =>
    intro pos room _ hn _ hr
    obtain ⟨room', rfl⟩ : ∃ room', room = room' + 1 := ⟨room - 1, by simp at hr; omega⟩
    simp only [List.length_nil, Nat.add_zero] at hn
    simp only [c_string, hn, if_true]
  | cons c X ih =>
    intro pos room hh hn hc hr
    obtain ⟨room', rfl⟩ : ∃ room', room = room' + 1 := ⟨room - 1, by simp at hr; omega⟩
    have h0 : mem pos = c := by
      have := hh 0 (by simp)
      simpa using this
    have hcn : c ≠ NUL := hc c (by simp)
    have htail : mem_holds mem (pos + 1) X := by
      have := (mem_holds_append mem pos [c] X).mp hh
      exact this.2
    simp only [c_string, h0, hcn, if_false]
    rw [ih (pos + 1) room' htail
      (by rw [← hn]; congr 1; simp only [List.length_cons]; omega)
      (fun c' hc' => hc c' (by simp [hc'])) (by simp only [List.length_cons] at hr; omega)]

/-- The search in a block which holds, from the index `pos`, the rest of a
string without NUL, followed by a NUL at the end of the string. -/
theorem strstr_holds (mem : Nat → Char) (t : List Char) (size pos : Nat) (s : List Char)
    (hh : mem_holds mem pos (t.drop pos)) (hn : mem t.length = NUL) (hpos : pos ≤ t.length)
    (hsize : t.length < size) (ht : ∀ c, c ∈ t → c ≠ NUL) :
    strstr mem size pos s = (strstr_list s (t.drop pos)).map (fun k => pos + k) := by
  unfold strstr
  rw [c_string_eq mem (t.drop pos) pos (size - pos) hh
    (by rw [List.length_drop, show pos + (t.length - pos) = t.length by omega]; exact hn)
    (fun c hc => ht c (List.mem_of_mem_drop hc)) (by rw [List.length_drop]; omega)]

/-- An occurrence found by the search in such a block, and what the
specification replaces the rest of the string with. -/
theorem strstr_step (mem : Nat → Char) (t s r : List Char) (size pos v : Nat) (hs : s ≠ [])
    (hh : mem_holds mem pos (t.drop pos)) (hn : mem t.length = NUL) (hpos : pos ≤ t.length)
    (hsize : t.length < size) (ht : ∀ c, c ∈ t → c ≠ NUL)
    (hv : strstr mem size pos s = some v) :
    ∃ k, v = pos + k ∧ pos + k + s.length ≤ t.length ∧
      replace_all s r (t.drop pos) =
        (t.drop pos).take k ++ r ++ replace_all s r (t.drop (pos + k + s.length)) := by
  rw [strstr_holds mem t size pos s hh hn hpos hsize ht] at hv
  cases hq : strstr_list s (t.drop pos) with
  | none => simp [hq] at hv
  | some k =>
    rw [hq] at hv
    obtain ⟨h1, h2⟩ := replace_all_of_strstr_some s r hs (t.drop pos) k hq
    rw [List.length_drop] at h1
    rw [List.drop_drop] at h2
    refine ⟨k, by simpa using hv.symm, by omega, ?_⟩
    rw [h2]
    congr 3
    omega

/-- The end of the search in such a block: the specification leaves the rest
of the string as it is. -/
theorem strstr_end (mem : Nat → Char) (t s r : List Char) (size pos : Nat)
    (hh : mem_holds mem pos (t.drop pos)) (hn : mem t.length = NUL) (hpos : pos ≤ t.length)
    (hsize : t.length < size) (ht : ∀ c, c ∈ t → c ≠ NUL)
    (hv : strstr mem size pos s = none) :
    replace_all s r (t.drop pos) = t.drop pos := by
  rw [strstr_holds mem t size pos s hh hn hpos hsize ht, Option.map_eq_none'] at hv
  exact replace_all_of_strstr_none s r _ hv

/-- The loop of `dstr_replace` for equal lengths, on a block which holds a
string `t` without NUL: with `fuel` not below the length of `t` it ends, the
block holding then the string the specification gives, terminated by NUL. -/
theorem replace_equal_loop (mem0 : Nat → Char) (t s r : List Char) (size fuel : Nat)
    (hs : s ≠ []) (h0 : mem_holds mem0 0 t) (hn : mem0 t.length = NUL)
    (ht : ∀ c, c ∈ t → c ≠ NUL) (hsize : t.length < size) (hL : t.length ≤ DSTR_LEN_MAX)
    (heq : strnlen r DSTR_LEN_MAX = strnlen s DSTR_LEN_MAX)
    (hR : (replace_all s r t).length ≤ DSTR_LEN_MAX) (hfuel : t.length ≤ fuel) :
    ∃ st, while_some (replace_equal_test size s)
        (replace_equal_body (strnlen s DSTR_LEN_MAX) (strnlen r DSTR_LEN_MAX) r) fuel
        (mem0, 0) = some st ∧
      mem_holds st.1 0 (replace_all s r t) ∧ (replace_all s r t).length = t.length ∧
      st.1 t.length = NUL := by
  obtain ⟨st, e1, ⟨i1, i2, i3, P, i4, i5, i6⟩, e3⟩ := while_some_induct
    (replace_equal_test size s)
    (replace_equal_body (strnlen s DSTR_LEN_MAX) (strnlen r DSTR_LEN_MAX) r)
    (fun st => st.2 ≤ t.length ∧ mem_holds st.1 st.2 (t.drop st.2) ∧ st.1 t.length = NUL ∧
      ∃ P : List Char, P.length = st.2 ∧ mem_holds st.1 0 P ∧
        P ++ replace_all s r (t.drop st.2) = replace_all s r t)
    (fun st => t.length - st.2)
    (by
      rintro ⟨cstr, src_beg⟩ v ⟨i1, i2, i3, P, i4, i5, i6⟩ hv
      simp only at i1 i2 i3 i4 i5 i6
      obtain ⟨k, hk, hkl, hdec⟩ := strstr_step cstr t s r size src_beg v hs i2 i3 i1 hsize ht hv
      have hspos : 0 < s.length := List.length_pos.mpr hs
      have hlen := congrArg List.length i6
      rw [hdec] at hlen
      simp only [List.length_append, List.length_take, List.length_drop] at hlen
      have hsl : strnlen s DSTR_LEN_MAX = s.length := by
        unfold strnlen
        omega
      have hrl : strnlen r DSTR_LEN_MAX = r.length := by
        unfold strnlen
        omega
      have hrs : r.length = s.length := by rw [← hsl, ← hrl, heq]
      simp only [replace_equal_body, hsl, hrl]
      subst hk
      refine ⟨⟨by omega, ?_, ?_, P ++ (t.drop src_beg).take k ++ r, ?_, ?_, ?_⟩, by omega⟩
      · have := mem_holds_drop cstr src_beg (k + s.length) (t.drop src_beg) i2
        rw [List.drop_drop] at this
        rw [show src_beg + k + s.length = src_beg + (k + s.length) by omega]
        refine mem_holds_congr cstr _ _ _ (fun i hi1 _ => ?_) this
        simp only [memcpy]
        rw [if_neg (by omega)]
      · simp only [memcpy]
        rw [if_neg (by omega)]
        exact i3
      · simp only [List.length_append, List.length_take, List.length_drop]
        omega
      · rw [mem_holds_append, mem_holds_append]
        refine ⟨⟨?_, ?_⟩, ?_⟩
        · refine mem_holds_congr cstr _ _ _ (fun i _ hi2 => ?_) i5
          simp only [memcpy]
          rw [if_neg (by omega)]
        · rw [i4, Nat.zero_add]
          refine mem_holds_congr cstr _ _ _ (fun i _ hi2 => ?_)
            (mem_holds_take cstr src_beg k _ i2)
          simp only [List.length_take, List.length_drop] at hi2
          simp only [memcpy]
          rw [if_neg (by omega)]
        · intro i hi
          simp only [List.length_append, List.length_take, List.length_drop, i4, Nat.zero_add]
          simp only [memcpy]
          rw [if_pos (by omega)]
          unfold cstr_mem
          congr 1
          omega
      · rw [← i6, hdec]
        simp only [List.append_assoc])
    fuel (mem0, 0)
    ⟨Nat.zero_le _, by simpa using h0, hn, [], rfl, fun i hi => absurd hi (Nat.not_lt_zero i),
      by simp⟩
    (by simpa using hfuel)
  have hend := strstr_end st.1 t s r size st.2 i2 i3 i1 hsize ht e3
  rw [hend] at i6
  refine ⟨st, e1, ?_, ?_, i3⟩
  · rw [← i6, mem_holds_append, i4, Nat.zero_add]
    exact ⟨i5, i2⟩
  · rw [← i6, List.length_append, List.length_drop, i4]
    omega

/-- The loop of `dstr_replace` for a shorter replace string, on a block which
holds a string `t` without NUL: with `fuel` not below the length of `t` it
ends, the block holding then, below `dest`, a string `P` such that the
specification gives `P` followed by the characters of `t` from `src_beg` on,
which the block still holds. -/
theorem replace_shorter_loop (mem0 : Nat → Char) (t s r : List Char) (size fuel : Nat)
    (hs : s ≠ []) (h0 : mem_holds mem0 0 t) (hn : mem0 t.length = NUL)
    (ht : ∀ c, c ∈ t → c ≠ NUL) (hsize : t.length < size) (hL : t.length ≤ DSTR_LEN_MAX)
    (hlt : strnlen r DSTR_LEN_MAX < strnlen s DSTR_LEN_MAX)
    (hR : (replace_all s r t).length ≤ DSTR_LEN_MAX) (hfuel : t.length ≤ fuel) :
    ∃ st, while_some (replace_shorter_test size s)
        (replace_shorter_body (strnlen s DSTR_LEN_MAX) (strnlen r DSTR_LEN_MAX) r) fuel
        (mem0, 0, 0) = some st ∧
      st.2.2 ≤ st.2.1 ∧ st.2.1 ≤ t.length ∧ mem_holds st.1 st.2.1 (t.drop st.2.1) ∧
      ∃ P : List Char, P.length = st.2.2 ∧ mem_holds st.1 0 P ∧
        P ++ t.drop st.2.1 = replace_all s r t := by
  obtain ⟨st, e1, ⟨i0, i1, i2, i3, P, i4, i5, i6⟩, e3⟩ := while_some_induct
    (replace_shorter_test size s)
    (replace_shorter_body (strnlen s DSTR_LEN_MAX) (strnlen r DSTR_LEN_MAX) r)
    (fun st => st.2.2 ≤ st.2.1 ∧ st.2.1 ≤ t.length ∧
      mem_holds st.1 st.2.1 (t.drop st.2.1) ∧ st.1 t.length = NUL ∧
      ∃ P : List Char, P.length = st.2.2 ∧ mem_holds st.1 0 P ∧
        P ++ replace_all s r (t.drop st.2.1) = replace_all s r t)
    (fun st => t.length - st.2.1)
    (by
      rintro ⟨cstr, src_beg, dest⟩ v ⟨i0, i1, i2, i3, P, i4, i5, i6⟩ hv
      simp only at i0 i1 i2 i3 i4 i5 i6
      obtain ⟨k, hk, hkl, hdec⟩ := strstr_step cstr t s r size src_beg v hs i2 i3 i1 hsize ht hv
      have hspos : 0 < s.length := List.length_pos.mpr hs
      have hlen := congrArg List.length i6
      rw [hdec] at hlen
      simp only [List.length_append, List.length_take, List.length_drop] at hlen
      have hsl : strnlen s DSTR_LEN_MAX = s.length := by
        unfold strnlen
        omega
      have hrl : strnlen r DSTR_LEN_MAX = r.length := by
        unfold strnlen
        omega
      have hrs : r.length < s.length := by rw [← hsl, ← hrl]; exact hlt
      subst hk
      have hu : u32 (src_beg + k - src_beg) = k := by
        unfold u32
        unfold DSTR_LEN_MAX at hL
        omega
      simp only [replace_shorter_body, hsl, hrl, hu]
      refine ⟨⟨by omega, by omega, ?_, ?_, P ++ (t.drop src_beg).take k ++ r, ?_, ?_, ?_⟩,
        by omega⟩
      · have := mem_holds_drop cstr src_beg (k + s.length) (t.drop src_beg) i2
        rw [List.drop_drop] at this
        rw [show src_beg + k + s.length = src_beg + (k + s.length) by omega]
        refine mem_holds_congr cstr _ _ _ (fun i hi1 _ => ?_) this
        simp only [memcpy, memmove]
        rw [if_neg (by omega), if_neg (by omega)]
      · simp only [memcpy, memmove]
        rw [if_neg (by omega), if_neg (by omega)]
        exact i3
      · simp only [List.length_append, List.length_take, List.length_drop]
        omega
      · rw [mem_holds_append, mem_holds_append]
        refine ⟨⟨?_, ?_⟩, ?_⟩
        · refine mem_holds_congr cstr _ _ _ (fun i _ hi2 => ?_) i5
          simp only [memcpy, memmove]
          rw [if_neg (by omega), if_neg (by omega)]
        · rw [i4, Nat.zero_add]
          intro i hi
          simp only [List.length_take, List.length_drop] at hi
          simp only [memcpy, memmove]
          rw [if_neg (by omega), if_pos (by omega)]
          have := mem_holds_take cstr src_beg k _ i2 i
            (by simp only [List.length_take, List.length_drop]; omega)
          rw [← this]
          congr 1
          omega
        · intro i hi
          simp only [List.length_append, List.length_take, List.length_drop, i4, Nat.zero_add]
          simp only [memcpy]
          rw [if_pos (by omega)]
          unfold cstr_mem
          congr 1
          omega
      · rw [← i6, hdec]
        simp only [List.append_assoc])
    fuel (mem0, 0, 0)
    ⟨le_refl 0, Nat.zero_le _, by simpa using h0, hn, [], rfl,
      fun i hi => absurd hi (Nat.not_lt_zero i), by simp⟩
    (by simpa using hfuel)
  have hend := strstr_end st.1 t s r size st.2.1 i2 i3 i1 hsize ht e3
  rw [hend] at i6
  exact ⟨st, e1, i0, i1, i2, P, i4, i5, i6⟩

/-- The loop of `dstr_replace` for a longer replace string, the old block
holding a string `t` without NUL and the new dstring being valid and empty:
with `fuel` not below the length of `t` it ends, the dstring being valid, with a
content such that the specification gives it followed by the characters of
`t` from `src_beg` on. -/
theorem replace_longer_loop (old : Nat → Char) (t s r : List Char) (size fuel : Nat)
    (a : t_dstr_struct × t_heap) (hs : s ≠ []) (h0 : mem_holds old 0 t)
    (hn : old t.length = NUL) (ht : ∀ c, c ∈ t → c ≠ NUL) (hsize : t.length < size)
    (hL : t.length ≤ DSTR_LEN_MAX) (ha : dstr_valid a.1) (hh : heap_ok a.2)
    (ha0 : a.1.len_cur = 0)
    (hR : (replace_all s r t).length ≤ DSTR_LEN_MAX) (hfuel : t.length ≤ fuel) :
    ∃ st, while_some (replace_longer_test old size s)
        (replace_longer_body old (strnlen s DSTR_LEN_MAX) (strnlen r DSTR_LEN_MAX) r) fuel
        (a, 0) = some st ∧
      st.2 ≤ t.length ∧ dstr_valid st.1.1 ∧ heap_ok st.1.2 ∧
      dstr_content st.1.1 ++ t.drop st.2 = replace_all s r t := by
  obtain ⟨st, e1, ⟨i1, i2, i3, i6⟩, e3⟩ := while_some_induct
    (replace_longer_test old size s)
    (replace_longer_body old (strnlen s DSTR_LEN_MAX) (strnlen r DSTR_LEN_MAX) r)
    (fun st => st.2 ≤ t.length ∧ dstr_valid st.1.1 ∧ heap_ok st.1.2 ∧
      dstr_content st.1.1 ++ replace_all s r (t.drop st.2) = replace_all s r t)
    (fun st => t.length - st.2)
    (by
      rintro ⟨⟨dd, hp⟩, src_beg⟩ v ⟨i1, i2, i3, i6⟩ hv
      simp only at i1 i2 i3 i6
      have hold : mem_holds old src_beg (t.drop src_beg) := by
        have := mem_holds_drop old 0 src_beg t h0
        rwa [Nat.zero_add] at this
      obtain ⟨k, hk, hkl, hdec⟩ := strstr_step old t s r size src_beg v hs hold hn i1 hsize ht hv
      have hspos : 0 < s.length := List.length_pos.mpr hs
      have hlen := congrArg List.length i6
      rw [hdec] at hlen
      simp only [List.length_append, List.length_take, List.length_drop, content_length] at hlen
      have hsl : strnlen s DSTR_LEN_MAX = s.length := by
        unfold strnlen
        omega
      have hrl : strnlen r DSTR_LEN_MAX = r.length := by
        unfold strnlen
        omega
      subst hk
      have hu : u32 (src_beg + k - src_beg) = k := by
        unfold u32
        unfold DSTR_LEN_MAX at hL
        omega
      have hkt : ((t.drop src_beg).take k).length = k := by
        simp only [List.length_take, List.length_drop]
        omega
      obtain ⟨c1, c2, c3⟩ := dstr_cpy_text dd (fun i => old (src_beg + i))
        ((t.drop src_beg).take k) hp i2 i3 (by rw [hkt]; omega)
        (fun i hi => mem_holds_take old src_beg k _ hold i hi)
      rw [hkt] at c1 c2 c3
      have hl1 : (_dstr_cpy dd dd.len_cur (fun i => old (src_beg + i)) k hp).1.len_cur =
          dd.len_cur + k := by
        rw [← content_length, c3, List.length_append, hkt, content_length]
      obtain ⟨d1, d2, d3⟩ := dstr_cpy_text
        (_dstr_cpy dd dd.len_cur (fun i => old (src_beg + i)) k hp).1 (cstr_mem r) r
        (_dstr_cpy dd dd.len_cur (fun i => old (src_beg + i)) k hp).2 c1 c2
        (by rw [hl1]; omega) (fun _ _ => rfl)
      simp only [replace_longer_body, hsl, hrl, hu]
      refine ⟨⟨by omega, d1, d2, ?_⟩, by omega⟩
      rw [d3, c3, ← i6, hdec]
      simp only [List.append_assoc])
    fuel (a, 0)
    ⟨Nat.zero_le _, ha, hh, by
      have : dstr_content a.1 = [] := by
        apply List.eq_nil_of_length_eq_zero
        rw [content_length, ha0]
      simp [this]⟩
    (by simpa using hfuel)
  have hold : mem_holds old st.2 (t.drop st.2) := by
    have := mem_holds_drop old 0 st.2 t h0
    rwa [Nat.zero_add] at this
  have hend := strstr_end old t s r size st.2 hold hn i1 hsize ht e3
  rw [hend] at i6
  exact ⟨st, e1, i1, i2, i3, i6⟩

end Memory

section Replace

/-- The length `_dstr_next_pow2` returns for a valid length holds it and is a
valid maximum length. -/
theorem dstr_next_pow2_valid (v : Nat) (h : v ≤ DSTR_LEN_MAX) :
    v ≤ _dstr_next_pow2 v ∧ _dstr_next_pow2 v ≤ DSTR_LEN_MAX := by
  by_cases h0 : v = 0
  · subst h0
    decide
  · exact dstr_next_pow2_bounds v (by omega) h

/-- C23. Search and replace: for every valid (non-NULL) dstring whose
content `t` has no NUL, every search string which is not empty and every
replace string, the string `t'` the specification gives (every non-overlapping
occurrence of the search string in `t`, found scanning left to right, replaced)
having a valid length, the allocations succeeding and the loops being allowed
`len_cur` iterations at least, `dstr_replace` returns; it leaves a valid dstring
of content `t'`, with `len_cur` the length of `t'`, whether the replace string is
shorter than, as long as, or longer than the search string. -/
theorem search_and_replace (fuel : Nat) (d : t_dstr_struct) (search replace : List Char)
    (heap : t_heap) (hv : dstr_valid d) (hh : heap_ok heap)
    (ht : ∀ c, c ∈ dstr_content d → c ≠ NUL) (hs : search ≠ [])
    (hR : (replace_all search replace (dstr_content d)).length ≤ DSTR_LEN_MAX)
    (hfuel : d.len_cur ≤ fuel) :
    ∃ r, dstr_replace fuel d search replace heap = some r ∧
      dstr_content r.1 = replace_all search replace (dstr_content d) ∧
      r.1.len_cur = (replace_all search replace (dstr_content d)).length ∧
      dstr_valid r.1 := by
  obtain ⟨hnn, hinv, hmax, hnul⟩ := hv
  have hM : d.len_max ≤ 4294967294 := hmax
  have htl : (dstr_content d).length = d.len_cur := content_length d
  have h0 := holds_content d
  have hn : d.cstr (dstr_content d).length = NUL := by rw [htl]; exact hnul
  have hsz : dstr_size d = d.len_max + 1 := by
    unfold dstr_size
    rw [is_null_of_not_null d hnn]
    rfl
  have hsize : (dstr_content d).length < dstr_size d := by rw [hsz, htl]; omega
  have hL : (dstr_content d).length ≤ DSTR_LEN_MAX := by rw [htl]; exact le_trans hinv hmax
  have hfuel' : (dstr_content d).length ≤ fuel := by rw [htl]; exact hfuel
  unfold dstr_replace
  simp only
  by_cases hlt : strnlen replace DSTR_LEN_MAX < strnlen search DSTR_LEN_MAX
  · -- the replace string is shorter
    rw [if_pos hlt]
    obtain ⟨⟨cstr, src_beg, dest⟩, e1, i0, i1, i2, P, i4, i5, i6⟩ :=
      replace_shorter_loop d.cstr (dstr_content d) search replace (dstr_size d) fuel hs h0 hn ht
        hsize hL hlt hR hfuel'
    simp only at i0 i1 i2 i4 i5 i6
    rw [htl] at i1
    rw [e1]
    have hRl : (replace_all search replace (dstr_content d)).length =
        dest + (d.len_cur - src_beg) := by
      rw [← i6, List.length_append, List.length_drop, i4, htl]
    have hseg : u32 (d.len_cur + 4294967296 - u32 src_beg) = d.len_cur - src_beg := by
      unfold u32
      omega
    have hlen : u32 (u32 dest + (d.len_cur - src_beg)) = dest + (d.len_cur - src_beg) := by
      unfold u32
      omega
    simp only [hseg, hlen]
    refine ⟨_, rfl, ?_, hRl.symm, ⟨hnn, ?_, hmax, ?_⟩⟩
    · refine content_of_holds _ _ ?_ hRl.symm
      rw [← i6, mem_holds_append]
      constructor
      · refine mem_holds_congr cstr _ _ _ (fun i _ hi2 => ?_) i5
        dsimp only
        rw [Function.update_noteq (by omega)]
        simp only [memmove]
        rw [if_neg (by omega)]
      · intro i hi
        rw [List.length_drop, htl] at hi
        dsimp only
        rw [Function.update_noteq (by omega)]
        simp only [memmove]
        rw [if_pos (by omega), ← i2 i (by rw [List.length_drop, htl]; exact hi)]
        congr 1
        omega
    · show dest + (d.len_cur - src_beg) ≤ d.len_max
      omega
    · dsimp only
      rw [Function.update_same]
  · rw [if_neg hlt]
    by_cases heq : strnlen replace DSTR_LEN_MAX = strnlen search DSTR_LEN_MAX
    · -- equal lengths
      rw [if_pos heq]
      obtain ⟨⟨cstr, src_beg⟩, e1, j1, j2, j3⟩ :=
        replace_equal_loop d.cstr (dstr_content d) search replace (dstr_size d) fuel hs h0 hn ht
          hsize hL heq hR hfuel'
      simp only at j1 j3
      rw [e1]
      simp only
      rw [htl] at j2 j3
      exact ⟨_, rfl, content_of_holds _ _ j1 j2.symm, j2.symm, ⟨hnn, hinv, hmax, j3⟩⟩
    · -- the replace string is longer
      rw [if_neg heq]
      obtain ⟨fresh, hfresh⟩ := Option.isSome_iff_exists.mp (hh 0)
      obtain ⟨len0, hlen0⟩ : ∃ len0, len0 =
          min (u32 (d.len_cur + 10 *
            (strnlen replace DSTR_LEN_MAX - strnlen search DSTR_LEN_MAX))) DSTR_LEN_MAX :=
        ⟨_, rfl⟩
      rw [← hlen0]
      have hl0 : len0 ≤ DSTR_LEN_MAX := by rw [hlen0]; exact Nat.min_le_right _ _
      have ha : _dstr_alloc_new_cstr d len0 heap =
          ({ cstr := Function.update fresh 0 NUL, len_cur := 0, len_max := len0 },
            heap_next heap) := by
        unfold _dstr_alloc_new_cstr
        simp only [is_null_of_not_null d hnn, hfresh, Bool.false_eq_true, if_false]
      have hav : dstr_valid (_dstr_alloc_new_cstr d len0 heap).1 := by
        rw [ha]
        refine ⟨?_, Nat.zero_le _, hl0, ?_⟩
        · unfold DSTR_NOT_NULL
          unfold DSTR_LEN_ERR
          unfold DSTR_LEN_MAX at hl0
          simp only [ne_eq, decide_eq_true_eq]
          omega
        · dsimp only
          rw [Function.update_same]
      have hah : heap_ok (_dstr_alloc_new_cstr d len0 heap).2 := by
        rw [ha]
        intro i
        exact hh (i + 1)
      rw [if_neg (by rw [is_null_of_not_null _ hav.1]; simp)]
      obtain ⟨⟨⟨dd, hp⟩, src_beg⟩, e1, k1, k2, k3, k6⟩ :=
        replace_longer_loop d.cstr (dstr_content d) search replace (dstr_size d) fuel
          (_dstr_alloc_new_cstr d len0 heap) hs h0 hn ht hsize hL hav hah (by rw [ha]) hR hfuel'
      simp only at k1 k2 k3 k6
      rw [htl] at k1
      rw [e1]
      simp only
      have hseg : u32 (d.len_cur + 4294967296 - u32 src_beg) = (List.drop src_beg
          (dstr_content d)).length := by
        rw [List.length_drop, htl]
        unfold u32
        omega
      rw [hseg]
      have hRl := congrArg List.length k6
      rw [List.length_append, content_length] at hRl
      have hold : mem_holds d.cstr src_beg ((dstr_content d).drop src_beg) := by
        have := mem_holds_drop d.cstr 0 src_beg _ h0
        rwa [Nat.zero_add] at this
      obtain ⟨c1, c2, c3⟩ := dstr_cpy_text dd (fun i => d.cstr (src_beg + i))
        ((dstr_content d).drop src_beg) hp k2 k3 (by omega) (fun i hi => hold i hi)
      rw [k6] at c3
      have hcl := content_length (_dstr_cpy dd dd.len_cur (fun i => d.cstr (src_beg + i))
        (List.drop src_beg (dstr_content d)).length hp).1
      rw [c3] at hcl
      obtain ⟨p1, p2⟩ := dstr_next_pow2_valid
        (_dstr_cpy dd dd.len_cur (fun i => d.cstr (src_beg + i))
          (List.drop src_beg (dstr_content d)).length hp).1.len_cur
        (by rw [← hcl]; exact hR)
      obtain ⟨r1, r2, r3, r4, _⟩ := dstr_realloc_spec
        (_dstr_cpy dd dd.len_cur (fun i => d.cstr (src_beg + i))
          (List.drop src_beg (dstr_content d)).length hp).1
        (_dstr_next_pow2 (_dstr_cpy dd dd.len_cur (fun i => d.cstr (src_beg + i))
          (List.drop src_beg (dstr_content d)).length hp).1.len_cur)
        (_dstr_cpy dd dd.len_cur (fun i => d.cstr (src_beg + i))
          (List.drop src_beg (dstr_content d)).length hp).2 c1.1 c1.2.1 (c2 0)
      rw [Nat.min_eq_left p1] at r2 r3 r4
      have hcont := content_take _ _ _ (le_refl _) r2 r3
      rw [c3, List.take_of_length_le (by rw [hcl])] at hcont
      refine ⟨_, rfl, hcont, by rw [r2, hcl], ⟨?_, ?_, ?_, ?_⟩⟩
      · unfold DSTR_NOT_NULL
        rw [r1]
        unfold DSTR_LEN_ERR
        unfold DSTR_LEN_MAX at p2
        simp only [ne_eq, decide_eq_true_eq]
        omega
      · rw [r1, r2]
        exact p1
      · rw [r1]
        exact p2
      · rw [r2]
        exact r4

/-- C23 on the strings of `dstr_test`: in "abcXXdefXXghi", "XX" replaced by
"==" gives "abc==def==ghi" (equal lengths), in which "==" replaced by "-" gives
"abc-def-ghi" (shorter), in which "-" replaced by "[1]" gives "abc[1]def[1]ghi"
(longer). -/
theorem search_and_replace_witness :
    (∃ r, dstr_replace 13 (dstr_new_cstr "abcXXdefXXghi".toList ex_heap).1 "XX".toList
        "==".toList ex_heap = some r ∧
      dstr_content r.1 = "abc==def==ghi".toList ∧ r.1.len_cur = 13) ∧
    (∃ r, dstr_replace 13 (dstr_new_cstr "abc==def==ghi".toList ex_heap).1 "==".toList
        "-".toList ex_heap = some r ∧
      dstr_content r.1 = "abc-def-ghi".toList ∧ r.1.len_cur = 11) ∧
    (∃ r, dstr_replace 11 (dstr_new_cstr "abc-def-ghi".toList ex_heap).1 "-".toList
        "[1]".toList ex_heap = some r ∧
      dstr_content r.1 = "abc[1]def[1]ghi".toList ∧ r.1.len_cur = 15) := by
  refine ⟨?_, ?_, ?_⟩
  · obtain ⟨r, h1, h2, h3, _⟩ := search_and_replace 13
      (dstr_new_cstr "abcXXdefXXghi".toList ex_heap).1 "XX".toList "==".toList ex_heap
      (by decide) (fun _ => rfl) (by decide) (by decide) (by decide) (by decide)
    have hc : replace_all "XX".toList "==".toList
        (dstr_content (dstr_new_cstr "abcXXdefXXghi".toList ex_heap).1) =
        "abc==def==ghi".toList := by decide
    rw [hc] at h2 h3
    exact ⟨r, h1, h2, h3⟩
  · obtain ⟨r, h1, h2, h3, _⟩ := search_and_replace 13
      (dstr_new_cstr "abc==def==ghi".toList ex_heap).1 "==".toList "-".toList ex_heap
      (by decide) (fun _ => rfl) (by decide) (by decide) (by decide) (by decide)
    have hc : replace_all "==".toList "-".toList
        (dstr_content (dstr_new_cstr "abc==def==ghi".toList ex_heap).1) =
        "abc-def-ghi".toList := by decide
    rw [hc] at h2 h3
    exact ⟨r, h1, h2, h3⟩
  · obtain ⟨r, h1, h2, h3, _⟩ := search_and_replace 11
      (dstr_new_cstr "abc-def-ghi".toList ex_heap).1 "-".toList "[1]".toList ex_heap
      (by decide) (fun _ => rfl) (by decide) (by decide) (by decide) (by decide)
    have hc : replace_all "-".toList "[1]".toList
        (dstr_content (dstr_new_cstr "abc-def-ghi".toList ex_heap).1) =
        "abc[1]def[1]ghi".toList := by decide
    rw [hc] at h2 h3
    exact ⟨r, h1, h2, h3⟩

end Replace

end Dstr

/-! ## The end of the countdown inside a block -/

namespace Mix

section Snap

variable {α : Type} [LinearOrderedField α]

/-- C28 does not hold on a silent mixer: after `list 0 1` on the mixer
`ex_silent` (master 0, ramp of 4 samples) the countdown is 4, and a block of
8 samples returns with the countdown still at 4, not at the sentinel, and the
gain of channel 0 at 0, not at its target 1: the call returns after it has
cleared the outputs. -/
theorem snap_skipped_when_silent :
    ∃ x' r, mix_list ex_silent [.A_LONG 0, .A_LONG 1] = some x' ∧ x'.cntd = 4 ∧
      mix_perform64 x' ex_ins ex_outs 8 = some r ∧ r.x.cntd = 4 ∧ r.x.cntd ≠ CNTD_CONST ∧
      r.x.gains 0 = 0 ∧ r.x.gains_targ 0 = 1 := by
  refine ⟨_, _, mix_list_cons ex_silent _ _, rfl,
    mix_perform64_silence _ ex_ins ex_outs 8 rfl (by simp [atom_getfloat]), rfl, ?_, rfl, ?_⟩
  · simp [ex_silent, CNTD_CONST]
  · simp [ex_silent, atom_getfloat]

/-- C28, as the source has it. For every state with a ramp in progress, of
countdown `c >= 1`, in which master and its target are not both 0, and every
block of `n > c` samples (`n` a `t_uint32`, 1 or 2 buses), `mix_perform64`
returns with the countdown at the sentinel `CNTD_CONST`, and with master and
the gain of every channel equal to their targets, which the call does not
change: the end of the countdown is processed in the call in which the
countdown reaches zero. -/
theorem snap_at_countdown_zero (x : t_mix α) (ins outs : t_bufs α) (n : Nat)
    (hc : x.chan_out_cnt = 1 ∨ x.chan_out_cnt = 2) (hn : n < 4294967296)
    (hns : ¬ (x.master = 0 ∧ x.master_targ = 0))
    (_h1 : 1 ≤ x.cntd) (hlt : x.cntd < n) :
    ∃ r, mix_perform64 x ins outs n = some r ∧ r.x.cntd = CNTD_CONST ∧
      r.x.master = x.master_targ ∧ r.x.master_targ = x.master_targ ∧
      ∀ i, i < x.chan_in_cnt → r.x.gains i = x.gains_targ i ∧
        r.x.gains_targ i = x.gains_targ i := by
  have hne : x.cntd ≠ CNTD_CONST := by
    unfold CNTD_CONST
    omega
  refine ⟨_, mix_perform64_ramp_end x hc ins outs n hn hns hne hlt, rfl, rfl, rfl, ?_⟩
  intro i hi
  simp only [hi, if_true, and_self]

/-- C28 on the mixer `ex_unity` after `master 1/2`, in a ramp of 10 samples:
a block of 15 samples returns with the countdown at the sentinel, master at
1/2 and the channel gains at their targets 1 and 0. -/
theorem snap_at_countdown_zero_witness :
    ∃ r, mix_perform64 (mix_master ex_unity (1 / 2)) ex_ins ex_outs 15 = some r ∧
      r.x.cntd = CNTD_CONST ∧ r.x.master = 1 / 2 ∧ r.x.gains 0 = 1 ∧ r.x.gains 1 = 0 := by
  obtain ⟨r, hr, h1, h2, _, h4⟩ := snap_at_countdown_zero (mix_master ex_unity (1 / 2))
    ex_ins ex_outs 15 (Or.inl rfl) (by norm_num) (by simp [mix_master, ex_unity])
    (by simp [mix_master, ex_unity]) (by simp [mix_master, ex_unity])
  refine ⟨r, hr, h1, ?_, ?_, ?_⟩
  · rw [h2]
    simp [mix_master]
  · rw [(h4 0 (by simp [mix_master, ex_unity])).1]
    simp [mix_master, ex_unity]
  · rw [(h4 1 (by simp [mix_master, ex_unity])).1]
    simp [mix_master, ex_unity]

end Snap

end Mix

/-! ## The NULL dstring under the other functions -/

namespace Dstr

section NullState

/-- The macro `DSTR_NOT_NULL` on the NULL dstring. -/
theorem not_null_null : DSTR_NOT_NULL NULL_DSTR = false := by decide

/-- The macro `DSTR_IS_NULL` on the NULL dstring. -/
theorem is_null_null : DSTR_IS_NULL NULL_DSTR = true := by decide

/-- The function `_dstr_cpy` leaves the NULL dstring as it is, and requests no
allocation. -/
theorem dstr_cpy_null (src : Nat → Char) (len : Nat) (heap : t_heap) (hlen : len < 4294967296) :
    _dstr_cpy NULL_DSTR NULL_DSTR.len_cur src len heap = (NULL_DSTR, heap) := by
  have hg : _dstr_grow NULL_DSTR NULL_DSTR.len_cur len heap = (len, NULL_DSTR, heap) := by
    unfold _dstr_grow
    have : u32 (NULL_DSTR.len_max + 4294967296 - NULL_DSTR.len_cur) = 4294967295 := by
      simp only [NULL_DSTR, DSTR_LEN_ERR, u32]
    rw [this, if_neg (by omega)]
  unfold _dstr_cpy
  simp only [hg, not_null_null, Bool.false_eq_true, if_false]

/-- The functions which reallocate leave the NULL dstring as it is. -/
theorem dstr_realloc_null (len : Nat) (heap : t_heap) :
    _dstr_realloc NULL_DSTR len heap = (NULL_DSTR, heap) := by
  unfold _dstr_realloc
  rw [if_pos is_null_null]

/-- The static array holds NUL characters only. -/
theorem null_cstr_update : Function.update NULL_CSTR 0 NUL = NULL_CSTR := by
  funext i
  by_cases h : i = 0
  · rw [h, Function.update_same]
    rfl
  · rw [Function.update_noteq h]

/-- The loop the join functions share leaves the NULL dstring as it is when
the concatenation of each element does. -/
theorem join_loop_null (cat : t_dstr_struct → Nat → t_heap → Option (t_dstr_struct × t_heap))
    (argc : Int) (sep : List Char) (heap : t_heap)
    (hcat : ∀ i, cat NULL_DSTR i heap = some (NULL_DSTR, heap)) :
    join_loop cat NULL_DSTR argc sep heap = some (NULL_DSTR, heap) := by
  have hsep : dstr_cat_cstr NULL_DSTR sep heap = (NULL_DSTR, heap) := by
    unfold dstr_cat_cstr
    exact dstr_cpy_null _ _ heap (by unfold strnlen DSTR_LEN_MAX; omega)
  have h0 : (if argc > 0 then cat NULL_DSTR 0 heap else some (NULL_DSTR, heap)) =
      some (NULL_DSTR, heap) := by
    split_ifs
    · exact hcat 0
    · rfl
  unfold join_loop
  simp only [h0]
  rcases Nat.lt_or_ge argc.toNat 1 with h | h
  · rw [for_loop_of_le (by omega)]
  · refine for_loop_induct h _ _ (fun _ st => st = some (NULL_DSTR, heap)) rfl ?_
    intro k st _ _ hst
    rw [hst]
    simp only [hsep]
    exact hcat k

/-- The function `dstr_cat_float` leaves the NULL dstring as it is. -/
theorem dstr_cat_float_null {α : Type} (io : t_stdio α) (v : α) (prec : Nat) (heap : t_heap) :
    dstr_cat_float io NULL_DSTR v prec heap = (NULL_DSTR, heap) := by
  unfold dstr_cat_float
  simp only
  split_ifs with h25
  · exact dstr_cpy_null _ _ heap (by unfold DSTR_F64_LEN_MAX at h25; omega)
  · unfold dstr_cat_printf_f
    simp only
    split_ifs with h512 hnn
    · exact dstr_cpy_null _ _ heap (by unfold DSTR_PRINTF_TRY_LEN at h512; omega)
    · exfalso
      have hg : _dstr_grow NULL_DSTR NULL_DSTR.len_cur (u32 (io.printf_f prec v).length) heap =
          (u32 (io.printf_f prec v).length, NULL_DSTR, heap) := by
        unfold _dstr_grow
        have : u32 (NULL_DSTR.len_max + 4294967296 - NULL_DSTR.len_cur) = 4294967295 := by
          simp only [NULL_DSTR, DSTR_LEN_ERR, u32]
        rw [this, if_neg (by unfold u32; omega)]
      rw [hg, not_null_null] at hnn
      cases hnn
    · have hg : _dstr_grow NULL_DSTR NULL_DSTR.len_cur (u32 (io.printf_f prec v).length) heap =
          (u32 (io.printf_f prec v).length, NULL_DSTR, heap) := by
        unfold _dstr_grow
        have : u32 (NULL_DSTR.len_max + 4294967296 - NULL_DSTR.len_cur) = 4294967295 := by
          simp only [NULL_DSTR, DSTR_LEN_ERR, u32]
        rw [this, if_neg (by unfold u32; omega)]
      rw [hg]

/-- The function `dstr_cat_int` leaves the NULL dstring as it is. -/
theorem dstr_cat_int_null (v : Int) (heap : t_heap)
    (hlo : -9223372036854775808 ≤ v) (hhi : v ≤ 9223372036854775807) :
    dstr_cat_int NULL_DSTR v heap = some (NULL_DSTR, heap) := by
  obtain ⟨str', len, digits, h1, _, h3, h4, _, _⟩ := dstr_int_to_cstr_spec NULL_CSTR v hlo hhi
  unfold dstr_cat_int
  rw [h1]
  simp only
  rw [dstr_cpy_null _ _ heap (by rw [h3]; split_ifs <;> omega)]

/-- The loop of `dstr_update` stops at once on the static array. -/
theorem dstr_update_len_null (m fuel : Nat) : dstr_update_len NULL_CSTR m fuel 0 = 0 := by
  cases fuel with
  | zero => rfl
  | succ fuel => simp [dstr_update_len, NULL_CSTR]

/-- The search of a string which is not empty fails in the static array. -/
theorem strstr_null (s : List Char) (hs : s ≠ []) : strstr NULL_CSTR 1 0 s = none := by
  simp [strstr, c_string, NULL_CSTR, strstr_list, hs]

/-- A loop whose test fails at once ends in its first state. -/
theorem while_some_none {σ τ : Type} (test : σ → Option τ) (body : σ → τ → σ) (fuel : Nat)
    (st : σ) (h : test st = none) : while_some test body fuel st = some st := by
  cases fuel with
  | zero => rw [while_some, h]
  | succ fuel => rw [while_some, h]

/-- The function `dstr_replace` leaves the NULL dstring as it is, and
returns, unless the search string and the replace string are both empty. -/
theorem dstr_replace_null (fuel : Nat) (search replace : List Char) (heap : t_heap)
    (hsr : ¬ (search = [] ∧ replace = [])) :
    dstr_replace fuel NULL_DSTR search replace heap = some (NULL_DSTR, heap) := by
  have hsz : dstr_size NULL_DSTR = 1 := by
    unfold dstr_size
    rw [if_pos is_null_null]
  have hmm : memmove NULL_CSTR 0 0 0 = NULL_CSTR := by
    funext i
    simp [memmove]
  unfold dstr_replace
  simp only [hsz]
  by_cases hlt : strnlen replace DSTR_LEN_MAX < strnlen search DSTR_LEN_MAX
  · have hs : search ≠ [] := by
      intro h
      rw [h] at hlt
      simp [strnlen] at hlt
    have htest : replace_shorter_test 1 search (NULL_DSTR.cstr, 0, 0) = none :=
      strstr_null search hs
    rw [if_pos hlt, while_some_none _ _ _ _ htest]
    have h1 : u32 (NULL_DSTR.len_cur + 4294967296 - u32 0) = 0 := by
      simp only [NULL_DSTR, u32]
    have h2 : u32 (u32 0 + 0) = 0 := by simp only [u32]
    simp only [h1, h2]
    rw [show NULL_DSTR.cstr = NULL_CSTR from rfl, hmm, null_cstr_update]
    rfl
  · rw [if_neg hlt]
    by_cases heq : strnlen replace DSTR_LEN_MAX = strnlen search DSTR_LEN_MAX
    · have hs : search ≠ [] := by
        intro h
        rw [h] at heq
        apply hsr
        refine ⟨h, ?_⟩
        have : replace.length = 0 := by
          unfold strnlen DSTR_LEN_MAX at heq
          simp only [List.length_nil] at heq
          omega
        exact List.eq_nil_of_length_eq_zero this
      have htest : replace_equal_test 1 search (NULL_DSTR.cstr, 0) = none :=
        strstr_null search hs
      rw [if_pos heq, while_some_none _ _ _ _ htest]
    · rw [if_neg heq]
      have ha : ∀ len, _dstr_alloc_new_cstr NULL_DSTR len heap = (NULL_DSTR, heap) := by
        intro len
        unfold _dstr_alloc_new_cstr
        rw [if_pos is_null_null]
      simp only [ha, is_null_null, if_true]

/-- The remaining cases of C21. The NULL dstring is left as it is, with no
allocation requested, by `dstr_cat_cstr`, `dstr_cat_dstr`, `dstr_cat_bin`,
`dstr_cat_int`, `dstr_clip`, `dstr_update`, `dstr_fit`, `dstr_shrink`,
`dstr_resize`, `dstr_cat_join` and `dstr_clear`, for every argument (the lengths
being `t_dstr_int` values and the integers `t_atom_long` values), and by
`dstr_replace` unless the search string and the replace string are both
empty. -/
theorem null_absorbing_others {α : Type} [LinearOrderedField α] [FloorRing α] (io : t_stdio α)
    (s : List Char) (src : t_dstr_struct) (bin : Nat → Char) (len : Nat) (v : Int) (argc : Int)
    (argv : List (t_atom α)) (sep search replace : List Char) (fuel : Nat) (heap : t_heap)
    (hsrc : src.len_cur < 4294967296) (hlen : len < 4294967296)
    (hlo : -9223372036854775808 ≤ v) (hhi : v ≤ 9223372036854775807)
    (hargv : ∀ i w, argv_at argv i = .A_LONG w →
      -9223372036854775808 ≤ w ∧ w ≤ 9223372036854775807)
    (hsr : ¬ (search = [] ∧ replace = [])) :
    dstr_cat_cstr NULL_DSTR s heap = (NULL_DSTR, heap) ∧
    dstr_cat_dstr NULL_DSTR src heap = (NULL_DSTR, heap) ∧
    dstr_cat_bin NULL_DSTR bin len heap = (NULL_DSTR, heap) ∧
    dstr_cat_int NULL_DSTR v heap = some (NULL_DSTR, heap) ∧
    dstr_clip NULL_DSTR len = NULL_DSTR ∧
    dstr_update NULL_DSTR = NULL_DSTR ∧
    dstr_fit NULL_DSTR heap = (NULL_DSTR, heap) ∧
    dstr_shrink NULL_DSTR heap = (NULL_DSTR, heap) ∧
    dstr_resize NULL_DSTR len heap = (NULL_DSTR, heap) ∧
    dstr_cat_join io NULL_DSTR argc argv sep heap = some (NULL_DSTR, heap) ∧
    dstr_replace fuel NULL_DSTR search replace heap = some (NULL_DSTR, heap) ∧
    dstr_clear NULL_DSTR = NULL_DSTR := by
  have hcstr : ∀ s : List Char, dstr_cat_cstr NULL_DSTR s heap = (NULL_DSTR, heap) := by
    intro s
    unfold dstr_cat_cstr
    exact dstr_cpy_null _ _ heap (by unfold strnlen DSTR_LEN_MAX; omega)
  refine ⟨hcstr s, ?_, dstr_cpy_null _ _ heap hlen, dstr_cat_int_null v heap hlo hhi, ?_, ?_,
    dstr_realloc_null _ heap, dstr_realloc_null _ heap, dstr_realloc_null _ heap, ?_,
    dstr_replace_null fuel search replace heap hsr, ?_⟩
  · unfold dstr_cat_dstr
    split_ifs
    · rfl
    · exact dstr_cpy_null _ _ heap hsrc
  · unfold dstr_clip
    rw [if_pos (show len ≥ NULL_DSTR.len_cur from Nat.zero_le len)]
  · unfold dstr_update
    rw [show NULL_DSTR.cstr = NULL_CSTR from rfl, dstr_update_len_null]
    rfl
  · unfold dstr_cat_join
    apply join_loop_null
    intro i
    cases ha : argv_at argv i with
    | A_LONG w =>
      obtain ⟨h1, h2⟩ := hargv i w ha
      exact dstr_cat_int_null w heap h1 h2
    | A_FLOAT w =>
      show some (dstr_cat_float io NULL_DSTR w 6 heap) = _
      rw [dstr_cat_float_null]
    | A_SYM w =>
      show some (dstr_cat_cstr NULL_DSTR w.toList heap) = _
      rw [hcstr]
  · unfold dstr_clear
    rw [show NULL_DSTR.cstr = NULL_CSTR from rfl, null_cstr_update]
    rfl

end NullState

end Dstr

/-! ## The silent mixer and the idle mixer -/

namespace Mix

section Frozen

variable {α : Type} [LinearOrderedField α]

/-- C37. The silence short-circuit freezes the ramp: when master and its
target are both 0, `mix_perform64` returns with the object as it was, for
every block length and every countdown: the countdown is not decremented, the
channel gains and master keep their values, and no bang is sent. -/
theorem silence_freezes_ramp (x : t_mix α) (ins outs : t_bufs α) (n : Nat)
    (hm : x.master = 0) (ht : x.master_targ = 0) :
    ∃ r, mix_perform64 x ins outs n = some r ∧ r.x = x ∧ r.x.cntd = x.cntd ∧
      r.x.gains = x.gains ∧ r.x.master = x.master ∧ r.bangs = 0 :=
  ⟨_, mix_perform64_silence x ins outs n hm ht, rfl, rfl, rfl, rfl, rfl⟩

/-- C37 on the silent mixer `ex_silent` with a ramp of the channel gains
towards 1 pending, 3 samples before its end: a block of 8 samples leaves the
countdown at 3 and the channel gains at 0. -/
theorem silence_freezes_ramp_witness :
    (({ ex_silent with cntd := 3, gains_targ := fun _ => 1 } : t_mix ℚ).master = 0 ∧
      ({ ex_silent with cntd := 3, gains_targ := fun _ => 1 } : t_mix ℚ).master_targ = 0) ∧
    ∃ r, mix_perform64 ({ ex_silent with cntd := 3, gains_targ := fun _ => 1 } : t_mix ℚ)
        ex_ins ex_outs 8 = some r ∧
      r.x = ({ ex_silent with cntd := 3, gains_targ := fun _ => 1 } : t_mix ℚ) ∧
      r.x.cntd = 3 ∧ r.x.gains = (fun _ => 0) ∧ r.x.master = 0 ∧ r.bangs = 0 :=
  ⟨⟨rfl, rfl⟩, silence_freezes_ramp _ ex_ins ex_outs 8 rfl rfl⟩

/-- The number of output buses `mix_new` sets is 1 or 2. -/
theorem mix_new_chan_out [FloorRing α] (argv : List (t_atom α)) (sr : α) (x0 : t_mix α)
    (h0 : mix_new argv sr = some x0) : x0.chan_out_cnt = 1 ∨ x0.chan_out_cnt = 2 := by
  unfold mix_new at h0
  obtain ⟨f, k, _, rfl⟩ := mix_set_ramp_some _ x0 _ sr h0
  · simp only
    split_ifs with hb
    · simp only [Bool.and_eq_true, decide_eq_true_eq, args_is_long, is_between_l] at hb
      obtain ⟨_, _, h1, h2⟩ := hb
      omega
    · exact Or.inl rfl

/-- A message or a block leaves the number of output buses and the ramp
duration as they are. -/
theorem mix_call_ramp_samp [FloorRing α] (m : t_libm α) (x x' : t_mix α) (c : t_call α)
    (hc : mix_call m x c = some x')
    (h1 : ∀ a s, c ≠ .set_ramp a s) (h2 : ∀ s, c ≠ .dsp64 s) :
    x'.chan_out_cnt = x.chan_out_cnt ∧ x'.ramp_samp = x.ramp_samp := by
  cases c with
  | master master =>
    simp only [mix_call, Option.some.injEq] at hc
    subst hc
    exact ⟨rfl, rfl⟩
  | pan master pan =>
    simp only [mix_call, Option.some.injEq] at hc
    subst hc
    exact ⟨rfl, rfl⟩
  | list argv =>
    simp only [mix_call, mix_list] at hc
    split_ifs at hc
    cases hc
    exact ⟨rfl, rfl⟩
  | adjust argv =>
    simp only [mix_call, Option.some.injEq] at hc
    subst hc
    unfold mix_adjust
    simp only
    split_ifs <;> exact ⟨rfl, rfl⟩
  | adjust_one argv =>
    simp only [mix_call, Option.some.injEq] at hc
    subst hc
    unfold mix_adjust_one
    simp only
    split_ifs <;> exact ⟨rfl, rfl⟩
  | set_ramp argv sr => exact absurd rfl (h1 argv sr)
  | dsp64 samplerate => exact absurd rfl (h2 samplerate)
  | perform64 ins outs n =>
    simp only [mix_call, Option.map_eq_some'] at hc
    obtain ⟨r, hr, hx⟩ := hc
    subst hx
    have hf := mix_perform64_frame x ins outs n r hr
    exact ⟨hf.2.1, hf.2.2.2.2.2.2.2⟩

/-- Messages and blocks, on an object whose ramp duration is not the value of
the sentinel: the ramp duration and the number of buses are kept, and the
object is settled whenever it is idle, if it was so before the calls. -/
theorem mix_calls_idle_settled [FloorRing α] (m : t_libm α) (cs : List (t_call α)) :
    ∀ (x0 x : t_mix α), mix_calls m x0 cs = some x →
      (∀ c ∈ cs, (∀ a s, c ≠ .set_ramp a s) ∧ ∀ s, c ≠ .dsp64 s) →
      x0.cntd < 4294967296 → x0.ramp_samp < 4294967296 → x0.ramp_samp ≠ CNTD_CONST →
      (x0.cntd = CNTD_CONST →
        x0.master = x0.master_targ ∧
          ∀ i, i < x0.chan_in_cnt → x0.gains i = x0.gains_targ i) →
      x.chan_out_cnt = x0.chan_out_cnt ∧ x.ramp_samp = x0.ramp_samp ∧
      (x.cntd = CNTD_CONST →
        x.master = x.master_targ ∧ ∀ i, i < x.chan_in_cnt → x.gains i = x.gains_targ i) := by
  induction cs with
  | nil =>
    intro x0 x h _ _ _ _ hI
    simp only [mix_calls, Option.some.injEq] at h
    subst h; exact ⟨rfl, rfl, hI⟩
  | cons c cs ih =>
    intro x0 x h hcs hc hr hr0 hI
    simp only [mix_calls] at h
    split at h
    · cases h
    · rename_i x1 h1
      have hcc := hcs c (List.mem_cons_self c cs)
      obtain ⟨f1, f2⟩ := mix_call_ramp_samp m x0 x1 c h1 hcc.1 hcc.2
      obtain ⟨k1, k2, k3, k4⟩ := mix_call_cntd m x0 x1 c h1 hc hr
      obtain ⟨g1, g2, g3⟩ := ih x1 x h (fun c' hc' => hcs c' (List.mem_cons_of_mem c hc'))
        k1 k2 (by rw [f2]; exact hr0) (by
          intro hcn
          rcases k4 with (h5 | h5) | h5 | h5
          · subst h5; exact hI hcn
          · obtain ⟨e1, e2, e3, e4, e5⟩ := h5
            rw [e1] at hcn
            rw [e2, e3, e4, e5, k3]
            exact hI hcn
          · exact absurd (h5.1 ▸ hcn) hr0
          · obtain ⟨_, e3, e5, h6 | h6⟩ := h5
            · rw [e3, e5, k3]
              exact ⟨h6.2.1, h6.2.2⟩
            · exact absurd hcn h6.1)
      exact ⟨g1.trans f1, g2.trans f2, g3⟩

/-- C36. Idle implies settled: in every state reached from `mix_new` by a
sequence of calls of `mix_master`, `mix_pan`, `mix_list`, `mix_adjust`,
`mix_adjust_one` and `mix_perform64`, the ramp duration not being `2^32 - 1`,
`cntd == CNTD_CONST` implies `master == master_targ` and
`gains[i] == gains_targ[i]` for every channel `i`; a block is then rendered
by the steady-state part with the targets as gains, and leaves the object as
it is. -/
theorem idle_implies_settled [FloorRing α] (m : t_libm α) (argv : List (t_atom α)) (sr : α)
    (x0 x : t_mix α) (cs : List (t_call α))
    (h0 : mix_new argv sr = some x0) (h : mix_calls m x0 cs = some x)
    (hcs : ∀ c ∈ cs, (∀ a s, c ≠ .set_ramp a s) ∧ ∀ s, c ≠ .dsp64 s)
    (hr : x0.ramp_samp ≠ CNTD_CONST) (hidle : x.cntd = CNTD_CONST) :
    x.master = x.master_targ ∧ (∀ i, i < x.chan_in_cnt → x.gains i = x.gains_targ i) ∧
    ∀ (ins outs : t_bufs α) (n : Nat), n < 4294967296 →
      ∃ r, mix_perform64 x ins outs n = some r ∧ r.x = x ∧
        ∀ ch s, ch < x.chan_out_cnt → s < n →
          r.outs ch s = ∑ i in Finset.range x.chan_in_cnt,
            (x.master_targ * x.gains_adjust i * x.gains_targ i)
              * ins (ch * x.chan_in_cnt + i) s := by
  obtain ⟨i1, i2, i3, i4⟩ := mix_new_idle argv sr x0 h0
  obtain ⟨g1, _, g3⟩ := mix_calls_idle_settled m cs x0 x h hcs
    (by rw [i1]; simp [CNTD_CONST]) i2 hr (fun _ => ⟨i3, fun i _ => i4 i⟩)
  obtain ⟨s1, s2⟩ := g3 hidle
  have hco : x.chan_out_cnt = 1 ∨ x.chan_out_cnt = 2 := by
    rw [g1]; exact mix_new_chan_out argv sr x0 h0
  refine ⟨s1, s2, ?_⟩
  intro ins outs n hn
  refine ⟨_, mix_perform64_idle x hco ins outs n hn hidle, rfl, ?_⟩
  intro ch s hch hs
  simp only [hch, hs, and_self, if_true]
  refine Finset.sum_congr rfl ?_
  intro i hi
  rw [s1, s2 i (Finset.mem_range.mp hi)]

/-- C36 on the mixer `mix_new` returns at 44.1 kHz, after `master 0.5` and a
block of 2000 samples, which outlasts the ramp of 1323 samples: the countdown
is the sentinel, master and the channel gains equal their targets, and the
next block is rendered with the targets. -/
theorem idle_implies_settled_witness :
    ∃ x0 x, mix_new ([] : List (t_atom ℚ)) 44100 = some x0 ∧
      mix_calls ⟨fun v => v, fun v => v, fun v => v⟩ x0
        [.master (1 / 2), .perform64 ex_ins ex_outs 2000] = some x ∧
      x.cntd = CNTD_CONST ∧ x.master = x.master_targ ∧
      (∀ i, i < x.chan_in_cnt → x.gains i = x.gains_targ i) ∧
      ∀ (ins outs : t_bufs ℚ) (n : Nat), n < 4294967296 →
        ∃ r, mix_perform64 x ins outs n = some r ∧ r.x = x ∧
          ∀ ch s, ch < x.chan_out_cnt → s < n →
            r.outs ch s = ∑ i in Finset.range x.chan_in_cnt,
              (x.master_targ * x.gains_adjust i * x.gains_targ i)
                * ins (ch * x.chan_in_cnt + i) s := by
  obtain ⟨x0, hx0, _, hco, hm, _, _, _, _, _, _, hr⟩ :=
    mix_new_spec ([] : List (t_atom ℚ)) 44100 (by norm_num) (by norm_num [RAMP_DEF])
  have hf : ⌊((RAMP_DEF : Nat) : ℚ) * 44100 / 1000⌋₊ = 1323 := by
    rw [Nat.floor_eq_iff (by norm_num [RAMP_DEF])]
    constructor <;> norm_num [RAMP_DEF]
  have hx1 := mix_perform64_ramp_end (mix_master x0 (1 / 2))
    (Or.inl (by simpa [mix_master] using hco)) ex_ins ex_outs 2000 (by norm_num)
    (by simp [mix_master, hm]) (by simp [mix_master, hr, hf, CNTD_CONST])
    (by simp [mix_master, hr, hf])
  have hcs : mix_calls ⟨fun v => v, fun v => v, fun v => v⟩ x0
      [.master (1 / 2), .perform64 ex_ins ex_outs 2000] =
      (mix_perform64 (mix_master x0 (1 / 2)) ex_ins ex_outs 2000).map (fun r => r.x) := by
    simp only [mix_calls, mix_call]
    cases mix_perform64 (mix_master x0 (1 / 2)) ex_ins ex_outs 2000 <;> rfl
  rw [hx1, Option.map_some'] at hcs
  have h := idle_implies_settled ⟨fun v => v, fun v => v, fun v => v⟩ [] 44100 x0 _
    [.master (1 / 2), .perform64 ex_ins ex_outs 2000] hx0 hcs (by simp)
    (by rw [hr, hf]; simp [CNTD_CONST]) rfl
  exact ⟨x0, _, hx0, hcs, rfl, h.1, h.2.1, h.2.2⟩

end Frozen

end Mix

/-! ## A ramp of no sample, and the gain inside a ramp -/

namespace Mix

section Inside

variable {α : Type} [LinearOrderedField α]

/-- Outside silence and the steady state, `mix_perform64` divides by the
countdown. -/
theorem mix_perform64_divisors_mem (x : t_mix α)
    (hns : ¬ (x.master = 0 ∧ x.master_targ = 0)) (hne : x.cntd ≠ CNTD_CONST) :
    x.cntd ∈ mix_perform64_divisors x := by
  unfold mix_perform64_divisors
  simp [hns, hne]

/-- C31 on the mixer `ex_instant`, whose ramp duration is 0 samples, after
`list 1 0 1`: the countdown is 0, and a block of 4 samples, which applies the
targets and sends the bang, enters the ramped part and evaluates there three
divisions by the countdown, one for each of the two input channels and one
for master: the divisor of each is 0. -/
theorem zero_ramp_divides_by_zero :
    ∃ x r, mix_list ex_instant [.A_LONG 1, .A_LONG 0, .A_LONG 1] = some x ∧ x.cntd = 0 ∧
      mix_perform64_divisors x = [0, 0, 0] ∧
      mix_perform64 x ex_ins ex_outs 4 = some r ∧
      r.x.cntd = CNTD_CONST ∧ r.x.master = x.master_targ ∧ r.bangs = 1 := by
  refine ⟨_, _, rfl, rfl, ?_, mix_perform64_ramp_end _ (Or.inl rfl) ex_ins ex_outs 4
    (by norm_num) ?_ ?_ ?_, rfl, rfl, rfl⟩
  · simp [mix_perform64_divisors, ex_instant, CNTD_CONST, List.replicate]
  · simp [ex_instant]
  · simp [ex_instant, CNTD_CONST]
  · simp [ex_instant]

/-- C32 does not hold when master and a channel gain ramp together: on the
mixer `ex_unity` after `list 0 0`, master and the gain of the first channel
both ramp from 1 to 0 in 10 samples; at the sample 5 of a block of 10 samples
the output is 3/2, a quarter of the input 6, where the linear interpolation
of the effective gain between 1 and 0 gives 3, half of the input. -/
theorem effective_gain_not_linear :
    ∃ x r, mix_list ex_unity [.A_LONG 0, .A_LONG 0] = some x ∧ x.cntd = 10 ∧
      mix_perform64 x ex_ins ex_outs 10 = some r ∧
      r.outs 0 5 = 3 / 2 ∧
      (∑ i in Finset.range x.chan_in_cnt,
        (x.master * x.gains_adjust i * x.gains i
          + 5 * (x.master_targ * x.gains_adjust i * x.gains_targ i
            - x.master * x.gains_adjust i * x.gains i) / 10)
          * ex_ins (0 * x.chan_in_cnt + i) 5) = 3 ∧
      r.outs 0 5 ≠
        ∑ i in Finset.range x.chan_in_cnt,
          (x.master * x.gains_adjust i * x.gains i
            + 5 * (x.master_targ * x.gains_adjust i * x.gains_targ i
              - x.master * x.gains_adjust i * x.gains i) / 10)
            * ex_ins (0 * x.chan_in_cnt + i) 5 := by
  refine ⟨_, _, rfl, rfl, mix_perform64_ramp_block _ (Or.inl rfl) ?_ ex_ins ex_outs 10
    ?_ ?_ ?_ ?_ (Or.inl (by norm_num)), ?_, ?_, ?_⟩
  · simp [ex_unity]
  · simp [ex_unity]
  · simp [ex_unity, CNTD_CONST]
  · simp [ex_unity]
  · simp [ex_unity]
  · simp [ex_unity, ex_ins, Finset.sum_range_succ, for_loop, for_loop_aux, atom_getfloat,
      argv_at, Function.update]
    norm_num
  · simp [ex_unity, ex_ins, Finset.sum_range_succ, for_loop, for_loop_aux, atom_getfloat,
      argv_at, Function.update]
    norm_num
  · simp [ex_unity, ex_ins, Finset.sum_range_succ, for_loop, for_loop_aux, atom_getfloat,
      argv_at, Function.update]
    norm_num

/-- C32, as the source has it. In a ramp of countdown `c >= 1`, at every
sample `s < min(c, n)` of a block of `n` samples, every output bus is the sum
over the channels `i` of the input multiplied by
`(master + s * (master_targ - master) / c) * gains_adjust[i] *
(gains[i] + s * (gains_targ[i] - gains[i]) / c)`, the product of the
interpolated master and the interpolated channel gain; for a channel such
that `master == master_targ` or `gains[i] == gains_targ[i]` this factor is
`E0 + s * (E1 - E0) / c`, where `E0 = master * gains_adjust[i] * gains[i]`
and `E1 = master_targ * gains_adjust[i] * gains_targ[i]`. -/
theorem effective_gain_in_ramp (x : t_mix α)
    (hc : x.chan_out_cnt = 1 ∨ x.chan_out_cnt = 2) (hcntd : x.cntd < 4294967296)
    (ins outs : t_bufs α) (n : Nat) (hn : n < 4294967296)
    (hne : x.cntd ≠ CNTD_CONST) (hc1 : 1 ≤ x.cntd) (s : Nat) (hs : s < min x.cntd n) :
    ∃ r, mix_perform64 x ins outs n = some r ∧
      (∀ ch, ch < x.chan_out_cnt →
        r.outs ch s = ∑ i in Finset.range x.chan_in_cnt,
          ((x.master + (s : α) * ((x.master_targ - x.master) / (x.cntd : α)))
              * x.gains_adjust i
              * (x.gains i + (s : α) * ((x.gains_targ i - x.gains i) / (x.cntd : α))))
            * ins (ch * x.chan_in_cnt + i) s) ∧
      ∀ i, x.master = x.master_targ ∨ x.gains i = x.gains_targ i →
        (x.master + (s : α) * ((x.master_targ - x.master) / (x.cntd : α)))
            * x.gains_adjust i
            * (x.gains i + (s : α) * ((x.gains_targ i - x.gains i) / (x.cntd : α))) =
          x.master * x.gains_adjust i * x.gains i
            + (s : α) * (x.master_targ * x.gains_adjust i * x.gains_targ i
              - x.master * x.gains_adjust i * x.gains i) / (x.cntd : α) := by
  have hsc : s < x.cntd := lt_of_lt_of_le hs (min_le_left _ _)
  have hsn : s < n := lt_of_lt_of_le hs (min_le_right _ _)
  have hlin : ∀ i, x.master = x.master_targ ∨ x.gains i = x.gains_targ i →
      (x.master + (s : α) * ((x.master_targ - x.master) / (x.cntd : α)))
          * x.gains_adjust i
          * (x.gains i + (s : α) * ((x.gains_targ i - x.gains i) / (x.cntd : α))) =
        x.master * x.gains_adjust i * x.gains i
          + (s : α) * (x.master_targ * x.gains_adjust i * x.gains_targ i
            - x.master * x.gains_adjust i * x.gains i) / (x.cntd : α) := by
    intro i hi
    rcases hi with hi | hi
    · rw [← hi]; ring
    · rw [← hi]; ring
  have hsum : ∀ ch,
      (∑ i in Finset.range x.chan_in_cnt,
        (x.gains i + (s : α) * ((x.gains_targ i - x.gains i) / (x.cntd : α)))
          * x.gains_adjust i * ins (ch * x.chan_in_cnt + i) s)
        * (x.master + (s : α) * ((x.master_targ - x.master) / (x.cntd : α))) =
      ∑ i in Finset.range x.chan_in_cnt,
        ((x.master + (s : α) * ((x.master_targ - x.master) / (x.cntd : α)))
            * x.gains_adjust i
            * (x.gains i + (s : α) * ((x.gains_targ i - x.gains i) / (x.cntd : α))))
          * ins (ch * x.chan_in_cnt + i) s := by
    intro ch
    rw [Finset.sum_mul]
    refine Finset.sum_congr rfl ?_
    intro i _
    ring
  by_cases hsil : x.master = 0 ∧ x.master_targ = 0
  · refine ⟨_, mix_perform64_silence x ins outs n hsil.1 hsil.2, ?_, hlin⟩
    intro ch hch
    simp only [zero_loop_apply, hch, hsn, and_self, if_true, hsil.1, hsil.2, sub_self,
      zero_div, mul_zero, add_zero, zero_mul, Finset.sum_const_zero]
  · rcases Nat.lt_or_ge x.cntd n with hlt | hle
    · refine ⟨_, mix_perform64_ramp_end x hc ins outs n hn hsil hne hlt, ?_, hlin⟩
      intro ch hch
      simp only [hch, hsn, hsc, and_self, if_true]
      exact hsum ch
    · refine ⟨_, mix_perform64_ramp_block x hc hcntd ins outs n hsil hne (by omega) hle
        (Or.inl (by omega)), ?_, hlin⟩
      intro ch hch
      simp only [hch, hsn, and_self, if_true]
      exact hsum ch

/-- C32 on the mixer `ex_unity` after `master 0.5`, in a ramp of 10 samples:
at the sample 5 of a block of 10 samples the first input, 6, is multiplied by
3/4, half-way between 1 and 1/2. -/
theorem effective_gain_in_ramp_witness :
    ∃ r, mix_perform64 (mix_master ex_unity (1 / 2)) ex_ins ex_outs 10 = some r ∧
      r.outs 0 5 = 9 / 2 ∧
      (1 + (5 : ℚ) * ((1 / 2 - 1) / 10)) * 1 * (1 + 5 * ((1 - 1) / 10)) =
        1 * 1 * 1 + 5 * (1 / 2 * 1 * 1 - 1 * 1 * 1) / 10 := by
  obtain ⟨r, hr, ho, hl⟩ := effective_gain_in_ramp (mix_master ex_unity (1 / 2))
    (Or.inl rfl) (by simp [mix_master, ex_unity]) ex_ins ex_outs 10 (by norm_num)
    (by simp [mix_master, ex_unity, CNTD_CONST]) (by simp [mix_master, ex_unity]) 5
    (by simp [mix_master, ex_unity])
  refine ⟨r, hr, ?_, ?_⟩
  · rw [ho 0 (by simp [mix_master, ex_unity])]
    simp [mix_master, ex_unity, ex_ins, Finset.sum_range_succ]
    norm_num
  · have h := hl 0 (Or.inr rfl)
    simpa [mix_master, ex_unity] using h

end Inside

end Mix

/-! ## The two variants of the mixer, and the two audio functions of the second -/

namespace MixIfElse

open Mix

section Variants

/-- The loop over chunks has ended when no sample is left. -/
theorem chunk_loop_done {α : Type}
    (chunk : t_mix α → t_bufs α → t_bufs α → Nat → Nat → Option (t_chunks α))
    (ins : t_bufs α) (fuel : Nat) (st : t_chunks α) (h : st.samp_left = 0) :
    chunk_loop chunk ins fuel st = some st := by
  cases fuel <;> simp [chunk_loop, h]

/-- The function `mix_perform64` of mix~.c on the mixer `ex_ramp4`, whose
master ramps from 1 to 1/2 in 4 samples, for a block of 5 samples: the sample
0 of the first bus is the input 1, the sample 4 is half of the input 5. -/
theorem mix_perform64_ex_ramp4 :
    ∃ r, Mix.mix_perform64 ex_ramp4 ex_ins ex_outs 5 = some r ∧
      r.x.cntd = CNTD_CONST ∧ r.x.master = 1 / 2 ∧
      r.outs 0 0 = 1 ∧ r.outs 0 4 = 5 / 2 ∧ r.outs 1 0 = 3 ∧ r.outs 1 4 = 7 / 2 := by
  refine ⟨_, mix_perform64_ramp_end ex_ramp4 (Or.inr rfl) ex_ins ex_outs 5 (by norm_num)
    (by simp [ex_ramp4]) (by simp [ex_ramp4, CNTD_CONST]) (by simp [ex_ramp4]),
    rfl, rfl, ?_, ?_, ?_, ?_⟩ <;>
  · simp [ex_ramp4, ex_ins, Finset.sum_range_succ]
    try norm_num

set_option maxHeartbeats 1000000 in
/-- The function `mix_perform64` of mix~-if_else.c on the mixer `ex_ramp4`,
for a block of 5 samples: the chunk after the ramp is added to the sample 0
of each bus, and the sample 4 stays 0. -/
theorem if_else_ex_ramp4 (fuel : Nat) :
    (MixIfElse.mix_perform64 (fuel + 2) ex_ramp4 ex_ins ex_outs 5).map
        (fun r => (r.1.cntd, r.1.master, r.2 0 0, r.2 0 4, r.2 1 0, r.2 1 4)) =
      some (CNTD_END, 1 / 2, 7 / 2, 0, 13 / 2, 0) := by
  simp [MixIfElse.mix_perform64, chunk_loop, chunk_loop_done, stereo_chunk,
    mix_countdown_end, for_loop, for_loop_aux, ex_ramp4, ex_ins, ex_outs, buf_set,
    Function.update, u32, CNTD_END]
  norm_num

/-- C34 on the mixer `ex_ramp4` (2 inputs, 2 buses, master ramping from 1 to
1/2 in 4 samples), for a block of 5 samples, which outlasts the ramp: both
variants return, with the same object, and with different outputs. The
function of mix~.c writes the steady sample after the ramp, `1/2 * 5`, at the
index 4 of the first bus; the function of mix~-if_else.c adds it to the
sample 0, which becomes `1 + 5/2`, and leaves the sample 4 at 0. -/
theorem variants_differ_after_ramp (fuel : Nat) :
    ∃ r r', Mix.mix_perform64 ex_ramp4 ex_ins ex_outs 5 = some r ∧
      MixIfElse.mix_perform64 (fuel + 2) ex_ramp4 ex_ins ex_outs 5 = some r' ∧
      r.x.cntd = r'.1.cntd ∧ r.x.master = r'.1.master ∧
      r.outs 0 0 = 1 ∧ r'.2 0 0 = 7 / 2 ∧ r.outs 0 4 = 5 / 2 ∧ r'.2 0 4 = 0 ∧
      r.outs 1 0 = 3 ∧ r'.2 1 0 = 13 / 2 ∧ r.outs 1 4 = 7 / 2 ∧ r'.2 1 4 = 0 := by
  obtain ⟨r, hr, h1, h2, h3, h4, h5, h6⟩ := mix_perform64_ex_ramp4
  have h := if_else_ex_ramp4 fuel
  rw [Option.map_eq_some'] at h
  obtain ⟨r', hr', he⟩ := h
  simp only [Prod.mk.injEq] at he
  obtain ⟨e1, e2, e3, e4, e5, e6⟩ := he
  exact ⟨r, r', hr, hr', by rw [h1, e1]; rfl, by rw [h2, e2], h3, e3, h4, e4, h5, e5, h6, e6⟩

set_option maxHeartbeats 1000000 in
/-- The two variants on the mixer `ex_ramp4` for a block of 4 samples, which
ends with the ramp: the function of mix~.c returns with the countdown at 0,
the function of mix~-if_else.c with the countdown at the sentinel. -/
theorem variants_differ_at_ramp_end (fuel : Nat) :
    ∃ r r', Mix.mix_perform64 ex_ramp4 ex_ins ex_outs 4 = some r ∧
      MixIfElse.mix_perform64 (fuel + 1) ex_ramp4 ex_ins ex_outs 4 = some r' ∧
      r.x.cntd = 0 ∧ r'.1.cntd = CNTD_END ∧ r.x.master = r'.1.master ∧
      ∀ b, b < 2 → ∀ s, s < 4 → r.outs b s = r'.2 b s := by
  have h : (MixIfElse.mix_perform64 (fuel + 1) ex_ramp4 ex_ins ex_outs 4).map
      (fun r => (r.1.cntd, r.1.master,
        (r.2 0 0, r.2 0 1, r.2 0 2, r.2 0 3), (r.2 1 0, r.2 1 1, r.2 1 2, r.2 1 3))) =
      some (CNTD_END, 1 / 2, (1, 7 / 4, 9 / 4, 5 / 2), (3, 7 / 2, 15 / 4, 15 / 4)) := by
    simp [MixIfElse.mix_perform64, chunk_loop, chunk_loop_done, stereo_chunk,
      mix_countdown_end, for_loop, for_loop_aux, ex_ramp4, ex_ins, ex_outs, buf_set,
      Function.update, u32, CNTD_END]
    norm_num
  rw [Option.map_eq_some'] at h
  obtain ⟨r', hr', he⟩ := h
  simp only [Prod.mk.injEq] at he
  obtain ⟨e1, e2, ⟨a0, a1, a2, a3⟩, b0, b1, b2, b3⟩ := he
  refine ⟨_, r', mix_perform64_ramp_block ex_ramp4 (Or.inr rfl) (by simp [ex_ramp4])
    ex_ins ex_outs 4 (by simp [ex_ramp4]) (by simp [ex_ramp4, CNTD_CONST])
    (by simp [ex_ramp4]) (by simp [ex_ramp4]) (Or.inl (by norm_num)), hr', rfl, e1, ?_, ?_⟩
  · rw [e2]
    simp [ex_ramp4]
    norm_num
  · intro b hb s hs
    interval_cases b <;> interval_cases s <;>
      simp [ex_ramp4, ex_ins, Finset.sum_range_succ, a0, a1, a2, a3, b0, b1, b2, b3] <;>
      norm_num

set_option maxHeartbeats 1000000 in
/-- C35 on the mixer `ex_ramp4`, whose master ramps from 1 to 1/2 in 4
samples, for a block of 2 samples: the mono and the stereo function return,
with the same first output buffer and the same countdown, 2; the master gain
the mono function leaves is 7/8, one increment from the master gain at the
start of the block, and the one the stereo function leaves is 3/4, two
increments from it. -/
theorem mono_stereo_differ_in_master (fuel : Nat) :
    ∃ r r', mix_perform64_mono (fuel + 1) ex_ramp4 ex_ins ex_outs 2 = some r ∧
      MixIfElse.mix_perform64 (fuel + 1) ex_ramp4 ex_ins ex_outs 2 = some r' ∧
      r.1.master = 7 / 8 ∧ r'.1.master = 3 / 4 ∧ r.1.cntd = 2 ∧ r'.1.cntd = 2 ∧
      r.2 0 0 = r'.2 0 0 ∧ r.2 0 1 = r'.2 0 1 := by
  have h : (mix_perform64_mono (fuel + 1) ex_ramp4 ex_ins ex_outs 2).map
      (fun r => (r.1.cntd, r.1.master, r.2 0 0, r.2 0 1)) = some (2, 7 / 8, 1, 7 / 4) := by
    simp [mix_perform64_mono, chunk_loop, chunk_loop_done, mono_chunk,
      mix_countdown_end, for_loop, for_loop_aux, ex_ramp4, ex_ins, ex_outs, buf_set,
      Function.update, u32, CNTD_END]
    norm_num
  have h' : (MixIfElse.mix_perform64 (fuel + 1) ex_ramp4 ex_ins ex_outs 2).map
      (fun r => (r.1.cntd, r.1.master, r.2 0 0, r.2 0 1)) = some (2, 3 / 4, 1, 7 / 4) := by
    simp [MixIfElse.mix_perform64, chunk_loop, chunk_loop_done, stereo_chunk,
      mix_countdown_end, for_loop, for_loop_aux, ex_ramp4, ex_ins, ex_outs, buf_set,
      Function.update, u32, CNTD_END]
    norm_num
  rw [Option.map_eq_some'] at h h'
  obtain ⟨r, hr, he⟩ := h
  obtain ⟨r', hr', he'⟩ := h'
  simp only [Prod.mk.injEq] at he he'
  obtain ⟨e1, e2, e3, e4⟩ := he
  obtain ⟨f1, f2, f3, f4⟩ := he'
  exact ⟨r, r', hr, hr', e2, f2, e1, f1, by rw [e3, f3], by rw [e4, f4]⟩

end Variants

end MixIfElse

/-! ## The validity of the dstrings and the empty search string -/

namespace Dstr

section Validity

/-- The function `dstr_replace` with an empty search string, on a dstring
that is not NULL and with an allocator whose next request succeeds: whatever
the replace string, the loop finds the empty string where the search starts
and starts again from there; whatever the number of iterations allowed, it
has not ended. -/
theorem dstr_replace_empty_search (fuel : Nat) (dstr : t_dstr_struct) (replace : List Char)
    (heap : t_heap) (hnn : DSTR_NOT_NULL dstr = true) (hh : (heap 0).isSome = true) :
    dstr_replace fuel dstr [] replace heap = none := by
  obtain ⟨fresh, hfresh⟩ := Option.isSome_iff_exists.mp hh
  have hn := is_null_of_not_null dstr hnn
  unfold dstr_replace
  simp only [strnlen, List.length_nil, Nat.zero_min, Nat.not_lt_zero, if_false]
  by_cases h0 : min replace.length DSTR_LEN_MAX = 0
  · simp only [h0, if_true]
    rw [while_some_never (replace_equal_test (dstr_size dstr) [])
      (replace_equal_body 0 0 replace) (fun st => ⟨st.2, strstr_nil _ _ _⟩)]
  · simp only [h0, if_false]
    have ha : DSTR_IS_NULL (_dstr_alloc_new_cstr dstr
        (min (u32 (dstr.len_cur + 10 * (min replace.length DSTR_LEN_MAX - 0))) DSTR_LEN_MAX)
        heap).1 = false := by
      unfold _dstr_alloc_new_cstr
      simp only [hn, hfresh, Bool.false_eq_true, if_false]
      unfold DSTR_IS_NULL
      simp only [decide_eq_false_iff_not]
      have : min (u32 (dstr.len_cur + 10 * (min replace.length DSTR_LEN_MAX - 0)))
          DSTR_LEN_MAX ≤ DSTR_LEN_MAX := min_le_right _ _
      simp only [DSTR_LEN_MAX, DSTR_LEN_ERR] at this ⊢
      omega
    simp only [ha, Bool.false_eq_true, if_false]
    rw [while_some_never (replace_longer_test dstr.cstr (dstr_size dstr) [])
      (replace_longer_body dstr.cstr 0 (min replace.length DSTR_LEN_MAX) replace)
      (fun st => ⟨st.2, strstr_nil _ _ _⟩)]

/-- C33 on the dstring "abcdef" of `dstr_test`, which is valid: `dstr_replace`
with the empty search string and the replace string "x" yields no dstring,
valid or NULL; the loop over the occurrences of the search string has not
ended, whatever the number of iterations allowed. -/
theorem replace_empty_search_yields_nothing (fuel : Nat) :
    dstr_valid ex_abcdef ∧ dstr_replace fuel ex_abcdef [] ['x'] ex_heap = none :=
  ⟨by decide, dstr_replace_empty_search fuel ex_abcdef ['x'] ex_heap (by decide) rfl⟩

end Validity

end Dstr
